import Mathlib

/-!
# LvArray containers: slices, sorted arrays and arrays of arrays

A shallow embedding of the indexing helpers of `arrayHelpers.hpp`, of
`ArraySlice.hpp`, of the two `SortedArray.hpp` classes and of
`ArrayOfArrays.hpp`, followed by theorems about them.

Integers of the C++ `INDEX_TYPE` are embedded as `Int`: the index type is a
signed integer type, whose overflow is undefined behaviour, so the defined
behaviour of the code is the one computed over the mathematical integers.
In `LvArray.getLinearIndex` and in the methods of `LvArray.ArraySlice` every
index argument has the type `INDEX_TYPE`, which is the type `operator[]`
declares; the functions whose index arguments have a type of their own are
embedded a second time, with the widths of the types, in `LvArray.Typed`.
Pointers into the dimension and stride arrays are embedded as functions from
the position to the value stored there; `p + 1` is the shifted function.
-/

namespace LvArray

/-! ## arrayHelpers.hpp -/

/-- The helper `ConditionalMultiply< B_IS_ONE >::multiply( a, b )` for `a` and
`b` of the type `INDEX_TYPE`: the product `a * b`, or `a` alone in the
specialisation `B_IS_ONE == true`. The function is declared to return the type
`A` of `a`: for an `a` of a narrower type than `b` see
`LvArray.Typed.ConditionalMultiply.multiply`. -/
def ConditionalMultiply.multiply (B_IS_ONE : Bool) (a b : Int) : Int :=
  if B_IS_ONE then a else a * b

/-- Pointer arithmetic `p + 1` on a pointer into an array of integers. -/
def ptrNext (p : Nat → Int) : Nat → Int := fun k => p (k + 1)

/-- The function `getLinearIndex< USD >( strides, index, indices ... )` for
indices of the type `INDEX_TYPE`: the one index overload when `indices` is
empty, the variadic overload otherwise. For indices of another type see
`LvArray.Typed.getLinearIndex`. -/
def getLinearIndex (USD : Int) (strides : Nat → Int) (index : Int) (indices : List Int) : Int :=
  match indices with
  | [] => ConditionalMultiply.multiply (USD == 0) index (strides 0)
  | i :: rest =>
    ConditionalMultiply.multiply (USD == 0) index (strides 0) +
      getLinearIndex (USD - 1) (ptrNext strides) i rest

/-- The loop of `invalidIndices`: `forEachArg` visits the indices in order, with
the running dimension `curDim` and the running flag `invalid`. -/
def invalidIndicesFrom (dims : Nat → Int) (curDim : Nat) (indices : List Int) (invalid : Bool) :
    Bool :=
  match indices with
  | [] => invalid
  | index :: rest =>
    invalidIndicesFrom dims (curDim + 1) rest
      (invalid || decide (index < 0) || decide (index ≥ dims curDim))

/-- The function `invalidIndices( dims, indices ... )`. -/
def invalidIndices (dims : Nat → Int) (indices : List Int) : Bool :=
  invalidIndicesFrom dims 0 indices false

/-! ## ArraySlice.hpp -/

/-- An `ArraySlice< T, NDIM, USD, INDEX_TYPE >`: the two integer template
parameters and the three pointers. `m_data` is the position of the first value
of the slice in the underlying buffer. -/
structure ArraySlice where
  NDIM : Nat
  USD : Int
  m_data : Int
  m_dims : Nat → Int
  m_strides : Nat → Int

/-- The macro `ARRAY_SLICE_CHECK_BOUNDS( index )`: `true` when the program is
aborted, which needs `USE_ARRAY_BOUNDS_CHECK` (the flag `boundsCheck`). -/
def ARRAY_SLICE_CHECK_BOUNDS (boundsCheck : Bool) (m_dims : Nat → Int) (index : Int) : Bool :=
  boundsCheck && (decide (index < 0) || decide (index ≥ m_dims 0))

/-- The overload of `operator[]` enabled for `NDIM > 1`: the slice of rank
`NDIM - 1`. The result is `none` when the overload is disabled or the bounds
check aborts. -/
def ArraySlice.subscript (boundsCheck : Bool) (s : ArraySlice) (index : Int) : Option ArraySlice :=
  if s.NDIM > 1 then
    if ARRAY_SLICE_CHECK_BOUNDS boundsCheck s.m_dims index then none
    else some
      { NDIM := s.NDIM - 1
        USD := s.USD - 1
        m_data := s.m_data + ConditionalMultiply.multiply (s.USD == 0) index (s.m_strides 0)
        m_dims := ptrNext s.m_dims
        m_strides := ptrNext s.m_strides }
  else none

/-- The overload of `operator[]` enabled for `NDIM == 1`: the position of the
value the returned reference names. The result is `none` when the overload is
disabled or the bounds check aborts. -/
def ArraySlice.subscriptValue (boundsCheck : Bool) (s : ArraySlice) (index : Int) : Option Int :=
  if s.NDIM = 1 then
    if ARRAY_SLICE_CHECK_BOUNDS boundsCheck s.m_dims index then none
    else some (s.m_data + ConditionalMultiply.multiply (s.USD == 0) index (s.m_strides 0))
  else none

/-- Chained subscripting `s[index][i1]...[ik]`, down to a value. -/
def ArraySlice.chain (boundsCheck : Bool) (s : ArraySlice) (index : Int) (indices : List Int) :
    Option Int :=
  match indices with
  | [] => s.subscriptValue boundsCheck index
  | i :: rest =>
    match s.subscript boundsCheck index with
    | none => none
    | some t => t.chain boundsCheck i rest

/-- The method `linearIndex( indices ... )` for indices of the type
`INDEX_TYPE`: `none` when the static assertion on the number of indices fails
or `checkIndices` aborts. For indices of another type see
`LvArray.Typed.ArraySlice.linearIndex`. -/
def ArraySlice.linearIndex (boundsCheck : Bool) (s : ArraySlice) (index : Int)
    (indices : List Int) : Option Int :=
  if (index :: indices).length = s.NDIM then
    if boundsCheck && invalidIndices s.m_dims (index :: indices) then none
    else some (getLinearIndex s.USD s.m_strides index indices)
  else none

/-- The method `operator()( indices ... )` for indices of the type
`INDEX_TYPE`: the position of the value `m_data[ linearIndex( indices ... ) ]`. -/
def ArraySlice.call (boundsCheck : Bool) (s : ArraySlice) (index : Int) (indices : List Int) :
    Option Int :=
  if (index :: indices).length = s.NDIM then
    (s.linearIndex boundsCheck index indices).map (fun offset => s.m_data + offset)
  else none

/-- The sum of `f d` over the dimensions `d = start, ..., start + n - 1`. -/
def sumDims (f : Nat → Int) (start : Nat) : Nat → Int
  | 0 => 0
  | n + 1 => f start + sumDims f (start + 1) n

/-- The index tuple as a function of the dimension. -/
def indexAt (index : Int) (indices : List Int) (d : Nat) : Int :=
  (index :: indices).getD d 0

/-- The dot product of the multi-index with the strides, as the spec words it. -/
def dotProduct (strides : Nat → Int) (index : Int) (indices : List Int) : Int :=
  sumDims (fun d => indexAt index indices d * strides d) 0 (indices.length + 1)

/-- The dot product without the term of the dimension `USD`. -/
def dotProductExcept (USD : Int) (strides : Nat → Int) (index : Int) (indices : List Int) : Int :=
  sumDims (fun d => if (d : Int) = USD then 0 else indexAt index indices d * strides d) 0
    (indices.length + 1)

end LvArray

/-! ## The standard library algorithm used by `SortedArray::find` -/

namespace std

/-- The loop of `std::lower_bound( first, last, value )` on a random access
range: `first` and `len` are the start and the length of the range still
searched, `a` holds the values between `begin()` and `end()`. Every iteration
shortens the range, so `fuel = len` iterations are enough. -/
def lower_bound_loop {T : Type} [LinearOrder T] (a : List T) (value : T) :
    Nat → Nat → Nat → Nat
  | 0, first, _ => first
  | fuel + 1, first, len =>
    if 0 < len then
      match a[first + len / 2]? with
      | none => first
      | some middle =>
        if middle < value then lower_bound_loop a value fuel (first + len / 2 + 1) (len - len / 2 - 1)
        else lower_bound_loop a value fuel first (len / 2)
    else first

/-- The algorithm `std::lower_bound( begin(), end(), value )`: the position it
returns, `a.length` standing for `end()`. -/
def lower_bound {T : Type} [LinearOrder T] (a : List T) (value : T) : Nat :=
  lower_bound_loop a value a.length 0 a.length

end std

namespace LvArray

/-! ## One dimensional array editing -/

namespace arrayManipulation

/-- Modelled from the spec: inserting one value into a contiguous array, which
is what `Array::insert( pos, value )` of `Array.hpp` and the single insert of
the sorted set do ("shift the tail right by one slot, placement-construct the
new value"). `Array.hpp` is not among the sources. -/
def insert {T : Type} (values : List T) (pos : Nat) (value : T) : List T :=
  values.take pos ++ value :: values.drop pos

/-- Modelled from the spec: erasing the value at `pos` from a contiguous array,
which is what `Array::erase( pos )` of `Array.hpp` and the single remove of the
sorted set do ("search, shift left, destroy"). -/
def erase {T : Type} (values : List T) (pos : Nat) : List T :=
  values.take pos ++ values.drop (pos + 1)

end arrayManipulation

/-! ## sortedArrayManipulation (modelled) and SortedArray.hpp -/

namespace sortedArrayManipulation

/-- Modelled from the spec: `sortedArrayManipulation::find( ptr, size, value )`,
the "binary-search for insertion point" among the first `size` values at `ptr`.
`sortedArrayManipulation.hpp` is not among the sources. -/
def find {T : Type} [LinearOrder T] (ptr : List T) (size : Nat) (value : T) : Nat :=
  std.lower_bound (ptr.take size) value

/-- Modelled from the spec: `sortedArrayManipulation::insert( ptr, size, value,
callBacks )`: "binary-search for insertion point; if found, no-op, returns
false; else shift the tail right by one slot, placement-construct the new
value, return true". The result is the return value and the values at `ptr`
afterwards; the capacity request to the callback does not touch the values. -/
def insert {T : Type} [LinearOrder T] (ptr : List T) (size : Nat) (value : T) : Bool × List T :=
  let pos := find ptr size value
  if (ptr.take size)[pos]? = some value then (false, ptr)
  else (true, arrayManipulation.insert (ptr.take size) pos value)

/-- Modelled from the spec: `sortedArrayManipulation::remove( ptr, size, value,
callBacks )`, "the structural mirror (search, shift left, destroy)" of the
single insert. -/
def remove {T : Type} [LinearOrder T] (ptr : List T) (size : Nat) (value : T) : Bool × List T :=
  let pos := find ptr size value
  if (ptr.take size)[pos]? = some value then (true, arrayManipulation.erase (ptr.take size) pos)
  else (false, ptr)

/-- Modelled from the spec: the first pass of the bulk insert, "computing the
exact number of genuinely new elements first": one linear pass over the batch
with a second cursor into the existing values, which only moves forward. -/
def countNew {T : Type} [LinearOrder T] : List T → List T → Nat
  | [], _ => 0
  | b :: batch, values =>
    match values.dropWhile (fun x => decide (x < b)) with
    | [] => 1 + countNew batch []
    | x :: rest => if x = b then countNew batch rest else 1 + countNew batch (x :: rest)

/-- Modelled from the spec: the second pass of the bulk insert, which "merges
from the back": both arguments are read from their last value to their first
(so they are passed reversed), and the result is written from its last value
to its first. For every existing value, the batch values above it are placed
first, then the value itself, and a batch value equal to it is skipped. -/
def mergeFromBack {T : Type} [LinearOrder T] : List T → List T → List T
  | [], batch => batch
  | x :: values, batch =>
    batch.takeWhile (fun b => decide (x < b)) ++ x ::
      mergeFromBack values
        (match batch.dropWhile (fun b => decide (x < b)) with
          | [] => []
          | b :: rest => if b = x then rest else b :: rest)

/-- Modelled from the spec: the bulk `sortedArrayManipulation::insert( ptr,
size, first, last, callBacks )`, which "merges the incoming range against the
existing contents in a single linear pass, computing the exact number of
genuinely new elements first so the buffer grows exactly once, then merges
from the back to avoid overlapping shifts; returns count actually inserted". -/
def insertSorted {T : Type} [LinearOrder T] (ptr : List T) (size : Nat) (batch : List T) :
    Nat × List T :=
  (countNew batch (ptr.take size), (mergeFromBack (ptr.take size).reverse batch.reverse).reverse)

/-- Modelled from the spec: the bulk `sortedArrayManipulation::remove( ptr,
size, first, last, callBacks )`, "the structural mirror" of the bulk insert:
one linear pass over the existing values with a cursor into the batch; a value
found in the batch is destroyed and counted, the others are shifted left. The
result is the number of values removed and the values kept. -/
def removeSorted {T : Type} [LinearOrder T] : List T → List T → Nat × List T
  | [], _ => (0, [])
  | x :: values, batch =>
    match batch.dropWhile (fun b => decide (b < x)) with
    | [] => (0, x :: values)
    | b :: rest =>
      if b = x then ((removeSorted values rest).1 + 1, (removeSorted values rest).2)
      else ((removeSorted values (b :: rest)).1, x :: (removeSorted values (b :: rest)).2)

end sortedArrayManipulation

/-- The class `LvArray::SortedArray< T, INDEX_TYPE, BUFFER_TYPE >`: the buffer
`m_values` (the values it holds, in order) and the counter `m_size`. -/
structure SortedArray (T : Type) where
  m_values : List T
  m_size : Nat
  deriving DecidableEq

namespace SortedArray

/-- The default constructor. -/
def empty {T : Type} : SortedArray T := ⟨[], 0⟩

/-- The method `insert( value )`: the return value and the array afterwards. -/
def insert {T : Type} [LinearOrder T] (s : SortedArray T) (value : T) : Bool × SortedArray T :=
  let success := (sortedArrayManipulation.insert s.m_values s.m_size value).1
  (success,
    { m_values := (sortedArrayManipulation.insert s.m_values s.m_size value).2
      m_size := s.m_size + success.toNat })

/-- The method `insert( first, last )`: the return value and the array
afterwards. -/
def insertSorted {T : Type} [LinearOrder T] (s : SortedArray T) (batch : List T) :
    Nat × SortedArray T :=
  let nInserted := (sortedArrayManipulation.insertSorted s.m_values s.m_size batch).1
  (nInserted,
    { m_values := (sortedArrayManipulation.insertSorted s.m_values s.m_size batch).2
      m_size := s.m_size + nInserted })

/-- The method `remove( value )`: the return value and the array afterwards. -/
def remove {T : Type} [LinearOrder T] (s : SortedArray T) (value : T) : Bool × SortedArray T :=
  let success := (sortedArrayManipulation.remove s.m_values s.m_size value).1
  (success,
    { m_values := (sortedArrayManipulation.remove s.m_values s.m_size value).2
      m_size := s.m_size - success.toNat })

/-- The method `remove( first, last )`: the return value and the array
afterwards. -/
def removeSorted {T : Type} [LinearOrder T] (s : SortedArray T) (batch : List T) :
    Nat × SortedArray T :=
  let nRemoved := (sortedArrayManipulation.removeSorted (s.m_values.take s.m_size) batch).1
  (nRemoved,
    { m_values := (sortedArrayManipulation.removeSorted (s.m_values.take s.m_size) batch).2
      m_size := s.m_size - nRemoved })

/-- The invariant of the sorted set: the counter is the number of values and
the values are strictly increasing. -/
def Inv {T : Type} [LinearOrder T] (s : SortedArray T) : Prop :=
  s.m_size = s.m_values.length ∧ s.m_values.Pairwise (fun a b => a < b)

/-- One call on a sorted array. -/
inductive Op (T : Type) where
  | insert (value : T)
  | insertSorted (batch : List T)
  | remove (value : T)
  | removeSorted (batch : List T)

/-- The bulk ranges are "sorted and unique", as the notes of the bulk methods
require. -/
def Op.Valid {T : Type} [LinearOrder T] : Op T → Prop
  | .insert _ => True
  | .insertSorted batch => batch.Pairwise (fun a b => a < b)
  | .remove _ => True
  | .removeSorted batch => batch.Pairwise (fun a b => a < b)

/-- The array after one call. -/
def step {T : Type} [LinearOrder T] (s : SortedArray T) : Op T → SortedArray T
  | .insert value => (s.insert value).2
  | .insertSorted batch => (s.insertSorted batch).2
  | .remove value => (s.remove value).2
  | .removeSorted batch => (s.removeSorted batch).2

/-- The array after a sequence of calls. -/
def run {T : Type} [LinearOrder T] (s : SortedArray T) (ops : List (Op T)) : SortedArray T :=
  ops.foldl step s

end SortedArray

end LvArray

/-! ## src/SortedArray.hpp, the class built on `std::lower_bound` -/

/-- The class `SortedArray< T, INDEX_TYPE >` outside the namespace `LvArray`:
its one member `m_data`, a one dimensional `LvArray::Array`. -/
structure SortedArray (T : Type) where
  m_data : List T
  deriving DecidableEq

namespace SortedArray

/-- The default constructor. -/
def empty {T : Type} : SortedArray T := ⟨[]⟩

/-- The method `size()`. -/
def size {T : Type} (s : SortedArray T) : Nat := s.m_data.length

/-- The method `find( value )`: a position, `size()` standing for `end()`. -/
def find {T : Type} [LinearOrder T] (s : SortedArray T) (value : T) : Nat :=
  std.lower_bound s.m_data value

/-- The method `insert( value )`: the return value and the array afterwards. -/
def insert {T : Type} [LinearOrder T] (s : SortedArray T) (value : T) : Bool × SortedArray T :=
  let it := s.find value
  if it ≠ s.size ∧ s.m_data[it]? = some value then (false, s)
  else (true, ⟨LvArray.arrayManipulation.insert s.m_data it value⟩)

/-- The method `insert( first, last )`: the loop over the range. -/
def insertRange {T : Type} [LinearOrder T] (s : SortedArray T) : List T → SortedArray T
  | [] => s
  | value :: rest => insertRange (s.insert value).2 rest

/-- The method `erase( iterator pos )`. -/
def erasePos {T : Type} (s : SortedArray T) (pos : Nat) : SortedArray T :=
  if pos = s.size then s else ⟨LvArray.arrayManipulation.erase s.m_data pos⟩

/-- The method `erase( const T& value )`. -/
def erase {T : Type} [LinearOrder T] (s : SortedArray T) (value : T) : SortedArray T :=
  s.erasePos (s.find value)

/-- The method `isSorted()` strengthened to the invariant of the spec: the
values are strictly increasing. -/
def Inv {T : Type} [LinearOrder T] (s : SortedArray T) : Prop :=
  s.m_data.Pairwise (fun a b => a < b)

/-- One call on a sorted array. -/
inductive Op (T : Type) where
  | insert (value : T)
  | insertRange (batch : List T)
  | erase (value : T)

/-- The array after one call. -/
def step {T : Type} [LinearOrder T] (s : SortedArray T) : Op T → SortedArray T
  | .insert value => (s.insert value).2
  | .insertRange batch => s.insertRange batch
  | .erase value => s.erase value

/-- The array after a sequence of calls. -/
def run {T : Type} [LinearOrder T] (s : SortedArray T) (ops : List (Op T)) : SortedArray T :=
  ops.foldl step s

end SortedArray

namespace LvArray

/-! ## ArrayOfArrays.hpp

The three buffers of an array of arrays are embedded as functions from the
position to the value stored there, positions being integers of the C++
`INDEX_TYPE`; a slot of the values buffer that holds no constructed value is
`none`. -/

namespace bufferManipulation

/-- Modelled from the spec: `bufferManipulation::emplaceBack( buf, size, value )`
constructs `value` in the slot after the `size` values of the buffer.
`bufferManipulation.hpp` is not among the sources. -/
def emplaceBack {α : Type} (buf : Int → α) (size : Int) (value : α) : Int → α :=
  fun k => if k = size then value else buf k

/-- Modelled from the spec: `bufferManipulation::emplace( buf, size, pos, value )`
shifts the values at `pos, ..., size - 1` up by one slot and constructs `value`
at `pos` ("shifts all rows >= i"). -/
def emplace {α : Type} (buf : Int → α) (size pos : Int) (value : α) : Int → α :=
  fun k => if k = pos then value else if pos < k ∧ k ≤ size then buf (k - 1) else buf k

/-- Modelled from the spec: `bufferManipulation::erase( buf, size, pos )` shifts
the values at `pos + 1, ..., size - 1` down by one slot ("removes its
offset/size slots"). -/
def erase {α : Type} (buf : Int → α) (size pos : Int) : Int → α :=
  fun k => if pos ≤ k ∧ k < size - 1 then buf (k + 1) else buf k

end bufferManipulation

/-- Modelled from the spec: `arrayManipulation::resize( values, prevSize,
newSize, args ... )` on the array that starts at position `base` of the
buffer: it "grows/shrinks using placement construction/destruction of the delta
elements only (elements in the overlapping prefix are untouched)"; `init` is
the value `T( args ... )`. -/
def arrayManipulation.resize {T : Type} (buf : Int → Option T) (base prevSize newSize : Int)
    (init : T) : Int → Option T :=
  fun p =>
    if prevSize ≤ p - base ∧ p - base < newSize then some init
    else if newSize ≤ p - base ∧ p - base < prevSize then none
    else buf p

/-- The members of `ArrayOfArrays< T, INDEX_TYPE, BUFFER_TYPE >`, which it
inherits from `ArrayOfArraysView`: the number of arrays and the three
buffers. -/
structure ArrayOfArrays (T : Type) where
  m_numArrays : Int
  m_offsets : Int → Int
  m_sizes : Int → Int
  m_values : Int → Option T

namespace ArrayOfArraysView

/-- Modelled from the spec: `sizeOfArray( i )`, the entry `sizes[ i ]`.
`ArrayOfArraysView.hpp` is not among the sources. -/
def sizeOfArray {T : Type} (s : ArrayOfArrays T) (i : Int) : Int := s.m_sizes i

/-- Modelled from the spec: `capacityOfArray( i )`, the gap
`offsets[ i + 1 ] - offsets[ i ]` between the start of a row and the start of
the next one. -/
def capacityOfArray {T : Type} (s : ArrayOfArrays T) (i : Int) : Int :=
  s.m_offsets (i + 1) - s.m_offsets i

/-- Modelled from the spec: `operator()( i, j )`, the slot `j` of row `i`, at
position `offsets[ i ] + j` of the values buffer. -/
def value {T : Type} (s : ArrayOfArrays T) (i j : Int) : Option T :=
  s.m_values (s.m_offsets i + j)

/-- Modelled from the spec: `setCapacityOfArray( i, newCapacity )`. Growing a
row "requires shifting every subsequent row's values to open a larger gap" and
moves the offsets of the subsequent rows by the increase; shrinking shifts
them down, and shrinking below the size of the row destroys the excess
trailing values of the row. -/
def setCapacityOfArray {T : Type} (s : ArrayOfArrays T) (i newCapacity : Int) : ArrayOfArrays T :=
  let capacityIncrease := newCapacity - capacityOfArray s i
  if capacityIncrease = 0 then s
  else
    { m_numArrays := s.m_numArrays
      m_offsets := fun array =>
        if i + 1 ≤ array ∧ array < s.m_numArrays + 1 then s.m_offsets array + capacityIncrease
        else s.m_offsets array
      m_sizes := fun array =>
        if array = i ∧ newCapacity < s.m_sizes i then newCapacity else s.m_sizes array
      m_values := fun p =>
        if p < s.m_offsets (i + 1) ∧ p < s.m_offsets i + newCapacity then s.m_values p
        else if p < s.m_offsets i + newCapacity then none
        else s.m_values (p - capacityIncrease) }

/-- Modelled from the spec: the `emplaceBack( i, args ... )` of the view, which
constructs the value after the last value of row `i` and increments
`sizes[ i ]`; the capacity is a precondition. -/
def emplaceBack {T : Type} (s : ArrayOfArrays T) (i : Int) (v : T) : ArrayOfArrays T :=
  { s with
    m_values := fun p => if p = s.m_offsets i + s.m_sizes i then some v else s.m_values p
    m_sizes := fun array => if array = i then s.m_sizes i + 1 else s.m_sizes array }

/-- Modelled from the spec: the `appendToArray( i, first, last )` of the view,
which constructs the values of the range after the last value of row `i` and
adds their number to `sizes[ i ]`; the capacity is a precondition. -/
def appendToArray {T : Type} (s : ArrayOfArrays T) (i : Int) (range : List T) :
    ArrayOfArrays T :=
  { s with
    m_values := fun p =>
      if s.m_offsets i + s.m_sizes i ≤ p ∧ p < s.m_offsets i + s.m_sizes i + range.length then
        range[(p - (s.m_offsets i + s.m_sizes i)).toNat]?
      else s.m_values p
    m_sizes := fun array => if array = i then s.m_sizes i + range.length else s.m_sizes array }

/-- Modelled from the spec: one step of `compress()`, which shifts the values
of row `i + 1` down to the end of the values of row `i` and moves
`offsets[ i + 1 ]` there. -/
def compressStep {T : Type} (s : ArrayOfArrays T) (i : Int) : ArrayOfArrays T :=
  let shiftAmount := s.m_offsets (i + 1) - s.m_offsets i - s.m_sizes i
  { s with
    m_values := fun p =>
      if s.m_offsets (i + 1) - shiftAmount ≤ p ∧
          p < s.m_offsets (i + 1) - shiftAmount + s.m_sizes (i + 1) then
        s.m_values (p + shiftAmount)
      else s.m_values p
    m_offsets := fun array =>
      if array = i + 1 then s.m_offsets (i + 1) - shiftAmount else s.m_offsets array }

/-- Modelled from the spec: the loop of `compress()` over the rows
`i, ..., i + count - 1`. -/
def compressLoop {T : Type} : Nat → Int → ArrayOfArrays T → ArrayOfArrays T
  | 0, _, s => s
  | count + 1, i, s => compressLoop count (i + 1) (compressStep s i)

/-- Modelled from the spec: `compress()`, a "single pass eliminating all
inter-row slack", which tightens the offsets to the cumulative sizes and
"leaves `sizes[i] == offsets[i+1]-offsets[i]` for all but possibly the last
row": the last offset, the end of the buffer in use, stays ("this method
doesn't free any memory"). -/
def compress {T : Type} (s : ArrayOfArrays T) : ArrayOfArrays T :=
  compressLoop (s.m_numArrays - 1).toNat 0 s

/-- Modelled from the spec: `resize( numSubArrays, defaultArrayCapacity )` on
the empty view of the constructor: `numSubArrays` empty rows of capacity
`defaultArrayCapacity` each. -/
def resize {T : Type} (numSubArrays defaultArrayCapacity : Int) : ArrayOfArrays T :=
  { m_numArrays := numSubArrays
    m_offsets := fun array =>
      if 0 ≤ array ∧ array ≤ numSubArrays then array * defaultArrayCapacity else 0
    m_sizes := fun _ => 0
    m_values := fun _ => none }

end ArrayOfArraysView

namespace ArrayOfArrays

/-- The constructor `ArrayOfArrays( numArrays, defaultArrayCapacity )`. -/
def new {T : Type} (numArrays defaultArrayCapacity : Int) : ArrayOfArrays T :=
  ArrayOfArraysView.resize numArrays defaultArrayCapacity

/-- The method `size()`. -/
def size {T : Type} (s : ArrayOfArrays T) : Int := s.m_numArrays

/-- The method `setCapacityOfArray( i, newCapacity )`. -/
def setCapacityOfArray {T : Type} (s : ArrayOfArrays T) (i newCapacity : Int) : ArrayOfArrays T :=
  ArrayOfArraysView.setCapacityOfArray s i newCapacity

/-- The private method `dynamicallyGrowArray( i, increase )`. -/
def dynamicallyGrowArray {T : Type} (s : ArrayOfArrays T) (i increase : Int) : ArrayOfArrays T :=
  let newArraySize := ArrayOfArraysView.sizeOfArray s i + increase
  if newArraySize > ArrayOfArraysView.capacityOfArray s i then
    s.setCapacityOfArray i (2 * newArraySize)
  else s

/-- The method `resizeArray( i, newSize, args ... )`, `init` being the value
`T( args ... )`. -/
def resizeArray {T : Type} (s : ArrayOfArrays T) (i newSize : Int) (init : T) : ArrayOfArrays T :=
  let s1 :=
    if newSize > ArrayOfArraysView.capacityOfArray s i then s.setCapacityOfArray i newSize else s
  let prevSize := ArrayOfArraysView.sizeOfArray s1 i
  { s1 with
    m_values := arrayManipulation.resize s1.m_values (s1.m_offsets i) prevSize newSize init
    m_sizes := fun array => if array = i then newSize else s1.m_sizes array }

/-- The method `appendArray( n )`; the new values are value initialised. -/
def appendArray {T : Type} [Inhabited T] (s : ArrayOfArrays T) (n : Int) : ArrayOfArrays T :=
  let maxOffset := s.m_offsets s.m_numArrays
  let s1 : ArrayOfArrays T :=
    { m_numArrays := s.m_numArrays + 1
      m_offsets := bufferManipulation.emplaceBack s.m_offsets (s.m_numArrays + 1) maxOffset
      m_sizes := bufferManipulation.emplaceBack s.m_sizes s.m_numArrays 0
      m_values := s.m_values }
  s1.resizeArray (s1.m_numArrays - 1) n default

/-- The method `emplaceBack( i, args ... )`, `v` being the value
`T( args ... )`. -/
def emplaceBack {T : Type} (s : ArrayOfArrays T) (i : Int) (v : T) : ArrayOfArrays T :=
  ArrayOfArraysView.emplaceBack (s.dynamicallyGrowArray i 1) i v

/-- The method `appendToArray( i, first, last )`. -/
def appendToArray {T : Type} (s : ArrayOfArrays T) (i : Int) (range : List T) : ArrayOfArrays T :=
  let n : Int := range.length
  ArrayOfArraysView.appendToArray (s.dynamicallyGrowArray i n) i range

/-- The method `appendArray( first, last )`. -/
def appendArrayRange {T : Type} (s : ArrayOfArrays T) (range : List T) : ArrayOfArrays T :=
  let maxOffset := s.m_offsets s.m_numArrays
  let s1 : ArrayOfArrays T :=
    { m_numArrays := s.m_numArrays + 1
      m_offsets := bufferManipulation.emplaceBack s.m_offsets (s.m_numArrays + 1) maxOffset
      m_sizes := bufferManipulation.emplaceBack s.m_sizes s.m_numArrays 0
      m_values := s.m_values }
  s1.appendToArray (s1.m_numArrays - 1) range

/-- The method `insertArray( i, first, last )`. -/
def insertArray {T : Type} (s : ArrayOfArrays T) (i : Int) (range : List T) : ArrayOfArrays T :=
  let offset := s.m_offsets i
  let s1 : ArrayOfArrays T :=
    { m_numArrays := s.m_numArrays + 1
      m_offsets := bufferManipulation.emplace s.m_offsets (s.m_numArrays + 1) (i + 1) offset
      m_sizes := bufferManipulation.emplace s.m_sizes s.m_numArrays i 0
      m_values := s.m_values }
  s1.appendToArray i range

/-- The method `eraseArray( i )`. -/
def eraseArray {T : Type} (s : ArrayOfArrays T) (i : Int) : ArrayOfArrays T :=
  let s1 := s.setCapacityOfArray i 0
  { m_numArrays := s1.m_numArrays - 1
    m_offsets := bufferManipulation.erase s1.m_offsets (s1.m_numArrays + 1) (i + 1)
    m_sizes := bufferManipulation.erase s1.m_sizes s1.m_numArrays i
    m_values := s1.m_values }

/-- The method `compress()`. -/
def compress {T : Type} (s : ArrayOfArrays T) : ArrayOfArrays T :=
  ArrayOfArraysView.compress s

/-- The invariant of the spec: `offsets[ 0 ] == 0`, and for every row the
offsets do not decrease and the size is between zero and the capacity. -/
def Inv {T : Type} (s : ArrayOfArrays T) : Prop :=
  0 ≤ s.m_numArrays ∧ s.m_offsets 0 = 0 ∧
    ∀ i : Int, 0 ≤ i → i < s.m_numArrays →
      s.m_offsets i ≤ s.m_offsets (i + 1) ∧ 0 ≤ s.m_sizes i ∧
        s.m_sizes i ≤ s.m_offsets (i + 1) - s.m_offsets i

/-- One call on an array of arrays. -/
inductive Op (T : Type) where
  | appendArray (n : Int)
  | appendArrayRange (range : List T)
  | insertArray (i : Int) (range : List T)
  | eraseArray (i : Int)
  | resizeArray (i newSize : Int) (init : T)
  | emplaceBack (i : Int) (v : T)
  | appendToArray (i : Int) (range : List T)
  | compress

/-- The arguments of the call are valid: what `ARRAYOFARRAYS_CHECK_BOUNDS`,
`ARRAYOFARRAYS_CHECK_INSERT_BOUNDS` and the `isPositive` assertions check. -/
def Op.Valid {T : Type} (s : ArrayOfArrays T) : Op T → Prop
  | .appendArray n => 0 ≤ n
  | .appendArrayRange _ => True
  | .insertArray i _ => 0 ≤ i ∧ i ≤ s.m_numArrays
  | .eraseArray i => 0 ≤ i ∧ i < s.m_numArrays
  | .resizeArray i newSize _ => 0 ≤ i ∧ i < s.m_numArrays ∧ 0 ≤ newSize
  | .emplaceBack i _ => 0 ≤ i ∧ i < s.m_numArrays
  | .appendToArray i _ => 0 ≤ i ∧ i < s.m_numArrays
  | .compress => True

/-- Validity of a call is decidable. -/
instance Op.decidableValid {T : Type} (s : ArrayOfArrays T) (op : Op T) : Decidable (op.Valid s) := by
  cases op <;> unfold Op.Valid <;> infer_instance

/-- The array of arrays after one call. -/
def step {T : Type} [Inhabited T] (s : ArrayOfArrays T) : Op T → ArrayOfArrays T
  | .appendArray n => s.appendArray n
  | .appendArrayRange range => s.appendArrayRange range
  | .insertArray i range => s.insertArray i range
  | .eraseArray i => s.eraseArray i
  | .resizeArray i newSize init => s.resizeArray i newSize init
  | .emplaceBack i v => s.emplaceBack i v
  | .appendToArray i range => s.appendToArray i range
  | .compress => s.compress

/-- The array of arrays after a sequence of calls. -/
def run {T : Type} [Inhabited T] (s : ArrayOfArrays T) (ops : List (Op T)) : ArrayOfArrays T :=
  ops.foldl step s

/-- Every call of the sequence has valid arguments when it is made. -/
def ValidRun {T : Type} [Inhabited T] (s : ArrayOfArrays T) : List (Op T) → Prop
  | [] => True
  | op :: ops => op.Valid s ∧ ValidRun (s.step op) ops

/-- Validity of a sequence of calls is decidable. -/
instance ValidRun.decidable {T : Type} [Inhabited T] (ops : List (Op T)) :
    ∀ s : ArrayOfArrays T, Decidable (s.ValidRun ops) := by
  induction ops with
  | nil => intro s; unfold ValidRun; infer_instance
  | cons op ops ih => intro s; unfold ValidRun; exact @instDecidableAnd _ _ _ (ih _)

end ArrayOfArrays

end LvArray

namespace LvArray

/-! ## ArrayOfArrays.hpp: inserting into a row, clearing a row -/

/-- Modelled from the spec: the `emplace( i, j, args ... )` of the view, which
inserts one value at position `j` of row `i`: the values of the row from `j` on
move up by one slot and `sizes[ i ]` is incremented; the capacity is a
precondition. -/
def ArrayOfArraysView.emplace {T : Type} (s : ArrayOfArrays T) (i j : Int) (v : T) :
    ArrayOfArrays T :=
  { s with
    m_values := fun p =>
      if p = s.m_offsets i + j then some v
      else if s.m_offsets i + j < p ∧ p ≤ s.m_offsets i + s.m_sizes i then s.m_values (p - 1)
      else s.m_values p
    m_sizes := fun array => if array = i then s.m_sizes i + 1 else s.m_sizes array }

/-- Modelled from the spec: the `insertIntoArray( i, j, first, last )` of the
view, which inserts the values of the range at position `j` of row `i`: the
values of the row from `j` on move up by the length of the range, which is
added to `sizes[ i ]`; the capacity is a precondition. -/
def ArrayOfArraysView.insertIntoArray {T : Type} (s : ArrayOfArrays T) (i j : Int)
    (range : List T) : ArrayOfArrays T :=
  { s with
    m_values := fun p =>
      if s.m_offsets i + j ≤ p ∧ p < s.m_offsets i + j + range.length then
        range[(p - (s.m_offsets i + j)).toNat]?
      else if s.m_offsets i + j + range.length ≤ p ∧
          p < s.m_offsets i + s.m_sizes i + range.length then
        s.m_values (p - range.length)
      else s.m_values p
    m_sizes := fun array => if array = i then s.m_sizes i + range.length else s.m_sizes array }

/-- The method `emplace( i, j, args ... )`, `v` being the value `T( args ... )`. -/
def ArrayOfArrays.emplace {T : Type} (s : ArrayOfArrays T) (i j : Int) (v : T) :
    ArrayOfArrays T :=
  ArrayOfArraysView.emplace (s.dynamicallyGrowArray i 1) i j v

/-- The method `insertIntoArray( i, j, first, last )`. -/
def ArrayOfArrays.insertIntoArray {T : Type} (s : ArrayOfArrays T) (i j : Int)
    (range : List T) : ArrayOfArrays T :=
  let n : Int := range.length
  ArrayOfArraysView.insertIntoArray (s.dynamicallyGrowArray i n) i j range

/-- The method `clearArray( i )`: `resizeArray( i, 0 )`, without arguments. -/
def ArrayOfArrays.clearArray {T : Type} [Inhabited T] (s : ArrayOfArrays T) (i : Int) :
    ArrayOfArrays T :=
  s.resizeArray i 0 default

end LvArray

namespace LvArray

/-- Row `j'` of `s'` has the size and the values of row `j` of `s`. -/
def ArrayOfArrays.SameRow {T : Type} (s' : ArrayOfArrays T) (j' : Int) (s : ArrayOfArrays T)
    (j : Int) : Prop :=
  ArrayOfArraysView.sizeOfArray s' j' = ArrayOfArraysView.sizeOfArray s j ∧
    ∀ k : Int, 0 ≤ k → k < ArrayOfArraysView.sizeOfArray s j →
      ArrayOfArraysView.value s' j' k = ArrayOfArraysView.value s j k

/-- Row `i` of `s` holds exactly the values of `range`, in order. -/
def ArrayOfArrays.HoldsRow {T : Type} (s : ArrayOfArrays T) (i : Int) (range : List T) : Prop :=
  ArrayOfArraysView.sizeOfArray s i = range.length ∧
    ∀ k : Nat, k < range.length → ArrayOfArraysView.value s i k = range[k]?

end LvArray

namespace LvArray

/-- The sum of the sizes of the rows before row `k`. -/
def ArrayOfArrays.sumSizes {T : Type} (s : ArrayOfArrays T) : Nat → Int
  | 0 => 0
  | k + 1 => sumSizes s k + s.m_sizes k

end LvArray

namespace LvArray

/-! ## SparsityPattern (modelled)

`SparsityPattern.hpp` is not among the sources: only its tests are. A fatal
error is the result `none`. -/

/-- Modelled from the spec: the class `SparsityPattern`, "an array-of-arrays
whose per-row payload is itself a sorted set of column indices in
`[0, numColumns)`": the number of columns and the array of arrays of the
columns. `SparsityPattern.hpp` is not among the sources. -/
structure SparsityPattern where
  m_numCols : Int
  m_columns : ArrayOfArrays Int

namespace SparsityPattern

/-- Modelled from the spec: `numRows()`, the number of rows of the array of
arrays. -/
def numRows (sp : SparsityPattern) : Int := sp.m_columns.m_numArrays

/-- Modelled from the spec: `numColumns()`, the bound of the column indices. -/
def numColumns (sp : SparsityPattern) : Int := sp.m_numCols

/-- Modelled from the spec: `numNonZeros( row )`, the size of the row. -/
def numNonZeros (sp : SparsityPattern) (row : Int) : Int :=
  ArrayOfArraysView.sizeOfArray sp.m_columns row

/-- Modelled from the spec: `nonZeroCapacity( row )`, the capacity of the row. -/
def nonZeroCapacity (sp : SparsityPattern) (row : Int) : Int :=
  ArrayOfArraysView.capacityOfArray sp.m_columns row

/-- Modelled from the spec: `getColumns( row )`, the columns stored in the row,
in the order of the buffer. -/
def getColumns (sp : SparsityPattern) (row : Int) : List Int :=
  (List.range (sp.numNonZeros row).toNat).map
    (fun k : Nat => (ArrayOfArraysView.value sp.m_columns row (k : Int)).getD 0)

/-- Modelled from the spec: the write back of a row after a sorted-set edit:
the values of `cols` are stored from the start of the row, the slots of the
row after them are destroyed, and the size of the row becomes the length of
`cols`; the capacity is a precondition. -/
def storeRow (a : ArrayOfArrays Int) (row : Int) (cols : List Int) : ArrayOfArrays Int :=
  { a with
    m_values := fun p =>
      if a.m_offsets row ≤ p ∧ p < a.m_offsets row + max (a.m_sizes row) cols.length then
        cols[(p - a.m_offsets row).toNat]?
      else a.m_values p
    m_sizes := fun array => if array = row then cols.length else a.m_sizes array }

/-- Modelled from the spec: the constructor `SparsityPattern( nRows, nCols,
initialRowCapacity )`: `nRows` empty rows. -/
def new (nRows nCols initialRowCapacity : Int) : SparsityPattern :=
  { m_numCols := nCols
    m_columns := ArrayOfArraysView.resize nRows initialRowCapacity }

/-- Modelled from the spec: `setRowCapacity( row, newCapacity )`: "shrinking
below current nonzero count evicts the excess trailing (highest-valued)
columns; growing reallocates/shifts as in 4.6"; and, as `rowCapacityTest`
expects, a capacity above `numColumns()` is cut down to `numColumns()`. -/
def setRowCapacity (sp : SparsityPattern) (row newCapacity : Int) : SparsityPattern :=
  { sp with
    m_columns := ArrayOfArraysView.setCapacityOfArray sp.m_columns row
      (if newCapacity > sp.numColumns then sp.numColumns else newCapacity) }

/-- Modelled from the spec: `appendRow( nzCapacity )`, which appends an empty
row of the given capacity (the test `appendRow` expects the capacity asked
for). -/
def appendRow (sp : SparsityPattern) (nzCapacity : Int) : SparsityPattern :=
  let a := sp.m_columns
  let a1 : ArrayOfArrays Int :=
    { m_numArrays := a.m_numArrays + 1
      m_offsets := bufferManipulation.emplaceBack a.m_offsets (a.m_numArrays + 1)
        (a.m_offsets a.m_numArrays)
      m_sizes := bufferManipulation.emplaceBack a.m_sizes a.m_numArrays 0
      m_values := a.m_values }
  setRowCapacity { sp with m_columns := a1 } a.m_numArrays nzCapacity

/-- Modelled from the spec: `insertNonZero( row, col )`: "`numColumns` bounds
all column indices (violating it is a fatal error)", and the row is edited with
the sorted-set `insert`, "requesting row-capacity expansion from the parent"
when one more column does not fit. The result is the return value and the
pattern afterwards. -/
def insertNonZero (sp : SparsityPattern) (row col : Int) : Option (Bool × SparsityPattern) :=
  if col < 0 ∨ sp.numColumns ≤ col then none
  else
    let cols := sp.getColumns row
    let r := sortedArrayManipulation.insert cols cols.length col
    if r.1 then
      some (true, { sp with m_columns := storeRow (sp.m_columns.dynamicallyGrowArray row 1) row r.2 })
    else some (false, sp)

/-- Modelled from the spec: `insertNonZeros( row, first, last )`, the bulk
variant of `insertNonZero`: every column of the range is checked against
`numColumns`, and the row is edited with the bulk sorted-set `insert`. -/
def insertNonZeros (sp : SparsityPattern) (row : Int) (batch : List Int) :
    Option (Nat × SparsityPattern) :=
  if batch.any (fun col => decide (col < 0 ∨ sp.numColumns ≤ col)) then none
  else
    let cols := sp.getColumns row
    let r := sortedArrayManipulation.insertSorted cols cols.length batch
    some (r.1, { sp with m_columns := storeRow (sp.m_columns.dynamicallyGrowArray row r.1) row r.2 })

/-- Modelled from the spec: `removeNonZero( row, col )`, the row edited with
the sorted-set `remove`. -/
def removeNonZero (sp : SparsityPattern) (row col : Int) : Bool × SparsityPattern :=
  let cols := sp.getColumns row
  let r := sortedArrayManipulation.remove cols cols.length col
  (r.1, if r.1 then { sp with m_columns := storeRow sp.m_columns row r.2 } else sp)

/-- Modelled from the spec: `removeNonZeros( row, first, last )`, the row
edited with the bulk sorted-set `remove`. -/
def removeNonZeros (sp : SparsityPattern) (row : Int) (batch : List Int) : Nat × SparsityPattern :=
  let cols := sp.getColumns row
  let r := sortedArrayManipulation.removeSorted cols batch
  (r.1, { sp with m_columns := storeRow sp.m_columns row r.2 })

/-- Modelled from the spec: `compress()`, the `compress()` of the array of
arrays of the columns. -/
def compress (sp : SparsityPattern) : SparsityPattern :=
  { sp with m_columns := ArrayOfArraysView.compress sp.m_columns }

/-- The data model of the spec: the array of arrays satisfies its invariant and
every row holds a strictly increasing list of columns of `[0, numColumns)`. -/
def WellFormed (sp : SparsityPattern) : Prop :=
  0 ≤ sp.m_numCols ∧ sp.m_columns.Inv ∧
    ∀ row : Int, 0 ≤ row → row < sp.numRows →
      ∃ cols : List Int, sp.m_columns.HoldsRow row cols ∧ cols.Pairwise (fun a b => a < b) ∧
        ∀ c ∈ cols, 0 ≤ c ∧ c < sp.m_numCols

/-- One call on a sparsity pattern. -/
inductive Op where
  | insertNonZero (row col : Int)
  | insertNonZeros (row : Int) (batch : List Int)
  | removeNonZero (row col : Int)
  | removeNonZeros (row : Int) (batch : List Int)
  | setRowCapacity (row newCapacity : Int)
  | appendRow (nzCapacity : Int)
  | compress

/-- The preconditions of the call other than the bound on the columns: the row
exists, a capacity is not negative and a range is sorted and unique. -/
def Op.Valid (sp : SparsityPattern) : Op → Prop
  | .insertNonZero row _ => 0 ≤ row ∧ row < sp.numRows
  | .insertNonZeros row batch =>
    0 ≤ row ∧ row < sp.numRows ∧ batch.Pairwise (fun a b => a < b)
  | .removeNonZero row _ => 0 ≤ row ∧ row < sp.numRows
  | .removeNonZeros row batch =>
    0 ≤ row ∧ row < sp.numRows ∧ batch.Pairwise (fun a b => a < b)
  | .setRowCapacity row newCapacity => 0 ≤ row ∧ row < sp.numRows ∧ 0 ≤ newCapacity
  | .appendRow nzCapacity => 0 ≤ nzCapacity
  | .compress => True

/-- The pattern after one call, `none` when the call is a fatal error. -/
def step (sp : SparsityPattern) : Op → Option SparsityPattern
  | .insertNonZero row col => (sp.insertNonZero row col).map (fun r => r.2)
  | .insertNonZeros row batch => (sp.insertNonZeros row batch).map (fun r => r.2)
  | .removeNonZero row col => some (sp.removeNonZero row col).2
  | .removeNonZeros row batch => some (sp.removeNonZeros row batch).2
  | .setRowCapacity row newCapacity => some (sp.setRowCapacity row newCapacity)
  | .appendRow nzCapacity => some (sp.appendRow nzCapacity)
  | .compress => some sp.compress

/-- The patterns reachable from a constructor through calls that meet their
preconditions and do not end in a fatal error. -/
inductive Reachable : SparsityPattern → Prop where
  | new (nRows nCols initialRowCapacity : Int) (hr : 0 ≤ nRows) (hc : 0 ≤ nCols)
      (hi : 0 ≤ initialRowCapacity) : Reachable (SparsityPattern.new nRows nCols initialRowCapacity)
  | step (sp sp' : SparsityPattern) (op : Op) (h : Reachable sp) (hv : op.Valid sp)
      (hs : sp.step op = some sp') : Reachable sp'

end SparsityPattern

end LvArray

namespace LvArray

/-! ## Contiguity of a slice -/

/-- The inner loop of `isContiguous()`: `for( int j = 0; j < NDIM; ++j )
{ if( j != i ) prod *= m_dims[j]; }`, with `n` iterations left. -/
def ArraySlice.isContiguousProd (m_dims : Nat → Int) (i : Nat) : Nat → Nat → Int → Int
  | 0, _, prod => prod
  | n + 1, j, prod =>
    ArraySlice.isContiguousProd m_dims i n (j + 1) (if j ≠ i then prod * m_dims j else prod)

/-- The outer loop of `isContiguous()`: `for( int i = 0; i < NDIM; ++i )`, with
`n` iterations left and the running value `rval`. -/
def ArraySlice.isContiguousLoop (s : ArraySlice) : Nat → Nat → Bool → Bool
  | 0, _, rval => rval
  | n + 1, i, rval =>
    if (i : Int) = s.USD then ArraySlice.isContiguousLoop s n (i + 1) rval
    else
      ArraySlice.isContiguousLoop s n (i + 1)
        (rval && decide (s.m_strides i ≤ ArraySlice.isContiguousProd s.m_dims i s.NDIM 0 1))

/-- The method `isContiguous()`: the overload enabled for `USD >= 0`, and the
overload enabled for `USD < 0`, which returns `false`. -/
def ArraySlice.isContiguous (s : ArraySlice) : Bool :=
  if s.USD ≥ 0 then
    if s.NDIM = 1 ∧ s.USD = 0 then true
    else ArraySlice.isContiguousLoop s s.NDIM 0 true
  else false

/-- The method `dataIfContiguous()`: the position `m_data`, or `none` when
`LVARRAY_ERROR_IF( !isContiguous(), ... )` aborts the program. -/
def ArraySlice.dataIfContiguous (s : ArraySlice) : Option Int :=
  if !s.isContiguous then none else some s.m_data

/-! ## Permutations (modelled) -/

/-- Modelled from the spec: `isValidPermutation( PERMUTATION )`, the "bijection
check" of a sequence of `N` integers: every value of `[0, N)` occurs in the
sequence. `Permutation.hpp` is not among the sources. -/
def isValidPermutation (permutation : List Int) : Bool :=
  (List.range permutation.length).all (fun i => permutation.contains (i : Int))

/-- Modelled from the spec: `getStrideOneDimension( PERMUTATION )`, "the logical
dimension whose physical position is last in the permutation"; `none` for the
empty sequence. `Permutation.hpp` is not among the sources. -/
def getStrideOneDimension (permutation : List Int) : Option Int :=
  permutation.getLast?

/-- Modelled from the spec: the strides derived from the dimensions and the
permutation: "the stride of the unit-stride dimension is 1; every other
dimension's stride is the product of the sizes of all dimensions that are
physically inside it per the permutation", that is, of the dimensions that come
after it in the permutation. `Array.hpp` is not among the sources. -/
def calculateStrides (permutation : List Int) (dims : Nat → Int) : Nat → Int :=
  fun d =>
    (((permutation.dropWhile (fun e => decide (e ≠ (d : Int)))).tail).map
      (fun e => dims e.toNat)).prod

end LvArray

/-! ## Formatted input and output of `int` (standard library) -/

namespace std

/-- The character of the decimal digit `d`. -/
def digit (d : Nat) : Char := Char.ofNat (d + 48)

/-- The value of a decimal digit, `none` for any other character. -/
def digitValue (c : Char) : Option Nat :=
  if 48 ≤ c.toNat ∧ c.toNat ≤ 57 then some (c.toNat - 48) else none

/-- The decimal digits of `n` put in front of `acc`, the most significant
first; `fuel` bounds the number of digits. -/
def putDigits : Nat → Nat → List Char → List Char
  | 0, _, acc => acc
  | fuel + 1, n, acc =>
    if n / 10 = 0 then digit (n % 10) :: acc
    else putDigits fuel (n / 10) (digit (n % 10) :: acc)

/-- The text `std::ostream::operator<<( int )` writes with the default flags:
the decimal digits, after a `-` for a negative value. -/
def num_put (v : Int) : List Char :=
  if v < 0 then '-' :: putDigits (v.natAbs + 1) v.natAbs []
  else putDigits (v.natAbs + 1) v.natAbs []

/-- The function `std::isspace` in the "C" locale. -/
def isspace (c : Char) : Bool :=
  c.toNat = 32 || (9 ≤ c.toNat && c.toNat ≤ 13)

/-- The longest run of decimal digits at the start of the text: the number
they write after the digits of `acc`, and the text left. -/
def getDigits : List Char → Nat → Nat × List Char
  | [], acc => (acc, [])
  | c :: cs, acc =>
    match digitValue c with
    | some d => getDigits cs (10 * acc + d)
    | none => (acc, c :: cs)

/-- The conversion of `std::num_get` for a decimal integer: an optional sign
and a run of digits, at least one; `none` when there is no digit. -/
def num_get (s : List Char) : Option (Int × List Char) :=
  let signed : Bool × List Char :=
    match s with
    | c :: rest =>
      if c = '-' then (true, rest) else if c = '+' then (false, rest) else (false, s)
    | [] => (false, s)
  match signed.2 with
  | [] => none
  | c :: _ =>
    if (digitValue c).isSome then
      some (if signed.1 then -((getDigits signed.2 0).1 : Int) else ((getDigits signed.2 0).1 : Int),
        (getDigits signed.2 0).2)
    else none

/-- The operator `std::istream::operator>>( int & )` on the text still to be
read: leading white space is skipped, and the extraction fails (`none`) when
there is no number or the number is not a value of the 32 bit type `int`. -/
def istream_extract (s : List Char) : Option (Int × List Char) :=
  match num_get (s.dropWhile isspace) with
  | none => none
  | some r => if -2147483648 ≤ r.1 ∧ r.1 ≤ 2147483647 then some r else none

end std

namespace LvArray

/-! ## streamIO.hpp: the output of a sorted array -/

/-- The loop `for( INDEX_TYPE i = 1; i < view.size(); ++i ) { stream << ", " <<
view[ i ]; }` of the output operators, `write` being the output operator of
the values, with `fuel` iterations left; `none` when `view[ i ]` is outside
the values. -/
def streamLoop {T : Type} (write : T → List Char) (values : List T) (size : Nat) :
    Nat → Nat → List Char → Option (List Char)
  | 0, _, stream => some stream
  | fuel + 1, i, stream =>
    if i < size then
      match values[i]? with
      | none => none
      | some v => streamLoop write values size fuel (i + 1) (stream ++ [',', ' '] ++ write v)
    else some stream

/-- The operator `operator<<( std::ostream &, SortedArrayView< T const, ... >
const & )`, statement by statement: the text appended to the stream. -/
def SortedArray.streamInsert {T : Type} (write : T → List Char) (view : SortedArray T) :
    Option (List Char) :=
  if view.m_size = 0 then some ['{', '}']
  else
    match view.m_values[0]? with
    | none => none
    | some v0 =>
      let stream1 := ['{', ' '] ++ write v0
      let stream2 := if view.m_size > 0 then stream1 ++ write v0 else stream1
      (streamLoop write view.m_values view.m_size view.m_size 1 stream2).map
        (fun stream3 => stream3 ++ [' ', '}'])

/-! ## CRSMatrix (modelled) -/

/-- Modelled from the spec: the class `CRSMatrix`, which "extends" the sparsity
pattern "by keeping a values buffer laid out identically to the columns buffer
per row". `CRSMatrix.hpp` is not among the sources. -/
structure CRSMatrix (T : Type) where
  m_numCols : Int
  m_columns : ArrayOfArrays Int
  m_entries : Int → Option T

namespace CRSMatrix

/-- Modelled from the spec: `numRows()`. -/
def numRows {T : Type} (m : CRSMatrix T) : Int := m.m_columns.m_numArrays

/-- Modelled from the spec: `numNonZeros( row )`. -/
def numNonZeros {T : Type} (m : CRSMatrix T) (row : Int) : Int :=
  ArrayOfArraysView.sizeOfArray m.m_columns row

/-- Modelled from the spec: `toSparsityPatternView()`, the pattern of the
matrix. -/
def toSparsityPatternView {T : Type} (m : CRSMatrix T) : SparsityPattern :=
  { m_numCols := m.m_numCols, m_columns := m.m_columns }

/-- Modelled from the spec: `getColumns( row )`. -/
def getColumns {T : Type} (m : CRSMatrix T) (row : Int) : List Int :=
  m.toSparsityPatternView.getColumns row

/-- Modelled from the spec: `getEntries( row )`, the values of the row, "at the
same relative offset" as its columns; a slot that holds no value reads as
`none`. -/
def getEntries {T : Type} (m : CRSMatrix T) (row : Int) : List (Option T) :=
  (List.range (m.numNonZeros row).toNat).map
    (fun k : Nat => m.m_entries (m.m_columns.m_offsets row + (k : Int)))

/-- Modelled from the spec: `assimilate( SparsityPattern && src )`, which
"consumes a sparsity pattern's buffers and default-initializes a parallel
values buffer of equal per-row layout". The result is the matrix and the
pattern `src` afterwards, which the test `assimilate` expects to have no row,
no column and no non zero. -/
def assimilate {T : Type} [Inhabited T] (src : SparsityPattern) : CRSMatrix T × SparsityPattern :=
  ({ m_numCols := src.m_numCols
     m_columns := src.m_columns
     m_entries := fun p =>
       if (List.range src.m_columns.m_numArrays.toNat).any (fun row : Nat =>
           decide (src.m_columns.m_offsets (row : Int) ≤ p ∧
             p < src.m_columns.m_offsets (row : Int) + src.m_columns.m_sizes (row : Int))) then
         some default
       else none },
   SparsityPattern.new 0 0 0)

end CRSMatrix

/-- Modelled from the spec: `numNonZeros()` without argument, the number of
columns stored in all the rows. -/
def SparsityPattern.numNonZerosTotal (sp : SparsityPattern) : Int :=
  sp.m_columns.sumSizes sp.numRows.toNat

end LvArray

/-! ## Searching a `std::string` (standard library) -/

namespace std

/-- The method `std::string::find( pattern )` on the text that starts at
position `pos`: the position of the first occurrence, `none` for `npos`. -/
def string_find (pattern : List Char) : List Char → Nat → Option Nat
  | [], pos => if pattern.isEmpty then some pos else none
  | c :: cs, pos =>
    if pattern.isPrefixOf (c :: cs) then some pos else string_find pattern cs (pos + 1)

/-- The method `std::string::find_first_not_of( c )` on the text that starts at
position `pos`, `none` for `npos`. -/
def find_first_not_of (c : Char) : List Char → Nat → Option Nat
  | [], _ => none
  | x :: xs, pos => if x ≠ c then some pos else find_first_not_of c xs (pos + 1)

end std

namespace LvArray

/-- The value `slice[ i0 ]...[ iN-1 ]` in the buffer `data`: chained
subscripting down to a position, and the read of the buffer; `none` when the
access aborts or the slot holds no value. -/
def ArraySlice.value (boundsCheck : Bool) (data : Int → Option Int) (s : ArraySlice)
    (indices : List Int) : Option Int :=
  match indices with
  | [] => none
  | index :: rest => (s.chain boundsCheck index rest).bind data

/-! ## Array (modelled) -/

/-- The function `multiplyAll< SIZE >( values )` of `arrayHelpers.hpp`. No
overload is enabled for `SIZE < 1`; the value given for `SIZE == 0` is the
empty product. -/
def multiplyAll : Nat → (Nat → Int) → Int
  | 0, _ => 1
  | 1, values => values 0
  | SIZE + 2, values => values 0 * multiplyAll (SIZE + 1) (ptrNext values)

/-- Modelled from the spec: the class `Array< int, NDIM, PERMUTATION,
INDEX_TYPE, BUFFER_TYPE >`, "a View plus explicit element lifecycle
management": the dimensions, the strides, and the buffer, in which a slot that
holds no live value reads as `none`. `Array.hpp` is not among the sources. -/
structure Array where
  NDIM : Nat
  PERMUTATION : List Int
  m_dims : Nat → Int
  m_strides : Nat → Int
  m_data : Int → Option Int

namespace Array

/-- Modelled from the spec: `size()`, the "product( dimensions )". -/
def size (a : Array) : Int := multiplyAll a.NDIM a.m_dims

/-- Modelled from the spec: `resize( NDIM, dims )`: the strides "are always
recomputed from dimensions", and the buffer "grows/shrinks using placement
construction/destruction of the delta elements only (elements in the
overlapping prefix are untouched)"; a new `int` is value initialised. -/
def resize (a : Array) (dims : Nat → Int) : Array :=
  { a with
    m_dims := dims
    m_strides := calculateStrides a.PERMUTATION dims
    m_data := fun p =>
      if 0 ≤ p ∧ p < multiplyAll a.NDIM dims then
        if p < a.size then a.m_data p else some 0
      else none }

/-- Modelled from the spec: `clear()`, which leaves the array empty: the first
dimension becomes zero. -/
def clear (a : Array) : Array :=
  a.resize (fun d => if d = 0 then 0 else a.m_dims d)

/-- Modelled from the spec: `toSlice()`, the slice of the whole array; its unit
stride dimension is the one of the permutation. -/
def toSlice (a : Array) : ArraySlice :=
  { NDIM := a.NDIM
    USD := (getStrideOneDimension a.PERMUTATION).getD (-1)
    m_data := 0
    m_dims := a.m_dims
    m_strides := a.m_strides }

/-- Modelled from the spec: the value `array[ i0 ]...[ iN-1 ]`, read through
the slice of the array. -/
def value (boundsCheck : Bool) (a : Array) (indices : List Int) : Option Int :=
  a.toSlice.value boundsCheck a.m_data indices

end Array

/-! ## streamIO.hpp -/

/-- The two ways in which a call does not return: `error` is the abort of
`LVARRAY_ERROR`, `undefined` is an access outside of an array. -/
inductive Fault where
  | error
  | undefined
  deriving DecidableEq

namespace stringToArrayHelper

/-- The function `skipDelimters( inputStream )`; the stream is the text still
to be read. -/
def skipDelimters (inputStream : List Char) : List Char :=
  inputStream.dropWhile (fun c => c == ' ')

/-- The overload `Read< NDIM >( T & arrayValue, INDEX_TYPE const *,
inputStream )` for `T = int`, `arrayValue` being the slot `position` of the
buffer. -/
def ReadValue (position : Int) (data : Int → Option Int) (inputStream : List Char) :
    Except Fault ((Int → Option Int) × List Char) :=
  match std.istream_extract inputStream with
  | none => Except.error Fault.error
  | some r => Except.ok (Function.update data position (some r.1), r.2)

/-- The loop `for( int i = 0; i < ( *dims ); ++i ) { skipDelimters( inputStream );
Read< NDIM - 1 >( arraySlice[ i ], dims + 1, inputStream ); }`, with `fuel`
iterations left; `element i` is the call of `Read` on `arraySlice[ i ]`. -/
def ReadLoop
    (element : Int → (Int → Option Int) → List Char → Except Fault ((Int → Option Int) × List Char))
    (count : Int) :
    Nat → Int → (Int → Option Int) → List Char → Except Fault ((Int → Option Int) × List Char)
  | 0, _, data, inputStream => Except.ok (data, inputStream)
  | fuel + 1, i, data, inputStream =>
    if i < count then
      match element i data (skipDelimters inputStream) with
      | Except.error e => Except.error e
      | Except.ok r => ReadLoop element count fuel (i + 1) r.1 r.2
    else Except.ok (data, inputStream)

/-- The overload `Read< NDIM, USD >( arraySlice, dims, inputStream )`, by
recursion on `NDIM`: the buffer and the stream afterwards. -/
def Read (boundsCheck : Bool) :
    Nat → ArraySlice → (Nat → Int) → (Int → Option Int) → List Char →
      Except Fault ((Int → Option Int) × List Char)
  | 0, _, _, _, _ => Except.error Fault.error
  | NDIM + 1, arraySlice, dims, data, inputStream =>
    if inputStream.head? ≠ some '{' then Except.error Fault.error
    else
      match ReadLoop
          (fun i data inputStream =>
            if NDIM = 0 then
              match arraySlice.subscriptValue boundsCheck i with
              | none => Except.error Fault.error
              | some position => ReadValue position data inputStream
            else
              match arraySlice.subscript boundsCheck i with
              | none => Except.error Fault.error
              | some slice => Read boundsCheck NDIM slice (ptrNext dims) data inputStream)
          (dims 0) (dims 0).toNat 0 data inputStream.tail with
      | Except.error e => Except.error e
      | Except.ok r =>
        if (skipDelimters r.2).head? ≠ some '}' then Except.error Fault.error
        else Except.ok (r.1, (skipDelimters r.2).tail)

end stringToArrayHelper

namespace stringToArray

/-- The first loop of `stringToArray`, which looks for "space delimited
values": `true` when `LVARRAY_ERROR` is reached. -/
def spaceDelimited : List Char → Bool → Bool → Bool
  | [], _, _ => false
  | c :: cs, valueOnLeft, spaceOnLeft =>
    if (c != '{' && c != ',' && c != '}' && c != ' ') && (valueOnLeft && spaceOnLeft) then true
    else if c == '{' || c == ',' || c == '}' then spaceDelimited cs false false
    else if c != ' ' then spaceDelimited cs true false
    else spaceDelimited cs valueOnLeft true

/-- The local variables of the loop that counts the dimensions. -/
structure DimState where
  dimLevel : Int
  dims : Nat → Int
  currentDims : Nat → Int
  dimSet : Nat → Bool
  lastChar : Char

/-- The loop `for( size_t charCount = 0; charCount < valueString.size();
++charCount )` that counts the dimensions, on the text from position
`charCount` on; `size` is `valueString.size()`. An access to `dims`,
`currentDims` or `dimSet` outside of `[0, NDIM)` is `Fault.undefined`. -/
def dimsLoop (NDIM : Nat) (size : Nat) : List Char → Nat → DimState → Except Fault DimState
  | [], _, st => Except.ok st
  | c :: cs, charCount, st =>
    if c = '{' then
      dimsLoop NDIM size cs (charCount + 1) { st with dimLevel := st.dimLevel + 1, lastChar := c }
    else if c = '}' then
      if st.dimLevel < 0 ∨ (NDIM : Int) ≤ st.dimLevel then Except.error Fault.undefined
      else if st.dims st.dimLevel.toNat ≠ st.currentDims st.dimLevel.toNat then
        Except.error Fault.error
      else if st.dimLevel - 1 < 0 ∧ charCount < size - 1 then Except.error Fault.error
      else
        dimsLoop NDIM size cs (charCount + 1)
          { dimLevel := st.dimLevel - 1
            dims := st.dims
            currentDims := Function.update st.currentDims st.dimLevel.toNat 1
            dimSet := Function.update st.dimSet st.dimLevel.toNat true
            lastChar := c }
    else if c = ',' then
      if st.lastChar = '{' ∨ st.lastChar = ',' then Except.error Fault.error
      else if st.dimLevel < 0 ∨ (NDIM : Int) ≤ st.dimLevel then Except.error Fault.undefined
      else
        dimsLoop NDIM size cs (charCount + 1)
          { dimLevel := st.dimLevel
            dims :=
              if st.dimSet st.dimLevel.toNat = false then
                Function.update st.dims st.dimLevel.toNat (st.dims st.dimLevel.toNat + 1)
              else st.dims
            currentDims :=
              Function.update st.currentDims st.dimLevel.toNat
                (st.currentDims st.dimLevel.toNat + 1)
            dimSet := st.dimSet
            lastChar := c }
    else dimsLoop NDIM size cs (charCount + 1) { st with lastChar := c }

/-- The loop that counts the dimensions reads `text`, which `rest` follows up to
the end of the string, without a fault, and takes the state `st` to the state
`st'`. -/
def Runs (NDIM size : Nat) (text rest : List Char) (st st' : DimState) : Prop :=
  ∀ charCount : Nat, charCount + (text ++ rest).length = size →
    ∃ charCount' : Nat, charCount' + rest.length = size ∧
      dimsLoop NDIM size (text ++ rest) charCount st = dimsLoop NDIM size rest charCount' st'

/-- The counters of the levels `L`, `L + 1`, ... are as they are in front of a
sub-array of dimensions `dims` at level `L`: the running counts are 1, and
either no level is set and the sizes are 1 (`set = false`), or every level is
set and the sizes are `dims` (`set = true`). -/
def Prepared (st : DimState) (L : Nat) (dims : List Nat) (set : Bool) : Prop :=
  ∀ k : Nat, k < dims.length →
    st.currentDims (L + k) = 1 ∧ st.dimSet (L + k) = set ∧
      st.dims (L + k) = if set then ((dims.getD k 0 : Nat) : Int) else 1

/-- The loop that adds "a ' ' in front of any '}'": `valueString.insert( a,
" " ); ++a;`, after which the loop goes on behind the `}`. -/
def insertSpaces : List Char → List Char
  | [] => []
  | c :: cs => if c = '}' then ' ' :: '}' :: insertSpaces cs else c :: insertSpaces cs

end stringToArray

/-- The function `stringToArray( array, valueString )` for an array of `int`:
the array afterwards, or the fault. -/
def stringToArray (boundsCheck : Bool) (array : Array) (valueString : List Char) :
    Except Fault Array :=
  if stringToArray.spaceDelimited valueString false false then Except.error Fault.error
  else if valueString.filter (fun c => c != ' ') = ['{', '}'] then Except.ok array.clear
  else if (std.string_find ['}', '{'] (valueString.filter (fun c => c != ' ')) 0).isSome then
    Except.error Fault.error
  else if (valueString.filter (fun c => c != ' ')).head? ≠ some '{' then Except.error Fault.error
  else if (valueString.filter (fun c => c != ' ')).count '{' ≠
      (valueString.filter (fun c => c != ' ')).count '}' then Except.error Fault.error
  else if (std.string_find ['{', '}'] (valueString.filter (fun c => c != ' ')) 0).isSome then
    Except.error Fault.error
  else
    match std.find_first_not_of '{' (valueString.filter (fun c => c != ' ')) 0 with
    | none => Except.error Fault.error
    | some ndims =>
      if ndims ≠ array.NDIM then Except.error Fault.error
      else
        match stringToArray.dimsLoop array.NDIM (valueString.filter (fun c => c != ' ')).length
            (valueString.filter (fun c => c != ' ')) 0
            { dimLevel := -1, dims := fun _ => 1, currentDims := fun _ => 1,
              dimSet := fun _ => false, lastChar := Char.ofNat 0 } with
        | Except.error e => Except.error e
        | Except.ok st =>
          if st.dimLevel ≠ -1 then Except.error Fault.error
          else
            match stringToArrayHelper.Read boundsCheck array.NDIM (array.resize st.dims).toSlice
                (array.resize st.dims).m_dims (array.resize st.dims).m_data
                (stringToArray.insertSpaces
                  ((valueString.filter (fun c => c != ' ')).map
                    (fun c => if c = ',' then ' ' else c))) with
            | Except.error e => Except.error e
            | Except.ok r => Except.ok { array.resize st.dims with m_data := r.1 }

/-! ### The output of a slice -/

/-- The loop `for( INDEX_TYPE i = 1; i < slice.size( 0 ); ++i ) { stream <<
", " << slice[ i ]; }`, with `fuel` iterations left; `element i` is the text
`stream << slice[ i ]` writes, `none` when it does not return. -/
def ArraySlice.streamLoop (element : Int → Option (List Char)) (size : Int) :
    Nat → Int → List Char → Option (List Char)
  | 0, _, stream => some stream
  | fuel + 1, i, stream =>
    if i < size then
      match element i with
      | none => none
      | some text => ArraySlice.streamLoop element size fuel (i + 1) (stream ++ [',', ' '] ++ text)
    else some stream

/-- The operator `operator<<( std::ostream &, ArraySlice< T, NDIM, USD,
INDEX_TYPE > const & )` for `T = int`, by recursion on `NDIM`: the text
appended to the stream, `none` when an access aborts or reads a slot that
holds no value. -/
def ArraySlice.streamInsert (boundsCheck : Bool) (data : Int → Option Int) :
    Nat → ArraySlice → Option (List Char)
  | 0, _ => none
  | NDIM + 1, slice =>
    match
      (if slice.m_dims 0 > 0 then
        (if NDIM = 0 then
          (slice.subscriptValue boundsCheck 0).bind (fun position =>
            (data position).map std.num_put)
        else
          (slice.subscript boundsCheck 0).bind (fun s =>
            ArraySlice.streamInsert boundsCheck data NDIM s)).map
          (fun text => ['{', ' '] ++ text)
      else some ['{', ' ']) with
    | none => none
    | some stream =>
      (ArraySlice.streamLoop
        (fun i =>
          if NDIM = 0 then
            (slice.subscriptValue boundsCheck i).bind (fun position =>
              (data position).map std.num_put)
          else
            (slice.subscript boundsCheck i).bind (fun s =>
              ArraySlice.streamInsert boundsCheck data NDIM s))
        (slice.m_dims 0) (slice.m_dims 0).toNat 1 stream).map
        (fun stream => stream ++ [' ', '}'])

/-- The operator `operator<<` on an array: the one of `ArrayView`, which
writes `view.toSliceConst()`. -/
def Array.streamInsert (boundsCheck : Bool) (a : Array) : Option (List Char) :=
  ArraySlice.streamInsert boundsCheck a.m_data a.NDIM a.toSlice

end LvArray

namespace LvArray

/-! ## The brace text of an array, as the spec words it -/

/-- A character that is part of a value in the text of an array: "anything
that is not a '{' or '}' or ',' or ' '". -/
def IsValueChar (c : Char) : Prop := c ≠ '{' ∧ c ≠ '}' ∧ c ≠ ',' ∧ c ≠ ' '

/-- The multi-index `indices` is in the range of the dimensions `dims`:
`0 <= indices[ k ] < dims[ k ]` for every `k`, and as many indices as
dimensions. -/
def inRange : List Nat → List Int → Bool
  | [], [] => true
  | d :: dims, i :: indices => decide (0 ≤ i ∧ i < (d : Int)) && inRange dims indices
  | _, _ => false

/-- The nested text of the values `v` of a space of dimensions `dims`: a value
is written as `operator<<` writes an `int`, and a level as the texts of its
`dims[ 0 ]` sub-levels, in increasing index order with `separator` between
them, after `opening` and before `closing`. -/
def braceText (opening separator closing : List Char) : List Nat → (List Int → Int) → List Char
  | [], v => std.num_put (v [])
  | d :: dims, v =>
    opening ++
      separator.intercalate
        ((List.range d).map (fun i : Nat =>
          braceText opening separator closing dims (fun indices => v ((i : Int) :: indices)))) ++
      closing

/-- The text of claim C29: "{ ", the sub-levels separated by ", ", and " }". -/
def arrayText (dims : List Nat) (v : List Int → Int) : List Char :=
  braceText ['{', ' '] [',', ' '] [' ', '}'] dims v

/-- The text without any space: "{", the sub-levels separated by ",", "}". -/
def compactText (dims : List Nat) (v : List Int → Int) : List Char :=
  braceText ['{'] [','] ['}'] dims v

/-- The text handed to the stream that `Read` reads: the text without any
space in which every "," has become a space and a space stands in front of
every "}". -/
def streamText (dims : List Nat) (v : List Int → Int) : List Char :=
  braceText ['{'] [' '] [' ', '}'] dims v

/-- The position in the buffer of the value `slice[ i0 ]...[ iN-1 ]`. -/
def ArraySlice.position (s : ArraySlice) : List Int → Int
  | [] => s.m_data
  | index :: rest => s.m_data + getLinearIndex s.USD s.m_strides index rest

/-- The tokens of the text of an array. -/
inductive Token where
  | opening
  | closing
  | comma
  | value (text : List Char)

/-- The characters of a token. -/
def Token.text : Token → List Char
  | Token.opening => ['{']
  | Token.closing => ['}']
  | Token.comma => [',']
  | Token.value text => text

/-- The token is a value. -/
def Token.isValue : Token → Bool
  | Token.value _ => true
  | _ => false

/-- The tokens of the well formed text of the values `v` of a space of
dimensions `dims`. -/
def tokens : List Nat → (List Int → Int) → List Token
  | [], v => [Token.value (std.num_put (v []))]
  | d :: dims, v =>
    Token.opening ::
      ([Token.comma].intercalate
        ((List.range d).map (fun i : Nat =>
          tokens dims (fun indices => v ((i : Int) :: indices)))) ++
      [Token.closing])

/-- The text of the tokens with `gaps[ k ]` spaces before the token `k`, and
after the last token for the entry that follows; no space where `gaps` has no
entry. -/
def withSpaces : List Token → List Nat → List Char
  | [], gaps => List.replicate (gaps.headD 0) ' '
  | token :: rest, gaps =>
    List.replicate (gaps.headD 0) ' ' ++ token.text ++ withSpaces rest gaps.tail

/-- A text made of the tokens, in order, with any number of spaces before,
between and after them. -/
inductive Spaced : List Token → List Char → Prop where
  | nil : Spaced [] []
  | space (toks : List Token) (text : List Char) (h : Spaced toks text) :
      Spaced toks (' ' :: text)
  | token (tok : Token) (toks : List Token) (text : List Char) (h : Spaced toks text) :
      Spaced (tok :: toks) (tok.text ++ text)

end LvArray

namespace LvArray

/-! ## The slice as a range of pointers -/

/-- The method `size()` of a slice: `multiplyAll< NDIM >( m_dims )`. -/
def ArraySlice.size (s : ArraySlice) : Int := multiplyAll s.NDIM s.m_dims

/-- The method `begin()`: `dataIfContiguous()`. -/
def ArraySlice.begin (s : ArraySlice) : Option Int := s.dataIfContiguous

/-- The method `end()`: `dataIfContiguous() + size()`. -/
def ArraySlice.end_ (s : ArraySlice) : Option Int :=
  s.dataIfContiguous.map (fun data => data + s.size)

/-! ## The linear index with the widths of the integer types -/

/-- The value `x` is representable in the signed integer type of `bits`
bits. -/
def representable (bits : Nat) (x : Int) : Bool :=
  decide (-(2 ^ (bits - 1)) ≤ x) && decide (x < 2 ^ (bits - 1))

/-- The conversion of `x` to the signed integer type of `bits` bits: `x` when
it is representable, and otherwise the value of the type that is congruent to
`x` modulo `2 ^ bits`. -/
def convertSigned (bits : Nat) (x : Int) : Int :=
  (x + 2 ^ (bits - 1)) % 2 ^ bits - 2 ^ (bits - 1)

namespace Typed

/-- The helper `ConditionalMultiply< B_IS_ONE >::multiply( A const a, B const
b )`, declared to return `A`, for a signed type `A` of `bitsA` bits and a
signed type `B` of `bitsB` bits, both at least as wide as `int`: `a * b` is
computed in the wider of the two types, where an overflow is undefined
(`none`), and `return` converts the product to `A`. The specialisation
`B_IS_ONE == true` returns `a`. -/
def ConditionalMultiply.multiply (B_IS_ONE : Bool) (bitsA bitsB : Nat) (a b : Int) : Option Int :=
  if B_IS_ONE then some a
  else if representable (max bitsA bitsB) (a * b) then some (convertSigned bitsA (a * b))
  else none

/-- The function `getLinearIndex< USD, INDEX_TYPE, INDEX ... >( strides, index,
indices ... )` for an `INDEX_TYPE` of `bitsIndexType` bits and indices that all
have a type of `bitsIndex` bits: each term is the value `multiply` returns, of
the type of the index, the sum is computed in the wider of the two types, and
`return` converts it to `INDEX_TYPE`. -/
def getLinearIndex (bitsIndexType bitsIndex : Nat) (USD : Int) (strides : Nat → Int)
    (index : Int) (indices : List Int) : Option Int :=
  match indices with
  | [] =>
    (ConditionalMultiply.multiply (USD == 0) bitsIndex bitsIndexType index (strides 0)).map
      (convertSigned bitsIndexType)
  | i :: rest =>
    match ConditionalMultiply.multiply (USD == 0) bitsIndex bitsIndexType index (strides 0),
      getLinearIndex bitsIndexType bitsIndex (USD - 1) (ptrNext strides) i rest with
    | some term, some others =>
      if representable (max bitsIndex bitsIndexType) (term + others) then
        some (convertSigned bitsIndexType (term + others))
      else none
    | _, _ => none

/-- The method `ArraySlice::linearIndex( INDICES ... indices )` for an
`INDEX_TYPE` of `bitsIndexType` bits and indices that all have a type of
`bitsIndex` bits: `none` when the static assertion on the number of indices
fails, when `checkIndices` aborts, or when an overflow makes the behaviour
undefined. -/
def ArraySlice.linearIndex (bitsIndexType bitsIndex : Nat) (boundsCheck : Bool)
    (s : LvArray.ArraySlice) (index : Int) (indices : List Int) : Option Int :=
  if (index :: indices).length = s.NDIM then
    if boundsCheck && invalidIndices s.m_dims (index :: indices) then none
    else getLinearIndex bitsIndexType bitsIndex s.USD s.m_strides index indices
  else none

end Typed

/-- A nested list of `int` values, all at the depth `n`: the content of a text
with `n` levels of braces. -/
def Nested : Nat → Type
  | 0 => Int
  | n + 1 => List (Nested n)

/-- The text of a nested list without any space: a value as `operator<<`
writes an `int`, and a list as `{`, the texts of its items separated by `,`,
and `}`. -/
def Nested.text : (n : Nat) → Nested n → List Char
  | 0, x => std.num_put x
  | n + 1, items => ['{'] ++ [','].intercalate (List.map (Nested.text n) items) ++ ['}']

/-- The numbers of items of the lists at the nesting level `level` of a nested
list, the outermost list being at level 0, in the order of the text. -/
def Nested.sizes : (n : Nat) → Nested n → Nat → List Nat
  | 0, _, _ => []
  | _ + 1, items, 0 => [List.length items]
  | n + 1, items, level + 1 => List.flatMap items (fun item => Nested.sizes n item level)

/-- The loop that counts the dimensions reads `text`, which `rest` follows up
to the end of the string, from the state `st`: it reports an error, or it goes
on with `rest` in a state that satisfies `P`. -/
def stringToArray.Reads (NDIM size : Nat) (text rest : List Char) (st : stringToArray.DimState)
    (P : stringToArray.DimState → Prop) : Prop :=
  ∀ charCount : Nat, charCount + (text ++ rest).length = size →
    stringToArray.dimsLoop NDIM size (text ++ rest) charCount st = Except.error Fault.error ∨
    ∃ (charCount' : Nat) (st' : stringToArray.DimState), charCount' + rest.length = size ∧ P st' ∧
      stringToArray.dimsLoop NDIM size (text ++ rest) charCount st =
        stringToArray.dimsLoop NDIM size rest charCount' st'

end LvArray

namespace LvArray

/-- The counters after an item of depth `n` whose lists are at the levels `L`,
..., `L + n - 1` has been read from the state `st`: the level and the counters
of the levels below `L` are as before, the last character is not one after
which a comma is an error, the running counts of the levels of the item are 1
again and these levels are set, every list of the item has the size recorded
for its level (`sizes level` being the sizes of the lists at the level
`L + level`), and the recorded sizes are as before when the levels of the item
had all been set before. -/
def stringToArray.Counted (L n : Nat) (sizes : Nat → List Nat)
    (st st' : stringToArray.DimState) : Prop :=
  st'.dimLevel = st.dimLevel ∧ st'.lastChar ≠ '{' ∧ st'.lastChar ≠ ',' ∧
    (∀ k : Nat, k < n → st'.currentDims (L + k) = 1 ∧ st'.dimSet (L + k) = true) ∧
    (∀ (level s : Nat), s ∈ sizes level → st'.dims (L + level) = (s : Int)) ∧
    ((∀ k : Nat, k < n → st.dimSet (L + k) = true) → st'.dims = st.dims) ∧
    (∀ k : Nat, k < L → st'.dims k = st.dims k ∧ st'.currentDims k = st.currentDims k ∧
      st'.dimSet k = st.dimSet k)

/-- The counters inside a list at the level `L` whose items have the depth
`n`, after `count` items have been read, the state in front of the list being
`st`: the level is `L`, the last character is not one after which a comma is
an error, the running count of the level `L` is `count`, the levels of the
items are set with running counts 1, every list of the items read so far has
the size recorded for its level, the level `L` is set if it was, the recorded
sizes are as before when the levels from `L` on had all been set before, and
the counters of the levels below `L` are as before. -/
def stringToArray.Counting (L n count : Nat) (sizes : Nat → List Nat)
    (st st' : stringToArray.DimState) : Prop :=
  st'.dimLevel = (L : Int) ∧ st'.lastChar ≠ '{' ∧ st'.lastChar ≠ ',' ∧
    st'.currentDims L = (count : Int) ∧
    (st.dimSet L = true → st'.dimSet L = true) ∧
    (∀ k : Nat, k < n → st'.currentDims (L + 1 + k) = 1 ∧ st'.dimSet (L + 1 + k) = true) ∧
    (∀ (level s : Nat), s ∈ sizes level → st'.dims (L + 1 + level) = (s : Int)) ∧
    ((∀ k : Nat, k < n + 1 → st.dimSet (L + k) = true) → st'.dims = st.dims) ∧
    (∀ k : Nat, k < L → st'.dims k = st.dims k ∧ st'.currentDims k = st.currentDims k ∧
      st'.dimSet k = st.dimSet k)

end LvArray

namespace LvArray

/-! ## Theorems -/

/-! ### Linear indices -/

theorem multiply_usd (USD : Int) (a b : Int) :
    ConditionalMultiply.multiply (USD == 0) a b = if USD = 0 then a else a * b := by
  unfold ConditionalMultiply.multiply
  by_cases h : USD = 0 <;> simp [h]

theorem sumDims_congr (f g : Nat → Int) (n : Nat) :
    ∀ start : Nat, (∀ d, start ≤ d → d < start + n → f d = g d) →
      sumDims f start n = sumDims g start n := by
  induction n with
  | zero => intro start _; rfl
  | succ n ih =>
    intro start h
    simp only [sumDims]
    rw [h start (le_refl _) (by omega), ih (start + 1) (fun d h1 h2 => h d (by omega) (by omega))]

theorem sumDims_shift (f : Nat → Int) (n : Nat) :
    ∀ start : Nat, sumDims f (start + 1) n = sumDims (fun d => f (d + 1)) start n := by
  induction n with
  | zero => intro start; rfl
  | succ n ih => intro start; simp only [sumDims]; rw [ih (start + 1)]

theorem sumDims_add (f g : Nat → Int) (n : Nat) :
    ∀ start : Nat, sumDims (fun d => f d + g d) start n = sumDims f start n + sumDims g start n := by
  induction n with
  | zero => intro start; rfl
  | succ n ih => intro start; simp only [sumDims]; rw [ih (start + 1)]; ring

theorem sumDims_single (n : Nat) (k : Nat) (v : Int) :
    ∀ start : Nat, sumDims (fun d => if d = k then v else 0) start n =
      if start ≤ k ∧ k < start + n then v else 0 := by
  induction n with
  | zero => intro start; rw [if_neg (by omega)]; rfl
  | succ n ih =>
    intro start
    simp only [sumDims]
    rw [ih (start + 1)]
    by_cases h1 : start = k
    · subst h1; simp
    · by_cases h2 : start + 1 ≤ k ∧ k < start + 1 + n
      · rw [if_neg h1, if_pos h2, if_pos (by omega)]; simp
      · rw [if_neg h1, if_neg h2, if_neg (by omega)]; simp

theorem sumDims_succ (f : Nat → Int) (start n : Nat) :
    sumDims f start (n + 1) = f start + sumDims (fun d => f (d + 1)) start n := by
  rw [sumDims, sumDims_shift]

/-- The linear index is the sum over the dimensions of the index, multiplied by
the stride except in the dimension `USD`. -/
theorem getLinearIndex_eq_sumDims (indices : List Int) :
    ∀ (USD : Int) (strides : Nat → Int) (index : Int),
      getLinearIndex USD strides index indices =
        sumDims (fun d => if (d : Int) = USD then indexAt index indices d
          else indexAt index indices d * strides d) 0 (indices.length + 1) := by
  induction indices with
  | nil =>
    intro USD strides index
    simp only [getLinearIndex, multiply_usd, List.length_nil, sumDims, indexAt]
    by_cases h : USD = 0
    · simp [h]
    · have h2 : ¬ (0 : Int) = USD := fun e => h e.symm
      simp [h, h2]
  | cons i rest ih =>
    intro USD strides index
    rw [getLinearIndex, ih, multiply_usd, List.length_cons, sumDims_succ _ 0 (rest.length + 1)]
    congr 1
    · by_cases h : USD = 0
      · simp [h, indexAt]
      · have h2 : ¬ (0 : Int) = USD := fun e => h e.symm
        simp [h, h2, indexAt]
    · apply sumDims_congr
      intro d _ _
      have e : ((d : Int) = USD - 1) ↔ (((d + 1 : Nat) : Int) = USD) := by
        constructor <;> intro h <;> push_cast at * <;> omega
      by_cases h : (d : Int) = USD - 1
      · rw [if_pos h, if_pos (e.mp h)]; simp [indexAt]
      · rw [if_neg h, if_neg (fun h2 => h (e.mpr h2))]; simp [indexAt, ptrNext]

theorem sumDims_split (USD : Int) (g h : Nat → Int) (start n : Nat) :
    sumDims (fun d => if (d : Int) = USD then g d else h d) start n =
      sumDims (fun d => if d = USD.toNat then (if 0 ≤ USD then g USD.toNat else 0) else 0) start n +
        sumDims (fun d => if (d : Int) = USD then 0 else h d) start n := by
  rw [← sumDims_add]
  apply sumDims_congr
  intro d _ _
  by_cases e : (d : Int) = USD
  · have e2 : d = USD.toNat := by omega
    have e3 : 0 ≤ USD := by omega
    rw [if_pos e, if_pos e2, if_pos e3, if_pos e, ← e2]; simp
  · by_cases e2 : d = USD.toNat
    · have e3 : ¬ 0 ≤ USD := by omega
      rw [if_neg e, if_pos e2, if_neg e3, if_neg e]; simp
    · rw [if_neg e, if_neg e2, if_neg e]; simp

theorem getLinearIndex_inside (USD : Int) (strides : Nat → Int) (index : Int) (indices : List Int)
    (h0 : 0 ≤ USD) (h1 : USD < indices.length + 1) :
    getLinearIndex USD strides index indices =
      indexAt index indices USD.toNat + dotProductExcept USD strides index indices := by
  rw [getLinearIndex_eq_sumDims, sumDims_split, sumDims_single, if_pos (by omega), if_pos h0]
  rfl

theorem dotProduct_inside (USD : Int) (strides : Nat → Int) (index : Int) (indices : List Int)
    (h0 : 0 ≤ USD) (h1 : USD < indices.length + 1) :
    dotProduct strides index indices =
      indexAt index indices USD.toNat * strides USD.toNat +
        dotProductExcept USD strides index indices := by
  have e : dotProduct strides index indices =
      sumDims (fun d => if (d : Int) = USD then indexAt index indices d * strides d
        else indexAt index indices d * strides d) 0 (indices.length + 1) := by
    unfold dotProduct
    apply sumDims_congr
    intro d _ _
    simp
  rw [e, sumDims_split, sumDims_single, if_pos (by omega), if_pos h0]
  rfl

theorem getLinearIndex_outside (USD : Int) (strides : Nat → Int) (index : Int)
    (indices : List Int) (h : ¬ (0 ≤ USD ∧ USD < indices.length + 1)) :
    getLinearIndex USD strides index indices = dotProduct strides index indices := by
  rw [getLinearIndex_eq_sumDims]
  unfold dotProduct
  apply sumDims_congr
  intro d _ hd
  have e : ¬ (d : Int) = USD := by omega
  rw [if_neg e]

/-- With indices of the type `INDEX_TYPE`: for every rank, stride array and
index tuple, `getLinearIndex< USD >` is the index of the dimension `USD` plus
the sum over the other dimensions of the index times the stride when
`0 <= USD < N`, it is the full dot product when `USD` lies outside `[0, N)`,
and hence it is the dot product of the multi-index with the strides whenever
`strides[ USD ] == 1`. -/
theorem getLinearIndex_spec (USD : Int) (strides : Nat → Int) (index : Int)
    (indices : List Int) :
    ((0 ≤ USD ∧ USD < indices.length + 1) →
        getLinearIndex USD strides index indices =
          indexAt index indices USD.toNat + dotProductExcept USD strides index indices) ∧
      (¬ (0 ≤ USD ∧ USD < indices.length + 1) →
        getLinearIndex USD strides index indices = dotProduct strides index indices) ∧
      ((0 ≤ USD ∧ USD < indices.length + 1) → strides USD.toNat = 1 →
        getLinearIndex USD strides index indices = dotProduct strides index indices) := by
  refine ⟨fun h => getLinearIndex_inside USD strides index indices h.1 h.2,
    getLinearIndex_outside USD strides index indices, fun h hs => ?_⟩
  rw [getLinearIndex_inside USD strides index indices h.1 h.2,
    dotProduct_inside USD strides index indices h.1 h.2, hs, mul_one]

/-- An instance of `getLinearIndex_spec`: the strides `(12, 1, 4)` of a
`2 x 4 x 3` array in the layout with the middle dimension contiguous, at the
index `(1, 2, 3)`, with `USD = 1`, with `USD = -1` and with `USD = 1` again. -/
theorem getLinearIndex_spec_witness :
    getLinearIndex 1 (fun d => [12, 1, 4].getD d 0) 1 [2, 3] = 2 + (12 + 12) ∧
      getLinearIndex (-1) (fun d => [12, 1, 4].getD d 0) 1 [2, 3] = 12 + 2 + 12 ∧
      getLinearIndex 1 (fun d => [12, 1, 4].getD d 0) 1 [2, 3] =
        dotProduct (fun d => [12, 1, 4].getD d 0) 1 [2, 3] := by
  have h := getLinearIndex_spec 1 (fun d => [12, 1, 4].getD d 0) 1 [2, 3]
  have g := getLinearIndex_spec (-1) (fun d => [12, 1, 4].getD d 0) 1 [2, 3]
  refine ⟨?_, ?_, h.2.2 (by decide) (by decide)⟩
  · rw [h.1 (by decide)]; decide
  · rw [g.2.1 (by decide)]; decide

/-! ### Slices -/

theorem invalidIndicesFrom_flag (dims : Nat → Int) (indices : List Int) :
    ∀ (curDim : Nat) (invalid : Bool),
      invalidIndicesFrom dims curDim indices invalid =
        (invalid || invalidIndicesFrom dims curDim indices false) := by
  induction indices with
  | nil => intro curDim invalid; simp [invalidIndicesFrom]
  | cons i rest ih =>
    intro curDim invalid
    simp only [invalidIndicesFrom]
    rw [ih (curDim + 1) (invalid || decide (i < 0) || decide (i ≥ dims curDim)),
      ih (curDim + 1) (false || decide (i < 0) || decide (i ≥ dims curDim))]
    simp [Bool.or_assoc]

theorem invalidIndicesFrom_next (dims : Nat → Int) (indices : List Int) :
    ∀ (curDim : Nat) (invalid : Bool),
      invalidIndicesFrom dims (curDim + 1) indices invalid =
        invalidIndicesFrom (ptrNext dims) curDim indices invalid := by
  induction indices with
  | nil => intro curDim invalid; rfl
  | cons i rest ih =>
    intro curDim invalid
    simp only [invalidIndicesFrom]
    rw [ih]
    rfl

theorem invalidIndices_cons (dims : Nat → Int) (index : Int) (indices : List Int) :
    invalidIndices dims (index :: indices) =
      (decide (index < 0) || decide (index ≥ dims 0) || invalidIndices (ptrNext dims) indices) := by
  unfold invalidIndices
  rw [invalidIndicesFrom, invalidIndicesFrom_flag, invalidIndicesFrom_next]
  simp

/-- Chained subscripting on a slice whose rank is the number of indices: it
aborts when the bounds check is on and some index is invalid, and otherwise
names the value at `m_data + getLinearIndex< USD >( m_strides, ... )`. -/
theorem chain_eq (boundsCheck : Bool) (indices : List Int) :
    ∀ (s : ArraySlice) (index : Int), (index :: indices).length = s.NDIM →
      s.chain boundsCheck index indices =
        if boundsCheck && invalidIndices s.m_dims (index :: indices) then none
        else some (s.m_data + getLinearIndex s.USD s.m_strides index indices) := by
  induction indices with
  | nil =>
    intro s index h
    have h1 : s.NDIM = 1 := by simpa using h.symm
    simp [ArraySlice.chain, ArraySlice.subscriptValue, h1, ARRAY_SLICE_CHECK_BOUNDS,
      invalidIndices, invalidIndicesFrom, getLinearIndex]
  | cons i rest ih =>
    intro s index h
    have h1 : s.NDIM > 1 := by simp only [List.length_cons] at h; omega
    rw [ArraySlice.chain, ArraySlice.subscript, if_pos h1, invalidIndices_cons]
    by_cases hc : ARRAY_SLICE_CHECK_BOUNDS boundsCheck s.m_dims index = true
    · rw [if_pos hc]
      unfold ARRAY_SLICE_CHECK_BOUNDS at hc
      simp only [Bool.and_eq_true] at hc
      simp [hc.1, hc.2]
    · rw [if_neg hc]
      simp only []
      rw [ih _ i (by simp only [List.length_cons] at h ⊢; omega)]
      unfold ARRAY_SLICE_CHECK_BOUNDS at hc
      simp only [getLinearIndex]
      cases boundsCheck with
      | false => simp [add_assoc]
      | true =>
        simp only [Bool.true_and] at hc ⊢
        have hc2 : (decide (index < 0) || decide (index ≥ s.m_dims 0)) = false := by
          simpa using hc
        rw [hc2]
        simp [add_assoc]

/-- Claim C1. On every slice of rank `N` and every tuple of `N` indices, chained
subscripting `s[i0][i1]...[iN-1]` and the multi-index access `s(i0,...,iN-1)`
agree: both abort in the same cases (bounds checking on and an invalid index),
and otherwise both name the value at `m_data + linearIndex(i0,...,iN-1)`, so
the offsets added by the successive `operator[]` calls sum to the linear
index. -/
theorem chain_eq_call (boundsCheck : Bool) (s : ArraySlice) (index : Int) (indices : List Int)
    (hN : (index :: indices).length = s.NDIM) :
    s.chain boundsCheck index indices = s.call boundsCheck index indices ∧
      (s.chain boundsCheck index indices = none ↔
        (boundsCheck = true ∧ invalidIndices s.m_dims (index :: indices) = true)) ∧
      (s.linearIndex false index indices = some (getLinearIndex s.USD s.m_strides index indices) ∧
        s.chain false index indices =
          some (s.m_data + getLinearIndex s.USD s.m_strides index indices)) := by
  rw [chain_eq boundsCheck indices s index hN, chain_eq false indices s index hN]
  refine ⟨?_, ?_, ?_, ?_⟩
  · unfold ArraySlice.call ArraySlice.linearIndex
    rw [if_pos hN, if_pos hN]
    by_cases hc : (boundsCheck && invalidIndices s.m_dims (index :: indices)) = true
    · rw [if_pos hc, if_pos hc]; rfl
    · rw [if_neg hc, if_neg hc]; rfl
  · by_cases hc : (boundsCheck && invalidIndices s.m_dims (index :: indices)) = true
    · rw [if_pos hc]; simpa using hc
    · rw [if_neg hc]; simpa using hc
  · unfold ArraySlice.linearIndex
    rw [if_pos hN]
    simp
  · simp

/-- Witness of claim C1: the `2 x 4 x 3` slice with strides `(12, 1, 4)` and the
middle dimension contiguous, at the index `(1, 2, 2)`, bounds checking on. -/
theorem chain_eq_call_witness :
    ArraySlice.chain true ⟨3, 1, 0, fun d => [2, 4, 3].getD d 0, fun d => [12, 1, 4].getD d 0⟩
        1 [2, 2] = some 22 ∧
      ArraySlice.call true ⟨3, 1, 0, fun d => [2, 4, 3].getD d 0, fun d => [12, 1, 4].getD d 0⟩
        1 [2, 2] = some 22 := by
  have h := chain_eq_call true
    ⟨3, 1, 0, fun d => [2, 4, 3].getD d 0, fun d => [12, 1, 4].getD d 0⟩ 1 [2, 2] (by decide)
  refine ⟨?_, ?_⟩
  · decide
  · rw [← h.1]; decide

end LvArray

/-! ### Binary search -/

theorem std.lower_bound_loop_spec {T : Type} [LinearOrder T] (a : List T) (v : T)
    (hs : a.Pairwise (fun x y => x < y)) :
    ∀ (fuel first len : Nat), len ≤ fuel → first + len ≤ a.length →
      (∀ j (h : j < a.length), j < first → a[j] < v) →
      (∀ j (h : j < a.length), first + len ≤ j → ¬ a[j] < v) →
      std.lower_bound_loop a v fuel first len ≤ a.length ∧
        (∀ j (h : j < a.length), j < std.lower_bound_loop a v fuel first len → a[j] < v) ∧
        (∀ j (h : j < a.length), std.lower_bound_loop a v fuel first len ≤ j → ¬ a[j] < v) := by
  intro fuel
  induction fuel with
  | zero =>
    intro first len h0 h1 h2 h3
    have e : len = 0 := by omega
    subst e
    exact ⟨by simpa [std.lower_bound_loop] using h1, by simpa [std.lower_bound_loop] using h2,
      by simpa [std.lower_bound_loop] using h3⟩
  | succ fuel ih =>
    intro first len h0 h1 h2 h3
    rw [std.lower_bound_loop]
    by_cases hl : 0 < len
    · rw [if_pos hl]
      have hm : first + len / 2 < a.length := by omega
      rw [List.getElem?_eq_getElem hm]
      simp only []
      have hp := List.pairwise_iff_getElem.mp hs
      by_cases hc : a[first + len / 2] < v
      · rw [if_pos hc]
        apply ih _ _ (by omega) (by omega)
        · intro j h hj
          by_cases e : j = first + len / 2
          · subst e; exact hc
          · exact lt_trans (hp j (first + len / 2) h hm (by omega)) hc
        · intro j h hj
          exact h3 j h (by omega)
      · rw [if_neg hc]
        apply ih _ _ (by omega) (by omega) h2
        intro j h hj
        by_cases e : j = first + len / 2
        · subst e; exact hc
        · intro hlt
          exact hc (lt_trans (hp (first + len / 2) j hm h (by omega)) hlt)
    · rw [if_neg hl]
      have e : len = 0 := by omega
      subst e
      exact ⟨h1, h2, h3⟩

/-- On strictly increasing values `std::lower_bound` returns the position that
splits them into the values below `v` and the values not below `v`. -/
theorem std.lower_bound_spec {T : Type} [LinearOrder T] (a : List T) (v : T)
    (hs : a.Pairwise (fun x y => x < y)) :
    std.lower_bound a v ≤ a.length ∧
      (∀ x ∈ a.take (std.lower_bound a v), x < v) ∧
      (∀ x ∈ a.drop (std.lower_bound a v), v ≤ x) := by
  have h : std.lower_bound a v ≤ a.length ∧
      (∀ j (h : j < a.length), j < std.lower_bound a v → a[j] < v) ∧
      (∀ j (h : j < a.length), std.lower_bound a v ≤ j → ¬ a[j] < v) :=
    std.lower_bound_loop_spec a v hs a.length 0 a.length (le_refl _) (by omega)
      (fun j _ hj => absurd hj (by omega)) (fun j h hj => absurd h (by omega))
  refine ⟨h.1, ?_, ?_⟩
  · intro x hx
    obtain ⟨j, hj, rfl⟩ := List.mem_iff_getElem.mp hx
    have hj2 : j < min (std.lower_bound a v) a.length := by simpa using hj
    rw [List.getElem_take]
    exact h.2.1 j (by omega) (by omega)
  · intro x hx
    obtain ⟨j, hj, rfl⟩ := List.mem_iff_getElem.mp hx
    have hj2 : j < a.length - std.lower_bound a v := by simpa using hj
    rw [List.getElem_drop]
    exact not_lt.mp (h.2.2 _ (by omega) (by omega))

/-! ### Strictly increasing lists split at the lower bound -/

theorem take_lower_bound_eq_filter {T : Type} [LinearOrder T] (a : List T) (v : T)
    (hs : a.Pairwise (fun x y => x < y)) :
    a.take (std.lower_bound a v) = a.filter (fun x => decide (x < v)) := by
  obtain ⟨_, h1, h2⟩ := std.lower_bound_spec a v hs
  conv_rhs => rw [← List.take_append_drop (std.lower_bound a v) a]
  rw [List.filter_append, List.filter_eq_self.mpr (fun x hx => by simpa using h1 x hx),
    List.filter_eq_nil_iff.mpr (fun x hx => by simpa using h2 x hx), List.append_nil]

theorem found_iff_mem {T : Type} [LinearOrder T] (a : List T) (v : T)
    (hs : a.Pairwise (fun x y => x < y)) :
    a[std.lower_bound a v]? = some v ↔ v ∈ a := by
  obtain ⟨_, h1, h2⟩ := std.lower_bound_spec a v hs
  constructor
  · intro h
    exact List.getElem?_mem h
  · intro h
    rw [← List.take_append_drop (std.lower_bound a v) a, List.mem_append] at h
    rcases h with h | h
    · exact absurd (h1 v h) (lt_irrefl v)
    · have hd : (a.drop (std.lower_bound a v)).Pairwise (fun x y => x < y) :=
        hs.sublist (List.drop_sublist _ _)
      rw [← Nat.add_zero (std.lower_bound a v), ← List.getElem?_drop]
      cases hl : a.drop (std.lower_bound a v) with
      | nil => rw [hl] at h; simp at h
      | cons y rest =>
        rw [hl] at h hd h2
        simp only [List.getElem?_cons_zero, Option.some.injEq]
        rcases List.mem_cons.mp h with e | e
        · exact e.symm
        · exact absurd (lt_of_lt_of_le ((List.pairwise_cons.mp hd).1 v e)
            (h2 y (List.mem_cons_self _ _))) (lt_irrefl y)

theorem drop_lower_bound_of_not_mem {T : Type} [LinearOrder T] (a : List T) (v : T)
    (hs : a.Pairwise (fun x y => x < y)) (hv : v ∉ a) :
    a.drop (std.lower_bound a v) = a.filter (fun x => decide (v < x)) := by
  obtain ⟨_, h1, h2⟩ := std.lower_bound_spec a v hs
  conv_rhs => rw [← List.take_append_drop (std.lower_bound a v) a]
  rw [List.filter_append,
    List.filter_eq_nil_iff.mpr (fun x hx => by simpa using le_of_lt (h1 x hx)),
    List.filter_eq_self.mpr (fun x hx => by
      have hx2 : x ∈ a := List.mem_of_mem_drop hx
      simpa using lt_of_le_of_ne (h2 x hx) (fun e => hv (e ▸ hx2))),
    List.nil_append]

theorem drop_lower_bound_of_mem {T : Type} [LinearOrder T] (a : List T) (v : T)
    (hs : a.Pairwise (fun x y => x < y)) (hv : v ∈ a) :
    a.drop (std.lower_bound a v) = v :: a.drop (std.lower_bound a v + 1) ∧
      a.drop (std.lower_bound a v + 1) = a.filter (fun x => decide (v < x)) := by
  obtain ⟨_, h1, h2⟩ := std.lower_bound_spec a v hs
  have hf := (found_iff_mem a v hs).mpr hv
  obtain ⟨hlt, hget⟩ := List.getElem?_eq_some_iff.mp hf
  have e : a.drop (std.lower_bound a v) = v :: a.drop (std.lower_bound a v + 1) := by
    rw [List.drop_eq_getElem_cons hlt, hget]
  refine ⟨e, ?_⟩
  have hd : (a.drop (std.lower_bound a v)).Pairwise (fun x y => x < y) :=
    hs.sublist (List.drop_sublist _ _)
  rw [e] at hd
  conv_rhs => rw [← List.take_append_drop (std.lower_bound a v) a, e]
  rw [List.filter_append,
    List.filter_eq_nil_iff.mpr (fun x hx => by simpa using le_of_lt (h1 x hx)),
    List.filter_cons_of_neg (by simp),
    List.filter_eq_self.mpr (fun x hx => by simpa using (List.pairwise_cons.mp hd).1 x hx),
    List.nil_append]

/-- The values below `v`, then `v`, then the values above `v`: strictly
increasing when the list is. -/
theorem pairwise_insert_sorted {T : Type} [LinearOrder T] (a : List T) (v : T)
    (hs : a.Pairwise (fun x y => x < y)) :
    (a.filter (fun x => decide (x < v)) ++ v :: a.filter (fun x => decide (v < x))).Pairwise
      (fun x y => x < y) := by
  rw [List.pairwise_append]
  refine ⟨hs.sublist (List.filter_sublist _), ?_, ?_⟩
  · rw [List.pairwise_cons]
    refine ⟨fun x hx => by simpa using (List.mem_filter.mp hx).2,
      hs.sublist (List.filter_sublist _)⟩
  · intro x hx y hy
    have h1 : x < v := by simpa using (List.mem_filter.mp hx).2
    rcases List.mem_cons.mp hy with e | e
    · rw [e]; exact h1
    · exact lt_trans h1 (by simpa using (List.mem_filter.mp e).2)

theorem filter_lt_append_filter_gt {T : Type} [LinearOrder T] (a : List T) (v : T)
    (hs : a.Pairwise (fun x y => x < y)) :
    a.filter (fun x => decide (x < v)) ++ a.filter (fun x => decide (v < x)) =
      a.filter (fun x => decide (x ≠ v)) := by
  induction a with
  | nil => rfl
  | cons y rest ih =>
    have hp := List.pairwise_cons.mp hs
    rcases lt_trichotomy y v with h | h | h
    · rw [List.filter_cons_of_pos (by simpa using h),
        List.filter_cons_of_neg (by simpa using le_of_lt h),
        List.filter_cons_of_pos (by simpa using ne_of_lt h), List.cons_append, ih hp.2]
    · subst h
      rw [List.filter_cons_of_neg (by simp), List.filter_cons_of_neg (by simp),
        List.filter_cons_of_neg (by simp), ih hp.2]
    · have e : rest.filter (fun x => decide (x < v)) = [] :=
        List.filter_eq_nil_iff.mpr (fun x hx => by simpa using le_of_lt (lt_trans h (hp.1 x hx)))
      have e2 : rest.filter (fun x => decide (x ≠ v)) = rest :=
        List.filter_eq_self.mpr (fun x hx => by simpa using ne_of_gt (lt_trans h (hp.1 x hx)))
      have e3 : rest.filter (fun x => decide (v < x)) = rest :=
        List.filter_eq_self.mpr (fun x hx => by simpa using lt_trans h (hp.1 x hx))
      rw [List.filter_cons_of_neg (by simpa using le_of_lt h),
        List.filter_cons_of_pos (by simpa using h),
        List.filter_cons_of_pos (by simpa using ne_of_gt h), e, e2, e3, List.nil_append]

/-! ### Single insert and remove -/

theorem insert_at_lower_bound {T : Type} [LinearOrder T] (a : List T) (v : T)
    (hs : a.Pairwise (fun x y => x < y)) (hv : v ∉ a) :
    LvArray.arrayManipulation.insert a (std.lower_bound a v) v =
      a.filter (fun x => decide (x < v)) ++ v :: a.filter (fun x => decide (v < x)) := by
  unfold LvArray.arrayManipulation.insert
  rw [take_lower_bound_eq_filter a v hs, drop_lower_bound_of_not_mem a v hs hv]

theorem length_insert_at_lower_bound {T : Type} [LinearOrder T] (a : List T) (v : T)
    (hs : a.Pairwise (fun x y => x < y)) :
    (LvArray.arrayManipulation.insert a (std.lower_bound a v) v).length = a.length + 1 := by
  have h := (std.lower_bound_spec a v hs).1
  unfold LvArray.arrayManipulation.insert
  simp only [List.length_append, List.length_take, List.length_cons, List.length_drop]
  omega

theorem erase_at_lower_bound {T : Type} [LinearOrder T] (a : List T) (v : T)
    (hs : a.Pairwise (fun x y => x < y)) (hv : v ∈ a) :
    LvArray.arrayManipulation.erase a (std.lower_bound a v) =
      a.filter (fun x => decide (x ≠ v)) := by
  unfold LvArray.arrayManipulation.erase
  rw [take_lower_bound_eq_filter a v hs, (drop_lower_bound_of_mem a v hs hv).2,
    filter_lt_append_filter_gt a v hs]

theorem length_erase_at_lower_bound {T : Type} [LinearOrder T] (a : List T) (v : T)
    (hs : a.Pairwise (fun x y => x < y)) (hv : v ∈ a) :
    (LvArray.arrayManipulation.erase a (std.lower_bound a v)).length + 1 = a.length := by
  have hf := (found_iff_mem a v hs).mpr hv
  obtain ⟨hlt, _⟩ := List.getElem?_eq_some_iff.mp hf
  unfold LvArray.arrayManipulation.erase
  simp only [List.length_append, List.length_take, List.length_drop]
  omega

theorem LvArray.SortedArray.insert_of_mem {T : Type} [LinearOrder T] (s : LvArray.SortedArray T)
    (v : T) (hs : s.Inv) (hv : v ∈ s.m_values) : s.insert v = (false, s) := by
  have ht : s.m_values.take s.m_size = s.m_values := by rw [hs.1, List.take_length]
  have hf := (found_iff_mem s.m_values v hs.2).mpr hv
  simp [LvArray.SortedArray.insert, LvArray.sortedArrayManipulation.insert,
    LvArray.sortedArrayManipulation.find, ht, hf]

theorem LvArray.SortedArray.insert_of_not_mem {T : Type} [LinearOrder T]
    (s : LvArray.SortedArray T) (v : T) (hs : s.Inv) (hv : v ∉ s.m_values) :
    s.insert v = (true,
      ⟨s.m_values.filter (fun x => decide (x < v)) ++ v ::
        s.m_values.filter (fun x => decide (v < x)), s.m_size + 1⟩) := by
  have ht : s.m_values.take s.m_size = s.m_values := by rw [hs.1, List.take_length]
  have hf : ¬ s.m_values[std.lower_bound s.m_values v]? = some v :=
    fun h => hv ((found_iff_mem s.m_values v hs.2).mp h)
  simp [LvArray.SortedArray.insert, LvArray.sortedArrayManipulation.insert,
    LvArray.sortedArrayManipulation.find, ht, hf, insert_at_lower_bound s.m_values v hs.2 hv]

theorem LvArray.SortedArray.inv_insert {T : Type} [LinearOrder T] (s : LvArray.SortedArray T)
    (v : T) (hs : s.Inv) : (s.insert v).2.Inv := by
  by_cases hv : v ∈ s.m_values
  · rw [LvArray.SortedArray.insert_of_mem s v hs hv]; exact hs
  · rw [LvArray.SortedArray.insert_of_not_mem s v hs hv]
    refine ⟨?_, pairwise_insert_sorted s.m_values v hs.2⟩
    show s.m_size + 1 = _
    rw [← insert_at_lower_bound s.m_values v hs.2 hv,
      length_insert_at_lower_bound s.m_values v hs.2, hs.1]

theorem SortedArray.insert_lb_of_mem {T : Type} [LinearOrder T] (s : SortedArray T)
    (v : T) (hs : s.Inv) (hv : v ∈ s.m_data) : s.insert v = (false, s) := by
  have hf := (found_iff_mem s.m_data v hs).mpr hv
  obtain ⟨hlt, _⟩ := List.getElem?_eq_some_iff.mp hf
  have hne : std.lower_bound s.m_data v ≠ s.m_data.length := by omega
  simp [SortedArray.insert, SortedArray.find, SortedArray.size, hf, hne]

theorem SortedArray.insert_lb_of_not_mem {T : Type} [LinearOrder T] (s : SortedArray T)
    (v : T) (hs : s.Inv) (hv : v ∉ s.m_data) :
    s.insert v = (true,
      ⟨s.m_data.filter (fun x => decide (x < v)) ++ v ::
        s.m_data.filter (fun x => decide (v < x))⟩) := by
  have hf : ¬ s.m_data[std.lower_bound s.m_data v]? = some v :=
    fun h => hv ((found_iff_mem s.m_data v hs).mp h)
  simp [SortedArray.insert, SortedArray.find, SortedArray.size, hf,
    insert_at_lower_bound s.m_data v hs hv]

theorem SortedArray.inv_insert_lb {T : Type} [LinearOrder T] (s : SortedArray T)
    (v : T) (hs : s.Inv) : (s.insert v).2.Inv := by
  by_cases hv : v ∈ s.m_data
  · rw [SortedArray.insert_lb_of_mem s v hs hv]; exact hs
  · rw [SortedArray.insert_lb_of_not_mem s v hs hv]
    exact pairwise_insert_sorted s.m_data v hs

/-- Claim C4. For every sorted set and value `v`, of the class of `LvArray` and
of the class built on `std::lower_bound` alike, `insert( v )` returns false
exactly when `v` is already stored, and then the array is unchanged; otherwise
it returns true, the size grows by exactly one and the values are the old ones
below `v`, then `v`, then the old ones above `v`; inserting `v` again then
returns false and changes nothing. -/
theorem insert_spec {T : Type} [LinearOrder T] (s : LvArray.SortedArray T) (t : SortedArray T)
    (v : T) (hs : s.Inv) (ht : t.Inv) :
    (((s.insert v).1 = false ↔ v ∈ s.m_values) ∧
      (v ∈ s.m_values → (s.insert v).2 = s) ∧
      (v ∉ s.m_values →
        (s.insert v).1 = true ∧ (s.insert v).2.m_size = s.m_size + 1 ∧
        (s.insert v).2.m_values.length = s.m_values.length + 1 ∧
        (s.insert v).2.m_values = s.m_values.filter (fun x => decide (x < v)) ++ v ::
          s.m_values.filter (fun x => decide (v < x)) ∧
        ((s.insert v).2.insert v).1 = false ∧ ((s.insert v).2.insert v).2 = (s.insert v).2) ∧
      (s.insert v).2.Inv) ∧
    (((t.insert v).1 = false ↔ v ∈ t.m_data) ∧
      (v ∈ t.m_data → (t.insert v).2 = t) ∧
      (v ∉ t.m_data →
        (t.insert v).1 = true ∧ (t.insert v).2.size = t.size + 1 ∧
        (t.insert v).2.m_data = t.m_data.filter (fun x => decide (x < v)) ++ v ::
          t.m_data.filter (fun x => decide (v < x)) ∧
        ((t.insert v).2.insert v).1 = false ∧ ((t.insert v).2.insert v).2 = (t.insert v).2) ∧
      (t.insert v).2.Inv) := by
  refine ⟨⟨?_, ?_, ?_, LvArray.SortedArray.inv_insert s v hs⟩,
    ⟨?_, ?_, ?_, SortedArray.inv_insert_lb t v ht⟩⟩
  · by_cases hv : v ∈ s.m_values
    · simp [LvArray.SortedArray.insert_of_mem s v hs hv, hv]
    · simp [LvArray.SortedArray.insert_of_not_mem s v hs hv, hv]
  · intro hv
    rw [LvArray.SortedArray.insert_of_mem s v hs hv]
  · intro hv
    have hi := LvArray.SortedArray.inv_insert s v hs
    have hm : v ∈ (s.insert v).2.m_values := by
      rw [LvArray.SortedArray.insert_of_not_mem s v hs hv]; simp
    rw [LvArray.SortedArray.insert_of_mem _ v hi hm]
    rw [LvArray.SortedArray.insert_of_not_mem s v hs hv]
    refine ⟨rfl, rfl, ?_, rfl, rfl, rfl⟩
    show (_ ++ _ :: _).length = _
    rw [← insert_at_lower_bound s.m_values v hs.2 hv,
      length_insert_at_lower_bound s.m_values v hs.2]
  · by_cases hv : v ∈ t.m_data
    · simp [SortedArray.insert_lb_of_mem t v ht hv, hv]
    · simp [SortedArray.insert_lb_of_not_mem t v ht hv, hv]
  · intro hv
    rw [SortedArray.insert_lb_of_mem t v ht hv]
  · intro hv
    have hi := SortedArray.inv_insert_lb t v ht
    have hm : v ∈ (t.insert v).2.m_data := by
      rw [SortedArray.insert_lb_of_not_mem t v ht hv]; simp
    rw [SortedArray.insert_lb_of_mem _ v hi hm]
    rw [SortedArray.insert_lb_of_not_mem t v ht hv]
    refine ⟨rfl, ?_, rfl, rfl, rfl⟩
    show (_ ++ _ :: _).length = _
    rw [← insert_at_lower_bound t.m_data v ht hv, length_insert_at_lower_bound t.m_data v ht]
    rfl

/-- Witness of claim C4: inserting 6 into the set 1, 5, 9 in both classes. -/
theorem insert_spec_witness :
    (LvArray.SortedArray.insert (⟨[1, 5, 9], 3⟩ : LvArray.SortedArray Int) 6).2 =
        ⟨[1, 5, 6, 9], 4⟩ ∧
      (SortedArray.insert (⟨[1, 5, 9]⟩ : SortedArray Int) 6).2.m_data = [1, 5, 6, 9] := by
  have h := insert_spec (⟨[1, 5, 9], 3⟩ : LvArray.SortedArray Int) (⟨[1, 5, 9]⟩ : SortedArray Int)
    6 ⟨rfl, by decide⟩ (by unfold SortedArray.Inv; decide)
  refine ⟨?_, ?_⟩
  · have h1 := h.1.2.2.1 (by decide)
    decide
  · rw [(h.2.2.2.1 (by decide)).2.2.1]
    decide

theorem LvArray.SortedArray.remove_of_not_mem {T : Type} [LinearOrder T]
    (s : LvArray.SortedArray T) (v : T) (hs : s.Inv) (hv : v ∉ s.m_values) :
    s.remove v = (false, s) := by
  have ht : s.m_values.take s.m_size = s.m_values := by rw [hs.1, List.take_length]
  have hf : ¬ s.m_values[std.lower_bound s.m_values v]? = some v :=
    fun h => hv ((found_iff_mem s.m_values v hs.2).mp h)
  simp [LvArray.SortedArray.remove, LvArray.sortedArrayManipulation.remove,
    LvArray.sortedArrayManipulation.find, ht, hf]

theorem LvArray.SortedArray.remove_of_mem {T : Type} [LinearOrder T]
    (s : LvArray.SortedArray T) (v : T) (hs : s.Inv) (hv : v ∈ s.m_values) :
    s.remove v = (true, ⟨s.m_values.filter (fun x => decide (x ≠ v)), s.m_size - 1⟩) := by
  have ht : s.m_values.take s.m_size = s.m_values := by rw [hs.1, List.take_length]
  have hf := (found_iff_mem s.m_values v hs.2).mpr hv
  simp [LvArray.SortedArray.remove, LvArray.sortedArrayManipulation.remove,
    LvArray.sortedArrayManipulation.find, ht, hf, erase_at_lower_bound s.m_values v hs.2 hv]

theorem length_filter_ne_of_mem {T : Type} [LinearOrder T] (a : List T) (v : T)
    (hs : a.Pairwise (fun x y => x < y)) (hv : v ∈ a) :
    (a.filter (fun x => decide (x ≠ v))).length + 1 = a.length := by
  rw [← erase_at_lower_bound a v hs hv]
  exact length_erase_at_lower_bound a v hs hv

theorem LvArray.SortedArray.inv_remove {T : Type} [LinearOrder T] (s : LvArray.SortedArray T)
    (v : T) (hs : s.Inv) : (s.remove v).2.Inv := by
  by_cases hv : v ∈ s.m_values
  · rw [LvArray.SortedArray.remove_of_mem s v hs hv]
    refine ⟨?_, hs.2.sublist (List.filter_sublist _)⟩
    have h := length_filter_ne_of_mem s.m_values v hs.2 hv
    show s.m_size - 1 = (s.m_values.filter (fun x => decide (x ≠ v))).length
    rw [hs.1]
    omega
  · rw [LvArray.SortedArray.remove_of_not_mem s v hs hv]; exact hs

/-- Claim C5. For every sorted set and value `v`, `remove( v )` returns false
exactly when `v` is not stored, and then the array is unchanged; otherwise it
returns true, the size shrinks by exactly one and the values are the old ones
without `v`, in the same order. -/
theorem remove_spec {T : Type} [LinearOrder T] (s : LvArray.SortedArray T) (v : T)
    (hs : s.Inv) :
    ((s.remove v).1 = false ↔ v ∉ s.m_values) ∧
      (v ∉ s.m_values → (s.remove v).2 = s) ∧
      (v ∈ s.m_values →
        (s.remove v).1 = true ∧ (s.remove v).2.m_size + 1 = s.m_size ∧
        (s.remove v).2.m_values.length + 1 = s.m_values.length ∧
        (s.remove v).2.m_values = s.m_values.filter (fun x => decide (x ≠ v)) ∧
        v ∉ (s.remove v).2.m_values) ∧
      (s.remove v).2.Inv := by
  refine ⟨?_, ?_, ?_, LvArray.SortedArray.inv_remove s v hs⟩
  · by_cases hv : v ∈ s.m_values
    · simp [LvArray.SortedArray.remove_of_mem s v hs hv, hv]
    · simp [LvArray.SortedArray.remove_of_not_mem s v hs hv, hv]
  · intro hv
    rw [LvArray.SortedArray.remove_of_not_mem s v hs hv]
  · intro hv
    have h := length_filter_ne_of_mem s.m_values v hs.2 hv
    rw [LvArray.SortedArray.remove_of_mem s v hs hv]
    refine ⟨rfl, ?_, h, rfl, ?_⟩
    · show s.m_size - 1 + 1 = s.m_size
      rw [hs.1]
      omega
    · simp

/-- Witness of claim C5: removing 5 from the set 1, 5, 9. -/
theorem remove_spec_witness :
    (LvArray.SortedArray.remove (⟨[1, 5, 9], 3⟩ : LvArray.SortedArray Int) 5).2.m_values =
      [1, 9] := by
  have h := remove_spec (⟨[1, 5, 9], 3⟩ : LvArray.SortedArray Int) 5 ⟨rfl, by decide⟩
  rw [(h.2.2.1 (by decide)).2.2.2.1]
  decide

/-- Claim C6, at the failing input: in the class built on `std::lower_bound`,
`erase( 3 )` on the set holding only 5 removes 5, although 3 is not stored; and
`erase( 4 )` on the set 1, 5, 9 removes 5. -/
theorem erase_absent_removes_next :
    (SortedArray.erase (⟨[5]⟩ : SortedArray Int) 3).m_data = [] ∧
      (3 : Int) ∉ (⟨[5]⟩ : SortedArray Int).m_data ∧
      (SortedArray.erase (⟨[1, 5, 9]⟩ : SortedArray Int) 4).m_data = [1, 9] := by
  decide

/-! ### Bulk insert and remove -/

theorem pairwise_lt_nodup {T : Type} [LinearOrder T] (a : List T)
    (hs : a.Pairwise (fun x y => x < y)) : a.Nodup :=
  hs.imp (fun h => ne_of_lt h)

theorem length_filter_mem_comm {T : Type} [LinearOrder T] (a b : List T) (ha : a.Nodup)
    (hb : b.Nodup) :
    (a.filter (fun x => decide (x ∈ b))).length = (b.filter (fun x => decide (x ∈ a))).length := by
  apply List.Perm.length_eq
  rw [List.perm_ext_iff_of_nodup (ha.filter _) (hb.filter _)]
  intro x
  simp only [List.mem_filter, decide_eq_true_eq]
  tauto

/-- On a decreasing batch, the cursor moves of the merge select the batch values
above `x` and leave the batch values below `x`. -/
theorem merge_cursor {T : Type} [LinearOrder T] (x : T) (batch : List T)
    (hb : batch.Pairwise (fun a b => b < a)) :
    batch.takeWhile (fun b => decide (x < b)) = batch.filter (fun b => decide (x < b)) ∧
      (match batch.dropWhile (fun b => decide (x < b)) with
        | [] => []
        | b :: rest => if b = x then rest else b :: rest) =
        batch.filter (fun b => decide (b < x)) := by
  induction batch with
  | nil => exact ⟨rfl, rfl⟩
  | cons b l ih =>
    have hp := List.pairwise_cons.mp hb
    by_cases h : x < b
    · rw [List.takeWhile_cons_of_pos (by simpa using h),
        List.dropWhile_cons_of_pos (by simpa using h),
        List.filter_cons_of_pos (by simpa using h),
        List.filter_cons_of_neg (by simpa using le_of_lt h), (ih hp.2).1, (ih hp.2).2]
      exact ⟨rfl, rfl⟩
    · have e1 : l.filter (fun y => decide (x < y)) = [] :=
        List.filter_eq_nil_iff.mpr (fun y hy => by
          simpa using le_trans (le_of_lt (hp.1 y hy)) (not_lt.mp h))
      have e2 : l.filter (fun y => decide (y < x)) = l :=
        List.filter_eq_self.mpr (fun y hy => by
          simpa using lt_of_lt_of_le (hp.1 y hy) (not_lt.mp h))
      rw [List.takeWhile_cons_of_neg (by simpa using h),
        List.dropWhile_cons_of_neg (by simpa using h),
        List.filter_cons_of_neg (by simpa using h), e1]
      refine ⟨rfl, ?_⟩
      by_cases e : b = x
      · subst e
        rw [List.filter_cons_of_neg (by simp), e2]
        simp
      · rw [List.filter_cons_of_pos (by simpa using lt_of_le_of_ne (not_lt.mp h) e), e2]
        simp [e]

theorem mergeFromBack_cons {T : Type} [LinearOrder T] (x : T) (values batch : List T)
    (hb : batch.Pairwise (fun a b => b < a)) :
    LvArray.sortedArrayManipulation.mergeFromBack (x :: values) batch =
      batch.filter (fun b => decide (x < b)) ++ x ::
        LvArray.sortedArrayManipulation.mergeFromBack values
          (batch.filter (fun b => decide (b < x))) := by
  rw [LvArray.sortedArrayManipulation.mergeFromBack, (merge_cursor x batch hb).1,
    (merge_cursor x batch hb).2]

/-- The merge from the back of two decreasing lists is decreasing and holds
exactly the values of the two lists. -/
theorem mergeFromBack_spec {T : Type} [LinearOrder T] (values : List T) :
    ∀ batch : List T, values.Pairwise (fun a b => b < a) → batch.Pairwise (fun a b => b < a) →
      (LvArray.sortedArrayManipulation.mergeFromBack values batch).Pairwise (fun a b => b < a) ∧
        ∀ z, z ∈ LvArray.sortedArrayManipulation.mergeFromBack values batch ↔
          z ∈ values ∨ z ∈ batch := by
  induction values with
  | nil =>
    intro batch _ hb
    rw [LvArray.sortedArrayManipulation.mergeFromBack]
    exact ⟨hb, fun z => by simp⟩
  | cons x values ih =>
    intro batch hv hb
    have hp := List.pairwise_cons.mp hv
    obtain ⟨h1, h2⟩ := ih (batch.filter (fun b => decide (b < x))) hp.2
      (hb.sublist (List.filter_sublist _))
    rw [mergeFromBack_cons x values batch hb]
    constructor
    · rw [List.pairwise_append]
      refine ⟨hb.sublist (List.filter_sublist _), ?_, ?_⟩
      · rw [List.pairwise_cons]
        refine ⟨?_, h1⟩
        intro z hz
        rcases (h2 z).mp hz with h | h
        · exact hp.1 z h
        · simpa using (List.mem_filter.mp h).2
      · intro a ha z hz
        have hxa : x < a := by simpa using (List.mem_filter.mp ha).2
        rcases List.mem_cons.mp hz with e | e
        · rw [e]; exact hxa
        · rcases (h2 z).mp e with h | h
          · exact lt_trans (hp.1 z h) hxa
          · exact lt_trans (by simpa using (List.mem_filter.mp h).2) hxa
    · intro z
      simp only [List.mem_append, List.mem_cons, List.mem_filter, decide_eq_true_eq, h2]
      constructor
      · rintro (⟨h, _⟩ | rfl | h | ⟨h, _⟩)
        · exact Or.inr h
        · exact Or.inl (Or.inl rfl)
        · exact Or.inl (Or.inr h)
        · exact Or.inr h
      · rintro ((rfl | h) | h)
        · exact Or.inr (Or.inl rfl)
        · exact Or.inr (Or.inr (Or.inl h))
        · rcases lt_trichotomy x z with c | c | c
          · exact Or.inl ⟨h, c⟩
          · exact Or.inr (Or.inl c.symm)
          · exact Or.inr (Or.inr (Or.inr ⟨h, c⟩))

/-- On increasing values, the cursor move of the counting pass tells whether
`b` is stored and leaves the values above `b`. -/
theorem count_cursor {T : Type} [LinearOrder T] (b : T) (f : List T → Nat) (values : List T)
    (hv : values.Pairwise (fun x y => x < y)) :
    (match values.dropWhile (fun x => decide (x < b)) with
      | [] => 1 + f []
      | x :: rest => if x = b then f rest else 1 + f (x :: rest)) =
      (if b ∈ values then 0 else 1) + f (values.filter (fun x => decide (b < x))) := by
  induction values with
  | nil => simp
  | cons x l ih =>
    have hp := List.pairwise_cons.mp hv
    by_cases h : x < b
    · rw [List.dropWhile_cons_of_pos (by simpa using h),
        List.filter_cons_of_neg (by simpa using le_of_lt h), ih hp.2]
      have e : (b ∈ x :: l) ↔ b ∈ l := by
        simp only [List.mem_cons, or_iff_right_iff_imp]
        intro e; exact absurd (e ▸ h) (lt_irrefl _)
      simp only [e]
    · have e2 : l.filter (fun y => decide (b < y)) = l :=
        List.filter_eq_self.mpr (fun y hy => by
          simpa using lt_of_le_of_lt (not_lt.mp h) (hp.1 y hy))
      rw [List.dropWhile_cons_of_neg (by simpa using h)]
      by_cases e : x = b
      · subst e
        rw [List.filter_cons_of_neg (by simp), e2]
        simp
      · have hlt : b < x := lt_of_le_of_ne (not_lt.mp h) (fun c => e c.symm)
        have hn : b ∉ x :: l := by
          intro hm
          rcases List.mem_cons.mp hm with c | c
          · exact e c.symm
          · exact absurd (lt_trans hlt (hp.1 b c)) (lt_irrefl _)
        rw [List.filter_cons_of_pos (by simpa using hlt), e2]
        simp [e, hn]

theorem countNew_spec {T : Type} [LinearOrder T] (batch : List T) :
    ∀ values : List T, batch.Pairwise (fun x y => x < y) → values.Pairwise (fun x y => x < y) →
      LvArray.sortedArrayManipulation.countNew batch values =
        (batch.filter (fun b => decide (b ∉ values))).length := by
  induction batch with
  | nil => intro values _ _; rfl
  | cons b batch ih =>
    intro values hb hv
    have hp := List.pairwise_cons.mp hb
    rw [LvArray.sortedArrayManipulation.countNew,
      count_cursor b (LvArray.sortedArrayManipulation.countNew batch) values hv,
      ih _ hp.2 (hv.sublist (List.filter_sublist _))]
    have e : batch.filter (fun y => decide (y ∉ values.filter (fun x => decide (b < x)))) =
        batch.filter (fun y => decide (y ∉ values)) := by
      apply List.filter_congr
      intro y hy
      have hy2 := hp.1 y hy
      simp [List.mem_filter, hy2]
    rw [e]
    by_cases hm : b ∈ values
    · rw [if_pos hm, List.filter_cons_of_neg (by simpa using hm)]
      omega
    · rw [if_neg hm, List.filter_cons_of_pos (by simpa using hm), List.length_cons]
      omega

theorem removeSorted_nil {T : Type} [LinearOrder T] (values : List T) :
    LvArray.sortedArrayManipulation.removeSorted values [] = (0, values) := by
  cases values with
  | nil => rfl
  | cons x l => rfl

/-- On an increasing batch, the cursor move of the removing pass tells whether
`x` is in the batch and leaves the batch values above `x`. -/
theorem remove_cursor {T : Type} [LinearOrder T] (x : T) (values batch : List T)
    (hb : batch.Pairwise (fun a b => a < b)) :
    LvArray.sortedArrayManipulation.removeSorted (x :: values) batch =
      if x ∈ batch then
        ((LvArray.sortedArrayManipulation.removeSorted values
            (batch.filter (fun b => decide (x < b)))).1 + 1,
          (LvArray.sortedArrayManipulation.removeSorted values
            (batch.filter (fun b => decide (x < b)))).2)
      else
        ((LvArray.sortedArrayManipulation.removeSorted values
            (batch.filter (fun b => decide (x < b)))).1,
          x :: (LvArray.sortedArrayManipulation.removeSorted values
            (batch.filter (fun b => decide (x < b)))).2) := by
  induction batch with
  | nil =>
    rw [LvArray.sortedArrayManipulation.removeSorted]
    simp [removeSorted_nil]
  | cons b l ih =>
    have hp := List.pairwise_cons.mp hb
    by_cases h : b < x
    · have e : (x ∈ b :: l) ↔ x ∈ l := by
        simp only [List.mem_cons, or_iff_right_iff_imp]
        intro e; exact absurd (e ▸ h) (lt_irrefl _)
      rw [LvArray.sortedArrayManipulation.removeSorted,
        List.dropWhile_cons_of_pos (by simpa using h),
        List.filter_cons_of_neg (by simpa using le_of_lt h)]
      rw [LvArray.sortedArrayManipulation.removeSorted] at ih
      rw [ih hp.2]
      simp only [e]
    · have e2 : l.filter (fun y => decide (x < y)) = l :=
        List.filter_eq_self.mpr (fun y hy => by
          simpa using lt_of_le_of_lt (not_lt.mp h) (hp.1 y hy))
      rw [LvArray.sortedArrayManipulation.removeSorted,
        List.dropWhile_cons_of_neg (by simpa using h)]
      by_cases e : b = x
      · subst e
        rw [List.filter_cons_of_neg (by simp), e2]
        simp
      · have hlt : x < b := lt_of_le_of_ne (not_lt.mp h) (fun c => e c.symm)
        have hn : x ∉ b :: l := by
          intro hm
          rcases List.mem_cons.mp hm with c | c
          · exact e c.symm
          · exact absurd (lt_trans hlt (hp.1 x c)) (lt_irrefl _)
        rw [List.filter_cons_of_pos (by simpa using hlt), e2]
        simp [e, hn]

theorem removeSorted_spec {T : Type} [LinearOrder T] (values : List T) :
    ∀ batch : List T, values.Pairwise (fun x y => x < y) → batch.Pairwise (fun x y => x < y) →
      LvArray.sortedArrayManipulation.removeSorted values batch =
        ((values.filter (fun x => decide (x ∈ batch))).length,
          values.filter (fun x => decide (x ∉ batch))) := by
  induction values with
  | nil => intro batch _ _; rfl
  | cons x values ih =>
    intro batch hv hb
    have hp := List.pairwise_cons.mp hv
    rw [remove_cursor x values batch hb, ih _ hp.2 (hb.sublist (List.filter_sublist _))]
    have e1 : values.filter (fun y => decide (y ∈ batch.filter (fun b => decide (x < b)))) =
        values.filter (fun y => decide (y ∈ batch)) := by
      apply List.filter_congr
      intro y hy
      have hy2 := hp.1 y hy
      simp [List.mem_filter, hy2]
    have e2 : values.filter (fun y => decide (y ∉ batch.filter (fun b => decide (x < b)))) =
        values.filter (fun y => decide (y ∉ batch)) := by
      apply List.filter_congr
      intro y hy
      have hy2 := hp.1 y hy
      simp [List.mem_filter, hy2]
    simp only [e1, e2]
    by_cases hm : x ∈ batch
    · rw [if_pos hm, List.filter_cons_of_pos (by simpa using hm),
        List.filter_cons_of_neg (by simpa using hm), List.length_cons]
    · rw [if_neg hm, List.filter_cons_of_neg (by simpa using hm),
        List.filter_cons_of_pos (by simpa using hm)]

theorem insertSorted_values {T : Type} [LinearOrder T] (values batch : List T)
    (hv : values.Pairwise (fun x y => x < y)) (hb : batch.Pairwise (fun x y => x < y)) :
    ((LvArray.sortedArrayManipulation.mergeFromBack values.reverse batch.reverse).reverse).Pairwise
        (fun x y => x < y) ∧
      (∀ z, z ∈ (LvArray.sortedArrayManipulation.mergeFromBack values.reverse
        batch.reverse).reverse ↔ z ∈ values ∨ z ∈ batch) ∧
      ((LvArray.sortedArrayManipulation.mergeFromBack values.reverse batch.reverse).reverse).length =
        values.length + (batch.filter (fun b => decide (b ∉ values))).length := by
  obtain ⟨h1, h2⟩ := mergeFromBack_spec values.reverse batch.reverse
    (List.pairwise_reverse.mpr hv) (List.pairwise_reverse.mpr hb)
  have hs : ((LvArray.sortedArrayManipulation.mergeFromBack values.reverse
      batch.reverse).reverse).Pairwise (fun x y => x < y) := List.pairwise_reverse.mpr h1
  have hm : ∀ z, z ∈ (LvArray.sortedArrayManipulation.mergeFromBack values.reverse
      batch.reverse).reverse ↔ z ∈ values ∨ z ∈ batch := by
    intro z
    rw [List.mem_reverse, h2, List.mem_reverse, List.mem_reverse]
  refine ⟨hs, hm, ?_⟩
  rw [← List.length_append]
  apply List.Perm.length_eq
  have hn : (values ++ batch.filter (fun b => decide (b ∉ values))).Nodup := by
    rw [List.nodup_append]
    refine ⟨pairwise_lt_nodup values hv, (pairwise_lt_nodup batch hb).filter _, ?_⟩
    intro z hz hz2
    have := (List.mem_filter.mp hz2).2
    simp only [decide_eq_true_eq] at this
    exact this hz
  rw [List.perm_ext_iff_of_nodup (pairwise_lt_nodup _ hs) hn]
  intro z
  rw [hm, List.mem_append, List.mem_filter]
  simp only [decide_eq_true_eq]
  tauto

/-- Claim C7. For every sorted set and every sorted, duplicate free range, the
bulk `insert( first, last )` leaves exactly the values of the set and of the
range (their union), strictly increasing, returns the number of values of the
range that were not stored, and increases the size by exactly that number. -/
theorem insertSorted_spec {T : Type} [LinearOrder T] (s : LvArray.SortedArray T)
    (batch : List T) (hs : s.Inv) (hb : batch.Pairwise (fun x y => x < y)) :
    (∀ z, z ∈ (s.insertSorted batch).2.m_values ↔ z ∈ s.m_values ∨ z ∈ batch) ∧
      (s.insertSorted batch).2.m_values.Pairwise (fun x y => x < y) ∧
      (s.insertSorted batch).1 = (batch.filter (fun b => decide (b ∉ s.m_values))).length ∧
      (s.insertSorted batch).2.m_size = s.m_size + (s.insertSorted batch).1 ∧
      (s.insertSorted batch).2.m_values.length =
        s.m_values.length + (s.insertSorted batch).1 ∧
      (s.insertSorted batch).2.Inv := by
  have ht : s.m_values.take s.m_size = s.m_values := by rw [hs.1, List.take_length]
  obtain ⟨h1, h2, h3⟩ := insertSorted_values s.m_values batch hs.2 hb
  have hc := countNew_spec batch s.m_values hb hs.2
  have e1 : (s.insertSorted batch).1 =
      (batch.filter (fun b => decide (b ∉ s.m_values))).length := by
    simp only [LvArray.SortedArray.insertSorted, LvArray.sortedArrayManipulation.insertSorted, ht]
    exact hc
  have e2 : (s.insertSorted batch).2.m_values =
      (LvArray.sortedArrayManipulation.mergeFromBack s.m_values.reverse batch.reverse).reverse := by
    simp only [LvArray.SortedArray.insertSorted, LvArray.sortedArrayManipulation.insertSorted, ht]
  have e3 : (s.insertSorted batch).2.m_size = s.m_size + (s.insertSorted batch).1 := rfl
  refine ⟨?_, ?_, e1, e3, ?_, ?_, ?_⟩
  · rw [e2]; exact h2
  · rw [e2]; exact h1
  · rw [e2, e1]; exact h3
  · rw [e3, e2, e1, h3, hs.1]
  · rw [e2]; exact h1

/-- Witness of claim C7: the range 0, 5, 6, 10 inserted into the set 1, 5, 9. -/
theorem insertSorted_spec_witness :
    LvArray.SortedArray.insertSorted (⟨[1, 5, 9], 3⟩ : LvArray.SortedArray Int) [0, 5, 6, 10] =
        (3, ⟨[0, 1, 5, 6, 9, 10], 6⟩) ∧
      (LvArray.SortedArray.insertSorted (⟨[1, 5, 9], 3⟩ : LvArray.SortedArray Int)
        [0, 5, 6, 10]).2.m_size = 3 + 3 := by
  have h := insertSorted_spec (⟨[1, 5, 9], 3⟩ : LvArray.SortedArray Int) [0, 5, 6, 10]
    ⟨rfl, by decide⟩ (by decide)
  refine ⟨by decide, ?_⟩
  rw [h.2.2.2.1, h.2.2.1]
  decide

/-- Claim C8. For every sorted set and every sorted, duplicate free range, the
bulk `remove( first, last )` leaves exactly the values of the set that are not
in the range (the set difference), in their order, returns the number of values
of the range that were stored, and decreases the size by exactly that number. -/
theorem removeSorted_model_spec {T : Type} [LinearOrder T] (s : LvArray.SortedArray T)
    (batch : List T) (hs : s.Inv) (hb : batch.Pairwise (fun x y => x < y)) :
    (s.removeSorted batch).2.m_values = s.m_values.filter (fun x => decide (x ∉ batch)) ∧
      (∀ z, z ∈ (s.removeSorted batch).2.m_values ↔ z ∈ s.m_values ∧ z ∉ batch) ∧
      (s.removeSorted batch).1 = (batch.filter (fun b => decide (b ∈ s.m_values))).length ∧
      (s.removeSorted batch).2.m_size + (s.removeSorted batch).1 = s.m_size ∧
      (s.removeSorted batch).2.m_values.length + (s.removeSorted batch).1 = s.m_values.length ∧
      (s.removeSorted batch).2.Inv := by
  have ht : s.m_values.take s.m_size = s.m_values := by rw [hs.1, List.take_length]
  have hr := removeSorted_spec s.m_values batch hs.2 hb
  have e1 : (s.removeSorted batch).1 =
      (s.m_values.filter (fun x => decide (x ∈ batch))).length := by
    simp only [LvArray.SortedArray.removeSorted, ht, hr]
  have e2 : (s.removeSorted batch).2.m_values =
      s.m_values.filter (fun x => decide (x ∉ batch)) := by
    simp only [LvArray.SortedArray.removeSorted, ht, hr]
  have e3 : (s.removeSorted batch).2.m_size = s.m_size - (s.removeSorted batch).1 := rfl
  have hl : (s.m_values.filter (fun x => decide (x ∉ batch))).length +
      (s.m_values.filter (fun x => decide (x ∈ batch))).length = s.m_values.length := by
    have h := List.length_eq_length_filter_add (l := s.m_values) (fun x => decide (x ∈ batch))
    have e : s.m_values.filter (fun x => !decide (x ∈ batch)) =
        s.m_values.filter (fun x => decide (x ∉ batch)) := by
      apply List.filter_congr; intro x _; simp
    rw [e] at h
    omega
  refine ⟨e2, ?_, ?_, ?_, ?_, ?_, ?_⟩
  · intro z
    rw [e2, List.mem_filter]
    simp
  · rw [e1]
    exact length_filter_mem_comm _ _ (pairwise_lt_nodup _ hs.2) (pairwise_lt_nodup _ hb)
  · rw [e3, e1, hs.1]; omega
  · rw [e2, e1]; exact hl
  · rw [e3, e2, e1, hs.1]; omega
  · rw [e2]; exact hs.2.sublist (List.filter_sublist _)

/-- Witness of claim C8: the range 0, 5, 6, 9 removed from the set 1, 5, 9. -/
theorem removeSorted_model_spec_witness :
    LvArray.SortedArray.removeSorted (⟨[1, 5, 9], 3⟩ : LvArray.SortedArray Int) [0, 5, 6, 9] =
        (2, ⟨[1], 1⟩) ∧
      (LvArray.SortedArray.removeSorted (⟨[1, 5, 9], 3⟩ : LvArray.SortedArray Int)
        [0, 5, 6, 9]).2.m_values = [1] := by
  have h := removeSorted_model_spec (⟨[1, 5, 9], 3⟩ : LvArray.SortedArray Int) [0, 5, 6, 9]
    ⟨rfl, by decide⟩ (by decide)
  refine ⟨by decide, ?_⟩
  rw [h.1]
  decide

/-! ### The invariant of the sorted arrays -/

theorem LvArray.SortedArray.inv_insertSorted {T : Type} [LinearOrder T]
    (s : LvArray.SortedArray T) (batch : List T) (hs : s.Inv)
    (hb : batch.Pairwise (fun x y => x < y)) : (s.insertSorted batch).2.Inv := by
  have ht : s.m_values.take s.m_size = s.m_values := by rw [hs.1, List.take_length]
  obtain ⟨h1, _, h3⟩ := insertSorted_values s.m_values batch hs.2 hb
  have hc := countNew_spec batch s.m_values hb hs.2
  unfold LvArray.SortedArray.Inv
  simp only [LvArray.SortedArray.insertSorted, LvArray.sortedArrayManipulation.insertSorted, ht]
  exact ⟨by rw [h3, hc, hs.1], h1⟩

theorem LvArray.SortedArray.inv_removeSorted {T : Type} [LinearOrder T]
    (s : LvArray.SortedArray T) (batch : List T) (hs : s.Inv)
    (hb : batch.Pairwise (fun x y => x < y)) : (s.removeSorted batch).2.Inv := by
  have ht : s.m_values.take s.m_size = s.m_values := by rw [hs.1, List.take_length]
  have hr := removeSorted_spec s.m_values batch hs.2 hb
  have h := List.length_eq_length_filter_add (l := s.m_values) (fun x => decide (x ∈ batch))
  have e : s.m_values.filter (fun x => !decide (x ∈ batch)) =
      s.m_values.filter (fun x => decide (x ∉ batch)) := by
    apply List.filter_congr; intro x _; simp
  rw [e] at h
  unfold LvArray.SortedArray.Inv
  simp only [LvArray.SortedArray.removeSorted, ht, hr]
  refine ⟨?_, hs.2.sublist (List.filter_sublist _)⟩
  rw [hs.1]
  omega

theorem LvArray.SortedArray.inv_step {T : Type} [LinearOrder T] (s : LvArray.SortedArray T)
    (op : LvArray.SortedArray.Op T) (hs : s.Inv) (hop : op.Valid) : (s.step op).Inv := by
  cases op with
  | insert value => exact LvArray.SortedArray.inv_insert s value hs
  | insertSorted batch => exact LvArray.SortedArray.inv_insertSorted s batch hs hop
  | remove value => exact LvArray.SortedArray.inv_remove s value hs
  | removeSorted batch => exact LvArray.SortedArray.inv_removeSorted s batch hs hop

theorem LvArray.SortedArray.inv_run {T : Type} [LinearOrder T]
    (ops : List (LvArray.SortedArray.Op T)) :
    ∀ s : LvArray.SortedArray T, s.Inv → (∀ op ∈ ops, op.Valid) → (s.run ops).Inv := by
  induction ops with
  | nil => intro s hs _; exact hs
  | cons op ops ih =>
    intro s hs h
    exact ih (s.step op)
      (LvArray.SortedArray.inv_step s op hs (h op (List.mem_cons_self _ _)))
      (fun o ho => h o (List.mem_cons_of_mem _ ho))

theorem SortedArray.inv_insertRange {T : Type} [LinearOrder T] (batch : List T) :
    ∀ s : SortedArray T, s.Inv → (s.insertRange batch).Inv := by
  induction batch with
  | nil => intro s hs; exact hs
  | cons v rest ih => intro s hs; exact ih _ (SortedArray.inv_insert_lb s v hs)

theorem SortedArray.inv_erase {T : Type} [LinearOrder T] (s : SortedArray T) (v : T)
    (hs : s.Inv) : (s.erase v).Inv := by
  unfold SortedArray.erase SortedArray.erasePos
  by_cases h : s.find v = s.size
  · rw [if_pos h]; exact hs
  · rw [if_neg h]
    unfold SortedArray.Inv LvArray.arrayManipulation.erase
    have hp : (s.m_data.take (s.find v) ++ s.m_data.drop (s.find v)).Pairwise
        (fun x y => x < y) := by rw [List.take_append_drop]; exact hs
    rw [List.pairwise_append] at hp ⊢
    have hd : (s.m_data.drop (s.find v + 1)).Sublist (s.m_data.drop (s.find v)) := by
      rw [← List.drop_drop]
      exact List.drop_sublist _ _
    exact ⟨hp.1, hp.2.1.sublist hd, fun a ha b hb => hp.2.2 a ha b (hd.subset hb)⟩

theorem SortedArray.inv_step_lb {T : Type} [LinearOrder T] (s : SortedArray T)
    (op : SortedArray.Op T) (hs : s.Inv) : (s.step op).Inv := by
  cases op with
  | insert value => exact SortedArray.inv_insert_lb s value hs
  | insertRange batch => exact SortedArray.inv_insertRange batch s hs
  | erase value => exact SortedArray.inv_erase s value hs

theorem SortedArray.inv_run_lb {T : Type} [LinearOrder T] (ops : List (SortedArray.Op T)) :
    ∀ s : SortedArray T, s.Inv → (s.run ops).Inv := by
  induction ops with
  | nil => intro s hs; exact hs
  | cons op ops ih => intro s hs; exact ih (s.step op) (SortedArray.inv_step_lb s op hs)

/-- Claim C3. For every sequence of single and bulk insert and remove calls on
an initially empty `LvArray::SortedArray`, every bulk range being sorted and
unique, and for every sequence of insert, range insert and erase calls on an
initially empty `SortedArray` built on `std::lower_bound`, the stored values
are strictly increasing after every call (after the first `k` calls, for every
`k`), and the size counter is the number of stored values. -/
theorem sorted_after_every_call {T : Type} [LinearOrder T]
    (ops : List (LvArray.SortedArray.Op T)) (calls : List (SortedArray.Op T))
    (hops : ∀ op ∈ ops, op.Valid) (k : Nat) :
    (((LvArray.SortedArray.empty : LvArray.SortedArray T).run (ops.take k)).m_values.take
        ((LvArray.SortedArray.empty : LvArray.SortedArray T).run (ops.take k)).m_size).Pairwise
        (fun x y => x < y) ∧
      ((LvArray.SortedArray.empty : LvArray.SortedArray T).run (ops.take k)).Inv ∧
      ((SortedArray.empty : SortedArray T).run (calls.take k)).m_data.Pairwise
        (fun x y => x < y) := by
  have h := LvArray.SortedArray.inv_run (ops.take k) LvArray.SortedArray.empty
    ⟨rfl, List.Pairwise.nil⟩ (fun op ho => hops op (List.mem_of_mem_take ho))
  refine ⟨?_, h, ?_⟩
  · rw [h.1, List.take_length]; exact h.2
  · exact SortedArray.inv_run_lb (calls.take k) SortedArray.empty List.Pairwise.nil

/-- Witness of claim C3: four calls on each class, all of them taken. -/
theorem sorted_after_every_call_witness :
    ((LvArray.SortedArray.empty : LvArray.SortedArray Int).run
        [.insertSorted [2, 4, 8], .insert 3, .remove 4, .removeSorted [1, 2, 9]]).Inv ∧
      ((LvArray.SortedArray.empty : LvArray.SortedArray Int).run
        [.insertSorted [2, 4, 8], .insert 3, .remove 4, .removeSorted [1, 2, 9]]).m_values =
        [3, 8] ∧
      ((SortedArray.empty : SortedArray Int).run
        [.insertRange [8, 2, 4], .insert 3, .erase 4, .erase 8]).m_data.Pairwise
        (fun x y => x < y) ∧
      ((SortedArray.empty : SortedArray Int).run
        [.insertRange [8, 2, 4], .insert 3, .erase 4, .erase 8]).m_data = [2, 3] := by
  have h := sorted_after_every_call (T := Int)
    [.insertSorted [2, 4, 8], .insert 3, .remove 4, .removeSorted [1, 2, 9]]
    [.insertRange [8, 2, 4], .insert 3, .erase 4, .erase 8]
    (by
      intro op hop
      simp only [List.mem_cons, List.mem_singleton, List.not_mem_nil, or_false] at hop
      rcases hop with e | e | e | e <;> subst e <;>
        simp [LvArray.SortedArray.Op.Valid])
    4
  exact ⟨h.2.1, by decide, h.2.2, by decide⟩

/-! ### Arrays of arrays: the invariant -/

theorem LvArray.ArrayOfArraysView.inv_setCapacityOfArray {T : Type}
    (s : LvArray.ArrayOfArrays T) (i c : Int) (hs : s.Inv) (hi0 : 0 ≤ i)
    (hi1 : i < s.m_numArrays) (hc : 0 ≤ c) :
    (LvArray.ArrayOfArraysView.setCapacityOfArray s i c).Inv := by
  obtain ⟨hn, h0, h⟩ := hs
  have hi := h i hi0 hi1
  unfold LvArray.ArrayOfArraysView.setCapacityOfArray LvArray.ArrayOfArraysView.capacityOfArray
  by_cases hz : c - (s.m_offsets (i + 1) - s.m_offsets i) = 0
  · simp only [hz, if_true]
    exact ⟨hn, h0, h⟩
  · simp only [hz, if_false]
    refine ⟨hn, ?_, ?_⟩
    · simp only []
      rw [if_neg (by omega)]
      exact h0
    · intro j hj0 hj1
      have hj := h j hj0 hj1
      simp only [] at hj1 ⊢
      by_cases hji : j = i
      · subst hji
        split_ifs <;> omega
      · split_ifs <;> omega

theorem LvArray.ArrayOfArraysView.setCapacityOfArray_numArrays {T : Type}
    (s : LvArray.ArrayOfArrays T) (i c : Int) :
    (LvArray.ArrayOfArraysView.setCapacityOfArray s i c).m_numArrays = s.m_numArrays := by
  unfold LvArray.ArrayOfArraysView.setCapacityOfArray
  simp only []
  split_ifs <;> rfl

theorem LvArray.ArrayOfArraysView.setCapacityOfArray_offsets {T : Type}
    (s : LvArray.ArrayOfArrays T) (i c j : Int) :
    (LvArray.ArrayOfArraysView.setCapacityOfArray s i c).m_offsets j =
      if i + 1 ≤ j ∧ j < s.m_numArrays + 1 then
        s.m_offsets j + (c - (s.m_offsets (i + 1) - s.m_offsets i))
      else s.m_offsets j := by
  unfold LvArray.ArrayOfArraysView.setCapacityOfArray LvArray.ArrayOfArraysView.capacityOfArray
  simp only []
  by_cases hz : c - (s.m_offsets (i + 1) - s.m_offsets i) = 0
  · rw [if_pos hz]
    split_ifs <;> omega
  · rw [if_neg hz]

theorem LvArray.ArrayOfArraysView.setCapacityOfArray_sizes {T : Type}
    (s : LvArray.ArrayOfArrays T) (i c j : Int)
    (hi : s.m_sizes i ≤ s.m_offsets (i + 1) - s.m_offsets i) :
    (LvArray.ArrayOfArraysView.setCapacityOfArray s i c).m_sizes j =
      if j = i ∧ c < s.m_sizes i then c else s.m_sizes j := by
  unfold LvArray.ArrayOfArraysView.setCapacityOfArray LvArray.ArrayOfArraysView.capacityOfArray
  simp only []
  by_cases hz : c - (s.m_offsets (i + 1) - s.m_offsets i) = 0
  · rw [if_pos hz]
    split_ifs <;> omega
  · rw [if_neg hz]

theorem LvArray.ArrayOfArraysView.setCapacityOfArray_values {T : Type}
    (s : LvArray.ArrayOfArrays T) (i c p : Int) :
    (LvArray.ArrayOfArraysView.setCapacityOfArray s i c).m_values p =
      if p < s.m_offsets (i + 1) ∧ p < s.m_offsets i + c then s.m_values p
      else if p < s.m_offsets i + c then none
      else s.m_values (p - (c - (s.m_offsets (i + 1) - s.m_offsets i))) := by
  unfold LvArray.ArrayOfArraysView.setCapacityOfArray LvArray.ArrayOfArraysView.capacityOfArray
  simp only []
  by_cases hz : c - (s.m_offsets (i + 1) - s.m_offsets i) = 0
  · rw [if_pos hz, hz, sub_zero]
    split_ifs with h1 h2
    · rfl
    · omega
    · rfl
  · rw [if_neg hz]

/-- Growing a row on demand keeps the invariant, the number of rows and every
size, and leaves room for the increase. -/
theorem LvArray.ArrayOfArrays.dynamicallyGrowArray_facts {T : Type}
    (s : LvArray.ArrayOfArrays T) (i increase : Int) (hs : s.Inv) (hi0 : 0 ≤ i)
    (hi1 : i < s.m_numArrays) (hinc : 0 ≤ increase) :
    (s.dynamicallyGrowArray i increase).Inv ∧
      (s.dynamicallyGrowArray i increase).m_numArrays = s.m_numArrays ∧
      (∀ j, (s.dynamicallyGrowArray i increase).m_sizes j = s.m_sizes j) ∧
      (∀ j, j ≤ i → (s.dynamicallyGrowArray i increase).m_offsets j = s.m_offsets j) ∧
      s.m_sizes i + increase ≤
        (s.dynamicallyGrowArray i increase).m_offsets (i + 1) -
          (s.dynamicallyGrowArray i increase).m_offsets i := by
  have hi := hs.2.2 i hi0 hi1
  unfold LvArray.ArrayOfArrays.dynamicallyGrowArray LvArray.ArrayOfArrays.setCapacityOfArray
    LvArray.ArrayOfArraysView.sizeOfArray LvArray.ArrayOfArraysView.capacityOfArray
  simp only []
  by_cases hg : s.m_sizes i + increase > s.m_offsets (i + 1) - s.m_offsets i
  · rw [if_pos hg]
    refine ⟨LvArray.ArrayOfArraysView.inv_setCapacityOfArray s i _ hs hi0 hi1 (by omega),
      LvArray.ArrayOfArraysView.setCapacityOfArray_numArrays s i _, ?_, ?_, ?_⟩
    · intro j
      rw [LvArray.ArrayOfArraysView.setCapacityOfArray_sizes s i _ j hi.2.2]
      split_ifs <;> omega
    · intro j hj
      rw [LvArray.ArrayOfArraysView.setCapacityOfArray_offsets]
      rw [if_neg (by omega)]
    · rw [LvArray.ArrayOfArraysView.setCapacityOfArray_offsets,
        LvArray.ArrayOfArraysView.setCapacityOfArray_offsets, if_pos (by omega),
        if_neg (by omega)]
      omega
  · rw [if_neg hg]
    exact ⟨hs, rfl, fun _ => rfl, fun _ _ => rfl, by omega⟩

theorem LvArray.ArrayOfArraysView.inv_view_emplaceBack {T : Type} (s : LvArray.ArrayOfArrays T)
    (i : Int) (v : T) (hs : s.Inv) (hi0 : 0 ≤ i) (hi1 : i < s.m_numArrays)
    (hc : s.m_sizes i + 1 ≤ s.m_offsets (i + 1) - s.m_offsets i) :
    (LvArray.ArrayOfArraysView.emplaceBack s i v).Inv := by
  obtain ⟨hn, h0, h⟩ := hs
  have hi := h i hi0 hi1
  unfold LvArray.ArrayOfArraysView.emplaceBack
  refine ⟨hn, h0, ?_⟩
  intro j hj0 hj1
  have hj := h j hj0 hj1
  simp only [] at hj1 ⊢
  by_cases hji : j = i
  · subst hji
    rw [if_pos rfl]
    omega
  · rw [if_neg hji]
    exact hj

theorem LvArray.ArrayOfArraysView.inv_view_appendToArray {T : Type} (s : LvArray.ArrayOfArrays T)
    (i : Int) (range : List T) (hs : s.Inv) (hi0 : 0 ≤ i) (hi1 : i < s.m_numArrays)
    (hc : s.m_sizes i + range.length ≤ s.m_offsets (i + 1) - s.m_offsets i) :
    (LvArray.ArrayOfArraysView.appendToArray s i range).Inv := by
  obtain ⟨hn, h0, h⟩ := hs
  have hi := h i hi0 hi1
  unfold LvArray.ArrayOfArraysView.appendToArray
  refine ⟨hn, h0, ?_⟩
  intro j hj0 hj1
  have hj := h j hj0 hj1
  simp only [] at hj1 ⊢
  by_cases hji : j = i
  · subst hji
    rw [if_pos rfl]
    omega
  · rw [if_neg hji]
    exact hj

theorem LvArray.ArrayOfArrays.inv_emplaceBack {T : Type} (s : LvArray.ArrayOfArrays T)
    (i : Int) (v : T) (hs : s.Inv) (hi0 : 0 ≤ i) (hi1 : i < s.m_numArrays) :
    (s.emplaceBack i v).Inv := by
  obtain ⟨h1, h2, h3, h4, h5⟩ :=
    LvArray.ArrayOfArrays.dynamicallyGrowArray_facts s i 1 hs hi0 hi1 (by omega)
  unfold LvArray.ArrayOfArrays.emplaceBack
  exact LvArray.ArrayOfArraysView.inv_view_emplaceBack _ i v h1 hi0 (by omega)
    (by rw [h3 i]; exact h5)

theorem LvArray.ArrayOfArrays.inv_appendToArray {T : Type} (s : LvArray.ArrayOfArrays T)
    (i : Int) (range : List T) (hs : s.Inv) (hi0 : 0 ≤ i) (hi1 : i < s.m_numArrays) :
    (s.appendToArray i range).Inv := by
  obtain ⟨h1, h2, h3, h4, h5⟩ :=
    LvArray.ArrayOfArrays.dynamicallyGrowArray_facts s i range.length hs hi0 hi1 (by omega)
  unfold LvArray.ArrayOfArrays.appendToArray
  exact LvArray.ArrayOfArraysView.inv_view_appendToArray _ i range h1 hi0 (by omega)
    (by rw [h3 i]; exact h5)

theorem LvArray.ArrayOfArrays.inv_resizeArray {T : Type} (s : LvArray.ArrayOfArrays T)
    (i newSize : Int) (init : T) (hs : s.Inv) (hi0 : 0 ≤ i) (hi1 : i < s.m_numArrays)
    (hn : 0 ≤ newSize) : (s.resizeArray i newSize init).Inv := by
  have hi := hs.2.2 i hi0 hi1
  unfold LvArray.ArrayOfArrays.resizeArray LvArray.ArrayOfArrays.setCapacityOfArray
    LvArray.ArrayOfArraysView.sizeOfArray LvArray.ArrayOfArraysView.capacityOfArray
  simp only []
  by_cases hg : newSize > s.m_offsets (i + 1) - s.m_offsets i
  · rw [if_pos hg]
    obtain ⟨g1, g2, g3⟩ := LvArray.ArrayOfArraysView.inv_setCapacityOfArray s i newSize hs hi0 hi1 hn
    refine ⟨g1, g2, ?_⟩
    intro j hj0 hj1
    have hj := g3 j hj0 hj1
    simp only [] at hj1 ⊢
    by_cases hji : j = i
    · subst hji
      rw [if_pos rfl]
      have e1 := LvArray.ArrayOfArraysView.setCapacityOfArray_offsets s j newSize (j + 1)
      have e2 := LvArray.ArrayOfArraysView.setCapacityOfArray_offsets s j newSize j
      rw [if_pos (by omega)] at e1
      rw [if_neg (by omega)] at e2
      omega
    · rw [if_neg hji]
      exact hj
  · rw [if_neg hg]
    refine ⟨hs.1, hs.2.1, ?_⟩
    intro j hj0 hj1
    have hj := hs.2.2 j hj0 hj1
    simp only [] at hj1 ⊢
    by_cases hji : j = i
    · subst hji
      rw [if_pos rfl]
      omega
    · rw [if_neg hji]
      exact hj

theorem LvArray.ArrayOfArrays.inv_pushRow {T : Type} (s : LvArray.ArrayOfArrays T) (hs : s.Inv) :
    LvArray.ArrayOfArrays.Inv
      ({ m_numArrays := s.m_numArrays + 1
         m_offsets := LvArray.bufferManipulation.emplaceBack s.m_offsets (s.m_numArrays + 1)
           (s.m_offsets s.m_numArrays)
         m_sizes := LvArray.bufferManipulation.emplaceBack s.m_sizes s.m_numArrays 0
         m_values := s.m_values } : LvArray.ArrayOfArrays T) := by
  obtain ⟨hn, h0, h⟩ := hs
  unfold LvArray.bufferManipulation.emplaceBack
  refine ⟨by simp only []; omega, ?_, ?_⟩
  · simp only []
    rw [if_neg (by omega)]
    exact h0
  · intro j hj0 hj1
    simp only [] at hj1 ⊢
    by_cases hjn : j = s.m_numArrays
    · subst hjn
      rw [if_neg (by omega), if_pos rfl, if_pos rfl]
      omega
    · have hj := h j hj0 (by omega)
      rw [if_neg (by omega), if_neg (by omega), if_neg hjn]
      exact hj

theorem LvArray.ArrayOfArrays.inv_appendArray {T : Type} [Inhabited T]
    (s : LvArray.ArrayOfArrays T) (n : Int) (hs : s.Inv) (hn : 0 ≤ n) : (s.appendArray n).Inv := by
  unfold LvArray.ArrayOfArrays.appendArray
  exact LvArray.ArrayOfArrays.inv_resizeArray _ _ n default
    (LvArray.ArrayOfArrays.inv_pushRow s hs) (by have := hs.1; simp only []; omega)
    (by simp only []; omega) hn

theorem LvArray.ArrayOfArrays.inv_appendArrayRange {T : Type}
    (s : LvArray.ArrayOfArrays T) (range : List T) (hs : s.Inv) :
    (s.appendArrayRange range).Inv := by
  unfold LvArray.ArrayOfArrays.appendArrayRange
  exact LvArray.ArrayOfArrays.inv_appendToArray _ _ range
    (LvArray.ArrayOfArrays.inv_pushRow s hs) (by have := hs.1; simp only []; omega)
    (by simp only []; omega)

theorem LvArray.ArrayOfArrays.inv_insertRow {T : Type} (s : LvArray.ArrayOfArrays T) (i : Int)
    (hs : s.Inv) (hi0 : 0 ≤ i) (hi1 : i ≤ s.m_numArrays) :
    LvArray.ArrayOfArrays.Inv
      ({ m_numArrays := s.m_numArrays + 1
         m_offsets := LvArray.bufferManipulation.emplace s.m_offsets (s.m_numArrays + 1) (i + 1)
           (s.m_offsets i)
         m_sizes := LvArray.bufferManipulation.emplace s.m_sizes s.m_numArrays i 0
         m_values := s.m_values } : LvArray.ArrayOfArrays T) := by
  obtain ⟨hn, h0, h⟩ := hs
  unfold LvArray.bufferManipulation.emplace
  refine ⟨by simp only []; omega, ?_, ?_⟩
  · simp only []
    rw [if_neg (by omega), if_neg (by omega)]
    exact h0
  · intro j hj0 hj1
    simp only [] at hj1 ⊢
    rcases lt_trichotomy j i with hlt | heq | hgt
    · have hj := h j hj0 (by omega)
      rw [if_neg (by omega), if_neg (by omega), if_neg (by omega), if_neg (by omega),
        if_neg (by omega), if_neg (by omega)]
      exact hj
    · subst heq
      rw [if_neg (by omega), if_neg (by omega), if_pos rfl, if_pos rfl]
      omega
    · obtain ⟨k, rfl⟩ : ∃ k, j = k + 1 := ⟨j - 1, by omega⟩
      have hk := h k (by omega) (by omega)
      have e1 : k + 1 + 1 - 1 = k + 1 := by omega
      have e2 : k + 1 - 1 = k := by omega
      by_cases hki : k = i
      · subst hki
        split_ifs <;> (try simp only [e1, e2]) <;> omega
      · split_ifs <;> (try simp only [e1, e2]) <;> omega

theorem LvArray.ArrayOfArrays.inv_insertArray {T : Type} (s : LvArray.ArrayOfArrays T) (i : Int)
    (range : List T) (hs : s.Inv) (hi0 : 0 ≤ i) (hi1 : i ≤ s.m_numArrays) :
    (s.insertArray i range).Inv := by
  unfold LvArray.ArrayOfArrays.insertArray
  exact LvArray.ArrayOfArrays.inv_appendToArray _ _ range
    (LvArray.ArrayOfArrays.inv_insertRow s i hs hi0 hi1) hi0 (by simp only []; omega)

theorem LvArray.ArrayOfArrays.inv_eraseArray {T : Type} (s : LvArray.ArrayOfArrays T) (i : Int)
    (hs : s.Inv) (hi0 : 0 ≤ i) (hi1 : i < s.m_numArrays) : (s.eraseArray i).Inv := by
  have hi := hs.2.2 i hi0 hi1
  obtain ⟨gn, g0, g⟩ := LvArray.ArrayOfArraysView.inv_setCapacityOfArray s i 0 hs hi0 hi1
    (le_refl _)
  have hnum := LvArray.ArrayOfArraysView.setCapacityOfArray_numArrays s i 0
  have e1 := LvArray.ArrayOfArraysView.setCapacityOfArray_offsets s i 0 (i + 1)
  have e2 := LvArray.ArrayOfArraysView.setCapacityOfArray_offsets s i 0 i
  rw [if_pos (by omega)] at e1
  rw [if_neg (by omega)] at e2
  unfold LvArray.ArrayOfArrays.eraseArray LvArray.ArrayOfArrays.setCapacityOfArray
    LvArray.bufferManipulation.erase
  refine ⟨by simp only []; omega, ?_, ?_⟩
  · simp only []
    rw [if_neg (by omega)]
    exact g0
  · intro j hj0 hj1
    simp only [] at hj1 ⊢
    rcases lt_trichotomy j i with hlt | heq | hgt
    · have hj := g j hj0 (by omega)
      rw [if_neg (by omega), if_neg (by omega), if_neg (by omega)]
      exact hj
    · subst heq
      have hj := g (j + 1) (by omega) (by omega)
      rw [if_neg (by omega), if_pos (by omega), if_pos (by omega)]
      omega
    · have hj := g (j + 1) (by omega) (by omega)
      rw [if_pos (by omega), if_pos (by omega), if_pos (by omega)]
      exact hj

theorem LvArray.ArrayOfArraysView.inv_compressStep {T : Type} (s : LvArray.ArrayOfArrays T)
    (i : Int) (hs : s.Inv) (hi0 : 0 ≤ i) (hi1 : i + 1 < s.m_numArrays) :
    (LvArray.ArrayOfArraysView.compressStep s i).Inv ∧
      (LvArray.ArrayOfArraysView.compressStep s i).m_numArrays = s.m_numArrays := by
  obtain ⟨hn, h0, h⟩ := hs
  have hi := h i hi0 (by omega)
  have hi2 := h (i + 1) (by omega) hi1
  unfold LvArray.ArrayOfArraysView.compressStep
  refine ⟨⟨hn, ?_, ?_⟩, rfl⟩
  · simp only []
    rw [if_neg (by omega)]
    exact h0
  · intro j hj0 hj1
    simp only [] at hj1 ⊢
    by_cases hji : j = i
    · subst hji
      rw [if_neg (by omega), if_pos rfl]
      omega
    · by_cases hji2 : j = i + 1
      · subst hji2
        rw [if_pos rfl, if_neg (by omega)]
        omega
      · have hj := h j hj0 hj1
        rw [if_neg hji2, if_neg (by omega)]
        exact hj

theorem LvArray.ArrayOfArraysView.inv_compressLoop {T : Type} (count : Nat) :
    ∀ (i : Int) (s : LvArray.ArrayOfArrays T), s.Inv → 0 ≤ i → i + count < s.m_numArrays ∨ count = 0 →
      (LvArray.ArrayOfArraysView.compressLoop count i s).Inv := by
  induction count with
  | zero => intro i s hs _ _; exact hs
  | succ count ih =>
    intro i s hs hi0 hc
    have hc2 : i + 1 + count < s.m_numArrays := by
      rcases hc with h | h
      · push_cast at h; omega
      · omega
    obtain ⟨g1, g2⟩ := LvArray.ArrayOfArraysView.inv_compressStep s i hs hi0 (by omega)
    rw [LvArray.ArrayOfArraysView.compressLoop]
    exact ih (i + 1) _ g1 (by omega) (Or.inl (by rw [g2]; exact hc2))

theorem LvArray.ArrayOfArrays.inv_compress {T : Type} (s : LvArray.ArrayOfArrays T)
    (hs : s.Inv) : s.compress.Inv := by
  unfold LvArray.ArrayOfArrays.compress LvArray.ArrayOfArraysView.compress
  apply LvArray.ArrayOfArraysView.inv_compressLoop _ 0 s hs (le_refl _)
  by_cases h : s.m_numArrays - 1 ≤ 0
  · right
    exact Int.toNat_eq_zero.mpr h
  · left
    rw [Int.toNat_of_nonneg (by omega)]
    omega

theorem LvArray.ArrayOfArrays.inv_new {T : Type} (numArrays defaultArrayCapacity : Int)
    (hn : 0 ≤ numArrays) (hc : 0 ≤ defaultArrayCapacity) :
    (LvArray.ArrayOfArrays.new numArrays defaultArrayCapacity : LvArray.ArrayOfArrays T).Inv := by
  unfold LvArray.ArrayOfArrays.new LvArray.ArrayOfArraysView.resize
  refine ⟨hn, ?_, ?_⟩
  · simp
  · intro j hj0 hj1
    simp only [] at hj1 ⊢
    rw [if_pos (by omega), if_pos (by omega)]
    refine ⟨?_, le_refl _, ?_⟩
    · nlinarith
    · nlinarith

theorem LvArray.ArrayOfArrays.inv_step_rows {T : Type} [Inhabited T] (s : LvArray.ArrayOfArrays T)
    (op : LvArray.ArrayOfArrays.Op T) (hs : s.Inv) (hop : op.Valid s) : (s.step op).Inv := by
  cases op with
  | appendArray n => exact LvArray.ArrayOfArrays.inv_appendArray s n hs hop
  | appendArrayRange range => exact LvArray.ArrayOfArrays.inv_appendArrayRange s range hs
  | insertArray i range => exact LvArray.ArrayOfArrays.inv_insertArray s i range hs hop.1 hop.2
  | eraseArray i => exact LvArray.ArrayOfArrays.inv_eraseArray s i hs hop.1 hop.2
  | resizeArray i newSize init =>
    exact LvArray.ArrayOfArrays.inv_resizeArray s i newSize init hs hop.1 hop.2.1 hop.2.2
  | emplaceBack i v => exact LvArray.ArrayOfArrays.inv_emplaceBack s i v hs hop.1 hop.2
  | appendToArray i range => exact LvArray.ArrayOfArrays.inv_appendToArray s i range hs hop.1 hop.2
  | compress => exact LvArray.ArrayOfArrays.inv_compress s hs

theorem LvArray.ArrayOfArrays.inv_run_rows {T : Type} [Inhabited T]
    (ops : List (LvArray.ArrayOfArrays.Op T)) :
    ∀ s : LvArray.ArrayOfArrays T, s.Inv → s.ValidRun ops → (s.run ops).Inv := by
  induction ops with
  | nil => intro s hs _; exact hs
  | cons op ops ih =>
    intro s hs h
    exact ih (s.step op) (LvArray.ArrayOfArrays.inv_step_rows s op hs h.1) h.2

/-- Claim C9. Starting from a freshly constructed `ArrayOfArrays`, after any
sequence of `appendArray`, `insertArray`, `eraseArray`, `resizeArray`,
`emplaceBack`, `appendToArray` and `compress` calls with valid arguments,
`offsets[ 0 ] == 0`, and `offsets[ i ] <= offsets[ i + 1 ]` and
`sizes[ i ] <= offsets[ i + 1 ] - offsets[ i ]` hold for every row `i` in
`[0, size())`. -/
theorem invariant_after_calls {T : Type} [Inhabited T] (numArrays defaultArrayCapacity : Int)
    (hn : 0 ≤ numArrays) (hc : 0 ≤ defaultArrayCapacity)
    (ops : List (LvArray.ArrayOfArrays.Op T))
    (hv : (LvArray.ArrayOfArrays.new numArrays defaultArrayCapacity).ValidRun ops) :
    ((LvArray.ArrayOfArrays.new numArrays defaultArrayCapacity).run ops).m_offsets 0 = 0 ∧
      ∀ i : Int, 0 ≤ i →
        i < ((LvArray.ArrayOfArrays.new numArrays defaultArrayCapacity).run ops).size →
        ((LvArray.ArrayOfArrays.new numArrays defaultArrayCapacity).run ops).m_offsets i ≤
            ((LvArray.ArrayOfArrays.new numArrays defaultArrayCapacity).run ops).m_offsets (i + 1) ∧
          ((LvArray.ArrayOfArrays.new numArrays defaultArrayCapacity).run ops).m_sizes i ≤
            ((LvArray.ArrayOfArrays.new numArrays defaultArrayCapacity).run ops).m_offsets (i + 1) -
              ((LvArray.ArrayOfArrays.new numArrays defaultArrayCapacity).run ops).m_offsets i := by
  have h := LvArray.ArrayOfArrays.inv_run_rows ops _
    (LvArray.ArrayOfArrays.inv_new (T := T) numArrays defaultArrayCapacity hn hc) hv
  refine ⟨h.2.1, fun i hi0 hi1 => ?_⟩
  have hi := h.2.2 i hi0 hi1
  exact ⟨hi.1, hi.2.2⟩

/-- Witness of claim C9: eight calls on the default constructed array of
arrays, all valid, and the offsets and sizes of the two rows at the end. -/
theorem invariant_after_calls_witness :
    (LvArray.ArrayOfArrays.new 0 0 : LvArray.ArrayOfArrays Int).ValidRun
        [.appendArray 3, .emplaceBack 0 7, .insertArray 0 [1, 2], .resizeArray 1 9 0,
          .appendToArray 0 [5], .eraseArray 1, .appendArray 2, .compress] ∧
      ((LvArray.ArrayOfArrays.new 0 0 : LvArray.ArrayOfArrays Int).run
        [.appendArray 3, .emplaceBack 0 7, .insertArray 0 [1, 2], .resizeArray 1 9 0,
          .appendToArray 0 [5], .eraseArray 1, .appendArray 2, .compress]).m_offsets 0 = 0 ∧
      [0, 1, 2].map ((LvArray.ArrayOfArrays.new 0 0 : LvArray.ArrayOfArrays Int).run
        [.appendArray 3, .emplaceBack 0 7, .insertArray 0 [1, 2], .resizeArray 1 9 0,
          .appendToArray 0 [5], .eraseArray 1, .appendArray 2, .compress]).m_offsets = [0, 3, 6] ∧
      [0, 1].map ((LvArray.ArrayOfArrays.new 0 0 : LvArray.ArrayOfArrays Int).run
        [.appendArray 3, .emplaceBack 0 7, .insertArray 0 [1, 2], .resizeArray 1 9 0,
          .appendToArray 0 [5], .eraseArray 1, .appendArray 2, .compress]).m_sizes = [3, 2] := by
  have hv : (LvArray.ArrayOfArrays.new 0 0 : LvArray.ArrayOfArrays Int).ValidRun
      [.appendArray 3, .emplaceBack 0 7, .insertArray 0 [1, 2], .resizeArray 1 9 0,
        .appendToArray 0 [5], .eraseArray 1, .appendArray 2, .compress] := by decide
  exact ⟨hv, (invariant_after_calls 0 0 (le_refl _) (le_refl _) _ hv).1, by decide, by decide⟩

/-! ### Arrays of arrays: appending a value -/

theorem LvArray.ArrayOfArrays.offsets_mono_add {T : Type} (s : LvArray.ArrayOfArrays T)
    (hs : s.Inv) (d : Nat) :
    ∀ a : Int, 0 ≤ a → a + d ≤ s.m_numArrays → s.m_offsets a ≤ s.m_offsets (a + d) := by
  induction d with
  | zero => intro a _ _; simp
  | succ d ih =>
    intro a ha hb
    have e : a + ((d + 1 : Nat) : Int) = a + (d : Int) + 1 := by push_cast; omega
    rw [e]
    have h1 := ih a ha (by push_cast at hb; omega)
    have h2 := (hs.2.2 (a + d) (by omega) (by push_cast at hb; omega)).1
    omega

theorem LvArray.ArrayOfArrays.offsets_mono {T : Type} (s : LvArray.ArrayOfArrays T)
    (hs : s.Inv) (a b : Int) (ha : 0 ≤ a) (hab : a ≤ b) (hb : b ≤ s.m_numArrays) :
    s.m_offsets a ≤ s.m_offsets b := by
  have h := LvArray.ArrayOfArrays.offsets_mono_add s hs (b - a).toNat a ha
    (by rw [Int.toNat_of_nonneg (by omega)]; omega)
  rw [Int.toNat_of_nonneg (by omega)] at h
  have e : a + (b - a) = b := by omega
  rw [e] at h
  exact h

/-- Growing a row on demand moves no stored value of any row: the slot `k` of
row `j` holds afterwards what it held before. -/
theorem LvArray.ArrayOfArrays.dynamicallyGrowArray_value {T : Type}
    (s : LvArray.ArrayOfArrays T) (i increase : Int) (hs : s.Inv) (hi0 : 0 ≤ i)
    (hi1 : i < s.m_numArrays) (j k : Int) (hj0 : 0 ≤ j)
    (hj1 : j < s.m_numArrays) (hk0 : 0 ≤ k) (hk1 : k < s.m_sizes j) :
    LvArray.ArrayOfArraysView.value (s.dynamicallyGrowArray i increase) j k =
      LvArray.ArrayOfArraysView.value s j k := by
  have hi := hs.2.2 i hi0 hi1
  have hj := hs.2.2 j hj0 hj1
  unfold LvArray.ArrayOfArrays.dynamicallyGrowArray LvArray.ArrayOfArrays.setCapacityOfArray
    LvArray.ArrayOfArraysView.sizeOfArray LvArray.ArrayOfArraysView.capacityOfArray
  simp only []
  by_cases hg : s.m_sizes i + increase > s.m_offsets (i + 1) - s.m_offsets i
  · rw [if_pos hg]
    unfold LvArray.ArrayOfArraysView.value
    have eo := LvArray.ArrayOfArraysView.setCapacityOfArray_offsets s i
      (2 * (s.m_sizes i + increase)) j
    rcases lt_trichotomy j i with hlt | heq | hgt
    · have hm := LvArray.ArrayOfArrays.offsets_mono s hs (j + 1) i (by omega) (by omega)
        (by omega)
      rw [if_neg (by omega)] at eo
      rw [eo, LvArray.ArrayOfArraysView.setCapacityOfArray_values, if_pos (by omega)]
    · subst heq
      rw [if_neg (by omega)] at eo
      rw [eo, LvArray.ArrayOfArraysView.setCapacityOfArray_values, if_pos (by omega)]
    · have hm := LvArray.ArrayOfArrays.offsets_mono s hs (i + 1) j (by omega) (by omega)
        (by omega)
      rw [if_pos (by omega)] at eo
      rw [eo, LvArray.ArrayOfArraysView.setCapacityOfArray_values, if_neg (by omega),
        if_neg (by omega)]
      congr 1
      omega
  · rw [if_neg hg]

/-- The `emplaceBack` of the view, on a row with room for one more value: the
value becomes the last one of the row and no other stored value changes. -/
theorem LvArray.ArrayOfArraysView.emplaceBack_value {T : Type} (s : LvArray.ArrayOfArrays T)
    (i : Int) (v : T) (hs : s.Inv) (hi0 : 0 ≤ i) (hi1 : i < s.m_numArrays)
    (hc : s.m_sizes i + 1 ≤ s.m_offsets (i + 1) - s.m_offsets i) :
    LvArray.ArrayOfArraysView.value (LvArray.ArrayOfArraysView.emplaceBack s i v) i (s.m_sizes i) =
        some v ∧
      ∀ j k : Int, 0 ≤ j → j < s.m_numArrays → 0 ≤ k → k < s.m_sizes j →
        LvArray.ArrayOfArraysView.value (LvArray.ArrayOfArraysView.emplaceBack s i v) j k =
          LvArray.ArrayOfArraysView.value s j k := by
  have hi := hs.2.2 i hi0 hi1
  unfold LvArray.ArrayOfArraysView.value LvArray.ArrayOfArraysView.emplaceBack
  refine ⟨by simp, ?_⟩
  intro j k hj0 hj1 hk0 hk1
  have hj := hs.2.2 j hj0 hj1
  simp only []
  rcases lt_trichotomy j i with hlt | heq | hgt
  · have hm := LvArray.ArrayOfArrays.offsets_mono s hs (j + 1) i (by omega) (by omega)
      (by omega)
    rw [if_neg (by omega)]
  · subst heq
    rw [if_neg (by omega)]
  · have hm := LvArray.ArrayOfArrays.offsets_mono s hs (i + 1) j (by omega) (by omega)
      (by omega)
    rw [if_neg (by omega)]

/-- Claim C10. For every array of arrays, every valid row `i` and every value
`v`, `emplaceBack( i, v )` increases `sizeOfArray( i )` by exactly one, makes
`v` the last value of row `i` and keeps the earlier values of row `i` in place,
and leaves the number of rows and the size and the stored values of every
other row unchanged, whether or not row `i` has to grow. -/
theorem emplaceBack_frame {T : Type} (s : LvArray.ArrayOfArrays T) (i : Int) (v : T)
    (hs : s.Inv) (hi0 : 0 ≤ i) (hi1 : i < s.size) :
    (s.emplaceBack i v).size = s.size ∧
      LvArray.ArrayOfArraysView.sizeOfArray (s.emplaceBack i v) i =
        LvArray.ArrayOfArraysView.sizeOfArray s i + 1 ∧
      LvArray.ArrayOfArraysView.value (s.emplaceBack i v) i
        (LvArray.ArrayOfArraysView.sizeOfArray s i) = some v ∧
      (∀ k : Int, 0 ≤ k → k < LvArray.ArrayOfArraysView.sizeOfArray s i →
        LvArray.ArrayOfArraysView.value (s.emplaceBack i v) i k =
          LvArray.ArrayOfArraysView.value s i k) ∧
      (∀ j : Int, 0 ≤ j → j < s.size → j ≠ i →
        LvArray.ArrayOfArraysView.sizeOfArray (s.emplaceBack i v) j =
            LvArray.ArrayOfArraysView.sizeOfArray s j ∧
          ∀ k : Int, 0 ≤ k → k < LvArray.ArrayOfArraysView.sizeOfArray s j →
            LvArray.ArrayOfArraysView.value (s.emplaceBack i v) j k =
              LvArray.ArrayOfArraysView.value s j k) := by
  unfold LvArray.ArrayOfArrays.size at *
  obtain ⟨g1, g2, g3, g4, g5⟩ :=
    LvArray.ArrayOfArrays.dynamicallyGrowArray_facts s i 1 hs hi0 hi1 (by omega)
  have hcap : (s.dynamicallyGrowArray i 1).m_sizes i + 1 ≤
      (s.dynamicallyGrowArray i 1).m_offsets (i + 1) - (s.dynamicallyGrowArray i 1).m_offsets i := by
    rw [g3 i]; exact g5
  obtain ⟨e1, e2⟩ := LvArray.ArrayOfArraysView.emplaceBack_value (s.dynamicallyGrowArray i 1) i v
    g1 hi0 (by omega) hcap
  have hval : ∀ j k : Int, 0 ≤ j → j < s.m_numArrays → 0 ≤ k → k < s.m_sizes j →
      LvArray.ArrayOfArraysView.value (s.emplaceBack i v) j k =
        LvArray.ArrayOfArraysView.value s j k := by
    intro j k hj0 hj1 hk0 hk1
    have h := e2 j k hj0 (by omega) hk0 (by rw [g3 j]; exact hk1)
    unfold LvArray.ArrayOfArrays.emplaceBack
    rw [h]
    exact LvArray.ArrayOfArrays.dynamicallyGrowArray_value s i 1 hs hi0 hi1 j k hj0 hj1 hk0 hk1
  have hsz : ∀ j : Int, (s.emplaceBack i v).m_sizes j =
      if j = i then s.m_sizes i + 1 else s.m_sizes j := by
    intro j
    unfold LvArray.ArrayOfArrays.emplaceBack LvArray.ArrayOfArraysView.emplaceBack
    simp only [g3]
  refine ⟨g2, ?_, ?_, ?_, ?_⟩
  · unfold LvArray.ArrayOfArraysView.sizeOfArray
    rw [hsz, if_pos rfl]
  · unfold LvArray.ArrayOfArraysView.sizeOfArray
    rw [g3 i] at e1
    exact e1
  · intro k hk0 hk1
    exact hval i k hi0 hi1 hk0 hk1
  · intro j hj0 hj1 hji
    refine ⟨?_, fun k hk0 hk1 => hval j k hj0 hj1 hk0 hk1⟩
    unfold LvArray.ArrayOfArraysView.sizeOfArray
    rw [hsz, if_neg hji]

/-- Witness of claim C10: the scenario of the spec, `appendArray( 3 )` then
`emplaceBack( 0, 7 )`, and a second row holding 10 and 11 that keeps its values
when row 0 grows beyond its capacity. -/
theorem emplaceBack_frame_witness :
    LvArray.ArrayOfArraysView.sizeOfArray
        (((LvArray.ArrayOfArrays.new 0 0 : LvArray.ArrayOfArrays Int).appendArray 3).emplaceBack
          0 7) 0 = 4 ∧
      LvArray.ArrayOfArraysView.value
        (((LvArray.ArrayOfArrays.new 0 0 : LvArray.ArrayOfArrays Int).appendArray 3).emplaceBack
          0 7) 0 3 = some 7 ∧
      LvArray.ArrayOfArraysView.capacityOfArray
        (((LvArray.ArrayOfArrays.new 0 0 : LvArray.ArrayOfArrays Int).appendArray 1).appendArrayRange
          [10, 11]) 0 = 1 ∧
      [0, 1].map (LvArray.ArrayOfArraysView.value
        ((((LvArray.ArrayOfArrays.new 0 0 : LvArray.ArrayOfArrays Int).appendArray 1).appendArrayRange
          [10, 11]).emplaceBack 0 7) 1) = [some 10, some 11] := by
  have h := emplaceBack_frame
    ((LvArray.ArrayOfArrays.new 0 0 : LvArray.ArrayOfArrays Int).appendArray 3) 0 7
    (LvArray.ArrayOfArrays.inv_appendArray _ 3
      (LvArray.ArrayOfArrays.inv_new 0 0 (le_refl _) (le_refl _)) (by decide))
    (le_refl _) (by decide)
  have h1 := h.2.1
  have h2 := h.2.2.1
  refine ⟨?_, ?_, by decide, by decide⟩
  · rw [h1]; decide
  · exact h2

/-! ### Arrays of arrays: capacity of a row -/

theorem LvArray.ArrayOfArraysView.setCapacityOfArray_capacity {T : Type}
    (s : LvArray.ArrayOfArrays T) (i c : Int) (hi1 : i < s.m_numArrays) :
    LvArray.ArrayOfArraysView.capacityOfArray
      (LvArray.ArrayOfArraysView.setCapacityOfArray s i c) i = c := by
  unfold LvArray.ArrayOfArraysView.capacityOfArray
  have e1 := LvArray.ArrayOfArraysView.setCapacityOfArray_offsets s i c (i + 1)
  have e2 := LvArray.ArrayOfArraysView.setCapacityOfArray_offsets s i c i
  rw [if_pos (by omega)] at e1
  rw [if_neg (by omega)] at e2
  omega

theorem LvArray.ArrayOfArrays.dynamicallyGrowArray_capacity {T : Type}
    (s : LvArray.ArrayOfArrays T) (i k : Int) (hi1 : i < s.m_numArrays) :
    LvArray.ArrayOfArraysView.capacityOfArray (s.dynamicallyGrowArray i k) i =
      if LvArray.ArrayOfArraysView.sizeOfArray s i + k >
          LvArray.ArrayOfArraysView.capacityOfArray s i then
        2 * (LvArray.ArrayOfArraysView.sizeOfArray s i + k)
      else LvArray.ArrayOfArraysView.capacityOfArray s i := by
  unfold LvArray.ArrayOfArrays.dynamicallyGrowArray LvArray.ArrayOfArrays.setCapacityOfArray
  simp only []
  split_ifs with h
  · exact LvArray.ArrayOfArraysView.setCapacityOfArray_capacity s i _ hi1
  · rfl

/-- Claim C11. For `emplaceBack`, `emplace`, `appendToArray` and
`insertIntoArray` adding `k >= 0` values to a valid row `i`: if
`sizeOfArray( i ) + k` exceeds `capacityOfArray( i )` the capacity of the row
becomes exactly `2 * ( sizeOfArray( i ) + k )`, otherwise it is unchanged; and
after `dynamicallyGrowArray`, before the values are written, the capacity is at
least `sizeOfArray( i ) + k`. -/
theorem capacity_after_growth {T : Type} (s : LvArray.ArrayOfArrays T) (i j : Int) (v : T)
    (range : List T) (hs : s.Inv) (hi0 : 0 ≤ i) (hi1 : i < s.size) :
    (LvArray.ArrayOfArraysView.capacityOfArray (s.emplaceBack i v) i =
        if LvArray.ArrayOfArraysView.sizeOfArray s i + 1 >
            LvArray.ArrayOfArraysView.capacityOfArray s i then
          2 * (LvArray.ArrayOfArraysView.sizeOfArray s i + 1)
        else LvArray.ArrayOfArraysView.capacityOfArray s i) ∧
      (LvArray.ArrayOfArraysView.capacityOfArray (s.emplace i j v) i =
        if LvArray.ArrayOfArraysView.sizeOfArray s i + 1 >
            LvArray.ArrayOfArraysView.capacityOfArray s i then
          2 * (LvArray.ArrayOfArraysView.sizeOfArray s i + 1)
        else LvArray.ArrayOfArraysView.capacityOfArray s i) ∧
      (LvArray.ArrayOfArraysView.capacityOfArray (s.appendToArray i range) i =
        if LvArray.ArrayOfArraysView.sizeOfArray s i + range.length >
            LvArray.ArrayOfArraysView.capacityOfArray s i then
          2 * (LvArray.ArrayOfArraysView.sizeOfArray s i + range.length)
        else LvArray.ArrayOfArraysView.capacityOfArray s i) ∧
      (LvArray.ArrayOfArraysView.capacityOfArray (s.insertIntoArray i j range) i =
        if LvArray.ArrayOfArraysView.sizeOfArray s i + range.length >
            LvArray.ArrayOfArraysView.capacityOfArray s i then
          2 * (LvArray.ArrayOfArraysView.sizeOfArray s i + range.length)
        else LvArray.ArrayOfArraysView.capacityOfArray s i) ∧
      (∀ k : Int, 0 ≤ k →
        LvArray.ArrayOfArraysView.sizeOfArray (s.dynamicallyGrowArray i k) i =
            LvArray.ArrayOfArraysView.sizeOfArray s i ∧
          LvArray.ArrayOfArraysView.sizeOfArray s i + k ≤
            LvArray.ArrayOfArraysView.capacityOfArray (s.dynamicallyGrowArray i k) i) := by
  unfold LvArray.ArrayOfArrays.size at hi1
  refine ⟨LvArray.ArrayOfArrays.dynamicallyGrowArray_capacity s i 1 hi1,
    LvArray.ArrayOfArrays.dynamicallyGrowArray_capacity s i 1 hi1,
    LvArray.ArrayOfArrays.dynamicallyGrowArray_capacity s i range.length hi1,
    LvArray.ArrayOfArrays.dynamicallyGrowArray_capacity s i range.length hi1, ?_⟩
  intro k hk
  obtain ⟨_, _, g3, _, g5⟩ := LvArray.ArrayOfArrays.dynamicallyGrowArray_facts s i k hs hi0 hi1 hk
  exact ⟨g3 i, g5⟩

/-- Witness of claim C11: a row of size and capacity 3 receives one value, then
the three values 1, 2, 3, then one more value at position 0. -/
theorem capacity_after_growth_witness :
    LvArray.ArrayOfArraysView.capacityOfArray
        (((LvArray.ArrayOfArrays.new 0 0 : LvArray.ArrayOfArrays Int).appendArray 3).emplaceBack
          0 7) 0 = 8 ∧
      LvArray.ArrayOfArraysView.capacityOfArray
        ((((LvArray.ArrayOfArrays.new 0 0 : LvArray.ArrayOfArrays Int).appendArray 3).emplaceBack
          0 7).appendToArray 0 [1, 2, 3]) 0 = 8 ∧
      LvArray.ArrayOfArraysView.capacityOfArray
        (((LvArray.ArrayOfArrays.new 0 0 : LvArray.ArrayOfArrays Int).appendArray 3).insertIntoArray
          0 1 [1, 2, 3]) 0 = 12 := by
  have h := capacity_after_growth
    ((LvArray.ArrayOfArrays.new 0 0 : LvArray.ArrayOfArrays Int).appendArray 3) 0 1 7 [1, 2, 3]
    (LvArray.ArrayOfArrays.inv_appendArray _ 3
      (LvArray.ArrayOfArrays.inv_new 0 0 (le_refl _) (le_refl _)) (by decide))
    (le_refl _) (by decide)
  refine ⟨?_, by decide, ?_⟩
  · rw [h.1]; decide
  · rw [h.2.2.2.1]; decide

theorem LvArray.ArrayOfArrays.resizeArray_offsets {T : Type} (s : LvArray.ArrayOfArrays T)
    (i newSize : Int) (init : T) (j : Int) :
    (s.resizeArray i newSize init).m_offsets j =
      if newSize > s.m_offsets (i + 1) - s.m_offsets i ∧ i + 1 ≤ j ∧ j < s.m_numArrays + 1 then
        s.m_offsets j + (newSize - (s.m_offsets (i + 1) - s.m_offsets i))
      else s.m_offsets j := by
  unfold LvArray.ArrayOfArrays.resizeArray LvArray.ArrayOfArrays.setCapacityOfArray
    LvArray.ArrayOfArraysView.capacityOfArray
  simp only []
  by_cases hg : newSize > s.m_offsets (i + 1) - s.m_offsets i
  · rw [if_pos hg, LvArray.ArrayOfArraysView.setCapacityOfArray_offsets]
    split_ifs <;> first | rfl | omega
  · rw [if_neg hg, if_neg (by tauto)]

theorem LvArray.ArrayOfArrays.resizeArray_numArrays {T : Type} (s : LvArray.ArrayOfArrays T)
    (i newSize : Int) (init : T) :
    (s.resizeArray i newSize init).m_numArrays = s.m_numArrays := by
  unfold LvArray.ArrayOfArrays.resizeArray LvArray.ArrayOfArrays.setCapacityOfArray
  simp only []
  split_ifs
  · exact LvArray.ArrayOfArraysView.setCapacityOfArray_numArrays s i newSize
  · rfl

theorem LvArray.ArrayOfArrays.resizeArray_sizes {T : Type} (s : LvArray.ArrayOfArrays T)
    (i newSize : Int) (init : T) (j : Int)
    (hi : s.m_sizes i ≤ s.m_offsets (i + 1) - s.m_offsets i) :
    (s.resizeArray i newSize init).m_sizes j = if j = i then newSize else s.m_sizes j := by
  unfold LvArray.ArrayOfArrays.resizeArray LvArray.ArrayOfArrays.setCapacityOfArray
    LvArray.ArrayOfArraysView.capacityOfArray
  simp only []
  by_cases hji : j = i
  · rw [if_pos hji, if_pos hji]
  · rw [if_neg hji, if_neg hji]
    split_ifs
    · rw [LvArray.ArrayOfArraysView.setCapacityOfArray_sizes s i newSize j hi, if_neg (by tauto)]
    · rfl

theorem LvArray.ArrayOfArrays.resizeArray_capacity {T : Type} (s : LvArray.ArrayOfArrays T)
    (i newSize : Int) (init : T) (hi1 : i < s.m_numArrays) :
    LvArray.ArrayOfArraysView.capacityOfArray (s.resizeArray i newSize init) i =
      if newSize > LvArray.ArrayOfArraysView.capacityOfArray s i then newSize
      else LvArray.ArrayOfArraysView.capacityOfArray s i := by
  unfold LvArray.ArrayOfArraysView.capacityOfArray
  rw [LvArray.ArrayOfArrays.resizeArray_offsets, LvArray.ArrayOfArrays.resizeArray_offsets]
  split_ifs <;> omega

theorem LvArray.ArrayOfArrays.appendArray_capacity {T : Type} [Inhabited T]
    (s : LvArray.ArrayOfArrays T) (n : Int) (hn : 0 ≤ n) :
    LvArray.ArrayOfArraysView.capacityOfArray (s.appendArray n) s.m_numArrays = n := by
  have e : s.m_numArrays + 1 - 1 = s.m_numArrays := by omega
  unfold LvArray.ArrayOfArrays.appendArray
  simp only [e]
  rw [LvArray.ArrayOfArrays.resizeArray_capacity _ _ _ _ (by simp only []; omega)]
  unfold LvArray.ArrayOfArraysView.capacityOfArray LvArray.bufferManipulation.emplaceBack
  simp only [if_true]
  have e2 : ¬ s.m_numArrays = s.m_numArrays + 1 := by omega
  rw [if_neg e2]
  split_ifs <;> omega

/-- Claim C12 as stated fails: `appendArray( 3 )` on the empty array of arrays
leaves the new row with capacity 3, not 6, and `resizeArray( 0, 5 )` on a row
of capacity 0 leaves it with capacity 5, not 10. -/
theorem resizeArray_capacity_not_doubled :
    LvArray.ArrayOfArraysView.capacityOfArray
        ((LvArray.ArrayOfArrays.new 0 0 : LvArray.ArrayOfArrays Int).appendArray 3) 0 = 3 ∧
      LvArray.ArrayOfArraysView.capacityOfArray
        ((LvArray.ArrayOfArrays.new 0 0 : LvArray.ArrayOfArrays Int).appendArray 3) 0 ≠ 2 * 3 ∧
      LvArray.ArrayOfArraysView.capacityOfArray
        ((LvArray.ArrayOfArrays.new 1 0 : LvArray.ArrayOfArrays Int).resizeArray 0 5 0) 0 = 5 ∧
      LvArray.ArrayOfArraysView.capacityOfArray
        ((LvArray.ArrayOfArrays.new 1 0 : LvArray.ArrayOfArrays Int).resizeArray 0 5 0) 0 ≠ 2 * 5 := by
  decide

/-- Claim C12, amended. Whenever `resizeArray( i, newSize )` is called on a
valid row with `newSize` greater than the capacity of the row, the capacity of
the row afterwards is exactly `newSize`; and `appendArray( n )` creates a row
of capacity exactly `n`. -/
theorem resizeArray_capacity_exact {T : Type} [Inhabited T] (s : LvArray.ArrayOfArrays T)
    (i newSize n : Int) (init : T) (hi1 : i < s.size)
    (hg : newSize > LvArray.ArrayOfArraysView.capacityOfArray s i) (hn : 0 ≤ n) :
    LvArray.ArrayOfArraysView.capacityOfArray (s.resizeArray i newSize init) i = newSize ∧
      LvArray.ArrayOfArraysView.capacityOfArray (s.appendArray n) s.size = n ∧
      (s.appendArray n).size = s.size + 1 := by
  unfold LvArray.ArrayOfArrays.size at *
  refine ⟨?_, LvArray.ArrayOfArrays.appendArray_capacity s n hn, ?_⟩
  · rw [LvArray.ArrayOfArrays.resizeArray_capacity s i newSize init hi1, if_pos hg]
  · unfold LvArray.ArrayOfArrays.appendArray
    simp only []
    rw [LvArray.ArrayOfArrays.resizeArray_numArrays]

/-- Witness of the amended claim C12: a row of capacity 3 resized to 5, and a
second row of size 2 appended. -/
theorem resizeArray_capacity_exact_witness :
    LvArray.ArrayOfArraysView.capacityOfArray
        (((LvArray.ArrayOfArrays.new 0 0 : LvArray.ArrayOfArrays Int).appendArray 3).resizeArray
          0 5 0) 0 = 5 ∧
      LvArray.ArrayOfArraysView.capacityOfArray
        (((LvArray.ArrayOfArrays.new 0 0 : LvArray.ArrayOfArrays Int).appendArray 3).appendArray
          2) 1 = 2 := by
  have h := resizeArray_capacity_exact
    ((LvArray.ArrayOfArrays.new 0 0 : LvArray.ArrayOfArrays Int).appendArray 3) 0 5 2 0
    (by decide) (by decide) (by decide)
  exact ⟨h.1, by decide⟩

/-! ### Arrays of arrays: rows kept by the operations -/

theorem LvArray.ArrayOfArrays.SameRow.trans {T : Type} {s2 s1 s : LvArray.ArrayOfArrays T}
    {a b c : Int} (h1 : s2.SameRow a s1 b) (h2 : s1.SameRow b s c) : s2.SameRow a s c := by
  refine ⟨h1.1.trans h2.1, fun k hk0 hk1 => ?_⟩
  rw [h1.2 k hk0 (by rw [h2.1]; exact hk1), h2.2 k hk0 hk1]

/-- Changing the capacity of row `i` to `c >= 0` keeps the invariant and every
stored value of every row, but the values of row `i` from slot `c` on. -/
theorem LvArray.ArrayOfArraysView.setCapacityOfArray_value {T : Type}
    (s : LvArray.ArrayOfArrays T) (i c : Int) (hs : s.Inv) (hi0 : 0 ≤ i)
    (hi1 : i < s.m_numArrays) (hc : 0 ≤ c) (j k : Int) (hj0 : 0 ≤ j)
    (hj1 : j < s.m_numArrays) (hk0 : 0 ≤ k) (hk1 : k < s.m_sizes j) (hkc : j = i → k < c) :
    LvArray.ArrayOfArraysView.value (LvArray.ArrayOfArraysView.setCapacityOfArray s i c) j k =
      LvArray.ArrayOfArraysView.value s j k := by
  have hi := hs.2.2 i hi0 hi1
  have hj := hs.2.2 j hj0 hj1
  unfold LvArray.ArrayOfArraysView.value
  have eo := LvArray.ArrayOfArraysView.setCapacityOfArray_offsets s i c j
  rcases lt_trichotomy j i with hlt | heq | hgt
  · have hm := LvArray.ArrayOfArrays.offsets_mono s hs (j + 1) i (by omega) (by omega)
      (by omega)
    rw [if_neg (by omega)] at eo
    rw [eo, LvArray.ArrayOfArraysView.setCapacityOfArray_values, if_pos (by omega)]
  · subst heq
    have := hkc rfl
    rw [if_neg (by omega)] at eo
    rw [eo, LvArray.ArrayOfArraysView.setCapacityOfArray_values, if_pos (by omega)]
  · have hm := LvArray.ArrayOfArrays.offsets_mono s hs (i + 1) j (by omega) (by omega)
      (by omega)
    rw [if_pos (by omega)] at eo
    rw [eo, LvArray.ArrayOfArraysView.setCapacityOfArray_values, if_neg (by omega),
      if_neg (by omega)]
    congr 1
    omega

/-- The `appendToArray` of the view, on a row with room for the range: the
values of the range follow the values of the row, in order, and no other
stored value changes. -/
theorem LvArray.ArrayOfArraysView.appendToArray_value {T : Type} (s : LvArray.ArrayOfArrays T)
    (i : Int) (range : List T) (hs : s.Inv) (hi0 : 0 ≤ i) (hi1 : i < s.m_numArrays)
    (hc : s.m_sizes i + range.length ≤ s.m_offsets (i + 1) - s.m_offsets i) :
    (∀ k : Nat, k < range.length →
        LvArray.ArrayOfArraysView.value (LvArray.ArrayOfArraysView.appendToArray s i range) i
          (s.m_sizes i + k) = range[k]?) ∧
      ∀ j k : Int, 0 ≤ j → j < s.m_numArrays → 0 ≤ k → k < s.m_sizes j →
        LvArray.ArrayOfArraysView.value (LvArray.ArrayOfArraysView.appendToArray s i range) j k =
          LvArray.ArrayOfArraysView.value s j k := by
  have hi := hs.2.2 i hi0 hi1
  unfold LvArray.ArrayOfArraysView.value LvArray.ArrayOfArraysView.appendToArray
  refine ⟨?_, ?_⟩
  · intro k hk
    simp only []
    rw [if_pos (by omega)]
    congr 1
    omega
  · intro j k hj0 hj1 hk0 hk1
    have hj := hs.2.2 j hj0 hj1
    simp only []
    rcases lt_trichotomy j i with hlt | heq | hgt
    · have hm := LvArray.ArrayOfArrays.offsets_mono s hs (j + 1) i (by omega) (by omega)
        (by omega)
      rw [if_neg (by omega)]
    · subst heq
      rw [if_neg (by omega)]
    · have hm := LvArray.ArrayOfArrays.offsets_mono s hs (i + 1) j (by omega) (by omega)
        (by omega)
      rw [if_neg (by omega)]

/-- The method `appendToArray( i, first, last )`: the number of rows stays, row
`i` keeps its values and receives the values of the range after them, in
order, and every other row keeps its size and values. -/
theorem LvArray.ArrayOfArrays.appendToArray_rows {T : Type} (s : LvArray.ArrayOfArrays T)
    (i : Int) (range : List T) (hs : s.Inv) (hi0 : 0 ≤ i) (hi1 : i < s.m_numArrays) :
    (s.appendToArray i range).m_numArrays = s.m_numArrays ∧
      (s.appendToArray i range).m_sizes i = s.m_sizes i + range.length ∧
      (∀ k : Int, 0 ≤ k → k < s.m_sizes i →
        LvArray.ArrayOfArraysView.value (s.appendToArray i range) i k =
          LvArray.ArrayOfArraysView.value s i k) ∧
      (∀ k : Nat, k < range.length →
        LvArray.ArrayOfArraysView.value (s.appendToArray i range) i (s.m_sizes i + k) =
          range[k]?) ∧
      ∀ j : Int, 0 ≤ j → j < s.m_numArrays → j ≠ i → (s.appendToArray i range).SameRow j s j := by
  obtain ⟨g1, g2, g3, g4, g5⟩ :=
    LvArray.ArrayOfArrays.dynamicallyGrowArray_facts s i range.length hs hi0 hi1 (by omega)
  have hcap : (s.dynamicallyGrowArray i range.length).m_sizes i + range.length ≤
      (s.dynamicallyGrowArray i range.length).m_offsets (i + 1) -
        (s.dynamicallyGrowArray i range.length).m_offsets i := by
    rw [g3 i]; exact g5
  obtain ⟨e1, e2⟩ := LvArray.ArrayOfArraysView.appendToArray_value
    (s.dynamicallyGrowArray i range.length) i range g1 hi0 (by omega) hcap
  have hval : ∀ j k : Int, 0 ≤ j → j < s.m_numArrays → 0 ≤ k → k < s.m_sizes j →
      LvArray.ArrayOfArraysView.value (s.appendToArray i range) j k =
        LvArray.ArrayOfArraysView.value s j k := by
    intro j k hj0 hj1 hk0 hk1
    have h := e2 j k hj0 (by omega) hk0 (by rw [g3 j]; exact hk1)
    unfold LvArray.ArrayOfArrays.appendToArray
    simp only []
    rw [h]
    exact LvArray.ArrayOfArrays.dynamicallyGrowArray_value s i range.length hs hi0 hi1 j k hj0
      hj1 hk0 hk1
  have hsz : ∀ j : Int, (s.appendToArray i range).m_sizes j =
      if j = i then s.m_sizes i + range.length else s.m_sizes j := by
    intro j
    unfold LvArray.ArrayOfArrays.appendToArray LvArray.ArrayOfArraysView.appendToArray
    simp only [g3]
  refine ⟨g2, by rw [hsz, if_pos rfl], fun k hk0 hk1 => hval i k hi0 hi1 hk0 hk1, ?_, ?_⟩
  · intro k hk
    have h := e1 k hk
    rw [g3 i] at h
    exact h
  · intro j hj0 hj1 hji
    refine ⟨?_, fun k hk0 hk1 => hval j k hj0 hj1 hk0 hk1⟩
    unfold LvArray.ArrayOfArraysView.sizeOfArray
    rw [hsz, if_neg hji]

theorem LvArray.ArrayOfArrays.insertRow_rows {T : Type} (s : LvArray.ArrayOfArrays T) (i : Int)
    (hi0 : 0 ≤ i) (hi1 : i ≤ s.m_numArrays) :
    LvArray.bufferManipulation.emplace s.m_sizes s.m_numArrays i 0 i = 0 ∧
      (∀ j : Int, 0 ≤ j → j < i →
        LvArray.ArrayOfArrays.SameRow
          ({ m_numArrays := s.m_numArrays + 1
             m_offsets := LvArray.bufferManipulation.emplace s.m_offsets (s.m_numArrays + 1)
               (i + 1) (s.m_offsets i)
             m_sizes := LvArray.bufferManipulation.emplace s.m_sizes s.m_numArrays i 0
             m_values := s.m_values } : LvArray.ArrayOfArrays T) j s j) ∧
      ∀ j : Int, i ≤ j → j < s.m_numArrays →
        LvArray.ArrayOfArrays.SameRow
          ({ m_numArrays := s.m_numArrays + 1
             m_offsets := LvArray.bufferManipulation.emplace s.m_offsets (s.m_numArrays + 1)
               (i + 1) (s.m_offsets i)
             m_sizes := LvArray.bufferManipulation.emplace s.m_sizes s.m_numArrays i 0
             m_values := s.m_values } : LvArray.ArrayOfArrays T) (j + 1) s j := by
  unfold LvArray.ArrayOfArrays.SameRow LvArray.ArrayOfArraysView.sizeOfArray
    LvArray.ArrayOfArraysView.value LvArray.bufferManipulation.emplace
  refine ⟨by simp, ?_, ?_⟩
  · intro j hj0 hj1
    simp only []
    rw [if_neg (by omega), if_neg (by omega), if_neg (by omega), if_neg (by omega)]
    exact ⟨rfl, fun _ _ _ => rfl⟩
  · intro j hj0 hj1
    have e : j + 1 - 1 = j := by omega
    simp only []
    by_cases hji : j = i
    · subst hji
      rw [if_neg (by omega), if_pos (by omega), e, if_pos rfl]
      exact ⟨rfl, fun _ _ _ => rfl⟩
    · rw [if_neg (by omega), if_pos (by omega), e, if_neg (by omega), if_pos (by omega)]
      exact ⟨rfl, fun _ _ _ => rfl⟩

/-- Claim C13. For every array of arrays with `n` rows, every position
`0 <= i <= n` and every range of values, `insertArray( i, first, last )` yields
`n + 1` rows in which row `i` holds exactly the values of the range in order,
every row `j < i` keeps its size and values, and every former row `j >= i` is
row `j + 1` with the same size and values. -/
theorem insertArray_rows {T : Type} (s : LvArray.ArrayOfArrays T) (i : Int) (range : List T)
    (hs : s.Inv) (hi0 : 0 ≤ i) (hi1 : i ≤ s.size) :
    (s.insertArray i range).size = s.size + 1 ∧
      (s.insertArray i range).HoldsRow i range ∧
      (∀ j : Int, 0 ≤ j → j < i → (s.insertArray i range).SameRow j s j) ∧
      ∀ j : Int, i ≤ j → j < s.size → (s.insertArray i range).SameRow (j + 1) s j := by
  unfold LvArray.ArrayOfArrays.size at *
  obtain ⟨f1, f2, f3⟩ := LvArray.ArrayOfArrays.insertRow_rows s i hi0 hi1
  obtain ⟨g1, g2, g3, g4, g5⟩ := LvArray.ArrayOfArrays.appendToArray_rows _ i range
    (LvArray.ArrayOfArrays.inv_insertRow s i hs hi0 hi1) hi0 (by simp only []; omega)
  unfold LvArray.ArrayOfArrays.insertArray
  simp only [] at g1 g2 g3 g4 g5 ⊢
  refine ⟨g1, ⟨?_, ?_⟩, ?_, ?_⟩
  · unfold LvArray.ArrayOfArraysView.sizeOfArray
    rw [g2, f1, zero_add]
  · intro k hk
    have h := g4 k hk
    rw [f1, zero_add] at h
    exact h
  · intro j hj0 hj1
    exact (g5 j hj0 (by omega) (by omega)).trans (f2 j hj0 hj1)
  · intro j hj0 hj1
    exact (g5 (j + 1) (by omega) (by omega) (by omega)).trans (f3 j hj0 hj1)

/-- Witness of claim C13: the row 1, 2 inserted before the only row, which
holds 7, 8, 9. -/
theorem insertArray_rows_witness :
    [0, 1].map (LvArray.ArrayOfArraysView.value
        (((LvArray.ArrayOfArrays.new 0 0 : LvArray.ArrayOfArrays Int).appendArrayRange
          [7, 8, 9]).insertArray 0 [1, 2]) 0) = [some 1, some 2] ∧
      [0, 1, 2].map (LvArray.ArrayOfArraysView.value
        (((LvArray.ArrayOfArrays.new 0 0 : LvArray.ArrayOfArrays Int).appendArrayRange
          [7, 8, 9]).insertArray 0 [1, 2]) 1) = [some 7, some 8, some 9] ∧
      (((LvArray.ArrayOfArrays.new 0 0 : LvArray.ArrayOfArrays Int).appendArrayRange
          [7, 8, 9]).insertArray 0 [1, 2]).size = 2 := by
  have h := insertArray_rows
    ((LvArray.ArrayOfArrays.new 0 0 : LvArray.ArrayOfArrays Int).appendArrayRange [7, 8, 9])
    0 [1, 2]
    (LvArray.ArrayOfArrays.inv_appendArrayRange _ _
      (LvArray.ArrayOfArrays.inv_new 0 0 (le_refl _) (le_refl _)))
    (le_refl _) (by decide)
  refine ⟨by decide, by decide, ?_⟩
  rw [h.1]
  decide

theorem LvArray.ArrayOfArrays.eraseArray_offsets {T : Type} (s : LvArray.ArrayOfArrays T)
    (i j : Int) :
    (s.eraseArray i).m_offsets j =
      if i + 1 ≤ j ∧ j < s.m_numArrays then
        (LvArray.ArrayOfArraysView.setCapacityOfArray s i 0).m_offsets (j + 1)
      else (LvArray.ArrayOfArraysView.setCapacityOfArray s i 0).m_offsets j := by
  unfold LvArray.ArrayOfArrays.eraseArray LvArray.ArrayOfArrays.setCapacityOfArray
    LvArray.bufferManipulation.erase
  simp only [LvArray.ArrayOfArraysView.setCapacityOfArray_numArrays]
  split_ifs <;> first | rfl | omega

theorem LvArray.ArrayOfArrays.eraseArray_sizes {T : Type} (s : LvArray.ArrayOfArrays T)
    (i j : Int) :
    (s.eraseArray i).m_sizes j =
      if i ≤ j ∧ j < s.m_numArrays - 1 then
        (LvArray.ArrayOfArraysView.setCapacityOfArray s i 0).m_sizes (j + 1)
      else (LvArray.ArrayOfArraysView.setCapacityOfArray s i 0).m_sizes j := by
  unfold LvArray.ArrayOfArrays.eraseArray LvArray.ArrayOfArrays.setCapacityOfArray
    LvArray.bufferManipulation.erase
  simp only [LvArray.ArrayOfArraysView.setCapacityOfArray_numArrays]

/-- The rows that `eraseArray( i )` keeps: the rows before `i` stay, the rows
after `i` move down by one, each with its size, capacity and values. -/
theorem LvArray.ArrayOfArrays.eraseArray_kept {T : Type} (s : LvArray.ArrayOfArrays T) (i : Int)
    (hs : s.Inv) (hi0 : 0 ≤ i) (hi1 : i < s.m_numArrays) :
    (∀ j : Int, 0 ≤ j → j < i →
        (s.eraseArray i).SameRow j s j ∧
          LvArray.ArrayOfArraysView.capacityOfArray (s.eraseArray i) j =
            LvArray.ArrayOfArraysView.capacityOfArray s j) ∧
      ∀ j : Int, i ≤ j → j + 1 < s.m_numArrays →
        (s.eraseArray i).SameRow j s (j + 1) ∧
          LvArray.ArrayOfArraysView.capacityOfArray (s.eraseArray i) j =
            LvArray.ArrayOfArraysView.capacityOfArray s (j + 1) := by
  have hi := hs.2.2 i hi0 hi1
  have hoff := LvArray.ArrayOfArraysView.setCapacityOfArray_offsets s i 0
  have hsz := fun j => LvArray.ArrayOfArraysView.setCapacityOfArray_sizes s i 0 j hi.2.2
  have hval := LvArray.ArrayOfArraysView.setCapacityOfArray_value s i 0 hs hi0 hi1 (le_refl _)
  have hv : ∀ p, (s.eraseArray i).m_values p =
      (LvArray.ArrayOfArraysView.setCapacityOfArray s i 0).m_values p := fun _ => rfl
  unfold LvArray.ArrayOfArrays.SameRow LvArray.ArrayOfArraysView.sizeOfArray
    LvArray.ArrayOfArraysView.capacityOfArray
  unfold LvArray.ArrayOfArraysView.value at hval ⊢
  refine ⟨?_, ?_⟩
  · intro j hj0 hj1
    have o1 := LvArray.ArrayOfArrays.eraseArray_offsets s i j
    have o2 := LvArray.ArrayOfArrays.eraseArray_offsets s i (j + 1)
    have z1 := LvArray.ArrayOfArrays.eraseArray_sizes s i j
    rw [if_neg (by omega), hoff, if_neg (by omega)] at o1 o2
    rw [if_neg (by omega), hsz, if_neg (by omega)] at z1
    refine ⟨⟨z1, ?_⟩, by omega⟩
    intro k hk0 hk1
    have h := hval j k hj0 (by omega) hk0 hk1 (by omega)
    rw [hoff, if_neg (by omega)] at h
    rw [hv, o1]
    exact h
  · intro j hj0 hj1
    have o1 := LvArray.ArrayOfArrays.eraseArray_offsets s i j
    have o2 := LvArray.ArrayOfArrays.eraseArray_offsets s i (j + 1)
    have z1 := LvArray.ArrayOfArrays.eraseArray_sizes s i j
    have p1 := hoff (j + 1)
    have p2 := hoff (j + 1 + 1)
    rw [if_pos (by omega)] at p1 p2 z1
    rw [hsz, if_neg (by omega)] at z1
    rw [if_pos (by omega), p2] at o2
    have o1' : (s.eraseArray i).m_offsets j =
        s.m_offsets (j + 1) + (0 - (s.m_offsets (i + 1) - s.m_offsets i)) := by
      by_cases hji : j = i
      · subst hji
        rw [o1, if_neg (by omega), hoff, if_neg (by omega)]
        omega
      · rw [o1, if_pos (by omega), p1]
    refine ⟨⟨z1, ?_⟩, by omega⟩
    intro k hk0 hk1
    have h := hval (j + 1) k (by omega) hj1 hk0 hk1 (by omega)
    rw [p1] at h
    rw [hv, o1']
    exact h

/-- Claim C14. For every array of arrays with `n` rows and every `0 <= i < n`,
`eraseArray( i )` yields `n - 1` rows in which every row `j < i` keeps its
size, capacity and values, and every former row `j > i` is row `j - 1` with the
same size, capacity and values. -/
theorem eraseArray_rows {T : Type} (s : LvArray.ArrayOfArrays T) (i : Int)
    (hs : s.Inv) (hi0 : 0 ≤ i) (hi1 : i < s.size) :
    (s.eraseArray i).size = s.size - 1 ∧
      (∀ j : Int, 0 ≤ j → j < i →
        (s.eraseArray i).SameRow j s j ∧
          LvArray.ArrayOfArraysView.capacityOfArray (s.eraseArray i) j =
            LvArray.ArrayOfArraysView.capacityOfArray s j) ∧
      ∀ j : Int, i < j → j < s.size →
        (s.eraseArray i).SameRow (j - 1) s j ∧
          LvArray.ArrayOfArraysView.capacityOfArray (s.eraseArray i) (j - 1) =
            LvArray.ArrayOfArraysView.capacityOfArray s j := by
  unfold LvArray.ArrayOfArrays.size at *
  obtain ⟨h1, h2⟩ := LvArray.ArrayOfArrays.eraseArray_kept s i hs hi0 hi1
  refine ⟨?_, h1, ?_⟩
  · unfold LvArray.ArrayOfArrays.eraseArray LvArray.ArrayOfArrays.setCapacityOfArray
    simp only [LvArray.ArrayOfArraysView.setCapacityOfArray_numArrays]
  · intro j hj0 hj1
    have h := h2 (j - 1) (by omega) (by omega)
    have e : j - 1 + 1 = j := by omega
    rw [e] at h
    exact h

/-- Witness of claim C14: the middle one of three rows is erased; the last row,
of capacity 4 and holding 5, 6, becomes row 1. -/
theorem eraseArray_rows_witness :
    (((((LvArray.ArrayOfArrays.new 0 0 : LvArray.ArrayOfArrays Int).appendArrayRange
        [1]).appendArrayRange [2, 3]).appendArrayRange [5, 6]).eraseArray 1).size = 2 ∧
      [0, 1].map (LvArray.ArrayOfArraysView.value
        (((((LvArray.ArrayOfArrays.new 0 0 : LvArray.ArrayOfArrays Int).appendArrayRange
          [1]).appendArrayRange [2, 3]).appendArrayRange [5, 6]).eraseArray 1) 1) =
        [some 5, some 6] ∧
      LvArray.ArrayOfArraysView.capacityOfArray
        (((((LvArray.ArrayOfArrays.new 0 0 : LvArray.ArrayOfArrays Int).appendArrayRange
          [1]).appendArrayRange [2, 3]).appendArrayRange [5, 6]).eraseArray 1) 1 = 4 := by
  have h := eraseArray_rows
    ((((LvArray.ArrayOfArrays.new 0 0 : LvArray.ArrayOfArrays Int).appendArrayRange
        [1]).appendArrayRange [2, 3]).appendArrayRange [5, 6]) 1
    (LvArray.ArrayOfArrays.inv_appendArrayRange _ _
      (LvArray.ArrayOfArrays.inv_appendArrayRange _ _
        (LvArray.ArrayOfArrays.inv_appendArrayRange _ _
          (LvArray.ArrayOfArrays.inv_new 0 0 (le_refl _) (le_refl _)))))
    (by decide) (by decide)
  refine ⟨?_, by decide, ?_⟩
  · rw [h.1]; decide
  · have h2 := (h.2.2 2 (by decide) (by decide)).2
    exact h2.trans (by decide)

theorem LvArray.ArrayOfArrays.resizeArray_grow_facts {T : Type} (s : LvArray.ArrayOfArrays T)
    (i newSize : Int) (hs : s.Inv) (hi0 : 0 ≤ i) (hi1 : i < s.m_numArrays) (hn : 0 ≤ newSize) :
    (if newSize > LvArray.ArrayOfArraysView.capacityOfArray s i then
        s.setCapacityOfArray i newSize else s).Inv ∧
      (if newSize > LvArray.ArrayOfArraysView.capacityOfArray s i then
        s.setCapacityOfArray i newSize else s).m_numArrays = s.m_numArrays ∧
      (∀ j, (if newSize > LvArray.ArrayOfArraysView.capacityOfArray s i then
        s.setCapacityOfArray i newSize else s).m_sizes j = s.m_sizes j) ∧
      newSize ≤ LvArray.ArrayOfArraysView.capacityOfArray
        (if newSize > LvArray.ArrayOfArraysView.capacityOfArray s i then
          s.setCapacityOfArray i newSize else s) i ∧
      LvArray.ArrayOfArraysView.capacityOfArray s i ≤ LvArray.ArrayOfArraysView.capacityOfArray
        (if newSize > LvArray.ArrayOfArraysView.capacityOfArray s i then
          s.setCapacityOfArray i newSize else s) i ∧
      ∀ j k : Int, 0 ≤ j → j < s.m_numArrays → 0 ≤ k → k < s.m_sizes j →
        LvArray.ArrayOfArraysView.value
          (if newSize > LvArray.ArrayOfArraysView.capacityOfArray s i then
            s.setCapacityOfArray i newSize else s) j k = LvArray.ArrayOfArraysView.value s j k := by
  have hi := hs.2.2 i hi0 hi1
  by_cases hg : newSize > LvArray.ArrayOfArraysView.capacityOfArray s i
  · rw [if_pos hg]
    unfold LvArray.ArrayOfArrays.setCapacityOfArray
    have hg2 := hg
    unfold LvArray.ArrayOfArraysView.capacityOfArray at hg2
    refine ⟨LvArray.ArrayOfArraysView.inv_setCapacityOfArray s i newSize hs hi0 hi1 hn,
      LvArray.ArrayOfArraysView.setCapacityOfArray_numArrays s i newSize, ?_, ?_, ?_, ?_⟩
    · intro j
      rw [LvArray.ArrayOfArraysView.setCapacityOfArray_sizes s i newSize j hi.2.2,
        if_neg (by omega)]
    · rw [LvArray.ArrayOfArraysView.setCapacityOfArray_capacity s i newSize hi1]
    · rw [LvArray.ArrayOfArraysView.setCapacityOfArray_capacity s i newSize hi1]
      omega
    · intro j k hj0 hj1 hk0 hk1
      exact LvArray.ArrayOfArraysView.setCapacityOfArray_value s i newSize hs hi0 hi1 hn j k hj0
        hj1 hk0 hk1 (fun e => by subst e; omega)
  · rw [if_neg hg]
    exact ⟨hs, rfl, fun _ => rfl, by omega, le_refl _, fun _ _ _ _ _ _ => rfl⟩

/-- The method `resizeArray( i, newSize, args ... )`: the number of rows stays,
the size of row `i` becomes `newSize`, its values below both sizes stay, its
new values are `T( args ... )`, its capacity does not decrease, and every other
row keeps its size and values. -/
theorem LvArray.ArrayOfArrays.resizeArray_rows {T : Type} (s : LvArray.ArrayOfArrays T)
    (i newSize : Int) (init : T) (hs : s.Inv) (hi0 : 0 ≤ i) (hi1 : i < s.m_numArrays)
    (hn : 0 ≤ newSize) :
    (s.resizeArray i newSize init).m_numArrays = s.m_numArrays ∧
      (s.resizeArray i newSize init).m_sizes i = newSize ∧
      (∀ k : Int, 0 ≤ k → k < s.m_sizes i → k < newSize →
        LvArray.ArrayOfArraysView.value (s.resizeArray i newSize init) i k =
          LvArray.ArrayOfArraysView.value s i k) ∧
      (∀ k : Int, s.m_sizes i ≤ k → k < newSize →
        LvArray.ArrayOfArraysView.value (s.resizeArray i newSize init) i k = some init) ∧
      LvArray.ArrayOfArraysView.capacityOfArray s i ≤
        LvArray.ArrayOfArraysView.capacityOfArray (s.resizeArray i newSize init) i ∧
      ∀ j : Int, 0 ≤ j → j < s.m_numArrays → j ≠ i →
        (s.resizeArray i newSize init).SameRow j s j := by
  obtain ⟨g1, g2, g3, g4, g5, g6⟩ :=
    LvArray.ArrayOfArrays.resizeArray_grow_facts s i newSize hs hi0 hi1 hn
  have hi := hs.2.2 i hi0 hi1
  unfold LvArray.ArrayOfArrays.resizeArray
  simp only []
  generalize (if newSize > LvArray.ArrayOfArraysView.capacityOfArray s i then
    s.setCapacityOfArray i newSize else s) = s1 at g1 g2 g3 g4 g5 g6 ⊢
  have hi' := g1.2.2 i hi0 (by omega)
  unfold LvArray.ArrayOfArrays.SameRow
  unfold LvArray.ArrayOfArraysView.capacityOfArray at g4 g5 ⊢
  unfold LvArray.ArrayOfArraysView.value at g6 ⊢
  unfold LvArray.ArrayOfArraysView.sizeOfArray LvArray.arrayManipulation.resize
  simp only []
  refine ⟨g2, by simp, ?_, ?_, g5, ?_⟩
  · intro k hk0 hk1 hk2
    rw [if_neg (by rw [g3 i]; omega), if_neg (by rw [g3 i]; omega)]
    exact g6 i k hi0 hi1 hk0 hk1
  · intro k hk0 hk1
    rw [if_pos (by rw [g3 i]; omega)]
  · intro j hj0 hj1 hji
    have hj' := g1.2.2 j hj0 (by omega)
    refine ⟨by rw [if_neg hji, g3 j], ?_⟩
    intro k hk0 hk1
    have hsz := g3 i
    rcases lt_or_gt_of_ne hji with hlt | hgt
    · have hm := LvArray.ArrayOfArrays.offsets_mono s1 g1 (j + 1) i (by omega) (by omega)
        (by omega)
      have hsj := g3 j
      rw [if_neg (by omega), if_neg (by omega)]
      exact g6 j k hj0 hj1 hk0 hk1
    · have hm := LvArray.ArrayOfArrays.offsets_mono s1 g1 (i + 1) j (by omega) (by omega)
        (by omega)
      rw [if_neg (by omega), if_neg (by omega)]
      exact g6 j k hj0 hj1 hk0 hk1

/-- Claim C16. For every array of arrays, valid row `i` and `newSize >= 0`,
`resizeArray( i, newSize, args ... )` sets `sizeOfArray( i )` to `newSize`,
leaves the first `min( oldSize, newSize )` values of row `i` untouched,
initialises every new value from the arguments, never lowers the capacity of
row `i`, and leaves the number of rows and the sizes and values of all other
rows unchanged; `clearArray( i )` leaves row `i` with size 0, and it leaves
the number of rows, the capacity of row `i` and the sizes and values of all
other rows as they were. -/
theorem resizeArray_rows_spec {T : Type} [Inhabited T] (s : LvArray.ArrayOfArrays T)
    (i newSize : Int) (init : T) (hs : s.Inv) (hi0 : 0 ≤ i) (hi1 : i < s.size)
    (hn : 0 ≤ newSize) :
    (s.resizeArray i newSize init).size = s.size ∧
      LvArray.ArrayOfArraysView.sizeOfArray (s.resizeArray i newSize init) i = newSize ∧
      (∀ k : Int, 0 ≤ k →
        k < min (LvArray.ArrayOfArraysView.sizeOfArray s i) newSize →
        LvArray.ArrayOfArraysView.value (s.resizeArray i newSize init) i k =
          LvArray.ArrayOfArraysView.value s i k) ∧
      (∀ k : Int, LvArray.ArrayOfArraysView.sizeOfArray s i ≤ k → k < newSize →
        LvArray.ArrayOfArraysView.value (s.resizeArray i newSize init) i k = some init) ∧
      LvArray.ArrayOfArraysView.capacityOfArray s i ≤
        LvArray.ArrayOfArraysView.capacityOfArray (s.resizeArray i newSize init) i ∧
      (∀ j : Int, 0 ≤ j → j < s.size → j ≠ i → (s.resizeArray i newSize init).SameRow j s j) ∧
      LvArray.ArrayOfArraysView.sizeOfArray (s.clearArray i) i = 0 ∧
      (s.clearArray i).size = s.size ∧
      LvArray.ArrayOfArraysView.capacityOfArray (s.clearArray i) i =
        LvArray.ArrayOfArraysView.capacityOfArray s i ∧
      (∀ j : Int, 0 ≤ j → j < s.size → j ≠ i → (s.clearArray i).SameRow j s j) := by
  unfold LvArray.ArrayOfArrays.size at *
  obtain ⟨h1, h2, h3, h4, h5, h6⟩ :=
    LvArray.ArrayOfArrays.resizeArray_rows s i newSize init hs hi0 hi1 hn
  obtain ⟨c1, c2, _, _, _, c6⟩ :=
    LvArray.ArrayOfArrays.resizeArray_rows s i 0 default hs hi0 hi1 (le_refl _)
  refine ⟨h1, h2, ?_, h4, h5, h6, ?_, ?_, ?_, ?_⟩
  · intro k hk0 hk1
    unfold LvArray.ArrayOfArraysView.sizeOfArray at hk1
    exact h3 k hk0 (by omega) (by omega)
  · unfold LvArray.ArrayOfArrays.clearArray
    exact c2
  · unfold LvArray.ArrayOfArrays.clearArray
    exact c1
  · unfold LvArray.ArrayOfArrays.clearArray
    rw [LvArray.ArrayOfArrays.resizeArray_capacity s i 0 default hi1, if_neg]
    have := hs.2.2 i hi0 hi1
    unfold LvArray.ArrayOfArraysView.capacityOfArray
    omega
  · unfold LvArray.ArrayOfArrays.clearArray
    exact c6

/-- Witness of claim C16: the row 1, 2, 3 resized to 5 with the value 9, next
to the row 7, 8, and the same row cleared. -/
theorem resizeArray_rows_spec_witness :
    [0, 1, 2, 3, 4].map (LvArray.ArrayOfArraysView.value
        ((((LvArray.ArrayOfArrays.new 0 0 : LvArray.ArrayOfArrays Int).appendArrayRange
          [1, 2, 3]).appendArrayRange [7, 8]).resizeArray 0 5 9) 0) =
        [some 1, some 2, some 3, some 9, some 9] ∧
      [0, 1].map (LvArray.ArrayOfArraysView.value
        ((((LvArray.ArrayOfArrays.new 0 0 : LvArray.ArrayOfArrays Int).appendArrayRange
          [1, 2, 3]).appendArrayRange [7, 8]).resizeArray 0 5 9) 1) = [some 7, some 8] ∧
      LvArray.ArrayOfArraysView.sizeOfArray
        ((((LvArray.ArrayOfArrays.new 0 0 : LvArray.ArrayOfArrays Int).appendArrayRange
          [1, 2, 3]).appendArrayRange [7, 8]).resizeArray 0 5 9) 0 = 5 ∧
      LvArray.ArrayOfArraysView.sizeOfArray
        ((((LvArray.ArrayOfArrays.new 0 0 : LvArray.ArrayOfArrays Int).appendArrayRange
          [1, 2, 3]).appendArrayRange [7, 8]).clearArray 0) 0 = 0 ∧
      LvArray.ArrayOfArrays.size
        ((((LvArray.ArrayOfArrays.new 0 0 : LvArray.ArrayOfArrays Int).appendArrayRange
          [1, 2, 3]).appendArrayRange [7, 8]).clearArray 0) = 2 ∧
      [0, 1].map (LvArray.ArrayOfArraysView.value
        ((((LvArray.ArrayOfArrays.new 0 0 : LvArray.ArrayOfArrays Int).appendArrayRange
          [1, 2, 3]).appendArrayRange [7, 8]).clearArray 0) 1) = [some 7, some 8] := by
  have h := resizeArray_rows_spec
    (((LvArray.ArrayOfArrays.new 0 0 : LvArray.ArrayOfArrays Int).appendArrayRange
      [1, 2, 3]).appendArrayRange [7, 8]) 0 5 9
    (LvArray.ArrayOfArrays.inv_appendArrayRange _ _
      (LvArray.ArrayOfArrays.inv_appendArrayRange _ _
        (LvArray.ArrayOfArrays.inv_new 0 0 (le_refl _) (le_refl _))))
    (le_refl _) (by decide) (by decide)
  exact ⟨by decide, by decide, h.2.1, h.2.2.2.2.2.2.1, h.2.2.2.2.2.2.2.1.trans (by decide),
    by decide⟩

theorem LvArray.ArrayOfArrays.pushRow_rows {T : Type} (s : LvArray.ArrayOfArrays T) :
    LvArray.bufferManipulation.emplaceBack s.m_sizes s.m_numArrays 0 s.m_numArrays = 0 ∧
      ∀ j : Int, j < s.m_numArrays →
        LvArray.ArrayOfArrays.SameRow
          ({ m_numArrays := s.m_numArrays + 1
             m_offsets := LvArray.bufferManipulation.emplaceBack s.m_offsets (s.m_numArrays + 1)
               (s.m_offsets s.m_numArrays)
             m_sizes := LvArray.bufferManipulation.emplaceBack s.m_sizes s.m_numArrays 0
             m_values := s.m_values } : LvArray.ArrayOfArrays T) j s j := by
  unfold LvArray.ArrayOfArrays.SameRow LvArray.ArrayOfArraysView.sizeOfArray
    LvArray.ArrayOfArraysView.value LvArray.bufferManipulation.emplaceBack
  refine ⟨by simp, ?_⟩
  intro j hj
  simp only []
  rw [if_neg (by omega), if_neg (by omega)]
  exact ⟨rfl, fun _ _ _ => rfl⟩

/-- Claim C15. For every array of arrays with `n` rows and every `m >= 0`,
`appendArray( m )` yields `n + 1` rows where the new last row has size `m` and
the `n` existing rows keep their sizes and values; `appendArray( first, last )`
likewise appends a last row holding exactly the values of the range in
order. -/
theorem appendArray_rows {T : Type} [Inhabited T] (s : LvArray.ArrayOfArrays T) (m : Int)
    (range : List T) (hs : s.Inv) (hm : 0 ≤ m) :
    (s.appendArray m).size = s.size + 1 ∧
      LvArray.ArrayOfArraysView.sizeOfArray (s.appendArray m) s.size = m ∧
      (∀ j : Int, 0 ≤ j → j < s.size → (s.appendArray m).SameRow j s j) ∧
      (s.appendArrayRange range).size = s.size + 1 ∧
      (s.appendArrayRange range).HoldsRow s.size range ∧
      ∀ j : Int, 0 ≤ j → j < s.size → (s.appendArrayRange range).SameRow j s j := by
  unfold LvArray.ArrayOfArrays.size at *
  have hn := hs.1
  have e : s.m_numArrays + 1 - 1 = s.m_numArrays := by omega
  obtain ⟨f1, f2⟩ := LvArray.ArrayOfArrays.pushRow_rows s
  obtain ⟨g1, g2, _, _, _, g6⟩ := LvArray.ArrayOfArrays.resizeArray_rows _ s.m_numArrays m
    (default : T) (LvArray.ArrayOfArrays.inv_pushRow s hs) hn (by simp only []; omega) hm
  obtain ⟨a1, a2, _, a4, a5⟩ := LvArray.ArrayOfArrays.appendToArray_rows _ s.m_numArrays range
    (LvArray.ArrayOfArrays.inv_pushRow s hs) hn (by simp only []; omega)
  unfold LvArray.ArrayOfArrays.appendArray LvArray.ArrayOfArrays.appendArrayRange
  simp only [e] at g1 g2 g6 a1 a2 a4 a5 ⊢
  refine ⟨g1, g2, ?_, a1, ⟨?_, ?_⟩, ?_⟩
  · intro j hj0 hj1
    exact (g6 j hj0 (by omega) (by omega)).trans (f2 j hj1)
  · unfold LvArray.ArrayOfArraysView.sizeOfArray
    rw [a2, f1, zero_add]
  · intro k hk
    have h := a4 k hk
    rw [f1, zero_add] at h
    exact h
  · intro j hj0 hj1
    exact (a5 j hj0 (by omega) (by omega)).trans (f2 j hj1)

/-- Witness of claim C15: a row of size 2 and then the row 4, 5 appended after
the row 1, 2, 3. -/
theorem appendArray_rows_witness :
    LvArray.ArrayOfArraysView.sizeOfArray
        (((LvArray.ArrayOfArrays.new 0 0 : LvArray.ArrayOfArrays Int).appendArrayRange
          [1, 2, 3]).appendArray 2) 1 = 2 ∧
      [0, 1, 2].map (LvArray.ArrayOfArraysView.value
        (((LvArray.ArrayOfArrays.new 0 0 : LvArray.ArrayOfArrays Int).appendArrayRange
          [1, 2, 3]).appendArray 2) 0) = [some 1, some 2, some 3] ∧
      [0, 1].map (LvArray.ArrayOfArraysView.value
        (((LvArray.ArrayOfArrays.new 0 0 : LvArray.ArrayOfArrays Int).appendArrayRange
          [1, 2, 3]).appendArrayRange [4, 5]) 1) = [some 4, some 5] := by
  have h := appendArray_rows
    ((LvArray.ArrayOfArrays.new 0 0 : LvArray.ArrayOfArrays Int).appendArrayRange [1, 2, 3])
    2 [4, 5]
    (LvArray.ArrayOfArrays.inv_appendArrayRange _ _
      (LvArray.ArrayOfArrays.inv_new 0 0 (le_refl _) (le_refl _)))
    (by decide)
  exact ⟨h.2.1.symm ▸ rfl, by decide, by decide⟩

/-! ### Arrays of arrays: compress -/

theorem LvArray.ArrayOfArraysView.compressStep_facts {T : Type} (s : LvArray.ArrayOfArrays T)
    (i : Int) (hs : s.Inv) (hi0 : 0 ≤ i) (hi1 : i + 1 < s.m_numArrays) :
    (∀ j, (LvArray.ArrayOfArraysView.compressStep s i).m_sizes j = s.m_sizes j) ∧
      (LvArray.ArrayOfArraysView.compressStep s i).m_offsets (i + 1) =
        s.m_offsets i + s.m_sizes i ∧
      (∀ j, j ≠ i + 1 → (LvArray.ArrayOfArraysView.compressStep s i).m_offsets j = s.m_offsets j) ∧
      ∀ j k : Int, 0 ≤ j → j < s.m_numArrays → 0 ≤ k → k < s.m_sizes j →
        LvArray.ArrayOfArraysView.value (LvArray.ArrayOfArraysView.compressStep s i) j k =
          LvArray.ArrayOfArraysView.value s j k := by
  have hi := hs.2.2 i hi0 (by omega)
  have hi2 := hs.2.2 (i + 1) (by omega) hi1
  unfold LvArray.ArrayOfArraysView.value LvArray.ArrayOfArraysView.compressStep
  refine ⟨fun _ => rfl, by simp only [if_true]; omega,
    fun j hj => by simp only []; rw [if_neg hj], ?_⟩
  intro j k hj0 hj1 hk0 hk1
  have hj := hs.2.2 j hj0 hj1
  simp only []
  by_cases hji : j = i + 1
  · subst hji
    rw [if_pos rfl, if_pos (by omega)]
    congr 1
    omega
  · rw [if_neg hji]
    rcases lt_or_gt_of_ne hji with hlt | hgt
    · have hm := LvArray.ArrayOfArrays.offsets_mono s hs (j + 1) (i + 1) (by omega) (by omega)
        (by omega)
      by_cases hje : j = i
      · subst hje
        rw [if_neg (by omega)]
      · have hm2 := LvArray.ArrayOfArrays.offsets_mono s hs (j + 1) i (by omega) (by omega)
          (by omega)
        rw [if_neg (by omega)]
    · have hm := LvArray.ArrayOfArrays.offsets_mono s hs (i + 1 + 1) j (by omega) (by omega)
        (by omega)
      rw [if_neg (by omega)]

/-- The loop of `compress()` over the rows `i, ..., i + count - 1`: sizes and
stored values stay, the offsets up to `i` stay, and every row of the loop ends
where the next one starts. -/
theorem LvArray.ArrayOfArraysView.compressLoop_facts {T : Type} (count : Nat) :
    ∀ (i : Int) (s : LvArray.ArrayOfArrays T), s.Inv → 0 ≤ i →
      i + count < s.m_numArrays ∨ count = 0 →
      (LvArray.ArrayOfArraysView.compressLoop count i s).m_numArrays = s.m_numArrays ∧
        (∀ j, (LvArray.ArrayOfArraysView.compressLoop count i s).m_sizes j = s.m_sizes j) ∧
        (∀ j, j ≤ i →
          (LvArray.ArrayOfArraysView.compressLoop count i s).m_offsets j = s.m_offsets j) ∧
        (∀ l : Int, i ≤ l → l < i + count →
          (LvArray.ArrayOfArraysView.compressLoop count i s).m_offsets (l + 1) =
            (LvArray.ArrayOfArraysView.compressLoop count i s).m_offsets l + s.m_sizes l) ∧
        ∀ j k : Int, 0 ≤ j → j < s.m_numArrays → 0 ≤ k → k < s.m_sizes j →
          LvArray.ArrayOfArraysView.value (LvArray.ArrayOfArraysView.compressLoop count i s) j k =
            LvArray.ArrayOfArraysView.value s j k := by
  induction count with
  | zero =>
    intro i s _ _ _
    exact ⟨rfl, fun _ => rfl, fun _ _ => rfl, fun l h1 h2 => absurd h2 (by simp; omega),
      fun _ _ _ _ _ _ => rfl⟩
  | succ count ih =>
    intro i s hs hi0 hc
    have hc2 : i + 1 + count < s.m_numArrays := by
      rcases hc with h | h
      · push_cast at h; omega
      · omega
    obtain ⟨g1, g2⟩ := LvArray.ArrayOfArraysView.inv_compressStep s i hs hi0 (by omega)
    obtain ⟨f1, f2, f3, f4⟩ :=
      LvArray.ArrayOfArraysView.compressStep_facts s i hs hi0 (by omega)
    obtain ⟨h1, h2, h3, h4, h5⟩ := ih (i + 1) _ g1 (by omega) (Or.inl (by rw [g2]; exact hc2))
    rw [LvArray.ArrayOfArraysView.compressLoop]
    refine ⟨h1.trans g2, fun j => (h2 j).trans (f1 j), ?_, ?_, ?_⟩
    · intro j hj
      rw [h3 j (by omega), f3 j (by omega)]
    · intro l hl0 hl1
      by_cases hli : l = i
      · subst hli
        rw [h3 (l + 1) (le_refl _), h3 l (by omega), f2, f3 l (by omega)]
      · rw [h4 l (by omega) (by push_cast at hl1; omega), f1 l]
    · intro j k hj0 hj1 hk0 hk1
      rw [h5 j k hj0 (by rw [g2]; exact hj1) hk0 (by rw [f1 j]; exact hk1)]
      exact f4 j k hj0 hj1 hk0 hk1

/-- The method `compress()`: the number of rows, the sizes and the stored
values stay, the first offset is 0, and every row but the last ends where the
next one starts. -/
theorem LvArray.ArrayOfArrays.compress_facts {T : Type} (s : LvArray.ArrayOfArrays T)
    (hs : s.Inv) :
    s.compress.m_numArrays = s.m_numArrays ∧
      (∀ j, s.compress.m_sizes j = s.m_sizes j) ∧
      s.compress.m_offsets 0 = 0 ∧
      (∀ l : Int, 0 ≤ l → l + 1 < s.m_numArrays →
        s.compress.m_offsets (l + 1) = s.compress.m_offsets l + s.m_sizes l) ∧
      ∀ j : Int, 0 ≤ j → j < s.m_numArrays → s.compress.SameRow j s j := by
  have hc : (0 : Int) + ((s.m_numArrays - 1).toNat : Nat) < s.m_numArrays ∨
      (s.m_numArrays - 1).toNat = 0 := by
    by_cases h : s.m_numArrays - 1 ≤ 0
    · right
      exact Int.toNat_eq_zero.mpr h
    · left
      rw [Int.toNat_of_nonneg (by omega)]
      omega
  obtain ⟨h1, h2, h3, h4, h5⟩ :=
    LvArray.ArrayOfArraysView.compressLoop_facts (s.m_numArrays - 1).toNat 0 s hs (le_refl _) hc
  unfold LvArray.ArrayOfArrays.compress LvArray.ArrayOfArraysView.compress
  refine ⟨h1, h2, ?_, ?_, ?_⟩
  · rw [h3 0 (le_refl _)]
    exact hs.2.1
  · intro l hl0 hl1
    exact h4 l hl0 (by rw [Int.toNat_of_nonneg (by omega)]; omega)
  · intro j hj0 hj1
    exact ⟨h2 j, fun k hk0 hk1 => h5 j k hj0 hj1 hk0 hk1⟩

theorem LvArray.ArrayOfArrays.compress_offsets {T : Type} (s : LvArray.ArrayOfArrays T)
    (hs : s.Inv) (k : Nat) :
    (k : Int) < s.m_numArrays → s.compress.m_offsets k = s.sumSizes k := by
  obtain ⟨_, _, h3, h4, _⟩ := LvArray.ArrayOfArrays.compress_facts s hs
  induction k with
  | zero =>
    intro _
    simp only [Nat.cast_zero, LvArray.ArrayOfArrays.sumSizes]
    exact h3
  | succ k ih =>
    intro hk
    have e : ((k + 1 : Nat) : Int) = (k : Int) + 1 := by push_cast; rfl
    rw [e] at hk ⊢
    rw [h4 k (by omega) hk, ih (by omega), LvArray.ArrayOfArrays.sumSizes]

theorem LvArray.ArrayOfArrays.compress_tight {T : Type} (s : LvArray.ArrayOfArrays T)
    (hs : s.Inv) :
    s.compress.size = s.size ∧
      (∀ j : Int, 0 ≤ j → j < s.size → s.compress.SameRow j s j) ∧
      (∀ k : Nat, (k : Int) < s.size → s.compress.m_offsets k = s.sumSizes k) ∧
      ∀ j : Int, 0 ≤ j → j + 1 < s.size →
        LvArray.ArrayOfArraysView.capacityOfArray s.compress j =
          LvArray.ArrayOfArraysView.sizeOfArray s.compress j := by
  obtain ⟨h1, h2, _, h4, h5⟩ := LvArray.ArrayOfArrays.compress_facts s hs
  unfold LvArray.ArrayOfArrays.size
  refine ⟨h1, h5, fun k hk => LvArray.ArrayOfArrays.compress_offsets s hs k hk, ?_⟩
  intro j hj0 hj1
  unfold LvArray.ArrayOfArraysView.capacityOfArray LvArray.ArrayOfArraysView.sizeOfArray
  rw [h4 j hj0 hj1, h2 j]
  omega

/-- Claim C17. For every array of arrays, and for every sparsity pattern,
`compress()` preserves the number of rows and the size and values of every
row, and afterwards the offset of every row equals the sum of the sizes of the
preceding rows, so every row except possibly the last has capacity equal to
its size. -/
theorem compress_spec {T : Type} (s : LvArray.ArrayOfArrays T) (sp : LvArray.SparsityPattern)
    (hs : s.Inv) (hsp : sp.m_columns.Inv) :
    (s.compress.size = s.size ∧
      (∀ j : Int, 0 ≤ j → j < s.size → s.compress.SameRow j s j) ∧
      (∀ k : Nat, (k : Int) < s.size → s.compress.m_offsets k = s.sumSizes k) ∧
      ∀ j : Int, 0 ≤ j → j + 1 < s.size →
        LvArray.ArrayOfArraysView.capacityOfArray s.compress j =
          LvArray.ArrayOfArraysView.sizeOfArray s.compress j) ∧
    (sp.compress.numRows = sp.numRows ∧
      (∀ j : Int, 0 ≤ j → j < sp.numRows → sp.compress.m_columns.SameRow j sp.m_columns j) ∧
      (∀ k : Nat, (k : Int) < sp.numRows →
        sp.compress.m_columns.m_offsets k = sp.m_columns.sumSizes k) ∧
      ∀ j : Int, 0 ≤ j → j + 1 < sp.numRows →
        sp.compress.nonZeroCapacity j = sp.compress.numNonZeros j) :=
  ⟨LvArray.ArrayOfArrays.compress_tight s hs, LvArray.ArrayOfArrays.compress_tight sp.m_columns hsp⟩

/-- Witness of claim C17: three rows with slack, of sizes 4, 2 and 1; after
`compress()` the offsets of the rows are 0, 4 and 6 and the last offset is
still 14. -/
theorem compress_spec_witness :
    [0, 1, 2, 3].map ((((LvArray.ArrayOfArrays.new 0 0 : LvArray.ArrayOfArrays Int).appendArrayRange
        [1, 2, 3, 4]).appendArrayRange [5, 6]).appendArrayRange [7]).compress.m_offsets =
        [0, 4, 6, 14] ∧
      [0, 1].map (LvArray.ArrayOfArraysView.value
        ((((LvArray.ArrayOfArrays.new 0 0 : LvArray.ArrayOfArrays Int).appendArrayRange
          [1, 2, 3, 4]).appendArrayRange [5, 6]).appendArrayRange [7]).compress 1) =
        [some 5, some 6] ∧
      LvArray.ArrayOfArraysView.capacityOfArray
        ((((LvArray.ArrayOfArrays.new 0 0 : LvArray.ArrayOfArrays Int).appendArrayRange
          [1, 2, 3, 4]).appendArrayRange [5, 6]).appendArrayRange [7]).compress 1 =
        LvArray.ArrayOfArraysView.sizeOfArray
          ((((LvArray.ArrayOfArrays.new 0 0 : LvArray.ArrayOfArrays Int).appendArrayRange
            [1, 2, 3, 4]).appendArrayRange [5, 6]).appendArrayRange [7]).compress 1 := by
  have hinv : ((((LvArray.ArrayOfArrays.new 0 0 : LvArray.ArrayOfArrays Int).appendArrayRange
      [1, 2, 3, 4]).appendArrayRange [5, 6]).appendArrayRange [7]).Inv :=
    LvArray.ArrayOfArrays.inv_appendArrayRange _ _
      (LvArray.ArrayOfArrays.inv_appendArrayRange _ _
        (LvArray.ArrayOfArrays.inv_appendArrayRange _ _
          (LvArray.ArrayOfArrays.inv_new 0 0 (le_refl _) (le_refl _))))
  have h := compress_spec
    ((((LvArray.ArrayOfArrays.new 0 0 : LvArray.ArrayOfArrays Int).appendArrayRange
      [1, 2, 3, 4]).appendArrayRange [5, 6]).appendArrayRange [7])
    ⟨5, (((LvArray.ArrayOfArrays.new 0 0 : LvArray.ArrayOfArrays Int).appendArrayRange
      [1, 2, 3, 4]).appendArrayRange [5, 6]).appendArrayRange [7]⟩ hinv hinv
  exact ⟨by decide, by decide, h.1.2.2.2 1 (by decide) (by decide)⟩

/-! ### Sparsity patterns -/

theorem LvArray.ArrayOfArrays.HoldsRow.of_sameRow {T : Type} {a' a : LvArray.ArrayOfArrays T}
    {j' j : Int} {l : List T} (h : a'.SameRow j' a j) (hl : a.HoldsRow j l) : a'.HoldsRow j' l := by
  refine ⟨h.1.trans hl.1, fun k hk => ?_⟩
  rw [h.2 k (by omega) (by rw [hl.1]; omega)]
  exact hl.2 k hk

theorem LvArray.SparsityPattern.getColumns_of_holdsRow (sp : LvArray.SparsityPattern) (row : Int)
    (l : List Int) (h : sp.m_columns.HoldsRow row l) : sp.getColumns row = l := by
  unfold LvArray.SparsityPattern.getColumns LvArray.SparsityPattern.numNonZeros
  rw [h.1]
  apply List.ext_getElem
  · simp
  · intro k h1 h2
    simp only [List.getElem_map, List.getElem_range, Int.toNat_ofNat]
    rw [h.2 k h2, List.getElem?_eq_getElem h2]
    rfl

/-- A strictly increasing list of integers of `[lo, m)` has at most `m - lo`
values. -/
theorem length_le_of_pairwise_lt (l : List Int) (m : Int) :
    ∀ lo : Int, (∀ x ∈ l, lo ≤ x ∧ x < m) → l.Pairwise (fun a b => a < b) →
      lo + l.length ≤ m ∨ l = [] := by
  induction l with
  | nil => intro _ _ _; exact Or.inr rfl
  | cons x t ih =>
    intro lo hb hp
    left
    have hx := hb x (List.mem_cons_self _ _)
    have hp2 := List.pairwise_cons.mp hp
    rcases ih (x + 1) (fun y hy => ⟨by have := hp2.1 y hy; omega,
      (hb y (List.mem_cons_of_mem _ hy)).2⟩) hp2.2 with h | h
    · simp only [List.length_cons]
      push_cast
      omega
    · subst h
      simp only [List.length_cons, List.length_nil]
      push_cast
      omega

/-- Changing the capacity of row `i` to `c >= 0`: the row keeps its first `c`
values, the other rows keep their size and values. -/
theorem LvArray.ArrayOfArraysView.setCapacityOfArray_rows {T : Type}
    (s : LvArray.ArrayOfArrays T) (i c : Int) (hs : s.Inv) (hi0 : 0 ≤ i)
    (hi1 : i < s.m_numArrays) (hc : 0 ≤ c) :
    (∀ j : Int, 0 ≤ j → j < s.m_numArrays → j ≠ i →
        (LvArray.ArrayOfArraysView.setCapacityOfArray s i c).SameRow j s j) ∧
      ∀ l : List T, s.HoldsRow i l →
        (LvArray.ArrayOfArraysView.setCapacityOfArray s i c).HoldsRow i (l.take c.toNat) := by
  have hi := hs.2.2 i hi0 hi1
  unfold LvArray.ArrayOfArrays.SameRow LvArray.ArrayOfArrays.HoldsRow
    LvArray.ArrayOfArraysView.sizeOfArray
  refine ⟨?_, ?_⟩
  · intro j hj0 hj1 hji
    refine ⟨?_, ?_⟩
    · rw [LvArray.ArrayOfArraysView.setCapacityOfArray_sizes s i c j hi.2.2, if_neg (by tauto)]
    · intro k hk0 hk1
      exact LvArray.ArrayOfArraysView.setCapacityOfArray_value s i c hs hi0 hi1 hc j k hj0 hj1
        hk0 hk1 (fun e => absurd e hji)
  · intro l hl
    have hlen := hl.1
    refine ⟨?_, ?_⟩
    · rw [LvArray.ArrayOfArraysView.setCapacityOfArray_sizes s i c i hi.2.2, List.length_take]
      split_ifs <;> omega
    · intro k hk
      rw [List.length_take] at hk
      rw [LvArray.ArrayOfArraysView.setCapacityOfArray_value s i c hs hi0 hi1 hc i k hi0 hi1
        (by omega) (by omega) (fun _ => by omega), hl.2 k (by omega),
        List.getElem?_take_of_lt (by omega)]

/-- Claim C19. For every row of a well formed sparsity pattern, with `nnz`
stored columns, and every new capacity `c >= 0`: `setRowCapacity( row, c )`
with `c < nnz` keeps exactly the first `c` columns of the row, which are its
`c` smallest ones; with `c >= nnz` it keeps all the columns and makes the
capacity of the row `min( c, numColumns )`. -/
theorem setRowCapacity_spec (sp : LvArray.SparsityPattern) (row c : Int)
    (hw : sp.WellFormed) (hr0 : 0 ≤ row) (hr1 : row < sp.numRows) (hc : 0 ≤ c) :
    (c < sp.numNonZeros row →
        (sp.setRowCapacity row c).getColumns row = (sp.getColumns row).take c.toNat ∧
          (sp.setRowCapacity row c).numNonZeros row = c ∧
          ∀ x ∈ (sp.getColumns row).take c.toNat, ∀ y ∈ (sp.getColumns row).drop c.toNat,
            x < y) ∧
      (sp.numNonZeros row ≤ c →
        (sp.setRowCapacity row c).getColumns row = sp.getColumns row ∧
          (sp.setRowCapacity row c).numNonZeros row = sp.numNonZeros row ∧
          (sp.setRowCapacity row c).nonZeroCapacity row = min c sp.numColumns) := by
  obtain ⟨hn, hinv, hrows⟩ := hw
  obtain ⟨cols, hcols, hsorted, hrange⟩ := hrows row hr0 hr1
  unfold LvArray.SparsityPattern.numRows at hr1
  have hget := LvArray.SparsityPattern.getColumns_of_holdsRow sp row cols hcols
  have hnnz : sp.numNonZeros row = cols.length := hcols.1
  have hpig : (cols.length : Int) ≤ sp.m_numCols := by
    rcases length_le_of_pairwise_lt cols sp.m_numCols 0 hrange hsorted with h | h
    · omega
    · subst h; simpa using hn
  have hc' : 0 ≤ (if c > sp.numColumns then sp.numColumns else c) := by
    unfold LvArray.SparsityPattern.numColumns
    split_ifs <;> omega
  have hrow := (LvArray.ArrayOfArraysView.setCapacityOfArray_rows sp.m_columns row
    (if c > sp.numColumns then sp.numColumns else c) hinv hr0 hr1 hc').2 cols hcols
  have hget' : (sp.setRowCapacity row c).getColumns row =
      cols.take (if c > sp.numColumns then sp.numColumns else c).toNat :=
    LvArray.SparsityPattern.getColumns_of_holdsRow (sp.setRowCapacity row c) row _ hrow
  have hnnz' : (sp.setRowCapacity row c).numNonZeros row =
      ((cols.take (if c > sp.numColumns then sp.numColumns else c).toNat).length : Int) := hrow.1
  rw [hget, hnnz, hget', hnnz']
  unfold LvArray.SparsityPattern.numColumns at *
  refine ⟨?_, ?_⟩
  · intro hlt
    rw [if_neg (by omega)]
    refine ⟨rfl, by rw [List.length_take]; omega, ?_⟩
    intro x hx y hy
    have hp : (cols.take c.toNat ++ cols.drop c.toNat).Pairwise (fun a b => a < b) := by
      rw [List.take_append_drop]; exact hsorted
    exact (List.pairwise_append.mp hp).2.2 x hx y hy
  · intro hle
    have hcap : (sp.setRowCapacity row c).nonZeroCapacity row =
        (if c > sp.m_numCols then sp.m_numCols else c) :=
      LvArray.ArrayOfArraysView.setCapacityOfArray_capacity sp.m_columns row _ hr1
    have ht : cols.take (if c > sp.m_numCols then sp.m_numCols else c).toNat = cols := by
      apply List.take_of_length_le
      split_ifs <;> omega
    rw [ht, hcap]
    refine ⟨rfl, rfl, ?_⟩
    split_ifs <;> omega

/-- The write back of a row that fits in the capacity of the row: the row
holds the new columns, the other rows keep their size and values. -/
theorem LvArray.SparsityPattern.storeRow_facts (a : LvArray.ArrayOfArrays Int) (row : Int)
    (cols : List Int) (ha : a.Inv) (hr0 : 0 ≤ row) (hr1 : row < a.m_numArrays)
    (hfit : (cols.length : Int) ≤ a.m_offsets (row + 1) - a.m_offsets row) :
    (LvArray.SparsityPattern.storeRow a row cols).Inv ∧
      (LvArray.SparsityPattern.storeRow a row cols).m_numArrays = a.m_numArrays ∧
      (LvArray.SparsityPattern.storeRow a row cols).HoldsRow row cols ∧
      ∀ j : Int, 0 ≤ j → j < a.m_numArrays → j ≠ row →
        (LvArray.SparsityPattern.storeRow a row cols).SameRow j a j := by
  have hrow := ha.2.2 row hr0 hr1
  have hm : max (a.m_sizes row) (cols.length : Int) ≤ a.m_offsets (row + 1) - a.m_offsets row :=
    max_le hrow.2.2 hfit
  have hm2 : (cols.length : Int) ≤ max (a.m_sizes row) (cols.length : Int) := le_max_right _ _
  unfold LvArray.ArrayOfArrays.SameRow LvArray.ArrayOfArrays.HoldsRow
    LvArray.ArrayOfArraysView.sizeOfArray LvArray.ArrayOfArraysView.value
    LvArray.SparsityPattern.storeRow
  refine ⟨⟨ha.1, ha.2.1, ?_⟩, rfl, ⟨?_, ?_⟩, ?_⟩
  · intro i hi0 hi1
    have hi := ha.2.2 i hi0 hi1
    simp only []
    refine ⟨hi.1, ?_, ?_⟩
    · split_ifs <;> omega
    · split_ifs with e
      · subst e; omega
      · omega
  · simp only [if_true]
  · intro k hk
    simp only []
    rw [if_pos (by omega)]
    have e : (a.m_offsets row + (k : Int) - a.m_offsets row).toNat = k := by omega
    rw [e]
  · intro j hj0 hj1 hjr
    have hj := ha.2.2 j hj0 hj1
    simp only []
    refine ⟨by rw [if_neg hjr], ?_⟩
    intro k hk0 hk1
    rw [if_neg]
    intro hin
    rcases lt_or_gt_of_ne hjr with h | h
    · have := LvArray.ArrayOfArrays.offsets_mono a ha (j + 1) row (by omega) (by omega) (by omega)
      omega
    · have := LvArray.ArrayOfArrays.offsets_mono a ha (row + 1) j (by omega) (by omega) (by omega)
      omega

/-- Growing the capacity of a row keeps the size and the values of every row. -/
theorem LvArray.ArrayOfArrays.dynamicallyGrowArray_sameRow {T : Type}
    (s : LvArray.ArrayOfArrays T) (i increase : Int) (hs : s.Inv) (hi0 : 0 ≤ i)
    (hi1 : i < s.m_numArrays) (hinc : 0 ≤ increase) (j : Int) (hj0 : 0 ≤ j)
    (hj1 : j < s.m_numArrays) : (s.dynamicallyGrowArray i increase).SameRow j s j := by
  obtain ⟨_, _, f3, _, _⟩ := LvArray.ArrayOfArrays.dynamicallyGrowArray_facts s i increase hs hi0
    hi1 hinc
  refine ⟨f3 j, fun k hk0 hk1 => ?_⟩
  exact LvArray.ArrayOfArrays.dynamicallyGrowArray_value s i increase hs hi0 hi1 j k hj0 hj1 hk0
    hk1

/-- A pattern in which one row was replaced by a strictly increasing list of
columns in range, the other rows being kept, is well formed. -/
theorem LvArray.SparsityPattern.wellFormed_of_row (sp : LvArray.SparsityPattern)
    (a : LvArray.ArrayOfArrays Int) (row : Int) (cols : List Int)
    (hw : sp.WellFormed) (ha : a.Inv) (hn : a.m_numArrays = sp.m_columns.m_numArrays)
    (hsame : ∀ j : Int, 0 ≤ j → j < sp.m_columns.m_numArrays → j ≠ row →
      a.SameRow j sp.m_columns j)
    (hrow : a.HoldsRow row cols) (hsorted : cols.Pairwise (fun x y => x < y))
    (hrange : ∀ c ∈ cols, 0 ≤ c ∧ c < sp.m_numCols) :
    LvArray.SparsityPattern.WellFormed { sp with m_columns := a } := by
  obtain ⟨h0, _, hrows⟩ := hw
  refine ⟨h0, ha, ?_⟩
  intro j hj0 hj1
  unfold LvArray.SparsityPattern.numRows at hj1 hrows
  simp only [] at hj1 ⊢
  rw [hn] at hj1
  by_cases hjr : j = row
  · subst hjr
    exact ⟨cols, hrow, hsorted, hrange⟩
  · obtain ⟨l, hl, hls, hlr⟩ := hrows j hj0 hj1
    exact ⟨l, LvArray.ArrayOfArrays.HoldsRow.of_sameRow (hsame j hj0 hj1 hjr) hl, hls, hlr⟩

/-- The write back of a row after its capacity was grown by `increase`: the
pattern stays well formed when the new columns are strictly increasing, in
range, and at most `increase` more than before. -/
theorem LvArray.SparsityPattern.wellFormed_store_grown (sp : LvArray.SparsityPattern)
    (row increase : Int) (cols : List Int) (hw : sp.WellFormed) (hr0 : 0 ≤ row)
    (hr1 : row < sp.numRows) (hinc : 0 ≤ increase)
    (hlen : (cols.length : Int) ≤ sp.numNonZeros row + increase)
    (hsorted : cols.Pairwise (fun x y => x < y))
    (hrange : ∀ c ∈ cols, 0 ≤ c ∧ c < sp.m_numCols) :
    LvArray.SparsityPattern.WellFormed
      { sp with
        m_columns :=
          LvArray.SparsityPattern.storeRow (sp.m_columns.dynamicallyGrowArray row increase) row
            cols } := by
  have hinv := hw.2.1
  unfold LvArray.SparsityPattern.numRows at hr1
  unfold LvArray.SparsityPattern.numNonZeros LvArray.ArrayOfArraysView.sizeOfArray at hlen
  obtain ⟨g1, g2, _, _, g5⟩ := LvArray.ArrayOfArrays.dynamicallyGrowArray_facts sp.m_columns row
    increase hinv hr0 hr1 hinc
  obtain ⟨f1, f2, f3, f4⟩ := LvArray.SparsityPattern.storeRow_facts
    (sp.m_columns.dynamicallyGrowArray row increase) row cols g1 hr0 (by rw [g2]; exact hr1)
    (by omega)
  refine LvArray.SparsityPattern.wellFormed_of_row sp _ row cols hw f1 (f2.trans g2) ?_ f3
    hsorted hrange
  intro j hj0 hj1 hjr
  exact (f4 j hj0 (by rw [g2]; exact hj1) hjr).trans
    (LvArray.ArrayOfArrays.dynamicallyGrowArray_sameRow sp.m_columns row increase hinv hr0 hr1
      hinc j hj0 hj1)

/-- The write back of a row that did not grow: the pattern stays well formed
when the new columns are a sublist of the columns of the row. -/
theorem LvArray.SparsityPattern.wellFormed_store_sublist (sp : LvArray.SparsityPattern)
    (row : Int) (cols : List Int) (hw : sp.WellFormed) (hr0 : 0 ≤ row)
    (hr1 : row < sp.numRows) (hsub : cols.Sublist (sp.getColumns row)) :
    LvArray.SparsityPattern.WellFormed
      { sp with m_columns := LvArray.SparsityPattern.storeRow sp.m_columns row cols } := by
  have hinv := hw.2.1
  obtain ⟨l, hl, hls, hlr⟩ := hw.2.2 row hr0 hr1
  rw [LvArray.SparsityPattern.getColumns_of_holdsRow sp row l hl] at hsub
  unfold LvArray.SparsityPattern.numRows at hr1
  have hrow := hinv.2.2 row hr0 hr1
  have hsize : sp.m_columns.m_sizes row = l.length := hl.1
  have hlen := hsub.length_le
  obtain ⟨f1, f2, f3, f4⟩ := LvArray.SparsityPattern.storeRow_facts sp.m_columns row cols hinv
    hr0 hr1 (by omega)
  exact LvArray.SparsityPattern.wellFormed_of_row sp _ row cols hw f1 f2 f4 f3
    (hls.sublist hsub) (fun c hc => hlr c (hsub.subset hc))

theorem LvArray.SparsityPattern.wellFormed_insertNonZero (sp : LvArray.SparsityPattern)
    (row col : Int) (r : Bool × LvArray.SparsityPattern) (hw : sp.WellFormed) (hr0 : 0 ≤ row)
    (hr1 : row < sp.numRows) (h : sp.insertNonZero row col = some r) : r.2.WellFormed := by
  obtain ⟨l, hl, hls, hlr⟩ := hw.2.2 row hr0 hr1
  have hget := LvArray.SparsityPattern.getColumns_of_holdsRow sp row l hl
  unfold LvArray.SparsityPattern.insertNonZero at h
  by_cases hcol : col < 0 ∨ sp.numColumns ≤ col
  · rw [if_pos hcol] at h
    exact absurd h (by simp)
  · rw [if_neg hcol] at h
    simp only [hget] at h
    unfold LvArray.sortedArrayManipulation.insert LvArray.sortedArrayManipulation.find at h
    simp only [List.take_length] at h
    by_cases hf : l[std.lower_bound l col]? = some col
    · simp only [hf, if_true] at h
      have e : r = (false, sp) := by
        simpa using h.symm
      rw [e]
      exact hw
    · simp only [hf, if_false, if_true] at h
      have hmem : col ∉ l := fun hm => hf ((found_iff_mem l col hls).mpr hm)
      have e := Option.some.inj h
      rw [← e]
      simp only []
      refine LvArray.SparsityPattern.wellFormed_store_grown sp row 1 _ hw hr0 hr1 (by omega) ?_ ?_
        ?_
      · rw [length_insert_at_lower_bound l col hls]
        have : sp.numNonZeros row = l.length := hl.1
        push_cast
        omega
      · rw [insert_at_lower_bound l col hls hmem]
        exact pairwise_insert_sorted l col hls
      · rw [insert_at_lower_bound l col hls hmem]
        intro c hc
        unfold LvArray.SparsityPattern.numColumns at hcol
        simp only [List.mem_append, List.mem_cons, List.mem_filter] at hc
        rcases hc with hc | hc | hc
        · exact hlr c hc.1
        · subst hc; omega
        · exact hlr c hc.1

theorem LvArray.SparsityPattern.wellFormed_insertNonZeros (sp : LvArray.SparsityPattern)
    (row : Int) (batch : List Int) (r : Nat × LvArray.SparsityPattern) (hw : sp.WellFormed)
    (hr0 : 0 ≤ row) (hr1 : row < sp.numRows) (hb : batch.Pairwise (fun a b => a < b))
    (h : sp.insertNonZeros row batch = some r) : r.2.WellFormed := by
  obtain ⟨l, hl, hls, hlr⟩ := hw.2.2 row hr0 hr1
  have hget := LvArray.SparsityPattern.getColumns_of_holdsRow sp row l hl
  unfold LvArray.SparsityPattern.insertNonZeros at h
  by_cases hany : batch.any (fun col => decide (col < 0 ∨ sp.numColumns ≤ col)) = true
  · rw [if_pos hany] at h
    exact absurd h (by simp)
  · rw [if_neg hany] at h
    simp only [hget] at h
    unfold LvArray.sortedArrayManipulation.insertSorted at h
    simp only [List.take_length] at h
    obtain ⟨m1, m2, m3⟩ := insertSorted_values l batch hls hb
    have hcount := countNew_spec batch l hb hls
    have e := Option.some.inj h
    rw [← e]
    simp only []
    refine LvArray.SparsityPattern.wellFormed_store_grown sp row _ _ hw hr0 hr1
      (Int.ofNat_nonneg _) ?_ m1 ?_
    · rw [m3, hcount]
      have : sp.numNonZeros row = l.length := hl.1
      push_cast
      omega
    · intro c hc
      rcases (m2 c).mp hc with hc | hc
      · exact hlr c hc
      · have hn : ¬ (c < 0 ∨ sp.numColumns ≤ c) := by
          intro hbad
          apply hany
          rw [List.any_eq_true]
          exact ⟨c, hc, by simpa using hbad⟩
        unfold LvArray.SparsityPattern.numColumns at hn
        omega

theorem LvArray.SparsityPattern.wellFormed_removeNonZero (sp : LvArray.SparsityPattern)
    (row col : Int) (hw : sp.WellFormed) (hr0 : 0 ≤ row) (hr1 : row < sp.numRows) :
    (sp.removeNonZero row col).2.WellFormed := by
  obtain ⟨l, hl, hls, _⟩ := hw.2.2 row hr0 hr1
  have hget := LvArray.SparsityPattern.getColumns_of_holdsRow sp row l hl
  unfold LvArray.SparsityPattern.removeNonZero LvArray.sortedArrayManipulation.remove
    LvArray.sortedArrayManipulation.find
  simp only [hget, List.take_length]
  by_cases hf : l[std.lower_bound l col]? = some col
  · simp only [hf, if_true]
    refine LvArray.SparsityPattern.wellFormed_store_sublist sp row _ hw hr0 hr1 ?_
    rw [hget, erase_at_lower_bound l col hls ((found_iff_mem l col hls).mp hf)]
    exact List.filter_sublist _
  · simp only [hf, if_false]
    exact hw

theorem LvArray.SparsityPattern.wellFormed_removeNonZeros (sp : LvArray.SparsityPattern)
    (row : Int) (batch : List Int) (hw : sp.WellFormed) (hr0 : 0 ≤ row) (hr1 : row < sp.numRows)
    (hb : batch.Pairwise (fun a b => a < b)) : (sp.removeNonZeros row batch).2.WellFormed := by
  obtain ⟨l, hl, hls, _⟩ := hw.2.2 row hr0 hr1
  have hget := LvArray.SparsityPattern.getColumns_of_holdsRow sp row l hl
  unfold LvArray.SparsityPattern.removeNonZeros
  simp only [hget, removeSorted_spec l batch hls hb]
  refine LvArray.SparsityPattern.wellFormed_store_sublist sp row _ hw hr0 hr1 ?_
  rw [hget]
  exact List.filter_sublist _

theorem LvArray.SparsityPattern.wellFormed_setRowCapacity (sp : LvArray.SparsityPattern)
    (row c : Int) (hw : sp.WellFormed) (hr0 : 0 ≤ row) (hr1 : row < sp.numRows) (hc : 0 ≤ c) :
    (sp.setRowCapacity row c).WellFormed := by
  obtain ⟨l, hl, hls, hlr⟩ := hw.2.2 row hr0 hr1
  have hinv := hw.2.1
  have hn := hw.1
  unfold LvArray.SparsityPattern.numRows at hr1
  have hc' : 0 ≤ (if c > sp.numColumns then sp.numColumns else c) := by
    unfold LvArray.SparsityPattern.numColumns
    split_ifs <;> omega
  obtain ⟨f1, f2⟩ := LvArray.ArrayOfArraysView.setCapacityOfArray_rows sp.m_columns row
    (if c > sp.numColumns then sp.numColumns else c) hinv hr0 hr1 hc'
  unfold LvArray.SparsityPattern.setRowCapacity
  exact LvArray.SparsityPattern.wellFormed_of_row sp _ row _ hw
    (LvArray.ArrayOfArraysView.inv_setCapacityOfArray sp.m_columns row _ hinv hr0 hr1 hc')
    (LvArray.ArrayOfArraysView.setCapacityOfArray_numArrays sp.m_columns row _)
    f1 (f2 l hl) (hls.sublist (List.take_sublist _ _))
    (fun x hx => hlr x (List.mem_of_mem_take hx))

theorem LvArray.SparsityPattern.wellFormed_appendRow (sp : LvArray.SparsityPattern)
    (nzCapacity : Int) (hw : sp.WellFormed) (hc : 0 ≤ nzCapacity) :
    (sp.appendRow nzCapacity).WellFormed := by
  obtain ⟨hn, hinv, hrows⟩ := hw
  unfold LvArray.SparsityPattern.numRows at hrows
  obtain ⟨p1, p2⟩ := LvArray.ArrayOfArrays.pushRow_rows sp.m_columns
  unfold LvArray.SparsityPattern.appendRow
  simp only []
  refine LvArray.SparsityPattern.wellFormed_setRowCapacity _ _ _ ⟨hn,
    LvArray.ArrayOfArrays.inv_pushRow sp.m_columns hinv, ?_⟩ hinv.1 ?_ hc
  · intro j hj0 hj1
    unfold LvArray.SparsityPattern.numRows at hj1
    simp only [] at hj1 ⊢
    by_cases hj : j = sp.m_columns.m_numArrays
    · refine ⟨[], ⟨?_, fun k hk => absurd hk (by simp)⟩, List.Pairwise.nil, fun c hc => ?_⟩
      · unfold LvArray.ArrayOfArraysView.sizeOfArray
        simp only []
        rw [hj, p1]
        rfl
      · simp at hc
    · obtain ⟨l, hl, hls, hlr⟩ := hrows j hj0 (by omega)
      exact ⟨l, LvArray.ArrayOfArrays.HoldsRow.of_sameRow (p2 j (by omega)) hl, hls, hlr⟩
  · unfold LvArray.SparsityPattern.numRows
    simp only []
    omega

theorem LvArray.SparsityPattern.wellFormed_compress (sp : LvArray.SparsityPattern)
    (hw : sp.WellFormed) : sp.compress.WellFormed := by
  obtain ⟨hn, hinv, hrows⟩ := hw
  unfold LvArray.SparsityPattern.numRows at hrows
  obtain ⟨c1, _, _, _, c5⟩ := LvArray.ArrayOfArrays.compress_facts sp.m_columns hinv
  refine ⟨hn, LvArray.ArrayOfArrays.inv_compress sp.m_columns hinv, ?_⟩
  intro j hj0 hj1
  have hj1' : j < sp.m_columns.m_numArrays := by
    rw [← c1]
    exact hj1
  obtain ⟨l, hl, hls, hlr⟩ := hrows j hj0 hj1'
  exact ⟨l, LvArray.ArrayOfArrays.HoldsRow.of_sameRow (c5 j hj0 hj1') hl, hls, hlr⟩

theorem LvArray.SparsityPattern.wellFormed_new (nRows nCols initialRowCapacity : Int)
    (hr : 0 ≤ nRows) (hc : 0 ≤ nCols) (hi : 0 ≤ initialRowCapacity) :
    (LvArray.SparsityPattern.new nRows nCols initialRowCapacity).WellFormed := by
  refine ⟨hc, LvArray.ArrayOfArrays.inv_new nRows initialRowCapacity hr hi, ?_⟩
  intro j _ _
  exact ⟨[], ⟨rfl, fun k hk => absurd hk (by simp)⟩, List.Pairwise.nil, fun c hc => by simp at hc⟩

theorem LvArray.SparsityPattern.wellFormed_step (sp sp' : LvArray.SparsityPattern)
    (op : LvArray.SparsityPattern.Op) (hw : sp.WellFormed) (hv : op.Valid sp)
    (hs : sp.step op = some sp') : sp'.WellFormed := by
  cases op with
  | insertNonZero row col =>
    unfold LvArray.SparsityPattern.step at hs
    obtain ⟨r, hr, e⟩ := Option.map_eq_some'.mp hs
    rw [← e]
    exact LvArray.SparsityPattern.wellFormed_insertNonZero sp row col r hw hv.1 hv.2 hr
  | insertNonZeros row batch =>
    unfold LvArray.SparsityPattern.step at hs
    obtain ⟨r, hr, e⟩ := Option.map_eq_some'.mp hs
    rw [← e]
    exact LvArray.SparsityPattern.wellFormed_insertNonZeros sp row batch r hw hv.1 hv.2.1 hv.2.2
      hr
  | removeNonZero row col =>
    rw [← Option.some.inj hs]
    exact LvArray.SparsityPattern.wellFormed_removeNonZero sp row col hw hv.1 hv.2
  | removeNonZeros row batch =>
    rw [← Option.some.inj hs]
    exact LvArray.SparsityPattern.wellFormed_removeNonZeros sp row batch hw hv.1 hv.2.1 hv.2.2
  | setRowCapacity row newCapacity =>
    rw [← Option.some.inj hs]
    exact LvArray.SparsityPattern.wellFormed_setRowCapacity sp row newCapacity hw hv.1 hv.2.1
      hv.2.2
  | appendRow nzCapacity =>
    rw [← Option.some.inj hs]
    exact LvArray.SparsityPattern.wellFormed_appendRow sp nzCapacity hw hv
  | compress =>
    rw [← Option.some.inj hs]
    exact LvArray.SparsityPattern.wellFormed_compress sp hw

theorem LvArray.SparsityPattern.wellFormed_of_reachable (sp : LvArray.SparsityPattern)
    (h : LvArray.SparsityPattern.Reachable sp) : sp.WellFormed := by
  induction h with
  | new nRows nCols initialRowCapacity hr hc hi =>
    exact LvArray.SparsityPattern.wellFormed_new nRows nCols initialRowCapacity hr hc hi
  | step sp sp' op _ hv hs ih =>
    exact LvArray.SparsityPattern.wellFormed_step sp sp' op ih hv hs

/-- Witness of claim C19: the row 1, 3, 4 of a pattern of 5 columns; the
capacity 2 keeps the columns 1, 3, and the capacity 9 keeps the three columns
and makes the capacity 5. -/
theorem setRowCapacity_spec_witness :
    ((((LvArray.SparsityPattern.new 2 5 0).insertNonZeros 0 [1, 3, 4]).get rfl).2.setRowCapacity
        0 2).getColumns 0 = [1, 3] ∧
      ((((LvArray.SparsityPattern.new 2 5 0).insertNonZeros 0 [1, 3, 4]).get rfl).2.setRowCapacity
        0 9).getColumns 0 = [1, 3, 4] ∧
      ((((LvArray.SparsityPattern.new 2 5 0).insertNonZeros 0 [1, 3, 4]).get rfl).2.setRowCapacity
        0 9).nonZeroCapacity 0 = 5 := by
  have hw : (((LvArray.SparsityPattern.new 2 5 0).insertNonZeros 0
      [1, 3, 4]).get rfl).2.WellFormed :=
    LvArray.SparsityPattern.wellFormed_insertNonZeros (LvArray.SparsityPattern.new 2 5 0) 0
      [1, 3, 4] _ (LvArray.SparsityPattern.wellFormed_new 2 5 0 (by decide) (by decide)
        (le_refl _)) (le_refl _) (by decide) (by decide) (Option.some_get _).symm
  have h2 := setRowCapacity_spec _ 0 2 hw (le_refl _) (by decide) (by decide)
  have h9 := setRowCapacity_spec _ 0 9 hw (le_refl _) (by decide) (by decide)
  refine ⟨?_, ?_, ?_⟩
  · rw [(h2.1 (by decide)).1]
    decide
  · rw [(h9.2 (by decide)).1]
    decide
  · rw [(h9.2 (by decide)).2.2]
    decide

/-- Claim C20. In every sparsity pattern reachable from the constructor through
calls that meet their preconditions, every stored column `c` of every row
satisfies `0 <= c < numColumns`; and `insertNonZero( row, col )` is a fatal
error (the result `none`) when `col` is outside `[0, numColumns)`, and is not
one when `col` is inside. -/
theorem columns_in_range (sp : LvArray.SparsityPattern)
    (h : LvArray.SparsityPattern.Reachable sp) :
    (∀ row : Int, 0 ≤ row → row < sp.numRows →
        ∀ c ∈ sp.getColumns row, 0 ≤ c ∧ c < sp.numColumns) ∧
      (∀ row col : Int, col < 0 ∨ sp.numColumns ≤ col → sp.insertNonZero row col = none) ∧
      ∀ row col : Int, 0 ≤ col → col < sp.numColumns → (sp.insertNonZero row col).isSome := by
  have hw := LvArray.SparsityPattern.wellFormed_of_reachable sp h
  refine ⟨?_, ?_, ?_⟩
  · intro row hr0 hr1
    obtain ⟨l, hl, _, hlr⟩ := hw.2.2 row hr0 hr1
    rw [LvArray.SparsityPattern.getColumns_of_holdsRow sp row l hl]
    exact hlr
  · intro row col hcol
    unfold LvArray.SparsityPattern.insertNonZero
    rw [if_pos hcol]
  · intro row col h0 h1
    unfold LvArray.SparsityPattern.insertNonZero
    rw [if_neg (by omega)]
    simp only []
    split_ifs <;> rfl

/-- Witness of claim C20: inserting column 10 into a 3 x 5 pattern is a fatal
error, and the columns 0, 2, 4 inserted into row 1 are in range. -/
theorem columns_in_range_witness :
    (LvArray.SparsityPattern.new 3 5 0).insertNonZero 0 10 = none ∧
      ∀ c ∈ (((LvArray.SparsityPattern.new 3 5 0).step
          (LvArray.SparsityPattern.Op.insertNonZeros 1 [0, 2, 4])).get rfl).getColumns 1,
        0 ≤ c ∧ c < 5 := by
  have h0 := columns_in_range (LvArray.SparsityPattern.new 3 5 0)
    (LvArray.SparsityPattern.Reachable.new 3 5 0 (by decide) (by decide) (le_refl _))
  have h1 := columns_in_range
    (((LvArray.SparsityPattern.new 3 5 0).step
      (LvArray.SparsityPattern.Op.insertNonZeros 1 [0, 2, 4])).get rfl)
    (LvArray.SparsityPattern.Reachable.step (LvArray.SparsityPattern.new 3 5 0) _
      (LvArray.SparsityPattern.Op.insertNonZeros 1 [0, 2, 4])
      (LvArray.SparsityPattern.Reachable.new 3 5 0 (by decide) (by decide) (le_refl _))
      ⟨by decide, by decide, by decide⟩ (Option.some_get _).symm)
  exact ⟨h0.2.1 0 10 (Or.inr (by decide)), h1.1 1 (by decide) (by decide)⟩

/-! ### Contiguity and bounds checks of a slice -/

theorem LvArray.ArraySlice.isContiguousProd_eq (m_dims : Nat → Int) (i : Nat) :
    ∀ (n j : Nat) (prod : Int),
      LvArray.ArraySlice.isContiguousProd m_dims i n j prod =
        prod * (((List.range' j n).filter (fun k => decide (k ≠ i))).map m_dims).prod := by
  intro n
  induction n with
  | zero => intro j prod; simp [LvArray.ArraySlice.isContiguousProd]
  | succ n ih =>
    intro j prod
    rw [LvArray.ArraySlice.isContiguousProd, ih, List.range'_succ]
    by_cases h : j = i
    · simp [h]
    · simp [h, List.filter_cons, mul_assoc]

theorem LvArray.ArraySlice.isContiguousLoop_eq (s : LvArray.ArraySlice) :
    ∀ (n i : Nat) (rval : Bool),
      LvArray.ArraySlice.isContiguousLoop s n i rval = true ↔
        rval = true ∧ ∀ k : Nat, i ≤ k → k < i + n → (k : Int) ≠ s.USD →
          s.m_strides k ≤
            (((List.range s.NDIM).filter (fun j => decide (j ≠ k))).map s.m_dims).prod := by
  intro n
  induction n with
  | zero =>
    intro i rval
    simp only [LvArray.ArraySlice.isContiguousLoop]
    exact ⟨fun h => ⟨h, fun k h1 h2 => absurd h2 (by omega)⟩, fun h => h.1⟩
  | succ n ih =>
    intro i rval
    rw [LvArray.ArraySlice.isContiguousLoop]
    have step : ∀ P : Nat → Prop, (∀ k : Nat, i ≤ k → k < i + (n + 1) → P k) ↔
        (P i ∧ ∀ k : Nat, i + 1 ≤ k → k < i + 1 + n → P k) := by
      intro P
      constructor
      · intro h
        exact ⟨h i (le_refl _) (by omega), fun k h1 h2 => h k (by omega) (by omega)⟩
      · intro h k h1 h2
        by_cases e : k = i
        · subst e; exact h.1
        · exact h.2 k (by omega) (by omega)
    rw [step]
    by_cases hu : (i : Int) = s.USD
    · rw [if_pos hu, ih]
      constructor
      · intro h
        exact ⟨h.1, fun hne => absurd hu hne, h.2⟩
      · intro h
        exact ⟨h.1, h.2.2⟩
    · rw [if_neg hu, ih, LvArray.ArraySlice.isContiguousProd_eq, one_mul, List.range_eq_range']
      simp only [Bool.and_eq_true, decide_eq_true_eq]
      constructor
      · intro h
        exact ⟨h.1.1, fun _ => h.1.2, h.2⟩
      · intro h
        exact ⟨⟨h.1, h.2.1 hu⟩, h.2.2⟩

/-- Claim C22. For every slice with `USD >= 0`, `isContiguous()` returns `true`
exactly when, for every dimension `i` other than `USD`, `strides[ i ]` is at
most the product of `dims[ j ]` over all `j != i`; so it is `true` for a rank 1
slice with `USD == 0`. For every slice with `USD < 0` it returns `false`, and
`dataIfContiguous()` aborts exactly when `isContiguous()` is `false`. -/
theorem isContiguous_spec (s : LvArray.ArraySlice) :
    (0 ≤ s.USD →
        (s.isContiguous = true ↔
          ∀ i : Nat, i < s.NDIM → (i : Int) ≠ s.USD →
            s.m_strides i ≤
              (((List.range s.NDIM).filter (fun j => decide (j ≠ i))).map s.m_dims).prod)) ∧
      (s.NDIM = 1 → s.USD = 0 → s.isContiguous = true) ∧
      (s.USD < 0 → s.isContiguous = false) ∧
      (s.dataIfContiguous = none ↔ s.isContiguous = false) ∧
      (s.isContiguous = true → s.dataIfContiguous = some s.m_data) := by
  refine ⟨?_, ?_, ?_, ?_, ?_⟩
  · intro hu
    unfold LvArray.ArraySlice.isContiguous
    rw [if_pos hu]
    by_cases h1 : s.NDIM = 1 ∧ s.USD = 0
    · rw [if_pos h1]
      refine ⟨fun _ i hi hne => ?_, fun _ => rfl⟩
      have : i = 0 := by omega
      subst this
      exact absurd h1.2.symm (by simpa using hne)
    · rw [if_neg h1, LvArray.ArraySlice.isContiguousLoop_eq]
      constructor
      · intro h i hi hne
        exact h.2 i (Nat.zero_le _) (by omega) hne
      · intro h
        exact ⟨rfl, fun k _ hk hne => h k (by omega) hne⟩
  · intro h1 h0
    unfold LvArray.ArraySlice.isContiguous
    rw [if_pos (by omega), if_pos ⟨h1, h0⟩]
  · intro hu
    unfold LvArray.ArraySlice.isContiguous
    rw [if_neg (by omega)]
  · unfold LvArray.ArraySlice.dataIfContiguous
    cases s.isContiguous <;> simp
  · intro h
    unfold LvArray.ArraySlice.dataIfContiguous
    rw [h]
    rfl

/-- Witness of claim C22: a 2 x 3 slice in the standard layout is contiguous,
and the same slice with a stride of 7 in the first dimension is not. -/
theorem isContiguous_spec_witness :
    LvArray.ArraySlice.isContiguous
        ⟨2, 1, 0, fun d => [2, 3].getD d 0, fun d => [3, 1].getD d 0⟩ = true ∧
      LvArray.ArraySlice.dataIfContiguous
        ⟨2, 1, 0, fun d => [2, 3].getD d 0, fun d => [7, 1].getD d 0⟩ = none := by
  have h := isContiguous_spec ⟨2, 1, 0, fun d => [2, 3].getD d 0, fun d => [3, 1].getD d 0⟩
  have h2 := isContiguous_spec ⟨2, 1, 0, fun d => [2, 3].getD d 0, fun d => [7, 1].getD d 0⟩
  refine ⟨?_, ?_⟩
  · exact (h.1 (by decide)).mpr (by decide)
  · exact h2.2.2.2.1.mpr (by decide)

theorem LvArray.invalidIndicesFrom_iff (dims : Nat → Int) (indices : List Int) :
    ∀ curDim : Nat,
      LvArray.invalidIndicesFrom dims curDim indices false = true ↔
        ∃ d : Nat, d < indices.length ∧
          (indices.getD d 0 < 0 ∨ indices.getD d 0 ≥ dims (curDim + d)) := by
  induction indices with
  | nil =>
    intro curDim
    simp [LvArray.invalidIndicesFrom]
  | cons i rest ih =>
    intro curDim
    rw [LvArray.invalidIndicesFrom, LvArray.invalidIndicesFrom_flag, Bool.or_eq_true, ih]
    constructor
    · rintro (h | ⟨d, hd, h⟩)
      · refine ⟨0, by simp, ?_⟩
        simpa using h
      · refine ⟨d + 1, by simpa using hd, ?_⟩
        have e : curDim + (d + 1) = curDim + 1 + d := by omega
        rw [e]
        simpa using h
    · rintro ⟨d, hd, h⟩
      cases d with
      | zero =>
        left
        simpa using h
      | succ d =>
        right
        refine ⟨d, by simpa using hd, ?_⟩
        have e : curDim + (d + 1) = curDim + 1 + d := by omega
        rw [e] at h
        simpa using h

/-- Claim C23. With the bounds check enabled, `invalidIndices` is `true`
exactly when some index `i_d` has `i_d < 0` or `i_d >= dims[ d ]`, and
`linearIndex( i0, ... )` and `s( i0, ... )` abort exactly then; `s[ index ]`
aborts exactly when `index < 0` or `index >= dims[ 0 ]`; with every index in
range they return. -/
theorem bounds_check_spec (s : LvArray.ArraySlice) (index : Int) (indices : List Int)
    (hlen : (index :: indices).length = s.NDIM) :
    (LvArray.invalidIndices s.m_dims (index :: indices) = true ↔
        ∃ d : Nat, d < s.NDIM ∧
          (LvArray.indexAt index indices d < 0 ∨ LvArray.indexAt index indices d ≥ s.m_dims d)) ∧
      (s.linearIndex true index indices = none ↔
        ∃ d : Nat, d < s.NDIM ∧
          (LvArray.indexAt index indices d < 0 ∨ LvArray.indexAt index indices d ≥ s.m_dims d)) ∧
      (s.call true index indices = none ↔
        ∃ d : Nat, d < s.NDIM ∧
          (LvArray.indexAt index indices d < 0 ∨ LvArray.indexAt index indices d ≥ s.m_dims d)) ∧
      (s.NDIM > 1 → (s.subscript true index = none ↔ (index < 0 ∨ index ≥ s.m_dims 0))) ∧
      (s.NDIM = 1 → (s.subscriptValue true index = none ↔ (index < 0 ∨ index ≥ s.m_dims 0))) := by
  have hinv : LvArray.invalidIndices s.m_dims (index :: indices) = true ↔
      ∃ d : Nat, d < s.NDIM ∧
        (LvArray.indexAt index indices d < 0 ∨ LvArray.indexAt index indices d ≥ s.m_dims d) := by
    unfold LvArray.invalidIndices LvArray.indexAt
    rw [LvArray.invalidIndicesFrom_iff, hlen]
    simp only [Nat.zero_add]
  refine ⟨hinv, ?_, ?_, ?_, ?_⟩
  · rw [← hinv]
    unfold LvArray.ArraySlice.linearIndex
    rw [if_pos hlen]
    cases LvArray.invalidIndices s.m_dims (index :: indices) <;> simp
  · rw [← hinv]
    unfold LvArray.ArraySlice.call LvArray.ArraySlice.linearIndex
    rw [if_pos hlen, if_pos hlen]
    cases LvArray.invalidIndices s.m_dims (index :: indices) <;> simp
  · intro h
    unfold LvArray.ArraySlice.subscript LvArray.ARRAY_SLICE_CHECK_BOUNDS
    rw [if_pos h]
    by_cases hb : index < 0 ∨ index ≥ s.m_dims 0
    · simp [hb]
    · have hb2 : ¬ index < 0 ∧ ¬ index ≥ s.m_dims 0 := not_or.mp hb
      simp [hb, hb2.1, hb2.2]
  · intro h
    unfold LvArray.ArraySlice.subscriptValue LvArray.ARRAY_SLICE_CHECK_BOUNDS
    rw [if_pos h]
    by_cases hb : index < 0 ∨ index ≥ s.m_dims 0
    · simp [hb]
    · have hb2 : ¬ index < 0 ∧ ¬ index ≥ s.m_dims 0 := not_or.mp hb
      simp [hb, hb2.1, hb2.2]

/-- Witness of claim C23: in a 2 x 3 slice the access `s( 1, 3 )` aborts and
the access `s( 1, 2 )` names the position 5. -/
theorem bounds_check_spec_witness :
    LvArray.ArraySlice.call true
        ⟨2, 1, 0, fun d => [2, 3].getD d 0, fun d => [3, 1].getD d 0⟩ 1 [3] = none ∧
      LvArray.ArraySlice.call true
        ⟨2, 1, 0, fun d => [2, 3].getD d 0, fun d => [3, 1].getD d 0⟩ 1 [2] = some 5 := by
  have h := bounds_check_spec ⟨2, 1, 0, fun d => [2, 3].getD d 0, fun d => [3, 1].getD d 0⟩ 1 [3]
    rfl
  exact ⟨h.2.2.1.mpr ⟨1, by decide, Or.inr (by decide)⟩, by decide⟩

/-! ### Permutations -/

theorem LvArray.isValidPermutation_iff_perm (p : List Int) :
    LvArray.isValidPermutation p = true ↔
      List.Perm p ((List.range p.length).map (fun i : Nat => (i : Int))) := by
  unfold LvArray.isValidPermutation
  have hnd : ((List.range p.length).map (fun i : Nat => (i : Int))).Nodup :=
    (List.nodup_range _).map (fun a b h => by simpa using h)
  constructor
  · intro h
    rw [List.all_eq_true] at h
    have hsub : ((List.range p.length).map (fun i : Nat => (i : Int))).Subperm p := by
      apply List.subperm_of_subset hnd
      intro x hx
      obtain ⟨i, hi, rfl⟩ := List.mem_map.mp hx
      simpa using h i hi
    exact (hsub.perm_of_length_le (by simp)).symm
  · intro h
    rw [List.all_eq_true]
    intro i hi
    have : (i : Int) ∈ p := h.symm.subset (List.mem_map.mpr ⟨i, hi, rfl⟩)
    simpa using this

/-- Claim C24. For every integer sequence `p` of length `N`,
`isValidPermutation` returns `true` exactly when every value of `p` lies in
`[0, N)` and no value repeats, that is, exactly when `p` is an ordering of
`0, ..., N - 1`. -/
theorem isValidPermutation_spec (p : List Int) :
    (LvArray.isValidPermutation p = true ↔
        ((∀ v ∈ p, 0 ≤ v ∧ v < p.length) ∧ p.Nodup)) ∧
      (LvArray.isValidPermutation p = true ↔
        List.Perm p ((List.range p.length).map (fun i : Nat => (i : Int)))) := by
  refine ⟨?_, LvArray.isValidPermutation_iff_perm p⟩
  rw [LvArray.isValidPermutation_iff_perm]
  have hnd : ((List.range p.length).map (fun i : Nat => (i : Int))).Nodup :=
    (List.nodup_range _).map (fun a b h => by simpa using h)
  constructor
  · intro h
    refine ⟨fun v hv => ?_, h.nodup_iff.mpr hnd⟩
    obtain ⟨i, hi, rfl⟩ := List.mem_map.mp (h.subset hv)
    have := List.mem_range.mp hi
    omega
  · rintro ⟨hr, hn⟩
    have hsub : p.Subperm ((List.range p.length).map (fun i : Nat => (i : Int))) := by
      apply List.subperm_of_subset hn
      intro v hv
      obtain ⟨h0, h1⟩ := hr v hv
      exact List.mem_map.mpr ⟨v.toNat, List.mem_range.mpr (by omega), by omega⟩
    exact hsub.perm_of_length_le (by simp)

/-- Witness of claim C24: the sequences of the test `isValid`, the rejected ones
and the orderings of rank 1, 2 and 3. -/
theorem isValidPermutation_spec_witness :
    LvArray.isValidPermutation [2, 0, 1] = true ∧
      [[1], [-1], [1, 1], [0, 2], [-1, 0], [0, 1, 5], [0, 1, 0], [-6, 1, 0]].map
        LvArray.isValidPermutation = List.replicate 8 false ∧
      [[0], [0, 1], [1, 0], [0, 1, 2], [0, 2, 1], [1, 0, 2], [1, 2, 0], [2, 0, 1],
        [2, 1, 0]].map LvArray.isValidPermutation = List.replicate 9 true :=
  ⟨(isValidPermutation_spec [2, 0, 1]).1.mpr ⟨by decide, by decide⟩, by decide, by decide⟩

theorem LvArray.calculateStrides_last (init : List Int) (d : Nat) (dims : Nat → Int)
    (h : (d : Int) ∉ init) : LvArray.calculateStrides (init ++ [(d : Int)]) dims d = 1 := by
  unfold LvArray.calculateStrides
  have e : (init ++ [(d : Int)]).dropWhile (fun e => decide (e ≠ (d : Int))) = [(d : Int)] := by
    induction init with
    | nil => simp [List.dropWhile]
    | cons x t ih =>
      have hx : x ≠ (d : Int) := fun e => h (by simp [e])
      have ht : (d : Int) ∉ t := fun e => h (List.mem_cons_of_mem _ e)
      simp only [List.cons_append, List.dropWhile_cons, hx, ne_eq, not_false_eq_true,
        decide_True, if_true]
      simpa using ih ht
  rw [e]
  rfl

/-- Claim C25. For every valid permutation `P` of rank `N >= 1`,
`getStrideOneDimension( P )` is the last entry of `P`; it is a dimension of
`[0, N)`, and the stride derived for it is 1. -/
theorem getStrideOneDimension_spec (p : List Int) (hv : LvArray.isValidPermutation p = true)
    (hn : 1 ≤ p.length) :
    LvArray.getStrideOneDimension p = p[p.length - 1]? ∧
      ∃ d : Nat, LvArray.getStrideOneDimension p = some (d : Int) ∧ d < p.length ∧
        ∀ dims : Nat → Int, LvArray.calculateStrides p dims d = 1 := by
  have hperm := (LvArray.isValidPermutation_iff_perm p).mp hv
  have hnd : p.Nodup := hperm.nodup_iff.mpr
    ((List.nodup_range _).map (fun a b h => by simpa using h))
  have hne : p ≠ [] := by
    intro e
    rw [e] at hn
    simp at hn
  unfold LvArray.getStrideOneDimension
  refine ⟨List.getLast?_eq_getElem? p, ?_⟩
  obtain ⟨i, hi, hlast⟩ := List.mem_map.mp (hperm.subset (List.getLast_mem hne))
  refine ⟨i, ?_, List.mem_range.mp hi, ?_⟩
  · rw [List.getLast?_eq_getLast p hne, hlast]
  · intro dims
    have hsplit := List.dropLast_append_getLast hne
    rw [← hlast] at hsplit
    rw [← hsplit] at hnd ⊢
    apply LvArray.calculateStrides_last
    intro hmem
    have := List.nodup_append.mp hnd
    exact this.2.2 hmem (List.mem_singleton_self _)

/-- Witness of claim C25: the permutations of the test
`findStrideOneDimension` of rank 1, 2 and 3, and some of rank 4. -/
theorem getStrideOneDimension_spec_witness :
    LvArray.getStrideOneDimension [0, 2, 1] = some 1 ∧
      [[0], [0, 1], [0, 1, 2], [1, 0, 2], [0, 2, 1], [2, 0, 1], [1, 2, 0], [2, 1, 0],
        [0, 1, 2, 3], [0, 1, 3, 2], [0, 2, 3, 1], [3, 2, 1, 0]].map
          LvArray.getStrideOneDimension =
        [some 0, some 1, some 2, some 2, some 1, some 1, some 0, some 0, some 3, some 2, some 1,
          some 0] := by
  have h := getStrideOneDimension_spec [0, 2, 1] (by decide) (by decide)
  exact ⟨h.1.trans (by decide), by decide⟩

/-! ### The output of a sorted array -/

theorem LvArray.streamLoop_eq {T : Type} (write : T → List Char) (values : List T) :
    ∀ (fuel i : Nat) (stream : List Char), values.length ≤ i + fuel →
      LvArray.streamLoop write values values.length fuel i stream =
        some (stream ++ (values.drop i).flatMap (fun v => [',', ' '] ++ write v)) := by
  intro fuel
  induction fuel with
  | zero =>
    intro i stream h
    rw [LvArray.streamLoop, List.drop_eq_nil_of_le (by omega)]
    simp
  | succ fuel ih =>
    intro i stream h
    rw [LvArray.streamLoop]
    by_cases hi : i < values.length
    · rw [if_pos hi, List.getElem?_eq_getElem hi]
      simp only []
      rw [ih (i + 1) _ (by omega), List.drop_eq_getElem_cons hi, List.flatMap_cons]
      simp only [List.append_assoc]
    · rw [if_neg hi, List.drop_eq_nil_of_le (by omega)]
      simp

/-- Claim C30, as the code behaves: for a sorted array that holds `v0` and then
the values of `rest`, the output operator writes the first value twice:
the text is `{ v0v0, v1, ..., vn-1 }`; the array that holds 1 and 2 is written
`{ 11, 2 }`. -/
theorem streamInsert_writes_first_twice {T : Type} (write : T → List Char) (v0 : T)
    (rest : List T) :
    (LvArray.SortedArray.streamInsert write ⟨v0 :: rest, rest.length + 1⟩ =
        some (['{', ' '] ++ write v0 ++ write v0 ++
          rest.flatMap (fun v => [',', ' '] ++ write v) ++ [' ', '}'])) ∧
      LvArray.SortedArray.streamInsert std.num_put ⟨[1, 2], 2⟩ =
        some ['{', ' ', '1', '1', ',', ' ', '2', ' ', '}'] ∧
      LvArray.SortedArray.streamInsert write (⟨[], 0⟩ : LvArray.SortedArray T) =
        some ['{', '}'] := by
  refine ⟨?_, by decide, rfl⟩
  unfold LvArray.SortedArray.streamInsert
  simp only [Nat.add_one_ne_zero, if_false, List.getElem?_cons_zero, Nat.zero_lt_succ, if_true]
  have h := LvArray.streamLoop_eq write (v0 :: rest) (rest.length + 1) 1
    (['{', ' '] ++ write v0 ++ write v0) (by simp)
  simp only [List.length_cons] at h
  rw [h]
  simp

/-! ### CRSMatrix -/

/-- Claim C21. For every sparsity pattern `P`, `assimilate( std::move( P ) )`
yields a matrix with the rows of `P`: the same number of rows and, for every
row, the same columns in the same order, every entry being the default value
`T()`; afterwards `P` has no row, no column and no non zero. -/
theorem assimilate_spec {T : Type} [Inhabited T] (sp : LvArray.SparsityPattern) :
    (LvArray.CRSMatrix.assimilate sp : LvArray.CRSMatrix T × LvArray.SparsityPattern).1.numRows =
        sp.numRows ∧
      (∀ row : Int, 0 ≤ row → row < sp.numRows →
        (LvArray.CRSMatrix.assimilate sp :
            LvArray.CRSMatrix T × LvArray.SparsityPattern).1.getColumns row =
          sp.getColumns row ∧
        (LvArray.CRSMatrix.assimilate sp :
            LvArray.CRSMatrix T × LvArray.SparsityPattern).1.getEntries row =
          List.replicate (sp.numNonZeros row).toNat (some default)) ∧
      (LvArray.CRSMatrix.assimilate sp :
        LvArray.CRSMatrix T × LvArray.SparsityPattern).2.numRows = 0 ∧
      (LvArray.CRSMatrix.assimilate sp :
        LvArray.CRSMatrix T × LvArray.SparsityPattern).2.numColumns = 0 ∧
      (LvArray.CRSMatrix.assimilate sp :
        LvArray.CRSMatrix T × LvArray.SparsityPattern).2.numNonZerosTotal = 0 := by
  refine ⟨rfl, ?_, rfl, rfl, rfl⟩
  intro row hr0 hr1
  refine ⟨rfl, ?_⟩
  unfold LvArray.SparsityPattern.numRows at hr1
  unfold LvArray.CRSMatrix.getEntries LvArray.CRSMatrix.numNonZeros LvArray.CRSMatrix.assimilate
    LvArray.SparsityPattern.numNonZeros LvArray.ArrayOfArraysView.sizeOfArray
  simp only []
  apply List.ext_getElem
  · simp
  · intro k h1 h2
    simp only [List.length_map, List.length_range] at h1
    simp only [List.getElem_map, List.getElem_range, List.getElem_replicate]
    rw [if_pos]
    rw [List.any_eq_true]
    refine ⟨row.toNat, List.mem_range.mpr (by omega), ?_⟩
    have e : ((row.toNat : Nat) : Int) = row := Int.toNat_of_nonneg hr0
    rw [e]
    simp only [decide_eq_true_eq]
    omega

/-- Witness of claim C21: the pattern of 2 rows and 5 columns whose row 0 holds
the columns 1, 3 and 4. -/
theorem assimilate_spec_witness :
    (LvArray.CRSMatrix.assimilate
        (((LvArray.SparsityPattern.new 2 5 0).insertNonZeros 0 [1, 3, 4]).get rfl).2 :
        LvArray.CRSMatrix Int × LvArray.SparsityPattern).1.getColumns 0 = [1, 3, 4] ∧
      (LvArray.CRSMatrix.assimilate
        (((LvArray.SparsityPattern.new 2 5 0).insertNonZeros 0 [1, 3, 4]).get rfl).2 :
        LvArray.CRSMatrix Int × LvArray.SparsityPattern).1.getEntries 0 =
          [some 0, some 0, some 0] := by
  have h := (@assimilate_spec Int _
    (((LvArray.SparsityPattern.new 2 5 0).insertNonZeros 0 [1, 3, 4]).get rfl).2).2.1
    0 (le_refl _) (by decide)
  refine ⟨h.1.trans (by decide), h.2.trans (by decide)⟩

/-! ### Formatted input and output of `int` -/

theorem std.digit_toNat (d : Nat) (h : d < 10) : (std.digit d).toNat = d + 48 := by
  interval_cases d <;> rfl

theorem std.digitValue_digit (d : Nat) (h : d < 10) : std.digitValue (std.digit d) = some d := by
  unfold std.digitValue
  rw [std.digit_toNat d h, if_pos (by omega)]
  simp

theorem std.putDigits_append (fuel : Nat) :
    ∀ (n : Nat) (acc : List Char), std.putDigits fuel n acc = std.putDigits fuel n [] ++ acc := by
  induction fuel with
  | zero => intro n acc; rfl
  | succ fuel ih =>
    intro n acc
    rw [std.putDigits, std.putDigits]
    by_cases h : n / 10 = 0
    · rw [if_pos h, if_pos h]; rfl
    · rw [if_neg h, if_neg h, ih (n / 10) (std.digit (n % 10) :: acc),
        ih (n / 10) [std.digit (n % 10)]]
      simp

theorem std.putDigits_succ (fuel n : Nat) :
    std.putDigits (fuel + 1) n [] =
      if n / 10 = 0 then [std.digit (n % 10)]
      else std.putDigits fuel (n / 10) [] ++ [std.digit (n % 10)] := by
  rw [std.putDigits]
  by_cases h : n / 10 = 0
  · rw [if_pos h, if_pos h]
  · rw [if_neg h, if_neg h, std.putDigits_append]

/-- Every character the digits of a number are written with is a digit. -/
theorem std.putDigits_digits (fuel : Nat) :
    ∀ n : Nat, ∀ c ∈ std.putDigits fuel n [], 48 ≤ c.toNat ∧ c.toNat ≤ 57 := by
  induction fuel with
  | zero => intro n c hc; simp [std.putDigits] at hc
  | succ fuel ih =>
    intro n c hc
    rw [std.putDigits_succ] at hc
    have hd := std.digit_toNat (n % 10) (Nat.mod_lt _ (by decide))
    by_cases h : n / 10 = 0
    · rw [if_pos h] at hc
      rw [List.mem_singleton.mp hc, hd]
      omega
    · rw [if_neg h] at hc
      rcases List.mem_append.mp hc with hc | hc
      · exact ih (n / 10) c hc
      · rw [List.mem_singleton.mp hc, hd]
        omega

theorem std.putDigits_ne_nil (fuel n : Nat) : std.putDigits (fuel + 1) n [] ≠ [] := by
  rw [std.putDigits_succ]
  split_ifs <;> simp

/-- Reading back the digits of a number gives the number. -/
theorem std.getDigits_putDigits (n : Nat) :
    ∀ (fuel : Nat) (rest : List Char), n < fuel →
      std.getDigits (std.putDigits fuel n [] ++ rest) 0 = std.getDigits rest n := by
  induction n using Nat.strong_induction_on with
  | _ n ih =>
    intro fuel rest hf
    cases fuel with
    | zero => omega
    | succ fuel =>
      rw [std.putDigits_succ]
      have hd := std.digitValue_digit (n % 10) (Nat.mod_lt _ (by decide))
      by_cases h : n / 10 = 0
      · rw [if_pos h]
        simp only [List.singleton_append, std.getDigits, hd]
        congr 1
        omega
      · rw [if_neg h, List.append_assoc, ih (n / 10) (by omega) fuel _ (by omega)]
        simp only [List.singleton_append, std.getDigits, hd]
        congr 1
        omega

theorem std.getDigits_stop (rest : List Char) (n : Nat)
    (h : ∀ c, rest.head? = some c → std.digitValue c = none) :
    std.getDigits rest n = (n, rest) := by
  cases rest with
  | nil => rfl
  | cons c cs => simp only [std.getDigits, h c rfl]

theorem std.isValueChar_of_digit (c : Char) (h : 48 ≤ c.toNat ∧ c.toNat ≤ 57) :
    LvArray.IsValueChar c := by
  refine ⟨?_, ?_, ?_, ?_⟩ <;> intro e <;> rw [e] at h <;> revert h <;> decide

theorem std.num_put_ne_nil (v : Int) : std.num_put v ≠ [] := by
  unfold std.num_put
  split_ifs
  · simp
  · exact std.putDigits_ne_nil _ _

theorem std.num_put_valueChars (v : Int) : ∀ c ∈ std.num_put v, LvArray.IsValueChar c := by
  intro c hc
  unfold std.num_put at hc
  split_ifs at hc
  · rcases List.mem_cons.mp hc with hc | hc
    · rw [hc]
      exact ⟨by decide, by decide, by decide, by decide⟩
    · exact std.isValueChar_of_digit c (std.putDigits_digits _ _ c hc)
  · exact std.isValueChar_of_digit c (std.putDigits_digits _ _ c hc)

theorem std.num_get_minus (c : Char) (cs : List Char) (h : (std.digitValue c).isSome = true) :
    std.num_get ('-' :: c :: cs) =
      some (-((std.getDigits (c :: cs) 0).1 : Int), (std.getDigits (c :: cs) 0).2) := by
  unfold std.num_get
  simp only [if_true, h]

theorem std.num_get_digit (c : Char) (cs : List Char) (h : (std.digitValue c).isSome = true) :
    std.num_get (c :: cs) =
      some (((std.getDigits (c :: cs) 0).1 : Int), (std.getDigits (c :: cs) 0).2) := by
  have hc : 48 ≤ c.toNat ∧ c.toNat ≤ 57 := by
    unfold std.digitValue at h
    by_contra hn
    rw [if_neg hn] at h
    exact absurd h (by simp)
  have hcm : c ≠ '-' := by intro e; rw [e] at hc; revert hc; decide
  have hcp : c ≠ '+' := by intro e; rw [e] at hc; revert hc; decide
  unfold std.num_get
  simp only [hcm, hcp, if_false, h, if_true, Bool.false_eq_true]

/-- Reading back the text of an `int` that is followed by a space gives the
value and leaves the space. -/
theorem std.istream_extract_num_put (v : Int) (rest : List Char)
    (h0 : -2147483648 ≤ v) (h1 : v ≤ 2147483647) :
    std.istream_extract (std.num_put v ++ ' ' :: rest) = some (v, ' ' :: rest) := by
  have hstop : ∀ n : Nat, std.getDigits (' ' :: rest) n = (n, ' ' :: rest) := fun n =>
    std.getDigits_stop _ n (fun c hc => by
      simp only [List.head?_cons, Option.some.injEq] at hc
      rw [← hc]
      decide)
  have hdig := std.getDigits_putDigits v.natAbs (v.natAbs + 1) (' ' :: rest) (by omega)
  rw [hstop] at hdig
  have hall := std.putDigits_digits (v.natAbs + 1) v.natAbs
  obtain ⟨c, cs, hcs⟩ := List.exists_cons_of_ne_nil (std.putDigits_ne_nil v.natAbs v.natAbs)
  rw [hcs] at hdig hall
  have hc := hall c (by simp)
  have hcv : (std.digitValue c).isSome = true := by
    unfold std.digitValue
    rw [if_pos hc]
    rfl
  have hsp : std.isspace c = false := by
    unfold std.isspace
    have : c.toNat ≠ 32 := by omega
    simp [this]
    omega
  unfold std.istream_extract std.num_put
  rw [hcs]
  by_cases hneg : v < 0
  · rw [if_pos hneg]
    have hd : (('-' :: c :: cs) ++ ' ' :: rest).dropWhile std.isspace =
        '-' :: c :: (cs ++ ' ' :: rest) := by
      rw [List.cons_append, List.dropWhile_cons]
      rfl
    rw [hd, std.num_get_minus c _ hcv]
    rw [List.cons_append] at hdig
    rw [hdig]
    have e : -((v.natAbs : Nat) : Int) = v := by omega
    simp only [e]
    rw [if_pos ⟨h0, h1⟩]
  · rw [if_neg hneg]
    have hd : ((c :: cs) ++ ' ' :: rest).dropWhile std.isspace = c :: (cs ++ ' ' :: rest) := by
      rw [List.cons_append, List.dropWhile_cons, hsp]
      rfl
    rw [hd, std.num_get_digit c _ hcv]
    rw [List.cons_append] at hdig
    rw [hdig]
    have e : ((v.natAbs : Nat) : Int) = v := by omega
    simp only [e]
    rw [if_pos ⟨h0, h1⟩]

/-! ### The output of a slice -/

theorem List.intercalate_cons_flatMap {α : Type} (sep x : List α) (xs : List (List α)) :
    sep.intercalate (x :: xs) = x ++ xs.flatMap (fun y => sep ++ y) := by
  induction xs generalizing x with
  | nil => simp [List.intercalate]
  | cons y ys ih =>
    have h := ih y
    simp only [List.intercalate, List.intersperse, List.flatMap_cons, List.append_assoc,
      List.flatten_cons] at h ⊢
    rw [h]

theorem LvArray.ArraySlice.streamLoop_slice_eq (element : Int → Option (List Char))
    (f : Nat → List Char) (d : Nat) :
    ∀ (fuel k : Nat) (stream : List Char),
      (∀ j : Nat, k ≤ j → j < d → element (j : Int) = some (f j)) → d ≤ k + fuel →
      LvArray.ArraySlice.streamLoop element (d : Int) fuel (k : Int) stream =
        some (stream ++ (List.range' k (d - k)).flatMap (fun j => [',', ' '] ++ f j)) := by
  intro fuel
  induction fuel with
  | zero =>
    intro k stream _ h
    have e : d - k = 0 := by omega
    rw [LvArray.ArraySlice.streamLoop, e]
    simp
  | succ fuel ih =>
    intro k stream hel h
    rw [LvArray.ArraySlice.streamLoop]
    by_cases hk : k < d
    · rw [if_pos (by omega), hel k (le_refl _) hk]
      simp only []
      have e : ((k : Int) + 1) = ((k + 1 : Nat) : Int) := by push_cast; rfl
      rw [e, ih (k + 1) _ (fun j h1 h2 => hel j (by omega) h2) (by omega)]
      have e2 : d - k = (d - (k + 1)) + 1 := by omega
      rw [e2, List.range'_succ, List.flatMap_cons]
      simp only [List.append_assoc]
    · rw [if_neg (by omega)]
      have e : d - k = 0 := by omega
      rw [e]
      simp

theorem LvArray.ArraySlice.subscript_inRange (boundsCheck : Bool) (s : LvArray.ArraySlice)
    (index : Int) (hn : s.NDIM > 1) (h0 : 0 ≤ index) (h1 : index < s.m_dims 0) :
    s.subscript boundsCheck index = some
      { NDIM := s.NDIM - 1
        USD := s.USD - 1
        m_data := s.m_data +
          LvArray.ConditionalMultiply.multiply (s.USD == 0) index (s.m_strides 0)
        m_dims := LvArray.ptrNext s.m_dims
        m_strides := LvArray.ptrNext s.m_strides } := by
  unfold LvArray.ArraySlice.subscript LvArray.ARRAY_SLICE_CHECK_BOUNDS
  rw [if_pos hn]
  have e1 : decide (index < 0) = false := by simpa using h0
  have e2 : decide (index ≥ s.m_dims 0) = false := by simpa using h1
  rw [e1, e2]
  simp

theorem LvArray.ArraySlice.subscriptValue_inRange (boundsCheck : Bool) (s : LvArray.ArraySlice)
    (index : Int) (hn : s.NDIM = 1) (h0 : 0 ≤ index) (h1 : index < s.m_dims 0) :
    s.subscriptValue boundsCheck index = some
      (s.m_data + LvArray.ConditionalMultiply.multiply (s.USD == 0) index (s.m_strides 0)) := by
  unfold LvArray.ArraySlice.subscriptValue LvArray.ARRAY_SLICE_CHECK_BOUNDS
  rw [if_pos hn]
  have e1 : decide (index < 0) = false := by simpa using h0
  have e2 : decide (index ≥ s.m_dims 0) = false := by simpa using h1
  rw [e1, e2]
  simp

theorem LvArray.ArraySlice.streamInsert_node (element : Int → Option (List Char))
    (f : Nat → List Char) (d : Nat)
    (hel : ∀ j : Nat, j < d → element (j : Int) = some (f j)) :
    (match
      (if (d : Int) > 0 then (element 0).map (fun text => ['{', ' '] ++ text)
        else some ['{', ' ']) with
    | none => none
    | some stream =>
      (LvArray.ArraySlice.streamLoop element (d : Int) (d : Int).toNat 1 stream).map
        (fun stream => stream ++ [' ', '}'])) =
      some (['{', ' '] ++ [',', ' '].intercalate ((List.range d).map f) ++ [' ', '}']) := by
  have e1 : (1 : Int) = ((1 : Nat) : Int) := rfl
  rw [Int.toNat_ofNat, e1]
  cases d with
  | zero =>
    rw [if_neg (by simp)]
    simp only []
    rw [LvArray.ArraySlice.streamLoop_slice_eq element f 0 0 1 _ (fun j _ hj => absurd hj (by omega))
      (by omega)]
    simp [List.intercalate]
  | succ d =>
    have h0 := hel 0 (by omega)
    simp only [Nat.cast_zero] at h0
    rw [if_pos (by push_cast; omega), h0]
    simp only [Option.map_some']
    rw [LvArray.ArraySlice.streamLoop_slice_eq element f (d + 1) (d + 1) 1 _
      (fun j _ hj => hel j hj) (by omega)]
    simp only [Option.map_some', Nat.add_sub_cancel]
    rw [List.range_succ_eq_map, List.map_cons, List.intercalate_cons_flatMap,
      List.range_eq_range', List.map_map, List.flatMap_map]
    have e : List.range' 1 d = (List.range' 0 d).map Nat.succ := by
      rw [List.range'_eq_map_range, List.range'_eq_map_range]
      simp [Function.comp_def, Nat.add_comm]
    rw [e, List.flatMap_map]
    simp only [Function.comp_def, List.append_assoc]

/-- The text `operator<<` writes for a slice is the nested text of its logical
values: it is determined by the dimensions and by the values
`slice[ i0 ]...[ iN-1 ]`. -/
theorem LvArray.ArraySlice.streamInsert_eq (boundsCheck : Bool) (data : Int → Option Int) :
    ∀ (dims : List Nat) (d : Nat) (s : LvArray.ArraySlice) (v : List Int → Int),
      s.NDIM = dims.length + 1 →
      (∀ k : Nat, k ≤ dims.length → s.m_dims k = (((d :: dims).getD k 0 : Nat) : Int)) →
      (∀ indices : List Int, LvArray.inRange (d :: dims) indices = true →
        s.value boundsCheck data indices = some (v indices)) →
      LvArray.ArraySlice.streamInsert boundsCheck data (dims.length + 1) s =
        some (LvArray.arrayText (d :: dims) v) := by
  intro dims
  induction dims with
  | nil =>
    intro d s v hn hd hv
    have hd0 : s.m_dims 0 = (d : Int) := hd 0 (le_refl _)
    have hel : ∀ j : Nat, j < d →
        (s.subscriptValue boundsCheck (j : Int)).bind (fun position =>
          (data position).map std.num_put) = some (std.num_put (v [(j : Int)])) := by
      intro j hj
      have h := hv [(j : Int)] (by simp [LvArray.inRange, hj])
      simp only [LvArray.ArraySlice.value, LvArray.ArraySlice.chain] at h
      cases hs : s.subscriptValue boundsCheck (j : Int) with
      | none => rw [hs] at h; simp at h
      | some p =>
        rw [hs] at h
        simp only [Option.some_bind] at h ⊢
        rw [h]
        rfl
    rw [LvArray.ArraySlice.streamInsert, LvArray.arrayText, LvArray.braceText]
    simp only [List.length_nil, if_true]
    rw [hd0]
    exact LvArray.ArraySlice.streamInsert_node
      (fun i => (s.subscriptValue boundsCheck i).bind (fun position =>
        (data position).map std.num_put))
      (fun j => std.num_put (v [(j : Int)])) d hel
  | cons d' dims ih =>
    intro d s v hn hd hv
    have hd0 : s.m_dims 0 = (d : Int) := hd 0 (Nat.zero_le _)
    have hel : ∀ j : Nat, j < d →
        (s.subscript boundsCheck (j : Int)).bind (fun t =>
          LvArray.ArraySlice.streamInsert boundsCheck data (dims.length + 1) t) =
          some (LvArray.arrayText (d' :: dims) (fun indices => v ((j : Int) :: indices))) := by
      intro j hj
      have hsub := LvArray.ArraySlice.subscript_inRange boundsCheck s (j : Int)
        (by rw [hn]; simp) (by omega) (by rw [hd0]; omega)
      rw [hsub, Option.some_bind]
      apply ih
      · simp only [hn, List.length_cons]
        omega
      · intro k hk
        have := hd (k + 1) (by simpa using hk)
        simpa [LvArray.ptrNext] using this
      · intro indices hin
        cases indices with
        | nil => simp [LvArray.inRange] at hin
        | cons i rest =>
          have h := hv ((j : Int) :: i :: rest) (by
            simp only [LvArray.inRange, Bool.and_eq_true, decide_eq_true_eq] at hin ⊢
            exact ⟨⟨by omega, by omega⟩, hin⟩)
          simp only [LvArray.ArraySlice.value, LvArray.ArraySlice.chain, hsub] at h ⊢
          exact h
    rw [LvArray.ArraySlice.streamInsert, LvArray.arrayText, LvArray.braceText]
    simp only [List.length_cons, Nat.add_one_ne_zero, if_false]
    rw [hd0]
    exact LvArray.ArraySlice.streamInsert_node
      (fun i => (s.subscript boundsCheck i).bind (fun t =>
        LvArray.ArraySlice.streamInsert boundsCheck data (dims.length + 1) t))
      (fun j => LvArray.arrayText (d' :: dims) (fun indices => v ((j : Int) :: indices))) d hel

/-- Claim C29. For every slice of rank `N >= 1` with dimensions `d :: dims`,
`operator<<` writes the nested text of its logical values: "{ ", then the
texts of the `d` sub-slices (the values themselves when `N == 1`) in
increasing first-index order separated by ", ", then " }", recursively. The
text is a function of the dimensions and of the values
`slice[ i0 ]...[ iN-1 ]` only, so it does not depend on the permutation or
the strides. -/
theorem streamInsert_spec (boundsCheck : Bool) (data : Int → Option Int) (dims : List Nat)
    (d : Nat) (s : LvArray.ArraySlice) (v : List Int → Int)
    (hn : s.NDIM = dims.length + 1)
    (hd : ∀ k : Nat, k ≤ dims.length → s.m_dims k = (((d :: dims).getD k 0 : Nat) : Int))
    (hv : ∀ indices : List Int, LvArray.inRange (d :: dims) indices = true →
      s.value boundsCheck data indices = some (v indices)) :
    LvArray.ArraySlice.streamInsert boundsCheck data s.NDIM s =
        some (LvArray.arrayText (d :: dims) v) ∧
      LvArray.arrayText (d :: dims) v =
        ['{', ' '] ++
          [',', ' '].intercalate
            ((List.range d).map (fun i : Nat =>
              LvArray.arrayText dims (fun indices => v ((i : Int) :: indices)))) ++
          [' ', '}'] ∧
      LvArray.arrayText [] v = std.num_put (v []) := by
  refine ⟨?_, rfl, rfl⟩
  rw [hn]
  exact LvArray.ArraySlice.streamInsert_eq boundsCheck data dims d s v hn hd hv

/-- Witness of claim C29: the array of the test `arrayToString`, of dimensions
2 x 4 x 3 and permutation `PERM_IKJ`, whose value at `( i, j, k )` is
`100 i + 10 j + k`. -/
theorem streamInsert_spec_witness :
    LvArray.ArraySlice.streamInsert true
        (fun p => some (100 * (p / 12) + 10 * (p % 4) + p % 12 / 4)) 3
        ⟨3, 1, 0, fun k => [2, 4, 3].getD k 0, fun k => [12, 1, 4].getD k 0⟩ =
      some ("\x7b \x7b \x7b 0, 1, 2 \x7d, \x7b 10, 11, 12 \x7d, \x7b 20, 21, 22 \x7d, \x7b 30, 31, 32 \x7d \x7d, \x7b \x7b 100, 101, 102 \x7d, \x7b 110, 111, 112 \x7d, \x7b 120, 121, 122 \x7d, \x7b 130, 131, 132 \x7d \x7d \x7d").toList := by
  have h := streamInsert_spec true (fun p => some (100 * (p / 12) + 10 * (p % 4) + p % 12 / 4))
    [4, 3] 2 ⟨3, 1, 0, fun k => [2, 4, 3].getD k 0, fun k => [12, 1, 4].getD k 0⟩
    (fun indices => 100 * indices.getD 0 0 + 10 * indices.getD 1 0 + indices.getD 2 0)
    rfl (by decide) (by
      intro indices hin
      rcases indices with _ | ⟨i, _ | ⟨j, _ | ⟨k, _ | ⟨l, rest⟩⟩⟩⟩ <;>
        simp [LvArray.inRange] at hin
      obtain ⟨⟨hi0, hi1⟩, ⟨hj0, hj1⟩, hk0, hk1⟩ := hin
      interval_cases i <;> interval_cases j <;> interval_cases k <;> rfl)
  exact h.1.trans (by decide)

/-! ### Texts with spaces -/

theorem List.intercalate_cons_cons_append {α : Type} (sep x y : List α) (ys : List (List α)) :
    sep.intercalate (x :: y :: ys) = x ++ sep ++ sep.intercalate (y :: ys) := by
  simp [List.intercalate, List.intersperse]

theorem List.flatMap_intercalate_singleton {α β : Type} (f : α → List β) (sep : α)
    (xs : List (List α)) :
    ([sep].intercalate xs).flatMap f = (f sep).intercalate (xs.map (fun x => x.flatMap f)) := by
  induction xs with
  | nil => simp [List.intercalate]
  | cons x xs ih =>
    cases xs with
    | nil => simp [List.intercalate]
    | cons y ys =>
      rw [List.intercalate_cons_cons_append, List.map_cons, List.map_cons,
        List.intercalate_cons_cons_append, List.flatMap_append, List.flatMap_append, ih]
      simp

theorem LvArray.Spaced.append {toks1 toks2 : List LvArray.Token} {text1 text2 : List Char}
    (h1 : LvArray.Spaced toks1 text1) (h2 : LvArray.Spaced toks2 text2) :
    LvArray.Spaced (toks1 ++ toks2) (text1 ++ text2) := by
  induction h1 with
  | nil => exact h2
  | space toks text _ ih => exact LvArray.Spaced.space _ _ ih
  | token tok toks text _ ih =>
    rw [List.cons_append, List.append_assoc]
    exact LvArray.Spaced.token _ _ _ ih

theorem LvArray.Spaced.spaces (n : Nat) {toks : List LvArray.Token} {text : List Char}
    (h : LvArray.Spaced toks text) : LvArray.Spaced toks (List.replicate n ' ' ++ text) := by
  induction n with
  | zero => exact h
  | succ n ih => exact LvArray.Spaced.space _ _ ih

theorem LvArray.spaced_withSpaces (toks : List LvArray.Token) :
    ∀ gaps : List Nat, LvArray.Spaced toks (LvArray.withSpaces toks gaps) := by
  induction toks with
  | nil =>
    intro gaps
    have h := LvArray.Spaced.spaces (gaps.headD 0) LvArray.Spaced.nil
    simpa [LvArray.withSpaces] using h
  | cons tok toks ih =>
    intro gaps
    rw [LvArray.withSpaces, List.append_assoc]
    exact LvArray.Spaced.spaces _ (LvArray.Spaced.token _ _ _ (ih gaps.tail))

/-- Erasing the spaces of a text made of tokens that hold no space gives the
characters of the tokens. -/
theorem LvArray.Spaced.filter_eq {toks : List LvArray.Token} {text : List Char}
    (h : LvArray.Spaced toks text) (hs : ∀ tok ∈ toks, ∀ c ∈ tok.text, c ≠ ' ') :
    text.filter (fun c => c != ' ') = toks.flatMap LvArray.Token.text := by
  induction h with
  | nil => rfl
  | space toks text _ ih => simpa using ih hs
  | token tok toks text _ ih =>
    rw [List.filter_append, List.flatMap_cons,
      ih (fun t ht => hs t (List.mem_cons_of_mem _ ht)),
      List.filter_eq_self.mpr (fun c hc => by simpa using hs tok (List.mem_cons_self _ _) c hc)]

theorem LvArray.stringToArray.spaceDelimited_space (cs : List Char) (valueOnLeft spaceOnLeft : Bool) :
    LvArray.stringToArray.spaceDelimited (' ' :: cs) valueOnLeft spaceOnLeft =
      LvArray.stringToArray.spaceDelimited cs valueOnLeft true := by
  rw [LvArray.stringToArray.spaceDelimited]
  simp

theorem LvArray.stringToArray.spaceDelimited_delimiter (c : Char) (cs : List Char)
    (valueOnLeft spaceOnLeft : Bool) (h : c = '{' ∨ c = ',' ∨ c = '}') :
    LvArray.stringToArray.spaceDelimited (c :: cs) valueOnLeft spaceOnLeft =
      LvArray.stringToArray.spaceDelimited cs false false := by
  rw [LvArray.stringToArray.spaceDelimited]
  rcases h with h | h | h <;> subst h <;> simp

theorem LvArray.stringToArray.spaceDelimited_value (c : Char) (cs : List Char)
    (valueOnLeft spaceOnLeft : Bool) (hc : LvArray.IsValueChar c)
    (h : (valueOnLeft && spaceOnLeft) = false) :
    LvArray.stringToArray.spaceDelimited (c :: cs) valueOnLeft spaceOnLeft =
      LvArray.stringToArray.spaceDelimited cs true false := by
  obtain ⟨h1, h2, h3, h4⟩ := hc
  rw [LvArray.stringToArray.spaceDelimited, h]
  simp [h1, h2, h3, h4]

theorem LvArray.stringToArray.spaceDelimited_values (lit : List Char) (cs : List Char)
    (hl : ∀ c ∈ lit, LvArray.IsValueChar c) :
    LvArray.stringToArray.spaceDelimited (lit ++ cs) true false =
      LvArray.stringToArray.spaceDelimited cs true false := by
  induction lit with
  | nil => rfl
  | cons c lit ih =>
    rw [List.cons_append, LvArray.stringToArray.spaceDelimited_value c _ true false
      (hl c (List.mem_cons_self _ _)) rfl, ih (fun x hx => hl x (List.mem_cons_of_mem _ hx))]

/-- The first loop of `stringToArray` finds nothing in a text made of tokens
among which no value follows a value. -/
theorem LvArray.Spaced.spaceDelimited_eq {toks : List LvArray.Token} {text : List Char}
    (h : LvArray.Spaced toks text) :
    (∀ tok ∈ toks, ∀ t, tok = LvArray.Token.value t → t ≠ [] ∧ ∀ c ∈ t, LvArray.IsValueChar c) →
    toks.Chain' (fun a b => ¬ (a.isValue = true ∧ b.isValue = true)) →
    ∀ valueOnLeft spaceOnLeft : Bool,
      (valueOnLeft = true → ∀ tok ∈ toks.head?, tok.isValue = false) →
      LvArray.stringToArray.spaceDelimited text valueOnLeft spaceOnLeft = false := by
  induction h with
  | nil => intro _ _ _ _ _; rfl
  | space toks text _ ih =>
    intro hv hc vl sl hvl
    rw [LvArray.stringToArray.spaceDelimited_space]
    exact ih hv hc vl true hvl
  | token tok toks text _ ih =>
    intro hv hc vl sl hvl
    have hc' : toks.Chain' (fun a b => ¬ (a.isValue = true ∧ b.isValue = true)) := hc.tail
    have hv' := fun t ht => hv t (List.mem_cons_of_mem _ ht)
    cases tok with
    | opening =>
      rw [LvArray.Token.text, List.singleton_append,
        LvArray.stringToArray.spaceDelimited_delimiter _ _ _ _ (Or.inl rfl)]
      exact ih hv' hc' false false (fun e => absurd e (by simp))
    | closing =>
      rw [LvArray.Token.text, List.singleton_append,
        LvArray.stringToArray.spaceDelimited_delimiter _ _ _ _ (Or.inr (Or.inr rfl))]
      exact ih hv' hc' false false (fun e => absurd e (by simp))
    | comma =>
      rw [LvArray.Token.text, List.singleton_append,
        LvArray.stringToArray.spaceDelimited_delimiter _ _ _ _ (Or.inr (Or.inl rfl))]
      exact ih hv' hc' false false (fun e => absurd e (by simp))
    | value t =>
      obtain ⟨hne, hchars⟩ := hv _ (List.mem_cons_self _ _) t rfl
      have hvl' : vl = false := by
        cases vl with
        | false => rfl
        | true =>
          have := hvl rfl (LvArray.Token.value t) (by simp)
          simp [LvArray.Token.isValue] at this
      subst hvl'
      obtain ⟨c, cs, rfl⟩ := List.exists_cons_of_ne_nil hne
      rw [LvArray.Token.text, List.cons_append,
        LvArray.stringToArray.spaceDelimited_value c _ false sl
          (hchars c (List.mem_cons_self _ _)) (by simp),
        LvArray.stringToArray.spaceDelimited_values cs _
          (fun x hx => hchars x (List.mem_cons_of_mem _ hx))]
      refine ih hv' hc' true false (fun _ tok htok => ?_)
      cases toks with
      | nil => simp at htok
      | cons b rest =>
        simp only [List.head?_cons, Option.mem_def, Option.some.injEq] at htok
        subst htok
        have := (List.chain'_cons.mp hc).1
        simpa [LvArray.Token.isValue] using this

/-! ### The tokens of a well formed text -/

theorem List.mem_intercalate_singleton {α : Type} (sep : α) (xs : List (List α)) (a : α)
    (h : a ∈ [sep].intercalate xs) : a = sep ∨ ∃ l ∈ xs, a ∈ l := by
  induction xs with
  | nil => simp [List.intercalate] at h
  | cons x xs ih =>
    cases xs with
    | nil =>
      right
      exact ⟨x, List.mem_cons_self _ _, by simpa [List.intercalate] using h⟩
    | cons y ys =>
      rw [List.intercalate_cons_cons_append] at h
      simp only [List.mem_append, List.mem_singleton] at h
      rcases h with (h | h) | h
      · exact Or.inr ⟨x, List.mem_cons_self _ _, h⟩
      · exact Or.inl h
      · rcases ih h with h | ⟨l, hl, hal⟩
        · exact Or.inl h
        · exact Or.inr ⟨l, List.mem_cons_of_mem _ hl, hal⟩

theorem List.chain'_intercalate_singleton {α : Type} (R : α → α → Prop) (sep : α)
    (xs : List (List α)) (hx : ∀ x ∈ xs, x.Chain' R) (h1 : ∀ a, R a sep) (h2 : ∀ b, R sep b) :
    ([sep].intercalate xs).Chain' R := by
  induction xs with
  | nil => simp [List.intercalate]
  | cons x xs ih =>
    cases xs with
    | nil => simpa [List.intercalate] using hx x (List.mem_cons_self _ _)
    | cons y ys =>
      rw [List.intercalate_cons_cons_append, List.append_assoc]
      refine List.chain'_append.mpr ⟨hx x (List.mem_cons_self _ _), ?_, ?_⟩
      · rw [List.singleton_append]
        refine List.chain'_cons'.mpr ⟨fun b _ => h2 b, ?_⟩
        exact ih (fun z hz => hx z (List.mem_cons_of_mem _ hz))
      · intro a _ b hb
        simp only [List.singleton_append, List.head?_cons, Option.mem_def,
          Option.some.injEq] at hb
        rw [← hb]
        exact h1 a

theorem LvArray.tokens_mem (dims : List Nat) :
    ∀ (v : List Int → Int), ∀ tok ∈ LvArray.tokens dims v,
      tok = LvArray.Token.opening ∨ tok = LvArray.Token.closing ∨ tok = LvArray.Token.comma ∨
        ∃ x : Int, tok = LvArray.Token.value (std.num_put x) := by
  induction dims with
  | nil =>
    intro v tok h
    rw [LvArray.tokens, List.mem_singleton] at h
    exact Or.inr (Or.inr (Or.inr ⟨_, h⟩))
  | cons d dims ih =>
    intro v tok h
    rw [LvArray.tokens] at h
    simp only [List.mem_cons, List.mem_append, List.not_mem_nil, or_false] at h
    rcases h with h | h | h
    · exact Or.inl h
    · rcases List.mem_intercalate_singleton _ _ _ h with h | ⟨l, hl, hal⟩
      · exact Or.inr (Or.inr (Or.inl h))
      · obtain ⟨i, _, rfl⟩ := List.mem_map.mp hl
        exact ih _ tok hal
    · exact Or.inr (Or.inl h)

theorem LvArray.tokens_values (dims : List Nat) (v : List Int → Int) :
    ∀ tok ∈ LvArray.tokens dims v, ∀ t, tok = LvArray.Token.value t →
      t ≠ [] ∧ ∀ c ∈ t, LvArray.IsValueChar c := by
  intro tok h t ht
  rcases LvArray.tokens_mem dims v tok h with h | h | h | ⟨x, h⟩
  · rw [h] at ht; cases ht
  · rw [h] at ht; cases ht
  · rw [h] at ht; cases ht
  · rw [h] at ht
    cases ht
    exact ⟨std.num_put_ne_nil x, std.num_put_valueChars x⟩

theorem LvArray.tokens_no_space (dims : List Nat) (v : List Int → Int) :
    ∀ tok ∈ LvArray.tokens dims v, ∀ c ∈ tok.text, c ≠ ' ' := by
  intro tok h c hc
  rcases LvArray.tokens_mem dims v tok h with h | h | h | ⟨x, h⟩ <;> rw [h] at hc
  · rw [LvArray.Token.text, List.mem_singleton] at hc
    rw [hc]; decide
  · rw [LvArray.Token.text, List.mem_singleton] at hc
    rw [hc]; decide
  · rw [LvArray.Token.text, List.mem_singleton] at hc
    rw [hc]; decide
  · exact (std.num_put_valueChars x c hc).2.2.2

theorem LvArray.tokens_chain (dims : List Nat) :
    ∀ v : List Int → Int,
      (LvArray.tokens dims v).Chain' (fun a b => ¬ (a.isValue = true ∧ b.isValue = true)) := by
  induction dims with
  | nil => intro v; simp [LvArray.tokens]
  | cons d dims ih =>
    intro v
    rw [LvArray.tokens]
    refine List.chain'_cons'.mpr ⟨fun b _ => by simp [LvArray.Token.isValue], ?_⟩
    refine List.chain'_append.mpr ⟨?_, by simp, ?_⟩
    · apply List.chain'_intercalate_singleton
      · intro x hx
        obtain ⟨i, _, rfl⟩ := List.mem_map.mp hx
        exact ih _
      · intro a; simp [LvArray.Token.isValue]
      · intro b; simp [LvArray.Token.isValue]
    · intro a _ b hb
      simp only [List.head?_cons, Option.mem_def, Option.some.injEq] at hb
      rw [← hb]
      simp [LvArray.Token.isValue]

theorem LvArray.tokens_text (dims : List Nat) :
    ∀ v : List Int → Int,
      (LvArray.tokens dims v).flatMap LvArray.Token.text = LvArray.compactText dims v := by
  induction dims with
  | nil =>
    intro v
    simp [LvArray.tokens, LvArray.compactText, LvArray.braceText, LvArray.Token.text]
  | cons d dims ih =>
    intro v
    rw [LvArray.tokens, LvArray.compactText, LvArray.braceText, List.flatMap_cons,
      List.flatMap_append, List.flatMap_intercalate_singleton, List.map_map]
    simp only [LvArray.Token.text, List.flatMap_cons, List.flatMap_nil, List.append_nil,
      Function.comp_def, ih, LvArray.compactText, List.append_assoc]

theorem LvArray.spaced_intercalate (l : List Nat) (F : Nat → List LvArray.Token)
    (G : Nat → List Char) (h : ∀ i ∈ l, LvArray.Spaced (F i) (G i)) :
    LvArray.Spaced ([LvArray.Token.comma].intercalate (l.map F))
      ([',', ' '].intercalate (l.map G)) := by
  have hc : LvArray.Spaced [LvArray.Token.comma] [',', ' '] :=
    LvArray.Spaced.token LvArray.Token.comma [] [' ']
      (LvArray.Spaced.space [] [] LvArray.Spaced.nil)
  induction l with
  | nil => simpa [List.intercalate] using LvArray.Spaced.nil
  | cons i l ih =>
    cases l with
    | nil => simpa [List.intercalate] using h i (List.mem_cons_self _ _)
    | cons j l =>
      rw [List.map_cons, List.map_cons, List.intercalate_cons_cons_append, List.map_cons,
        List.map_cons, List.intercalate_cons_cons_append]
      have ih' := ih (fun k hk => h k (List.mem_cons_of_mem _ hk))
      rw [List.map_cons, List.map_cons] at ih'
      exact ((h i (List.mem_cons_self _ _)).append hc).append ih'

/-- The text `operator<<` writes is made of the tokens of the well formed
text. -/
theorem LvArray.spaced_arrayText (dims : List Nat) :
    ∀ v : List Int → Int, LvArray.Spaced (LvArray.tokens dims v) (LvArray.arrayText dims v) := by
  induction dims with
  | nil =>
    intro v
    have h := LvArray.Spaced.token (LvArray.Token.value (std.num_put (v []))) [] []
      LvArray.Spaced.nil
    simpa [LvArray.tokens, LvArray.arrayText, LvArray.braceText, LvArray.Token.text] using h
  | cons d dims ih =>
    intro v
    have ho : LvArray.Spaced [LvArray.Token.opening] ['{', ' '] :=
      LvArray.Spaced.token LvArray.Token.opening [] [' ']
        (LvArray.Spaced.space [] [] LvArray.Spaced.nil)
    have hcl : LvArray.Spaced [LvArray.Token.closing] [' ', '}'] :=
      LvArray.Spaced.space _ _ (LvArray.Spaced.token LvArray.Token.closing [] []
        LvArray.Spaced.nil)
    have hi := LvArray.spaced_intercalate (List.range d)
      (fun i => LvArray.tokens dims (fun indices => v ((i : Int) :: indices)))
      (fun i => LvArray.arrayText dims (fun indices => v ((i : Int) :: indices)))
      (fun i _ => ih _)
    have h := (ho.append hi).append hcl
    rw [LvArray.tokens, LvArray.arrayText, LvArray.braceText]
    simpa [LvArray.arrayText] using h

/-! ### The text without spaces -/

theorem List.chain'_of_forall_mem {α : Type} (R : α → α → Prop) (l : List α)
    (h : ∀ a ∈ l, ∀ b ∈ l, R a b) : l.Chain' R := by
  induction l with
  | nil => exact List.chain'_nil
  | cons x l ih =>
    refine List.chain'_cons'.mpr ⟨fun b hb => ?_, ih (fun a ha b hb =>
      h a (List.mem_cons_of_mem _ ha) b (List.mem_cons_of_mem _ hb))⟩
    exact h x (List.mem_cons_self _ _) b (List.mem_cons_of_mem _ (List.mem_of_mem_head? hb))

theorem List.head?_intercalate_singleton {α : Type} (sep : α) (x : List α) (xs : List (List α))
    (hx : x ≠ []) : ([sep].intercalate (x :: xs)).head? = x.head? := by
  rw [List.intercalate_cons_flatMap]
  obtain ⟨a, l, rfl⟩ := List.exists_cons_of_ne_nil hx
  rfl

theorem List.intercalate_singleton_ne_nil {α : Type} (sep : α) (x : List α) (xs : List (List α))
    (hx : x ≠ []) : [sep].intercalate (x :: xs) ≠ [] := by
  rw [List.intercalate_cons_flatMap]
  simp [hx]

theorem List.getLast?_intercalate_singleton {α : Type} (sep : α) (P : α → Prop)
    (xs : List (List α)) (hne : xs ≠ []) (hx : ∀ x ∈ xs, x ≠ [] ∧ ∀ a ∈ x.getLast?, P a) :
    ∀ a ∈ ([sep].intercalate xs).getLast?, P a := by
  induction xs with
  | nil => exact absurd rfl hne
  | cons x xs ih =>
    cases xs with
    | nil => simpa [List.intercalate] using (hx x (List.mem_cons_self _ _)).2
    | cons y ys =>
      rw [List.intercalate_cons_cons_append,
        List.getLast?_append_of_ne_nil _ (List.intercalate_singleton_ne_nil sep y ys
          (hx y (by simp)).1)]
      exact ih (by simp) (fun z hz => hx z (List.mem_cons_of_mem _ hz))

theorem List.count_intercalate_singleton {α : Type} [DecidableEq α] (sep a b : α)
    (xs : List (List α)) (ha : a ≠ sep) (hb : b ≠ sep)
    (hx : ∀ x ∈ xs, x.count a = x.count b) :
    ([sep].intercalate xs).count a = ([sep].intercalate xs).count b := by
  induction xs with
  | nil => simp [List.intercalate]
  | cons x xs ih =>
    cases xs with
    | nil => simpa [List.intercalate] using hx x (List.mem_cons_self _ _)
    | cons y ys =>
      rw [List.intercalate_cons_cons_append, List.count_append, List.count_append,
        List.count_append, List.count_append, ih (fun z hz => hx z (List.mem_cons_of_mem _ hz)),
        hx x (List.mem_cons_self _ _), List.count_singleton, List.count_singleton]
      simp [Ne.symm ha, Ne.symm hb]

/-- No pattern of two characters occurs in a text in which no character that
equals the first is followed by one that equals the second. -/
theorem std.string_find_pair (x y : Char) (s : List Char) :
    ∀ pos : Nat, s.Chain' (fun a b => ¬ (a = x ∧ b = y)) →
      std.string_find [x, y] s pos = none := by
  induction s with
  | nil => intro pos _; rfl
  | cons c cs ih =>
    intro pos hc
    rw [std.string_find, ih (pos + 1) hc.tail]
    cases cs with
    | nil =>
      simp [List.isPrefixOf]
    | cons c2 cs =>
      have h := (List.chain'_cons.mp hc).1
      simp only [List.isPrefixOf, Bool.and_eq_true, beq_iff_eq, Bool.and_true]
      rw [if_neg]
      rintro ⟨e1, e2⟩
      exact h ⟨e1.symm, e2.symm⟩

theorem std.find_first_not_of_replicate (c x : Char) (n : Nat) (rest : List Char) (hx : x ≠ c) :
    ∀ pos : Nat, std.find_first_not_of c (List.replicate n c ++ x :: rest) pos = some (pos + n) := by
  induction n with
  | zero =>
    intro pos
    simp [std.find_first_not_of, hx]
  | succ n ih =>
    intro pos
    rw [List.replicate_succ, List.cons_append, std.find_first_not_of, if_neg (by simp), ih]
    congr 1
    omega

/-- The text of a space of `N` dimensions, all at least 1, starts with `N`
opening braces and then a character of a value. -/
theorem LvArray.compactText_leading (dims : List Nat) :
    ∀ v : List Int → Int, (∀ d ∈ dims, 1 ≤ d) →
      ∃ (c : Char) (rest : List Char), LvArray.IsValueChar c ∧
        LvArray.compactText dims v = List.replicate dims.length '{' ++ c :: rest := by
  induction dims with
  | nil =>
    intro v _
    obtain ⟨c, cs, h⟩ := List.exists_cons_of_ne_nil (std.num_put_ne_nil (v []))
    refine ⟨c, cs, std.num_put_valueChars (v []) c (by rw [h]; simp), ?_⟩
    simpa [LvArray.compactText, LvArray.braceText] using h
  | cons d dims ih =>
    intro v hd
    obtain ⟨e, rfl⟩ : ∃ e, d = e + 1 := ⟨d - 1, by have := hd d (by simp); omega⟩
    obtain ⟨c, rest, hc, h⟩ := ih (fun indices => v (((0 : Nat) : Int) :: indices))
      (fun x hx => hd x (List.mem_cons_of_mem _ hx))
    refine ⟨c, rest ++ ((List.range e).map Nat.succ).flatMap (fun i => [','] ++
      LvArray.compactText dims (fun indices => v ((i : Int) :: indices))) ++ ['}'], hc, ?_⟩
    rw [LvArray.compactText, LvArray.braceText, List.range_succ_eq_map, List.map_cons,
      List.intercalate_cons_flatMap]
    rw [LvArray.compactText] at h
    rw [h]
    simp [List.replicate_succ, LvArray.compactText, List.flatMap_map, Function.comp_def]

/-- The adjacency facts of the text of a space whose dimensions are all at
least 1: it is not empty, no closing brace is followed by an opening one and no
opening brace by a closing one, it does not start with a closing brace or a
comma, and does not end with an opening brace or a comma. -/
theorem LvArray.compactText_chain (dims : List Nat) :
    ∀ v : List Int → Int, (∀ d ∈ dims, 1 ≤ d) →
      LvArray.compactText dims v ≠ [] ∧
      (LvArray.compactText dims v).Chain'
        (fun a b => ¬ (a = '}' ∧ b = '{') ∧ ¬ (a = '{' ∧ b = '}')) ∧
      (∀ x ∈ (LvArray.compactText dims v).head?, x ≠ '}' ∧ x ≠ ',') ∧
      (∀ x ∈ (LvArray.compactText dims v).getLast?, x ≠ '{' ∧ x ≠ ',') ∧
      (LvArray.compactText dims v).count '{' = (LvArray.compactText dims v).count '}' := by
  induction dims with
  | nil =>
    intro v _
    have hv := std.num_put_valueChars (v [])
    have e : LvArray.compactText [] v = std.num_put (v []) := rfl
    rw [e]
    refine ⟨std.num_put_ne_nil _, ?_, ?_, ?_, ?_⟩
    · apply List.chain'_of_forall_mem
      intro a ha b hb
      exact ⟨fun h => (hv a ha).2.1 h.1, fun h => (hv a ha).1 h.1⟩
    · intro x hx
      have := hv x (List.mem_of_mem_head? hx)
      exact ⟨this.2.1, this.2.2.1⟩
    · intro x hx
      have := hv x (List.mem_of_mem_getLast? hx)
      exact ⟨this.1, this.2.2.1⟩
    · rw [List.count_eq_zero.mpr (fun h => (hv _ h).1 rfl),
        List.count_eq_zero.mpr (fun h => (hv _ h).2.1 rfl)]
  | cons d dims ih =>
    intro v hd
    obtain ⟨e, rfl⟩ : ∃ e, d = e + 1 := ⟨d - 1, by have := hd d (by simp); omega⟩
    have hchi : ∀ i : Nat,
        LvArray.compactText dims (fun indices => v ((i : Int) :: indices)) ≠ [] ∧
        (LvArray.compactText dims (fun indices => v ((i : Int) :: indices))).Chain'
          (fun a b => ¬ (a = '}' ∧ b = '{') ∧ ¬ (a = '{' ∧ b = '}')) ∧
        (∀ a ∈ (LvArray.compactText dims (fun indices => v ((i : Int) :: indices))).head?,
          a ≠ '}' ∧ a ≠ ',') ∧
        (∀ a ∈ (LvArray.compactText dims (fun indices => v ((i : Int) :: indices))).getLast?,
          a ≠ '{' ∧ a ≠ ',') ∧
        (LvArray.compactText dims (fun indices => v ((i : Int) :: indices))).count '{' =
          (LvArray.compactText dims (fun indices => v ((i : Int) :: indices))).count '}' :=
      fun i => ih _ (fun y hy => hd y (List.mem_cons_of_mem _ hy))
    have hch : ∀ x ∈ (List.range (e + 1)).map (fun i : Nat =>
        LvArray.compactText dims (fun indices => v ((i : Int) :: indices))),
        x ≠ [] ∧
        x.Chain' (fun a b => ¬ (a = '}' ∧ b = '{') ∧ ¬ (a = '{' ∧ b = '}')) ∧
        (∀ a ∈ x.head?, a ≠ '}' ∧ a ≠ ',') ∧ (∀ a ∈ x.getLast?, a ≠ '{' ∧ a ≠ ',') ∧
        x.count '{' = x.count '}' := by
      intro x hx
      obtain ⟨i, _, rfl⟩ := List.mem_map.mp hx
      exact hchi i
    have hI : ([','].intercalate ((List.range (e + 1)).map (fun i : Nat =>
        LvArray.compactText dims (fun indices => v ((i : Int) :: indices))))).Chain'
        (fun a b => ¬ (a = '}' ∧ b = '{') ∧ ¬ (a = '{' ∧ b = '}')) :=
      List.chain'_intercalate_singleton _ _ _ (fun x hx => (hch x hx).2.1)
        (fun a => ⟨fun h => absurd h.2 (by decide), fun h => absurd h.2 (by decide)⟩)
        (fun b => ⟨fun h => absurd h.1 (by decide), fun h => absurd h.1 (by decide)⟩)
    have hlast := List.getLast?_intercalate_singleton ',' (fun a => a ≠ '{' ∧ a ≠ ',')
      ((List.range (e + 1)).map (fun i : Nat =>
        LvArray.compactText dims (fun indices => v ((i : Int) :: indices))))
      (by simp) (fun x hx => ⟨(hch x hx).1, (hch x hx).2.2.2.1⟩)
    have hhead : ∀ a ∈ ([','].intercalate ((List.range (e + 1)).map (fun i : Nat =>
        LvArray.compactText dims (fun indices => v ((i : Int) :: indices))))).head?,
        a ≠ '}' ∧ a ≠ ',' := by
      rw [List.range_succ_eq_map, List.map_cons,
        List.head?_intercalate_singleton _ _ _ (hchi 0).1]
      exact (hchi 0).2.2.1
    have hcount := List.count_intercalate_singleton ',' '{' '}'
      ((List.range (e + 1)).map (fun i : Nat =>
        LvArray.compactText dims (fun indices => v ((i : Int) :: indices))))
      (by decide) (by decide) (fun x hx => (hch x hx).2.2.2.2)
    have e1 : LvArray.compactText ((e + 1) :: dims) v =
        ['{'] ++ [','].intercalate ((List.range (e + 1)).map (fun i : Nat =>
          LvArray.compactText dims (fun indices => v ((i : Int) :: indices)))) ++ ['}'] := rfl
    rw [e1]
    refine ⟨by simp, ?_, ?_, ?_, ?_⟩
    · rw [List.append_assoc, List.singleton_append]
      refine List.chain'_cons'.mpr ⟨?_, List.chain'_append.mpr ⟨hI, by simp, ?_⟩⟩
      · intro b hb
        refine ⟨fun h => absurd h.1 (by decide), fun h => ?_⟩
        rw [List.head?_append_of_ne_nil _ (by
          rw [List.range_succ_eq_map, List.map_cons]
          exact List.intercalate_singleton_ne_nil _ _ _ (hchi 0).1)] at hb
        exact (hhead b hb).1 h.2
      · intro a ha b hb
        simp only [List.head?_cons, Option.mem_def, Option.some.injEq] at hb
        refine ⟨fun h => absurd (hb.trans h.2) (by decide), fun h => (hlast a ha).1 h.1⟩
    · intro x hx
      rw [List.append_assoc, List.singleton_append, List.head?_cons] at hx
      have hx' : '{' = x := by simpa using hx
      rw [← hx']
      exact ⟨by decide, by decide⟩
    · intro x hx
      rw [List.getLast?_append_of_ne_nil _ (by simp)] at hx
      simp only [List.getLast?_singleton, Option.mem_def, Option.some.injEq] at hx
      rw [← hx]
      exact ⟨by decide, by decide⟩
    · rw [List.count_append, List.count_append, List.count_append, List.count_append, hcount,
        List.count_singleton, List.count_singleton, List.count_singleton, List.count_singleton]
      simp
      omega

/-! ### The loop that counts the dimensions -/

theorem LvArray.stringToArray.Runs.refl (NDIM size : Nat) (rest : List Char)
    (st : LvArray.stringToArray.DimState) : LvArray.stringToArray.Runs NDIM size [] rest st st :=
  fun charCount h => ⟨charCount, by simpa using h, rfl⟩

theorem LvArray.stringToArray.Runs.followedBy {NDIM size : Nat} {text1 text2 rest : List Char}
    {st st1 st2 : LvArray.stringToArray.DimState}
    (h1 : LvArray.stringToArray.Runs NDIM size text1 (text2 ++ rest) st st1)
    (h2 : LvArray.stringToArray.Runs NDIM size text2 rest st1 st2) :
    LvArray.stringToArray.Runs NDIM size (text1 ++ text2) rest st st2 := by
  intro charCount h
  rw [List.append_assoc] at h ⊢
  obtain ⟨c1, hc1, e1⟩ := h1 charCount h
  obtain ⟨c2, hc2, e2⟩ := h2 c1 hc1
  exact ⟨c2, hc2, e1.trans e2⟩

theorem LvArray.stringToArray.runs_open (NDIM size : Nat) (rest : List Char)
    (st : LvArray.stringToArray.DimState) :
    LvArray.stringToArray.Runs NDIM size ['{'] rest st
      { st with dimLevel := st.dimLevel + 1, lastChar := '{' } := by
  intro charCount h
  refine ⟨charCount + 1, by simp at h; omega, ?_⟩
  rw [List.singleton_append, LvArray.stringToArray.dimsLoop, if_pos rfl]

theorem LvArray.stringToArray.runs_value (NDIM size : Nat) (c : Char) (rest : List Char)
    (st : LvArray.stringToArray.DimState) (hc : LvArray.IsValueChar c) :
    LvArray.stringToArray.Runs NDIM size [c] rest st { st with lastChar := c } := by
  intro charCount h
  refine ⟨charCount + 1, by simp at h; omega, ?_⟩
  rw [List.singleton_append, LvArray.stringToArray.dimsLoop, if_neg hc.1, if_neg hc.2.1,
    if_neg hc.2.2.1]

theorem LvArray.stringToArray.runs_comma (NDIM size : Nat) (rest : List Char)
    (st : LvArray.stringToArray.DimState) (h1 : st.lastChar ≠ '{') (h2 : st.lastChar ≠ ',')
    (h3 : 0 ≤ st.dimLevel) (h4 : st.dimLevel < NDIM) :
    LvArray.stringToArray.Runs NDIM size [','] rest st
      { dimLevel := st.dimLevel
        dims :=
          if st.dimSet st.dimLevel.toNat = false then
            Function.update st.dims st.dimLevel.toNat (st.dims st.dimLevel.toNat + 1)
          else st.dims
        currentDims :=
          Function.update st.currentDims st.dimLevel.toNat
            (st.currentDims st.dimLevel.toNat + 1)
        dimSet := st.dimSet
        lastChar := ',' } := by
  intro charCount h
  refine ⟨charCount + 1, by simp at h; omega, ?_⟩
  rw [List.singleton_append, LvArray.stringToArray.dimsLoop, if_neg (by decide),
    if_neg (by decide), if_pos rfl, if_neg (by tauto), if_neg (by omega)]

theorem LvArray.stringToArray.runs_close (NDIM size : Nat) (rest : List Char)
    (st : LvArray.stringToArray.DimState) (h3 : 0 ≤ st.dimLevel) (h4 : st.dimLevel < NDIM)
    (h5 : st.dims st.dimLevel.toNat = st.currentDims st.dimLevel.toNat)
    (h6 : st.dimLevel = 0 → rest = []) :
    LvArray.stringToArray.Runs NDIM size ['}'] rest st
      { dimLevel := st.dimLevel - 1
        dims := st.dims
        currentDims := Function.update st.currentDims st.dimLevel.toNat 1
        dimSet := Function.update st.dimSet st.dimLevel.toNat true
        lastChar := '}' } := by
  intro charCount h
  refine ⟨charCount + 1, by simp at h; omega, ?_⟩
  have h7 : ¬ (st.dimLevel - 1 < 0 ∧ charCount < size - 1) := by
    rintro ⟨h8, h9⟩
    have h10 := h6 (by omega)
    subst h10
    simp at h
    omega
  rw [List.singleton_append, LvArray.stringToArray.dimsLoop, if_neg (by decide), if_pos rfl,
    if_neg (by omega), if_neg (by simpa using h5), if_neg h7]

/-- The characters of a value change nothing but the last character read. -/
theorem LvArray.stringToArray.runs_values (NDIM size : Nat) (lit : List Char) :
    ∀ (rest : List Char) (st : LvArray.stringToArray.DimState),
      lit ≠ [] → (∀ c ∈ lit, LvArray.IsValueChar c) →
      ∃ st' : LvArray.stringToArray.DimState,
        LvArray.stringToArray.Runs NDIM size lit rest st st' ∧
          st'.dimLevel = st.dimLevel ∧ st'.dims = st.dims ∧
          st'.currentDims = st.currentDims ∧ st'.dimSet = st.dimSet ∧
          LvArray.IsValueChar st'.lastChar := by
  induction lit with
  | nil => intro _ _ h _; exact absurd rfl h
  | cons c lit ih =>
    intro rest st _ hl
    have hc := hl c (List.mem_cons_self _ _)
    have h1 := LvArray.stringToArray.runs_value NDIM size c (lit ++ rest) st hc
    by_cases hn : lit = []
    · subst hn
      rw [List.nil_append] at h1
      exact ⟨{ st with lastChar := c }, h1, rfl, rfl, rfl, rfl, hc⟩
    · obtain ⟨st', r, e1, e2, e3, e4, e5⟩ := ih rest { st with lastChar := c } hn
        (fun x hx => hl x (List.mem_cons_of_mem _ hx))
      exact ⟨st', h1.followedBy r, e1, e2, e3, e4, e5⟩

theorem LvArray.braceText_cons (opening separator closing : List Char) (e : Nat)
    (dims : List Nat) (v : List Int → Int) :
    LvArray.braceText opening separator closing ((e + 1) :: dims) v =
      opening ++
        (LvArray.braceText opening separator closing dims
            (fun indices => v (((0 : Nat) : Int) :: indices)) ++
          (List.range' 1 e).flatMap (fun i : Nat => separator ++
            LvArray.braceText opening separator closing dims
              (fun indices => v ((i : Int) :: indices)))) ++
        closing := by
  rw [LvArray.braceText, List.range_succ_eq_map, List.map_cons, List.intercalate_cons_flatMap,
    List.map_map, List.flatMap_map, List.range'_eq_map_range, List.flatMap_map]
  simp only [Function.comp_def, Nat.succ_eq_add_one, Nat.add_comm 1]

theorem LvArray.stringToArray.runs_open_at (NDIM size : Nat) (rest : List Char)
    (st : LvArray.stringToArray.DimState) :
    ∃ st' : LvArray.stringToArray.DimState,
      LvArray.stringToArray.Runs NDIM size ['{'] rest st st' ∧
        st'.dimLevel = st.dimLevel + 1 ∧ st'.dims = st.dims ∧
        st'.currentDims = st.currentDims ∧ st'.dimSet = st.dimSet ∧ st'.lastChar = '{' :=
  ⟨_, LvArray.stringToArray.runs_open NDIM size rest st, rfl, rfl, rfl, rfl, rfl⟩

theorem LvArray.stringToArray.runs_comma_at (NDIM size : Nat) (rest : List Char)
    (st : LvArray.stringToArray.DimState) (L : Nat) (h1 : st.lastChar ≠ '{')
    (h2 : st.lastChar ≠ ',') (h3 : st.dimLevel = (L : Int)) (h4 : L < NDIM) :
    ∃ st' : LvArray.stringToArray.DimState,
      LvArray.stringToArray.Runs NDIM size [','] rest st st' ∧
        st'.dimLevel = (L : Int) ∧
        st'.dims = (if st.dimSet L = false then Function.update st.dims L (st.dims L + 1)
          else st.dims) ∧
        st'.currentDims = Function.update st.currentDims L (st.currentDims L + 1) ∧
        st'.dimSet = st.dimSet ∧ st'.lastChar = ',' := by
  have hL : st.dimLevel.toNat = L := by rw [h3]; simp
  have r := LvArray.stringToArray.runs_comma NDIM size rest st h1 h2 (by omega) (by omega)
  rw [hL] at r
  exact ⟨_, r, h3, rfl, rfl, rfl, rfl⟩

theorem LvArray.stringToArray.runs_close_at (NDIM size : Nat) (rest : List Char)
    (st : LvArray.stringToArray.DimState) (L : Nat) (h3 : st.dimLevel = (L : Int))
    (h4 : L < NDIM) (h5 : st.dims L = st.currentDims L) (h6 : L = 0 → rest = []) :
    ∃ st' : LvArray.stringToArray.DimState,
      LvArray.stringToArray.Runs NDIM size ['}'] rest st st' ∧
        st'.dimLevel = (L : Int) - 1 ∧ st'.dims = st.dims ∧
        st'.currentDims = Function.update st.currentDims L 1 ∧
        st'.dimSet = Function.update st.dimSet L true ∧ st'.lastChar = '}' := by
  have hL : st.dimLevel.toNat = L := by rw [h3]; simp
  have r := LvArray.stringToArray.runs_close NDIM size rest st (by omega) (by omega)
    (by rw [hL]; exact h5) (fun h => h6 (by omega))
  rw [hL] at r
  exact ⟨_, r, by simp only []; rw [h3], rfl, rfl, rfl, rfl⟩

theorem LvArray.stringToArray.runs_compactText (NDIM size : Nat) (dims : List Nat) :
    ∀ (v : List Int → Int) (L : Nat) (st : LvArray.stringToArray.DimState) (rest : List Char)
      (set : Bool),
      (∀ d ∈ dims, 1 ≤ d) → L + dims.length = NDIM → st.dimLevel = (L : Int) - 1 →
      LvArray.stringToArray.Prepared st L dims set → (L = 0 → rest = []) →
      ∃ st' : LvArray.stringToArray.DimState,
        LvArray.stringToArray.Runs NDIM size (LvArray.compactText dims v) rest st st' ∧
        st'.dimLevel = (L : Int) - 1 ∧ LvArray.stringToArray.Prepared st' L dims true ∧
        (∀ m : Nat, m < L → st'.dims m = st.dims m ∧ st'.currentDims m = st.currentDims m ∧
          st'.dimSet m = st.dimSet m) ∧
        st'.lastChar ≠ '{' ∧ st'.lastChar ≠ ',' := by
  induction dims with
  | nil =>
    intro v L st rest set _ _ hl _ _
    obtain ⟨st', r, e1, e2, e3, e4, e5⟩ := LvArray.stringToArray.runs_values NDIM size
      (std.num_put (v [])) rest st (std.num_put_ne_nil _) (std.num_put_valueChars _)
    refine ⟨st', r, e1.trans hl, fun k hk => absurd hk (by simp), fun m _ => ?_, e5.1, e5.2.2.1⟩
    rw [e2, e3, e4]
    exact ⟨rfl, rfl, rfl⟩
  | cons d dims ih =>
    intro v L st rest set hd hN hl hp hrest
    obtain ⟨e, rfl⟩ : ∃ e, d = e + 1 := ⟨d - 1, by have := hd d (by simp); omega⟩
    have hd' : ∀ x ∈ dims, 1 ≤ x := fun x hx => hd x (List.mem_cons_of_mem _ hx)
    simp only [List.length_cons] at hN
    have hN' : L + 1 + dims.length = NDIM := by omega
    have hp0 := hp 0 (by simp)
    simp only [Nat.add_zero, List.getD_cons_zero] at hp0
    -- the sub-arrays that follow the first one
    have hloop : ∀ (n k : Nat) (s : LvArray.stringToArray.DimState) (rest' : List Char),
        s.dimLevel = (L : Int) → LvArray.stringToArray.Prepared s (L + 1) dims true →
        s.currentDims L = (k : Int) → s.dimSet L = set →
        s.dims L = (if set then ((e + 1 : Nat) : Int) else (k : Int)) →
        (∀ m : Nat, m < L → s.dims m = st.dims m ∧ s.currentDims m = st.currentDims m ∧
          s.dimSet m = st.dimSet m) →
        s.lastChar ≠ '{' → s.lastChar ≠ ',' →
        ∃ s' : LvArray.stringToArray.DimState,
          LvArray.stringToArray.Runs NDIM size
            ((List.range' k n).flatMap (fun i : Nat => [','] ++
              LvArray.compactText dims (fun indices => v ((i : Int) :: indices)))) rest' s s' ∧
          s'.dimLevel = (L : Int) ∧ LvArray.stringToArray.Prepared s' (L + 1) dims true ∧
          s'.currentDims L = ((k + n : Nat) : Int) ∧ s'.dimSet L = set ∧
          s'.dims L = (if set then ((e + 1 : Nat) : Int) else ((k + n : Nat) : Int)) ∧
          (∀ m : Nat, m < L → s'.dims m = st.dims m ∧ s'.currentDims m = st.currentDims m ∧
            s'.dimSet m = st.dimSet m) ∧
          s'.lastChar ≠ '{' ∧ s'.lastChar ≠ ',' := by
      intro n
      induction n with
      | zero =>
        intro k s rest' h1 h2 h3 h4 h5 h6 h7 h8
        exact ⟨s, LvArray.stringToArray.Runs.refl _ _ _ _, h1, h2, h3, h4, h5, h6, h7, h8⟩
      | succ n ihn =>
        intro k s rest' h1 h2 h3 h4 h5 h6 h7 h8
        rw [List.range'_succ, List.flatMap_cons]
        obtain ⟨sc, rc, c1, c2, c3, c4, _⟩ := LvArray.stringToArray.runs_comma_at NDIM size
          (LvArray.compactText dims (fun indices => v ((k : Int) :: indices)) ++
            ((List.range' (k + 1) n).flatMap (fun i : Nat => [','] ++
              LvArray.compactText dims (fun indices => v ((i : Int) :: indices))) ++ rest'))
          s L h7 h8 h1 (by omega)
        have hsc_dims : ∀ m : Nat, m ≠ L → sc.dims m = s.dims m := by
          intro m hm
          rw [c2]
          split_ifs
          · rw [Function.update_noteq hm]
          · rfl
        have hsc_dimsL : sc.dims L = (if set then ((e + 1 : Nat) : Int) else ((k + 1 : Nat) : Int)) := by
          rw [c2, h4]
          cases set with
          | false =>
            simp only [if_true, Bool.false_eq_true, if_false]
            rw [Function.update_same, h5]
            simp
          | true =>
            simp only [Bool.true_eq_false, if_false, if_true]
            rw [h5]
            simp
        obtain ⟨s2, r2, f1, f2, f3, f4, f5⟩ := ih (fun indices => v ((k : Int) :: indices))
          (L + 1) sc
          ((List.range' (k + 1) n).flatMap (fun i : Nat => [','] ++
              LvArray.compactText dims (fun indices => v ((i : Int) :: indices))) ++ rest')
          true hd' hN' (by rw [c1]; push_cast; omega)
          (by
            intro j hj
            obtain ⟨g1, g2, g3⟩ := h2 j hj
            refine ⟨?_, ?_, ?_⟩
            · rw [c3, Function.update_noteq (by omega)]
              exact g1
            · rw [c4]
              exact g2
            · rw [hsc_dims _ (by omega)]
              exact g3)
          (fun h => absurd h (by omega))
        obtain ⟨g1, g2, g3⟩ := f3 L (by omega)
        obtain ⟨s', r3, k1, k2, k3, k4, k5, k6, k7, k8⟩ := ihn (k + 1) s2 rest'
          (by rw [f1]; push_cast; omega) f2
          (by rw [g2, c3, Function.update_same, h3]; push_cast; rfl)
          (by rw [g3, c4, h4])
          (by rw [g1, hsc_dimsL])
          (by
            intro m hm
            obtain ⟨q1, q2, q3⟩ := f3 m (by omega)
            refine ⟨?_, ?_, ?_⟩
            · rw [q1, hsc_dims m (by omega)]
              exact (h6 m hm).1
            · rw [q2, c3, Function.update_noteq (by omega)]
              exact (h6 m hm).2.1
            · rw [q3, c4]
              exact (h6 m hm).2.2)
          f4 f5
        have e3 : k + 1 + n = k + (n + 1) := by omega
        rw [e3] at k3 k5
        refine ⟨s', ?_, k1, k2, k3, k4, k5, k6, k7, k8⟩
        have r12 := rc.followedBy r2
        have r123 := r12.followedBy r3
        rw [List.append_assoc]
        exact r123
    -- the opening brace and the first sub-array
    obtain ⟨so, ro, o1, o2, o3, o4, _⟩ := LvArray.stringToArray.runs_open_at NDIM size
      (LvArray.compactText dims (fun indices => v (((0 : Nat) : Int) :: indices)) ++
        ((List.range' 1 e).flatMap (fun i : Nat => [','] ++
          LvArray.compactText dims (fun indices => v ((i : Int) :: indices))) ++
          (['}'] ++ rest))) st
    obtain ⟨s1, r1, f1, f2, f3, f4, f5⟩ := ih (fun indices => v (((0 : Nat) : Int) :: indices))
      (L + 1) so
      ((List.range' 1 e).flatMap (fun i : Nat => [','] ++
          LvArray.compactText dims (fun indices => v ((i : Int) :: indices))) ++ (['}'] ++ rest))
      set hd' hN' (by rw [o1, hl]; push_cast; omega)
      (by
        intro j hj
        have := hp (j + 1) (by simpa using hj)
        simp only [List.getD_cons_succ] at this
        have e3 : L + (j + 1) = L + 1 + j := by omega
        rw [e3] at this
        rw [o2, o3, o4]
        exact this)
      (fun h => absurd h (by omega))
    obtain ⟨g1, g2, g3⟩ := f3 L (by omega)
    rw [o2] at g1
    rw [o3] at g2
    rw [o4] at g3
    obtain ⟨s2, r2, k1, k2, k3, k4, k5, k6, k7, k8⟩ := hloop e 1 s1 (['}'] ++ rest)
      (by rw [f1]; push_cast; omega) f2 (by rw [g2, hp0.1]; rfl) (by rw [g3, hp0.2.1])
      (by
        rw [g1, hp0.2.2]
        cases set <;> simp)
      (fun m hm => by
        obtain ⟨q1, q2, q3⟩ := f3 m (by omega)
        rw [o2] at q1
        rw [o3] at q2
        rw [o4] at q3
        exact ⟨q1, q2, q3⟩)
      f4 f5
    have e4 : 1 + e = e + 1 := by omega
    rw [e4] at k3 k5
    obtain ⟨sf, rcl, c1, c2, c3, c4, c5⟩ := LvArray.stringToArray.runs_close_at NDIM size rest s2
      L k1 (by omega)
      (by
        rw [k3, k5]
        cases set <;> simp)
      hrest
    refine ⟨sf, ?_, c1, ?_, ?_, ?_, ?_⟩
    · rw [LvArray.compactText, LvArray.braceText_cons]
      have r := ((ro.followedBy r1).followedBy r2).followedBy rcl
      simpa [LvArray.compactText, List.append_assoc] using r
    · intro j hj
      cases j with
      | zero =>
        simp only [Nat.add_zero, List.getD_cons_zero, if_true]
        rw [c2, c3, c4, Function.update_same, Function.update_same, k5]
        refine ⟨rfl, rfl, ?_⟩
        cases set <;> simp
      | succ j =>
        have := k2 j (by simpa using hj)
        have e3 : L + (j + 1) = L + 1 + j := by omega
        rw [e3, c2, c3, c4, Function.update_noteq (by omega), Function.update_noteq (by omega)]
        simpa using this
    · intro m hm
      rw [c2, c3, c4, Function.update_noteq (by omega), Function.update_noteq (by omega)]
      exact k6 m hm
    · rw [c5]
      decide
    · rw [c5]
      decide

/-! ### The text handed to the stream -/

theorem List.flatMap_intercalate {α β : Type} (f : α → List β) (sep : List α)
    (xs : List (List α)) :
    (sep.intercalate xs).flatMap f =
      (sep.flatMap f).intercalate (xs.map (fun x => x.flatMap f)) := by
  induction xs with
  | nil => simp [List.intercalate]
  | cons x xs ih =>
    cases xs with
    | nil => simp [List.intercalate]
    | cons y ys =>
      rw [List.intercalate_cons_cons_append, List.map_cons, List.map_cons,
        List.intercalate_cons_cons_append, List.flatMap_append, List.flatMap_append, ih]
      simp

theorem LvArray.stringToArray.insertSpaces_map (s : List Char) :
    LvArray.stringToArray.insertSpaces (s.map (fun c => if c = ',' then ' ' else c)) =
      s.flatMap (fun c => if c = ',' then [' '] else if c = '}' then [' ', '}'] else [c]) := by
  induction s with
  | nil => rfl
  | cons c s ih =>
    rw [List.map_cons, List.flatMap_cons, LvArray.stringToArray.insertSpaces, ih]
    by_cases h1 : c = ','
    · subst h1
      simp
    · by_cases h2 : c = '}'
      · subst h2
        simp
      · simp [h1, h2]

theorem LvArray.flatMap_valueChars (lit : List Char) (h : ∀ c ∈ lit, LvArray.IsValueChar c) :
    lit.flatMap (fun c => if c = ',' then [' '] else if c = '}' then [' ', '}'] else [c]) =
      lit := by
  induction lit with
  | nil => rfl
  | cons c lit ih =>
    have hc := h c (List.mem_cons_self _ _)
    rw [List.flatMap_cons, ih (fun x hx => h x (List.mem_cons_of_mem _ hx)), if_neg hc.2.2.1,
      if_neg hc.2.1]
    rfl

/-- Replacing the commas and putting a space in front of the closing braces
turns the text without spaces into the text handed to the stream. -/
theorem LvArray.insertSpaces_compactText (dims : List Nat) :
    ∀ v : List Int → Int,
      LvArray.stringToArray.insertSpaces
          ((LvArray.compactText dims v).map (fun c => if c = ',' then ' ' else c)) =
        LvArray.streamText dims v := by
  intro v
  rw [LvArray.stringToArray.insertSpaces_map]
  induction dims generalizing v with
  | nil =>
    exact LvArray.flatMap_valueChars _ (std.num_put_valueChars _)
  | cons d dims ih =>
    rw [LvArray.compactText, LvArray.braceText, LvArray.streamText, LvArray.braceText,
      List.flatMap_append, List.flatMap_append, List.flatMap_intercalate, List.map_map]
    have e : (fun i : Nat => (LvArray.braceText ['{'] [','] ['}'] dims
          (fun indices => v ((i : Int) :: indices))).flatMap
          (fun c => if c = ',' then [' '] else if c = '}' then [' ', '}'] else [c])) =
        (fun i : Nat => LvArray.braceText ['{'] [' '] [' ', '}'] dims
          (fun indices => v ((i : Int) :: indices))) := by
      funext i
      exact ih _
    simp only [Function.comp_def]
    rw [e]
    rfl

theorem LvArray.streamText_head (dims : List Nat) (v : List Int → Int) :
    ∃ (c : Char) (cs : List Char), LvArray.streamText dims v = c :: cs ∧ c ≠ ' ' := by
  cases dims with
  | nil =>
    obtain ⟨c, cs, h⟩ := List.exists_cons_of_ne_nil (std.num_put_ne_nil (v []))
    exact ⟨c, cs, h, (std.num_put_valueChars (v []) c (by rw [h]; simp)).2.2.2⟩
  | cons d dims =>
    exact ⟨'{', _, rfl, by decide⟩

theorem LvArray.streamText_cons (e : Nat) (dims : List Nat) (v : List Int → Int) :
    LvArray.streamText ((e + 1) :: dims) v =
      ['{'] ++
        (List.range' 0 (e + 1)).flatMap (fun i : Nat => (if i = 0 then [] else [' ']) ++
          LvArray.streamText dims (fun indices => v ((i : Int) :: indices))) ++
        [' ', '}'] := by
  rw [LvArray.streamText, LvArray.braceText_cons, List.range'_succ, List.flatMap_cons]
  have e1 : (List.range' (0 + 1) e).flatMap (fun i : Nat => (if i = 0 then [] else [' ']) ++
      LvArray.streamText dims (fun indices => v ((i : Int) :: indices))) =
      (List.range' 1 e).flatMap (fun i : Nat => [' '] ++
        LvArray.braceText ['{'] [' '] [' ', '}'] dims (fun indices => v ((i : Int) :: indices))) := by
    apply List.flatMap_congr
    intro i hi
    have := (List.mem_range'_1.mp hi).1
    rw [if_neg (by omega)]
    rfl
  rw [e1]
  simp [LvArray.streamText]

/-! ### Reading the values -/

theorem LvArray.ArraySlice.position_subscript (s : LvArray.ArraySlice) (k : Int)
    (indices : List Int) :
    LvArray.ArraySlice.position
        { NDIM := s.NDIM - 1
          USD := s.USD - 1
          m_data := s.m_data +
            LvArray.ConditionalMultiply.multiply (s.USD == 0) k (s.m_strides 0)
          m_dims := LvArray.ptrNext s.m_dims
          m_strides := LvArray.ptrNext s.m_strides } indices =
      s.position (k :: indices) := by
  cases indices with
  | nil => simp [LvArray.ArraySlice.position, LvArray.getLinearIndex]
  | cons i rest =>
    simp only [LvArray.ArraySlice.position, LvArray.getLinearIndex]
    omega

theorem LvArray.stringToArrayHelper.skipDelimters_pre (pre text : List Char)
    (hpre : pre = [] ∨ pre = [' ']) (h : ∃ (c : Char) (cs : List Char), text = c :: cs ∧ c ≠ ' ') :
    LvArray.stringToArrayHelper.skipDelimters (pre ++ text) = text := by
  obtain ⟨c, cs, rfl, hc⟩ := h
  unfold LvArray.stringToArrayHelper.skipDelimters
  have hb : (c == ' ') = false := by simpa using hc
  rcases hpre with rfl | rfl
  · rw [List.nil_append, List.dropWhile_cons, hb]
    rfl
  · rw [List.singleton_append, List.dropWhile_cons, List.dropWhile_cons, hb]
    rfl

/-- The loop of `Read` over the sub-arrays `k, ..., k + n - 1`, when reading the
sub-array `i` writes the values `w i` and nothing else. -/
theorem LvArray.stringToArrayHelper.ReadLoop_eq
    (element : Int → (Int → Option Int) → List Char →
      Except LvArray.Fault ((Int → Option Int) × List Char))
    (text : Nat → List Char) (d : Nat)
    (P : Nat → (Int → Option Int) → (Int → Option Int) → Prop)
    (Q : Nat → (Int → Option Int) → Prop) (closing : List Char)
    (hclosing : ∃ cs, closing = ' ' :: cs)
    (htext : ∀ i, ∃ (c : Char) (cs : List Char), text i = c :: cs ∧ c ≠ ' ')
    (hel : ∀ (i : Nat) (data : Int → Option Int) (rest : List Char), i < d → Q i data →
      (∃ cs, rest = ' ' :: cs) →
      ∃ data', element (i : Int) data (text i ++ rest) = Except.ok (data', rest) ∧ P i data data')
    (hstep : ∀ (i : Nat) (data data' : Int → Option Int), i < d → Q i data → P i data data' →
      Q (i + 1) data') :
    ∀ (n k : Nat) (data : Int → Option Int), k + n = d → Q k data →
      ∃ data', LvArray.stringToArrayHelper.ReadLoop element (d : Int) n (k : Int) data
          ((List.range' k n).flatMap (fun i : Nat => (if i = 0 then [] else [' ']) ++ text i) ++
            closing) = Except.ok (data', closing) ∧ Q d data' := by
  intro n
  induction n with
  | zero =>
    intro k data hk hq
    have e : k = d := by omega
    subst e
    exact ⟨data, rfl, hq⟩
  | succ n ih =>
    intro k data hk hq
    rw [LvArray.stringToArrayHelper.ReadLoop, if_pos (by omega), List.range'_succ,
      List.flatMap_cons, List.append_assoc, List.append_assoc,
      LvArray.stringToArrayHelper.skipDelimters_pre _ _ (by split_ifs <;> simp)
        (by
          obtain ⟨c, cs, h1, h2⟩ := htext k
          exact ⟨c, cs ++ _, by rw [h1]; rfl, h2⟩)]
    have hrest : ∃ cs, (List.range' (k + 1) n).flatMap
        (fun i : Nat => (if i = 0 then [] else [' ']) ++ text i) ++ closing = ' ' :: cs := by
      cases n with
      | zero => simpa using hclosing
      | succ n =>
        rw [List.range'_succ, List.flatMap_cons, if_neg (by omega)]
        exact ⟨_, rfl⟩
    obtain ⟨data1, h1, hp⟩ := hel k data _ (by omega) hq hrest
    rw [h1]
    simp only []
    have e : ((k : Int) + 1) = ((k + 1 : Nat) : Int) := by push_cast; rfl
    rw [e]
    exact ih (k + 1) data1 (by omega) (hstep k data data1 (by omega) hq hp)

theorem LvArray.inRange_cons (d : Nat) (dims : List Nat) (i : Int) (indices : List Int) :
    LvArray.inRange (d :: dims) (i :: indices) = true ↔
      (0 ≤ i ∧ i < (d : Int)) ∧ LvArray.inRange dims indices = true := by
  simp [LvArray.inRange]

/-- One level of `Read`: when reading the sub-array `i` writes its values and
nothing else, reading the level writes the values of the level and nothing
else. -/
theorem LvArray.stringToArrayHelper.Read_node (boundsCheck : Bool) (dims : List Nat) (e : Nat)
    (s : LvArray.ArraySlice) (v : List Int → Int) (data : Int → Option Int) (rest : List Char)
    (hd0 : s.m_dims 0 = ((e + 1 : Nat) : Int))
    (hinj : ∀ indices indices' : List Int, LvArray.inRange ((e + 1) :: dims) indices = true →
      LvArray.inRange ((e + 1) :: dims) indices' = true →
      s.position indices = s.position indices' → indices = indices')
    (hel : ∀ (i : Nat) (data : Int → Option Int) (rest : List Char), i < e + 1 →
      (∃ cs, rest = ' ' :: cs) →
      ∃ data',
        (if dims.length = 0 then
            match s.subscriptValue boundsCheck (i : Int) with
            | none => Except.error LvArray.Fault.error
            | some position =>
              LvArray.stringToArrayHelper.ReadValue position data
                (LvArray.streamText dims (fun indices => v ((i : Int) :: indices)) ++ rest)
          else
            match s.subscript boundsCheck (i : Int) with
            | none => Except.error LvArray.Fault.error
            | some slice =>
              LvArray.stringToArrayHelper.Read boundsCheck dims.length slice
                (LvArray.ptrNext s.m_dims) data
                (LvArray.streamText dims (fun indices => v ((i : Int) :: indices)) ++ rest)) =
          Except.ok (data', rest) ∧
        (∀ indices, LvArray.inRange dims indices = true →
          data' (s.position ((i : Int) :: indices)) = some (v ((i : Int) :: indices))) ∧
        (∀ p, (∀ indices, LvArray.inRange dims indices = true →
          s.position ((i : Int) :: indices) ≠ p) → data' p = data p)) :
    ∃ data', LvArray.stringToArrayHelper.Read boundsCheck (dims.length + 1) s s.m_dims data
        (LvArray.streamText ((e + 1) :: dims) v ++ rest) = Except.ok (data', rest) ∧
      (∀ indices, LvArray.inRange ((e + 1) :: dims) indices = true →
        data' (s.position indices) = some (v indices)) ∧
      (∀ p, (∀ indices, LvArray.inRange ((e + 1) :: dims) indices = true →
        s.position indices ≠ p) → data' p = data p) := by
  obtain ⟨data', hloop, hq1, hq2⟩ := LvArray.stringToArrayHelper.ReadLoop_eq
    (fun i data inputStream =>
      if dims.length = 0 then
        match s.subscriptValue boundsCheck i with
        | none => Except.error LvArray.Fault.error
        | some position => LvArray.stringToArrayHelper.ReadValue position data inputStream
      else
        match s.subscript boundsCheck i with
        | none => Except.error LvArray.Fault.error
        | some slice =>
          LvArray.stringToArrayHelper.Read boundsCheck dims.length slice
            (LvArray.ptrNext s.m_dims) data inputStream)
    (fun i => LvArray.streamText dims (fun indices => v ((i : Int) :: indices))) (e + 1)
    (fun i data0 data1 =>
      (∀ indices, LvArray.inRange dims indices = true →
        data1 (s.position ((i : Int) :: indices)) = some (v ((i : Int) :: indices))) ∧
      (∀ p, (∀ indices, LvArray.inRange dims indices = true →
        s.position ((i : Int) :: indices) ≠ p) → data1 p = data0 p))
    (fun k datak =>
      (∀ i : Nat, i < k → ∀ indices, LvArray.inRange dims indices = true →
        datak (s.position ((i : Int) :: indices)) = some (v ((i : Int) :: indices))) ∧
      (∀ p, (∀ i : Nat, i < k → ∀ indices, LvArray.inRange dims indices = true →
        s.position ((i : Int) :: indices) ≠ p) → datak p = data p))
    ([' ', '}'] ++ rest) ⟨_, rfl⟩ (fun i => LvArray.streamText_head _ _)
    (fun i data0 rest0 hi _ hr => hel i data0 rest0 hi hr)
    (by
      intro i data0 data1 hi hq hp
      refine ⟨?_, ?_⟩
      · intro j hj indices hin
        by_cases hji : j = i
        · subst hji
          exact hp.1 indices hin
        · rw [hp.2 _ (fun indices' hin' heq => ?_)]
          · exact hq.1 j (by omega) indices hin
          · have := hinj _ _ ((LvArray.inRange_cons _ _ _ _).mpr ⟨⟨by omega, by omega⟩, hin'⟩)
              ((LvArray.inRange_cons _ _ _ _).mpr ⟨⟨by omega, by omega⟩, hin⟩) heq
            simp only [List.cons.injEq, Nat.cast_inj] at this
            exact hji this.1.symm
      · intro p hp'
        rw [hp.2 p (fun indices hin => hp' i (by omega) indices hin)]
        exact hq.2 p (fun j hj indices hin => hp' j (by omega) indices hin))
    (e + 1) 0 data (by omega)
    ⟨fun i hi => absurd hi (by omega), fun p _ => rfl⟩
  refine ⟨data', ?_, ?_, ?_⟩
  · rw [LvArray.stringToArrayHelper.Read, LvArray.streamText_cons, hd0, Int.toNat_ofNat]
    rw [List.append_assoc, List.append_assoc, List.singleton_append]
    rw [if_neg (by simp)]
    simp only [List.tail_cons, Nat.cast_zero] at hloop ⊢
    generalize hR : LvArray.stringToArrayHelper.ReadLoop _ _ _ _ _ _ = R
    have hR2 : R = Except.ok (data', [' ', '}'] ++ rest) := hR.symm.trans hloop
    rw [hR2]
    simp [LvArray.stringToArrayHelper.skipDelimters, List.dropWhile]
  · intro indices hin
    cases indices with
    | nil => simp [LvArray.inRange] at hin
    | cons i indices =>
      obtain ⟨⟨h0, h1⟩, hin'⟩ := (LvArray.inRange_cons _ _ _ _).mp hin
      have := hq1 i.toNat (by omega) indices hin'
      rw [Int.toNat_of_nonneg h0] at this
      exact this
  · intro p hp
    apply hq2
    intro i hi indices hin
    exact hp _ ((LvArray.inRange_cons _ _ _ _).mpr ⟨⟨by omega, by omega⟩, hin⟩)

/-- Reading the text handed to the stream into a slice of dimensions
`d :: dims`, all at least 1, in which distinct multi-indices have distinct
positions: the call returns, the text is consumed, every value is at the
position of its multi-index, and no other slot of the buffer changes. -/
theorem LvArray.stringToArrayHelper.Read_streamText (boundsCheck : Bool) (dims : List Nat) :
    ∀ (d : Nat) (s : LvArray.ArraySlice) (v : List Int → Int) (data : Int → Option Int)
      (rest : List Char),
      (∀ x ∈ d :: dims, 1 ≤ x) → s.NDIM = dims.length + 1 →
      (∀ k : Nat, k ≤ dims.length → s.m_dims k = (((d :: dims).getD k 0 : Nat) : Int)) →
      (∀ indices, LvArray.inRange (d :: dims) indices = true →
        -2147483648 ≤ v indices ∧ v indices ≤ 2147483647) →
      (∀ indices indices' : List Int, LvArray.inRange (d :: dims) indices = true →
        LvArray.inRange (d :: dims) indices' = true →
        s.position indices = s.position indices' → indices = indices') →
      ∃ data', LvArray.stringToArrayHelper.Read boundsCheck (dims.length + 1) s s.m_dims data
          (LvArray.streamText (d :: dims) v ++ rest) = Except.ok (data', rest) ∧
        (∀ indices, LvArray.inRange (d :: dims) indices = true →
          data' (s.position indices) = some (v indices)) ∧
        (∀ p, (∀ indices, LvArray.inRange (d :: dims) indices = true →
          s.position indices ≠ p) → data' p = data p) := by
  induction dims with
  | nil =>
    intro d s v data rest hd hn hdims hv hinj
    obtain ⟨e, rfl⟩ : ∃ e, d = e + 1 := ⟨d - 1, by have := hd d (by simp); omega⟩
    have hd0 : s.m_dims 0 = ((e + 1 : Nat) : Int) := hdims 0 (le_refl _)
    apply LvArray.stringToArrayHelper.Read_node boundsCheck [] e s v data rest hd0 hinj
    intro i data0 rest0 hi hr
    obtain ⟨cs, rfl⟩ := hr
    have hsub := LvArray.ArraySlice.subscriptValue_inRange boundsCheck s (i : Int)
      (by simpa using hn) (by omega) (by rw [hd0]; omega)
    have hvi := hv [(i : Int)] (by simp [LvArray.inRange]; omega)
    refine ⟨Function.update data0 (s.position [(i : Int)]) (some (v [(i : Int)])), ?_, ?_, ?_⟩
    · rw [if_pos List.length_nil, hsub]
      simp only []
      have e1 : LvArray.streamText [] (fun indices => v ((i : Int) :: indices)) =
          std.num_put (v [(i : Int)]) := rfl
      rw [e1, LvArray.stringToArrayHelper.ReadValue,
        std.istream_extract_num_put _ _ hvi.1 hvi.2]
      rfl
    · intro indices hin
      cases indices with
      | nil => rw [Function.update_same]
      | cons j rest => simp [LvArray.inRange] at hin
    · intro p hp
      rw [Function.update_noteq]
      exact fun h => hp [] rfl h.symm
  | cons d' dims ih =>
    intro d s v data rest hd hn hdims hv hinj
    obtain ⟨e, rfl⟩ : ∃ e, d = e + 1 := ⟨d - 1, by have := hd d (by simp); omega⟩
    have hd0 : s.m_dims 0 = ((e + 1 : Nat) : Int) := hdims 0 (Nat.zero_le _)
    apply LvArray.stringToArrayHelper.Read_node boundsCheck (d' :: dims) e s v data rest hd0 hinj
    intro i data0 rest0 hi _
    have hsub := LvArray.ArraySlice.subscript_inRange boundsCheck s (i : Int)
      (by rw [hn]; simp) (by omega) (by rw [hd0]; omega)
    obtain ⟨data', h1, h2, h3⟩ := ih d'
      { NDIM := s.NDIM - 1
        USD := s.USD - 1
        m_data := s.m_data +
          LvArray.ConditionalMultiply.multiply (s.USD == 0) (i : Int) (s.m_strides 0)
        m_dims := LvArray.ptrNext s.m_dims
        m_strides := LvArray.ptrNext s.m_strides }
      (fun indices => v ((i : Int) :: indices)) data0 rest0
      (fun x hx => hd x (List.mem_cons_of_mem _ hx))
      (by simp only [hn, List.length_cons]; omega)
      (by
        intro k hk
        have := hdims (k + 1) (by simpa using hk)
        simpa [LvArray.ptrNext] using this)
      (fun indices hin => hv _ ((LvArray.inRange_cons _ _ _ _).mpr ⟨⟨by omega, by omega⟩, hin⟩))
      (by
        intro a b ha hb hab
        rw [LvArray.ArraySlice.position_subscript, LvArray.ArraySlice.position_subscript] at hab
        have := hinj _ _ ((LvArray.inRange_cons _ _ _ _).mpr ⟨⟨by omega, by omega⟩, ha⟩)
          ((LvArray.inRange_cons _ _ _ _).mpr ⟨⟨by omega, by omega⟩, hb⟩) hab
        simpa using this)
    refine ⟨data', ?_, ?_, ?_⟩
    · rw [if_neg (by simp), hsub]
      exact h1
    · intro indices hin
      have := h2 indices hin
      rw [LvArray.ArraySlice.position_subscript] at this
      exact this
    · intro p hp
      apply h3
      intro indices hin
      rw [LvArray.ArraySlice.position_subscript]
      exact hp indices hin

/-! ### Distinct multi-indices have distinct positions -/

theorem LvArray.calculateStrides_cons_self (x : Int) (q : List Int) (dims : Nat → Int)
    (hx : 0 ≤ x) :
    LvArray.calculateStrides (x :: q) dims x.toNat = (q.map (fun e => dims e.toNat)).prod := by
  unfold LvArray.calculateStrides
  rw [Int.toNat_of_nonneg hx, List.dropWhile_cons]
  simp

theorem LvArray.calculateStrides_cons_ne (x e : Int) (q : List Int) (dims : Nat → Int)
    (he : 0 ≤ e) (hne : x ≠ e) :
    LvArray.calculateStrides (x :: q) dims e.toNat = LvArray.calculateStrides q dims e.toNat := by
  unfold LvArray.calculateStrides
  rw [Int.toNat_of_nonneg he, List.dropWhile_cons]
  simp [hne]

/-- The weighted sum of the indices over the dimensions of `q`, each dimension
having the stride derived from `q`. -/
theorem LvArray.strideSum_cons (x : Int) (q : List Int) (dims : Nat → Int) (index : Nat → Int)
    (hx : 0 ≤ x) (hq : ∀ e ∈ q, 0 ≤ e) (hnot : x ∉ q) :
    (((x :: q).map (fun e => index e.toNat * LvArray.calculateStrides (x :: q) dims e.toNat)).sum) =
      index x.toNat * (q.map (fun e => dims e.toNat)).prod +
        (q.map (fun e => index e.toNat * LvArray.calculateStrides q dims e.toNat)).sum := by
  rw [List.map_cons, List.sum_cons, LvArray.calculateStrides_cons_self x q dims hx]
  congr 2
  apply List.map_congr_left
  intro e he
  rw [LvArray.calculateStrides_cons_ne x e q dims (hq e he) (fun h => hnot (h ▸ he))]

theorem LvArray.strideSum_bound (dims : Nat → Int) (index : Nat → Int) (q : List Int) :
    (∀ e ∈ q, 0 ≤ e) → q.Nodup →
    (∀ e ∈ q, 0 ≤ index e.toNat ∧ index e.toNat < dims e.toNat) →
    0 ≤ (q.map (fun e => index e.toNat * LvArray.calculateStrides q dims e.toNat)).sum ∧
      (q.map (fun e => index e.toNat * LvArray.calculateStrides q dims e.toNat)).sum <
        (q.map (fun e => dims e.toNat)).prod := by
  induction q with
  | nil => intro _ _ _; simp
  | cons x q ih =>
    intro hq hnd hin
    have hnd' := List.nodup_cons.mp hnd
    obtain ⟨h0, h1⟩ := ih (fun e he => hq e (List.mem_cons_of_mem _ he)) hnd'.2
      (fun e he => hin e (List.mem_cons_of_mem _ he))
    obtain ⟨hx0, hx1⟩ := hin x (List.mem_cons_self _ _)
    rw [LvArray.strideSum_cons x q dims index (hq x (List.mem_cons_self _ _))
      (fun e he => hq e (List.mem_cons_of_mem _ he)) hnd'.1, List.map_cons, List.prod_cons]
    constructor
    · have : 0 ≤ index x.toNat * (q.map (fun e => dims e.toNat)).prod :=
        mul_nonneg hx0 (by omega)
      omega
    · nlinarith

theorem LvArray.mixed_radix_unique (P a a' r r' : Int) (h0 : 0 ≤ r) (h1 : r < P) (h0' : 0 ≤ r')
    (h1' : r' < P) (h : a * P + r = a' * P + r') : a = a' ∧ r = r' := by
  have hP : 0 < P := by omega
  have ha : a = a' := by
    rcases lt_trichotomy a a' with hlt | heq | hgt
    · exfalso
      have : (a + 1) * P ≤ a' * P := mul_le_mul_of_nonneg_right (by omega) (by omega)
      nlinarith
    · exact heq
    · exfalso
      have : (a' + 1) * P ≤ a * P := mul_le_mul_of_nonneg_right (by omega) (by omega)
      nlinarith
  subst ha
  exact ⟨rfl, by omega⟩

theorem LvArray.strideSum_injective (dims : Nat → Int) (index index' : Nat → Int) (q : List Int) :
    (∀ e ∈ q, 0 ≤ e) → q.Nodup →
    (∀ e ∈ q, 0 ≤ index e.toNat ∧ index e.toNat < dims e.toNat) →
    (∀ e ∈ q, 0 ≤ index' e.toNat ∧ index' e.toNat < dims e.toNat) →
    (q.map (fun e => index e.toNat * LvArray.calculateStrides q dims e.toNat)).sum =
      (q.map (fun e => index' e.toNat * LvArray.calculateStrides q dims e.toNat)).sum →
    ∀ e ∈ q, index e.toNat = index' e.toNat := by
  induction q with
  | nil => intro _ _ _ _ _ e he; simp at he
  | cons x q ih =>
    intro hq hnd hin hin' heq
    have hnd' := List.nodup_cons.mp hnd
    have hq' : ∀ e ∈ q, 0 ≤ e := fun e he => hq e (List.mem_cons_of_mem _ he)
    have hx := hq x (List.mem_cons_self _ _)
    rw [LvArray.strideSum_cons x q dims index hx hq' hnd'.1,
      LvArray.strideSum_cons x q dims index' hx hq' hnd'.1] at heq
    obtain ⟨b0, b1⟩ := LvArray.strideSum_bound dims index q hq' hnd'.2
      (fun e he => hin e (List.mem_cons_of_mem _ he))
    obtain ⟨c0, c1⟩ := LvArray.strideSum_bound dims index' q hq' hnd'.2
      (fun e he => hin' e (List.mem_cons_of_mem _ he))
    obtain ⟨ha, hr⟩ := LvArray.mixed_radix_unique _ _ _ _ _ b0 b1 c0 c1 heq
    intro e he
    rcases List.mem_cons.mp he with rfl | he
    · exact ha
    · exact ih hq' hnd'.2 (fun e he => hin e (List.mem_cons_of_mem _ he))
        (fun e he => hin' e (List.mem_cons_of_mem _ he)) hr e he

theorem LvArray.getStrideOneDimension_valid (p : List Int)
    (hv : LvArray.isValidPermutation p = true) (hn : 1 ≤ p.length) :
    ∃ d : Nat, LvArray.getStrideOneDimension p = some (d : Int) ∧ d < p.length ∧
      ∀ dims : Nat → Int, LvArray.calculateStrides p dims d = 1 := by
  have hperm := (LvArray.isValidPermutation_iff_perm p).mp hv
  have hnd : p.Nodup := hperm.nodup_iff.mpr
    ((List.nodup_range _).map (fun a b h => by simpa using h))
  have hne : p ≠ [] := by
    intro e
    rw [e] at hn
    simp at hn
  unfold LvArray.getStrideOneDimension
  obtain ⟨i, hi, hlast⟩ := List.mem_map.mp (hperm.subset (List.getLast_mem hne))
  refine ⟨i, ?_, List.mem_range.mp hi, ?_⟩
  · rw [List.getLast?_eq_getLast p hne, hlast]
  · intro dims
    have hsplit := List.dropLast_append_getLast hne
    rw [← hlast] at hsplit
    rw [← hsplit] at hnd ⊢
    apply LvArray.calculateStrides_last
    intro hmem
    have := List.nodup_append.mp hnd
    exact this.2.2 hmem (List.mem_singleton_self _)

theorem LvArray.sumDims_eq_sum (f : Nat → Int) (n : Nat) :
    ∀ start : Nat, LvArray.sumDims f start n = ((List.range' start n).map f).sum := by
  induction n with
  | zero => intro start; rfl
  | succ n ih =>
    intro start
    rw [LvArray.sumDims, ih, List.range'_succ, List.map_cons, List.sum_cons]

theorem LvArray.sum_over_permutation (p : List Int) (g : Nat → Int)
    (hv : LvArray.isValidPermutation p = true) :
    (p.map (fun e => g e.toNat)).sum = ((List.range p.length).map g).sum := by
  have hperm := (LvArray.isValidPermutation_iff_perm p).mp hv
  rw [(hperm.map (fun e => g e.toNat)).sum_eq, List.map_map]
  congr 1

theorem LvArray.inRange_iff (dims : List Nat) :
    ∀ indices : List Int, LvArray.inRange dims indices = true ↔
      (indices.length = dims.length ∧
        ∀ k : Nat, k < dims.length →
          0 ≤ indices.getD k 0 ∧ indices.getD k 0 < ((dims.getD k 0 : Nat) : Int)) := by
  induction dims with
  | nil =>
    intro indices
    cases indices with
    | nil => simp [LvArray.inRange]
    | cons i rest => simp [LvArray.inRange]
  | cons d dims ih =>
    intro indices
    cases indices with
    | nil => simp [LvArray.inRange]
    | cons i rest =>
      rw [LvArray.inRange_cons, ih]
      constructor
      · rintro ⟨hi, hl, hr⟩
        refine ⟨by simp [hl], fun k hk => ?_⟩
        cases k with
        | zero => simpa using hi
        | succ k => simpa using hr k (by simpa using hk)
      · rintro ⟨hl, hr⟩
        refine ⟨by simpa using hr 0 (by simp), by simpa using hl, fun k hk => ?_⟩
        simpa using hr (k + 1) (by simpa using hk)

/-- The position of a multi-index in the slice of an array whose strides are
derived from a valid permutation is the sum, over the dimensions in the order
of the permutation, of the index multiplied by the stride. -/
theorem LvArray.position_eq_strideSum (p : List Int) (dims : Nat → Int) (m_data USD : Int)
    (index : Int) (rest : List Int) (hv : LvArray.isValidPermutation p = true)
    (hlen : p.length = rest.length + 1)
    (husd : LvArray.getStrideOneDimension p = some USD) :
    LvArray.ArraySlice.position
        ⟨p.length, USD, m_data, dims, LvArray.calculateStrides p dims⟩ (index :: rest) =
      m_data + (p.map (fun e => LvArray.indexAt index rest e.toNat *
        LvArray.calculateStrides p dims e.toNat)).sum := by
  obtain ⟨d, h1, h2, h3⟩ := LvArray.getStrideOneDimension_valid p hv (by omega)
  rw [husd] at h1
  have hU : USD = (d : Int) := Option.some.inj h1
  subst hU
  rw [LvArray.ArraySlice.position]
  simp only []
  rw [LvArray.getLinearIndex_inside _ _ _ _ (by omega) (by omega),
    LvArray.sum_over_permutation p
      (fun k => LvArray.indexAt index rest k * LvArray.calculateStrides p dims k) hv,
    List.range_eq_range', ← LvArray.sumDims_eq_sum, hlen]
  have hdot := LvArray.dotProduct_inside (d : Int) (LvArray.calculateStrides p dims) index rest
    (by omega) (by omega)
  rw [Int.toNat_ofNat, h3 dims, mul_one] at hdot
  rw [Int.toNat_ofNat, ← hdot]
  rfl

theorem LvArray.isValidPermutation_mem (p : List Int)
    (hv : LvArray.isValidPermutation p = true) :
    (∀ e ∈ p, 0 ≤ e ∧ e.toNat < p.length) ∧ p.Nodup ∧ ∀ k : Nat, k < p.length → (k : Int) ∈ p := by
  have hperm := (LvArray.isValidPermutation_iff_perm p).mp hv
  refine ⟨fun e he => ?_, hperm.nodup_iff.mpr
    ((List.nodup_range _).map (fun a b h => by simpa using h)), fun k hk => ?_⟩
  · obtain ⟨i, hi, rfl⟩ := List.mem_map.mp (hperm.subset he)
    have := List.mem_range.mp hi
    exact ⟨by omega, by simpa using this⟩
  · exact hperm.symm.subset (List.mem_map.mpr ⟨k, List.mem_range.mpr hk, rfl⟩)

/-- In the slice of an array whose strides are derived from its dimensions and
a valid permutation, two multi-indices in range that have the same position
are the same. -/
theorem LvArray.Array.position_injective (a : LvArray.Array) (D : List Nat)
    (hv : LvArray.isValidPermutation a.PERMUTATION = true)
    (hl : a.PERMUTATION.length = D.length) (h1 : 1 ≤ D.length)
    (hd : ∀ k : Nat, k < D.length → a.m_dims k = ((D.getD k 0 : Nat) : Int))
    (hs : a.m_strides = LvArray.calculateStrides a.PERMUTATION a.m_dims) :
    ∀ indices indices' : List Int, LvArray.inRange D indices = true →
      LvArray.inRange D indices' = true →
      a.toSlice.position indices = a.toSlice.position indices' → indices = indices' := by
  intro indices indices' hin hin' heq
  obtain ⟨hlen, hr⟩ := (LvArray.inRange_iff D indices).mp hin
  obtain ⟨hlen', hr'⟩ := (LvArray.inRange_iff D indices').mp hin'
  obtain ⟨hmem, hnd, hall⟩ := LvArray.isValidPermutation_mem a.PERMUTATION hv
  obtain ⟨d, hu, _, _⟩ := LvArray.getStrideOneDimension_valid a.PERMUTATION hv (by omega)
  cases indices with
  | nil => simp at hlen; omega
  | cons i rest =>
    cases indices' with
    | nil => simp at hlen'; omega
    | cons i' rest' =>
      have e1 := LvArray.position_eq_strideSum a.PERMUTATION a.m_dims 0 (d : Int) i rest hv
        (by simp at hlen; omega) hu
      have e2 := LvArray.position_eq_strideSum a.PERMUTATION a.m_dims 0 (d : Int) i' rest' hv
        (by simp at hlen'; omega) hu
      have p1 : a.toSlice.position (i :: rest) =
          LvArray.ArraySlice.position ⟨a.PERMUTATION.length, (d : Int), 0, a.m_dims,
            LvArray.calculateStrides a.PERMUTATION a.m_dims⟩ (i :: rest) := by
        unfold LvArray.Array.toSlice LvArray.ArraySlice.position
        simp only [hs, hu, Option.getD_some]
      have p2 : a.toSlice.position (i' :: rest') =
          LvArray.ArraySlice.position ⟨a.PERMUTATION.length, (d : Int), 0, a.m_dims,
            LvArray.calculateStrides a.PERMUTATION a.m_dims⟩ (i' :: rest') := by
        unfold LvArray.Array.toSlice LvArray.ArraySlice.position
        simp only [hs, hu, Option.getD_some]
      rw [p1, p2, e1, e2] at heq
      have hsum := LvArray.strideSum_injective a.m_dims (LvArray.indexAt i rest)
        (LvArray.indexAt i' rest') a.PERMUTATION (fun e he => (hmem e he).1) hnd
        (fun e he => by
          have := hr e.toNat (by rw [← hl]; exact (hmem e he).2)
          rw [hd _ (by rw [← hl]; exact (hmem e he).2)]
          exact this)
        (fun e he => by
          have := hr' e.toNat (by rw [← hl]; exact (hmem e he).2)
          rw [hd _ (by rw [← hl]; exact (hmem e he).2)]
          exact this)
        (by omega)
      apply List.ext_getElem (hlen.trans hlen'.symm)
      intro k hk hk'
      have := hsum (k : Int) (hall k (by rw [hl, ← hlen]; exact hk))
      simp only [LvArray.indexAt, Int.toNat_ofNat] at this
      rw [List.getD_eq_getElem _ _ hk, List.getD_eq_getElem _ _ hk'] at this
      exact this

/-! ### stringToArray on a well formed text -/

theorem LvArray.ArraySlice.value_inRange (boundsCheck : Bool) (data : Int → Option Int)
    (s : LvArray.ArraySlice) (D : List Nat) (indices : List Int) (hn : s.NDIM = D.length)
    (h1 : 1 ≤ D.length)
    (hd : ∀ k : Nat, k < D.length → s.m_dims k = ((D.getD k 0 : Nat) : Int))
    (hin : LvArray.inRange D indices = true) :
    s.value boundsCheck data indices = data (s.position indices) := by
  obtain ⟨hlen, hr⟩ := (LvArray.inRange_iff D indices).mp hin
  cases indices with
  | nil => simp at hlen; omega
  | cons i rest =>
    have hinv : LvArray.invalidIndices s.m_dims (i :: rest) = false := by
      rw [Bool.eq_false_iff]
      intro h
      unfold LvArray.invalidIndices at h
      obtain ⟨d, hd1, hd2⟩ := (LvArray.invalidIndicesFrom_iff s.m_dims (i :: rest) 0).mp h
      have := hr d (by omega)
      rw [Nat.zero_add, hd d (by omega)] at hd2
      omega
    rw [LvArray.ArraySlice.value, LvArray.chain_eq boundsCheck rest s i (by rw [hn, ← hlen]),
      hinv]
    simp [LvArray.ArraySlice.position]

theorem LvArray.compactText_ne_braces (D : List Nat) (v : List Int → Int)
    (hD : ∀ d ∈ D, 1 ≤ d) (h1 : 1 ≤ D.length) : LvArray.compactText D v ≠ ['{', '}'] := by
  obtain ⟨c, rest, hc, h⟩ := LvArray.compactText_leading D v hD
  rw [h]
  intro e
  obtain ⟨n, hn⟩ : ∃ n, D.length = n + 1 := ⟨D.length - 1, by omega⟩
  rw [hn, List.replicate_succ, List.cons_append] at e
  cases n with
  | zero =>
    simp only [List.replicate_zero, List.nil_append, List.cons.injEq, true_and] at e
    exact hc.2.1 e.1
  | succ n =>
    rw [List.replicate_succ, List.cons_append] at e
    simp at e

/-- The loop that counts the dimensions, on the whole text without spaces of a
space whose dimensions `D` are all at least 1: it ends without a fault, at
level -1, with the dimensions `D`. -/
theorem LvArray.stringToArray.dimsLoop_compactText (D : List Nat) (v : List Int → Int)
    (hD : ∀ d ∈ D, 1 ≤ d) :
    ∃ st : LvArray.stringToArray.DimState,
      LvArray.stringToArray.dimsLoop D.length (LvArray.compactText D v).length
          (LvArray.compactText D v) 0
          { dimLevel := -1, dims := fun _ => 1, currentDims := fun _ => 1,
            dimSet := fun _ => false, lastChar := Char.ofNat 0 } = Except.ok st ∧
        st.dimLevel = -1 ∧
        ∀ k : Nat, k < D.length → st.dims k = ((D.getD k 0 : Nat) : Int) := by
  obtain ⟨st, r, h1, h2, _, _, _⟩ := LvArray.stringToArray.runs_compactText D.length
    (LvArray.compactText D v).length D v 0
    { dimLevel := -1, dims := fun _ => 1, currentDims := fun _ => 1,
      dimSet := fun _ => false, lastChar := Char.ofNat 0 } [] false hD (by omega) (by simp)
    (fun k _ => ⟨rfl, rfl, by simp⟩) (fun _ => rfl)
  obtain ⟨cc, _, hrun⟩ := r 0 (by simp)
  rw [List.append_nil] at hrun
  refine ⟨st, hrun, by simpa using h1, fun k hk => ?_⟩
  have := (h2 k hk).2.2
  simpa using this

/-- On a text in which the first loop finds nothing and which, without its
spaces, is the well formed text of the values `v` of a space of dimensions
`D`, all at least 1, `stringToArray` returns: the array has the dimensions `D`
and the value `v indices` at every multi-index in range, whatever the
permutation of the array. -/
theorem LvArray.stringToArray_compactText (boundsCheck : Bool) (a : LvArray.Array)
    (D : List Nat) (v : List Int → Int) (text : List Char)
    (hN : a.NDIM = D.length) (h1 : 1 ≤ D.length)
    (hperm : LvArray.isValidPermutation a.PERMUTATION = true)
    (hplen : a.PERMUTATION.length = a.NDIM) (hD : ∀ d ∈ D, 1 ≤ d)
    (hv : ∀ indices, LvArray.inRange D indices = true →
      -2147483648 ≤ v indices ∧ v indices ≤ 2147483647)
    (hsp : LvArray.stringToArray.spaceDelimited text false false = false)
    (htext : text.filter (fun c => c != ' ') = LvArray.compactText D v) :
    ∃ a' : LvArray.Array, LvArray.stringToArray boundsCheck a text = Except.ok a' ∧
      a'.NDIM = a.NDIM ∧ a'.PERMUTATION = a.PERMUTATION ∧
      (∀ k : Nat, k < D.length → a'.m_dims k = ((D.getD k 0 : Nat) : Int)) ∧
      a'.m_strides = LvArray.calculateStrides a.PERMUTATION a'.m_dims ∧
      ∀ indices, LvArray.inRange D indices = true →
        a'.value boundsCheck indices = some (v indices) := by
  obtain ⟨c, rest, hc, hlead⟩ := LvArray.compactText_leading D v hD
  obtain ⟨_, hchain, _, _, hcount⟩ := LvArray.compactText_chain D v hD
  have hfind1 : std.string_find ['}', '{'] (LvArray.compactText D v) 0 = none :=
    std.string_find_pair _ _ _ 0 (hchain.imp (fun {_ _} h => h.1))
  have hfind2 : std.string_find ['{', '}'] (LvArray.compactText D v) 0 = none :=
    std.string_find_pair _ _ _ 0 (hchain.imp (fun {_ _} h => h.2))
  have hhead : (LvArray.compactText D v).head? = some '{' := by
    obtain ⟨n, hn⟩ : ∃ n, D.length = n + 1 := ⟨D.length - 1, by omega⟩
    rw [hlead, hn, List.replicate_succ]
    rfl
  have hnot : std.find_first_not_of '{' (LvArray.compactText D v) 0 = some D.length := by
    rw [hlead, std.find_first_not_of_replicate '{' c D.length rest hc.1 0, Nat.zero_add]
  obtain ⟨st, hloop, hlevel, hdims⟩ := LvArray.stringToArray.dimsLoop_compactText D v hD
  obtain ⟨d, dims, rfl⟩ : ∃ d dims, D = d :: dims := by
    cases D with
    | nil => simp at h1
    | cons d dims => exact ⟨d, dims, rfl⟩
  have hinj := LvArray.Array.position_injective (a.resize st.dims) (d :: dims) hperm
    (by rw [← hN]; exact hplen) h1 hdims rfl
  obtain ⟨data', hread, hval, _⟩ := LvArray.stringToArrayHelper.Read_streamText boundsCheck dims d
    (a.resize st.dims).toSlice v (a.resize st.dims).m_data [] hD
    (by simpa using hN)
    (fun k hk => hdims k (by simp; omega)) hv hinj
  rw [List.append_nil] at hread
  refine ⟨{ a.resize st.dims with m_data := data' }, ?_, rfl, rfl, hdims, rfl, ?_⟩
  · unfold LvArray.stringToArray
    rw [hsp, htext]
    rw [if_neg (by simp), if_neg (LvArray.compactText_ne_braces _ v hD h1), hfind1,
      if_neg (by simp), if_neg (by rw [hhead]; simp), if_neg (by rw [hcount]; simp), hfind2,
      if_neg (by simp), hnot]
    simp only []
    rw [if_neg (by rw [hN]; simp), hN, hloop]
    simp only []
    rw [if_neg (by rw [hlevel]; simp), LvArray.insertSpaces_compactText]
    have hread' : LvArray.stringToArrayHelper.Read boundsCheck (d :: dims).length
        (a.resize st.dims).toSlice (a.resize st.dims).m_dims (a.resize st.dims).m_data
        (LvArray.streamText (d :: dims) v) = Except.ok (data', []) := hread
    rw [hread']
  · intro indices hin
    have := LvArray.ArraySlice.value_inRange boundsCheck data' (a.resize st.dims).toSlice
      (d :: dims) indices hN h1 hdims hin
    rw [hval indices hin] at this
    exact this

/-- The text of the tokens of a well formed text, with any spaces around the
tokens, passes the first loop of `stringToArray` and is the text without
spaces once its spaces are erased. -/
theorem LvArray.Spaced.tokens_facts (D : List Nat) (v : List Int → Int) (text : List Char)
    (h : LvArray.Spaced (LvArray.tokens D v) text) :
    LvArray.stringToArray.spaceDelimited text false false = false ∧
      text.filter (fun c => c != ' ') = LvArray.compactText D v :=
  ⟨h.spaceDelimited_eq (LvArray.tokens_values D v) (LvArray.tokens_chain D v) false false
      (fun e => absurd e (by simp)),
    (h.filter_eq (LvArray.tokens_no_space D v)).trans (LvArray.tokens_text D v)⟩

/-- Claim C27. For every well formed nested brace text of rank `NDIM` whose
shape is rectangular with sizes `D`, all at least 1, with the `int` values `v`
in decimal digits, separated by "," and with any number of spaces around the
tokens, `stringToArray` returns, the array has the dimensions `D`, and
`array[ i0 ]...[ iN-1 ]` is the value written at that nested position, whatever
the permutation of the array. -/
theorem stringToArray_spec (boundsCheck : Bool) (a : LvArray.Array) (D : List Nat)
    (v : List Int → Int) (text : List Char)
    (hN : a.NDIM = D.length) (h1 : 1 ≤ D.length)
    (hperm : LvArray.isValidPermutation a.PERMUTATION = true)
    (hplen : a.PERMUTATION.length = a.NDIM) (hD : ∀ d ∈ D, 1 ≤ d)
    (hv : ∀ indices, LvArray.inRange D indices = true →
      -2147483648 ≤ v indices ∧ v indices ≤ 2147483647)
    (htext : LvArray.Spaced (LvArray.tokens D v) text) :
    ∃ a' : LvArray.Array, LvArray.stringToArray boundsCheck a text = Except.ok a' ∧
      (∀ k : Nat, k < D.length → a'.m_dims k = ((D.getD k 0 : Nat) : Int)) ∧
      ∀ indices, LvArray.inRange D indices = true →
        a'.value boundsCheck indices = some (v indices) := by
  obtain ⟨hsp, hf⟩ := LvArray.Spaced.tokens_facts D v text htext
  obtain ⟨a', h, _, _, hd, _, hval⟩ := LvArray.stringToArray_compactText boundsCheck a D v text hN
    h1 hperm hplen hD hv hsp hf
  exact ⟨a', h, hd, hval⟩

/-- Witness of claim C27: the text of the test `stringToArray3d`, of shape
4 x 5 x 3, in which the value at `( i, j, k )` is `2 i + 3 j + 4 k`, with " , "
between the items, read into an array of permutation `PERM_JIK`. -/
theorem stringToArray_spec_witness :
    ∃ a' : LvArray.Array,
      LvArray.stringToArray true ⟨3, [1, 0, 2], fun _ => 0, fun _ => 0, fun _ => none⟩
          (LvArray.withSpaces
            (LvArray.tokens [4, 5, 3]
              (fun indices => 2 * indices.getD 0 0 + 3 * indices.getD 1 0 + 4 * indices.getD 2 0))
            (List.replicate 400 1)) = Except.ok a' ∧
        [a'.m_dims 0, a'.m_dims 1, a'.m_dims 2] = [4, 5, 3] ∧
        a'.value true [3, 4, 2] = some 26 := by
  obtain ⟨a', h, hd, hval⟩ := stringToArray_spec true
    ⟨3, [1, 0, 2], fun _ => 0, fun _ => 0, fun _ => none⟩ [4, 5, 3]
    (fun indices => 2 * indices.getD 0 0 + 3 * indices.getD 1 0 + 4 * indices.getD 2 0)
    (LvArray.withSpaces
      (LvArray.tokens [4, 5, 3]
        (fun indices => 2 * indices.getD 0 0 + 3 * indices.getD 1 0 + 4 * indices.getD 2 0))
      (List.replicate 400 1))
    rfl (by decide) (by decide) rfl (by decide)
    (by
      intro indices hin
      rcases indices with _ | ⟨i, _ | ⟨j, _ | ⟨k, _ | ⟨l, rest⟩⟩⟩⟩ <;>
        simp [LvArray.inRange] at hin
      simp only [List.getD_cons_zero, List.getD_cons_succ]
      omega)
    (LvArray.spaced_withSpaces _ _)
  refine ⟨a', h, ?_, ?_⟩
  · rw [hd 0 (by decide), hd 1 (by decide), hd 2 (by decide)]
    rfl
  · exact hval [3, 4, 2] (by decide)

/-- The text `operator<<` writes for an array of dimensions `D` whose values
are `v`. -/
theorem LvArray.Array.streamInsert_arrayText (boundsCheck : Bool) (a : LvArray.Array)
    (D : List Nat) (v : List Int → Int) (hN : a.NDIM = D.length) (h1 : 1 ≤ D.length)
    (hd : ∀ k : Nat, k < D.length → a.m_dims k = ((D.getD k 0 : Nat) : Int))
    (hv : ∀ indices, LvArray.inRange D indices = true →
      a.value boundsCheck indices = some (v indices)) :
    a.streamInsert boundsCheck = some (LvArray.arrayText D v) := by
  cases D with
  | nil => simp at h1
  | cons d dims =>
    rw [LvArray.Array.streamInsert, hN, List.length_cons]
    exact LvArray.ArraySlice.streamInsert_eq boundsCheck a.m_data dims d a.toSlice v
      (by simpa [LvArray.Array.toSlice] using hN)
      (fun k hk => hd k (by simp only [List.length_cons]; omega))
      hv

/-- Claim C26. Writing an array of `int` with `operator<<` and reading the
text back with `stringToArray` gives the same dimensions and the same values,
for every permutation of the source and of the destination: the source is any
array of dimensions `D`, all at least 1, with a value at every index, and the
destination any array of the same rank with a valid permutation. -/
theorem stringToArray_streamInsert (boundsCheck : Bool) (a b : LvArray.Array) (D : List Nat)
    (hN : a.NDIM = D.length) (h1 : 1 ≤ D.length) (hD : ∀ d ∈ D, 1 ≤ d)
    (hd : ∀ k : Nat, k < D.length → a.m_dims k = ((D.getD k 0 : Nat) : Int))
    (hv : ∀ indices, LvArray.inRange D indices = true →
      ∃ x : Int, a.value boundsCheck indices = some x ∧ -2147483648 ≤ x ∧ x ≤ 2147483647)
    (hbN : b.NDIM = a.NDIM)
    (hperm : LvArray.isValidPermutation b.PERMUTATION = true)
    (hplen : b.PERMUTATION.length = b.NDIM) :
    ∃ (text : List Char) (b' : LvArray.Array),
      a.streamInsert boundsCheck = some text ∧
      LvArray.stringToArray boundsCheck b text = Except.ok b' ∧
      (∀ k : Nat, k < D.length → b'.m_dims k = a.m_dims k) ∧
      ∀ indices, LvArray.inRange D indices = true →
        b'.value boundsCheck indices = a.value boundsCheck indices := by
  have hval : ∀ indices, LvArray.inRange D indices = true →
      a.value boundsCheck indices = some ((a.value boundsCheck indices).getD 0) := by
    intro indices hin
    obtain ⟨x, hx, _⟩ := hv indices hin
    rw [hx]
    rfl
  have hrange : ∀ indices, LvArray.inRange D indices = true →
      -2147483648 ≤ (a.value boundsCheck indices).getD 0 ∧
        (a.value boundsCheck indices).getD 0 ≤ 2147483647 := by
    intro indices hin
    obtain ⟨x, hx, hb⟩ := hv indices hin
    rw [hx]
    exact hb
  obtain ⟨hsp, hf⟩ := LvArray.Spaced.tokens_facts D
    (fun indices => (a.value boundsCheck indices).getD 0) _ (LvArray.spaced_arrayText D _)
  obtain ⟨b', h, _, _, hbd, _, hbv⟩ := LvArray.stringToArray_compactText boundsCheck b D
    (fun indices => (a.value boundsCheck indices).getD 0) _ (hbN.trans hN) h1 hperm hplen hD
    hrange hsp hf
  refine ⟨_, b', LvArray.Array.streamInsert_arrayText boundsCheck a D _ hN h1 hd hval, h, ?_, ?_⟩
  · intro k hk
    rw [hbd k hk, hd k hk]
  · intro indices hin
    rw [hbv indices hin]
    exact (hval indices hin).symm

/-- Witness of claim C26: an array of dimensions 2 x 3 and permutation
`( 1, 0 )`, whose value at `( i, j )` is `10 i + j`, written and read back into
an array of permutation `( 0, 1 )`. -/
theorem stringToArray_streamInsert_witness :
    ∃ (text : List Char) (b' : LvArray.Array),
      LvArray.Array.streamInsert true
          ⟨2, [1, 0], fun k => [2, 3].getD k 0, fun k => [1, 2].getD k 0,
            fun p => if 0 ≤ p ∧ p < 6 then some (10 * (p % 2) + p / 2) else none⟩ = some text ∧
        LvArray.stringToArray true ⟨2, [0, 1], fun _ => 0, fun _ => 0, fun _ => none⟩ text =
          Except.ok b' ∧
        b'.m_dims 1 = 3 ∧ b'.value true [1, 2] = some 12 := by
  obtain ⟨text, b', hw, hr, hd, hv⟩ := stringToArray_streamInsert true
    ⟨2, [1, 0], fun k => [2, 3].getD k 0, fun k => [1, 2].getD k 0,
      fun p => if 0 ≤ p ∧ p < 6 then some (10 * (p % 2) + p / 2) else none⟩
    ⟨2, [0, 1], fun _ => 0, fun _ => 0, fun _ => none⟩ [2, 3]
    rfl (by decide) (by decide)
    (by
      intro k hk
      have hk2 : k < 2 := hk
      interval_cases k <;> rfl)
    (by
      intro indices hin
      rcases indices with _ | ⟨i, _ | ⟨j, _ | ⟨l, rest⟩⟩⟩ <;>
        simp [LvArray.inRange] at hin
      obtain ⟨⟨hi0, hi1⟩, hj0, hj1⟩ := hin
      interval_cases i <;> interval_cases j <;> exact ⟨_, rfl, by decide, by decide⟩)
    rfl (by decide) rfl
  exact ⟨text, b', hw, hr, (hd 1 (by decide)).trans rfl, (hv [1, 2] (by decide)).trans rfl⟩

/-! ### The checks of stringToArray that come before the dimensions -/

/-- The first loop accepts a text that holds no character of a value. -/
theorem LvArray.stringToArray.spaceDelimited_no_value (text : List Char)
    (h : ∀ c ∈ text, c = '{' ∨ c = ',' ∨ c = '}' ∨ c = ' ') :
    ∀ valueOnLeft spaceOnLeft : Bool,
      LvArray.stringToArray.spaceDelimited text valueOnLeft spaceOnLeft = false := by
  induction text with
  | nil => intro _ _; rfl
  | cons c cs ih =>
    intro valueOnLeft spaceOnLeft
    have hcs : ∀ c ∈ cs, c = '{' ∨ c = ',' ∨ c = '}' ∨ c = ' ' :=
      fun x hx => h x (List.mem_cons_of_mem _ hx)
    rcases h c (List.mem_cons_self _ _) with e | e | e | e
    · rw [LvArray.stringToArray.spaceDelimited_delimiter c cs _ _ (Or.inl e)]
      exact ih hcs _ _
    · rw [LvArray.stringToArray.spaceDelimited_delimiter c cs _ _ (Or.inr (Or.inl e))]
      exact ih hcs _ _
    · rw [LvArray.stringToArray.spaceDelimited_delimiter c cs _ _ (Or.inr (Or.inr e))]
      exact ih hcs _ _
    · subst e
      rw [LvArray.stringToArray.spaceDelimited_space]
      exact ih hcs _ _

/-- The array that `clear()` leaves is empty: its first dimension and its size
are zero and its buffer holds no value. -/
theorem LvArray.Array.clear_empty (a : LvArray.Array) (hN : 1 ≤ a.NDIM) :
    a.clear.m_dims 0 = 0 ∧ a.clear.size = 0 ∧ ∀ p : Int, a.clear.m_data p = none := by
  have hsize : LvArray.multiplyAll a.NDIM (fun d => if d = 0 then 0 else a.m_dims d) = 0 := by
    obtain ⟨n, hn⟩ : ∃ n, a.NDIM = n + 1 := ⟨a.NDIM - 1, by omega⟩
    rw [hn]
    cases n with
    | zero => simp [LvArray.multiplyAll]
    | succ n => simp [LvArray.multiplyAll]
  refine ⟨by simp [LvArray.Array.clear, LvArray.Array.resize], ?_, ?_⟩
  · simpa [LvArray.Array.clear, LvArray.Array.resize, LvArray.Array.size] using hsize
  · intro p
    simp only [LvArray.Array.clear, LvArray.Array.resize, hsize]
    rw [if_neg (by omega)]

/-- Claim C31. For every text made of one `{`, one `}` and spaces that is `{}`
once its spaces are removed, `stringToArray` returns without an error and
leaves the array as `clear()` leaves it, which is empty: the first dimension
and the size are zero and no value is left, whatever the array held and
whatever its rank. -/
theorem stringToArray_null (boundsCheck : Bool) (a : LvArray.Array) (text : List Char)
    (hN : 1 ≤ a.NDIM) (h : text.filter (fun c => c != ' ') = ['{', '}']) :
    LvArray.stringToArray boundsCheck a text = Except.ok a.clear ∧
      a.clear.m_dims 0 = 0 ∧ a.clear.size = 0 ∧ ∀ p : Int, a.clear.m_data p = none := by
  refine ⟨?_, LvArray.Array.clear_empty a hN⟩
  have hsp : LvArray.stringToArray.spaceDelimited text false false = false := by
    apply LvArray.stringToArray.spaceDelimited_no_value
    intro c hc
    by_cases e : c = ' '
    · exact Or.inr (Or.inr (Or.inr e))
    · have hm : c ∈ text.filter (fun c => c != ' ') :=
        List.mem_filter.mpr ⟨hc, by simpa using e⟩
      rw [h] at hm
      simp at hm
      rcases hm with e | e
      · exact Or.inl e
      · exact Or.inr (Or.inr (Or.inl e))
  rw [LvArray.stringToArray, hsp, h]
  simp

/-- Witness of claim C31: the text `"  { }  "` read into an array of rank 2 and
dimensions 2 x 3 that holds six values. -/
theorem stringToArray_null_witness :
    LvArray.stringToArray true
        ⟨2, [0, 1], fun k => [2, 3].getD k 0, fun k => [3, 1].getD k 0,
          fun p => if 0 ≤ p ∧ p < 6 then some p else none⟩
        ("  \x7b \x7d  ").toList =
      Except.ok (LvArray.Array.clear
        ⟨2, [0, 1], fun k => [2, 3].getD k 0, fun k => [3, 1].getD k 0,
          fun p => if 0 ≤ p ∧ p < 6 then some p else none⟩) ∧
    LvArray.Array.size (LvArray.Array.clear
        ⟨2, [0, 1], fun k => [2, 3].getD k 0, fun k => [3, 1].getD k 0,
          fun p => if 0 ≤ p ∧ p < 6 then some p else none⟩) = 0 := by
  have h := stringToArray_null true
    ⟨2, [0, 1], fun k => [2, 3].getD k 0, fun k => [3, 1].getD k 0,
      fun p => if 0 ≤ p ∧ p < 6 then some p else none⟩
    ("  \x7b \x7d  ").toList (by decide) (by decide)
  exact ⟨h.1, h.2.2.1⟩

/-- The first loop reports whatever text follows once the rest of the text is
reported from every state of the two flags. -/
theorem LvArray.stringToArray.spaceDelimited_prefix (pre rest : List Char)
    (h : ∀ valueOnLeft spaceOnLeft : Bool,
      LvArray.stringToArray.spaceDelimited rest valueOnLeft spaceOnLeft = true) :
    ∀ valueOnLeft spaceOnLeft : Bool,
      LvArray.stringToArray.spaceDelimited (pre ++ rest) valueOnLeft spaceOnLeft = true := by
  induction pre with
  | nil => exact h
  | cons c cs ih =>
    intro valueOnLeft spaceOnLeft
    rw [List.cons_append, LvArray.stringToArray.spaceDelimited]
    split_ifs
    · rfl
    · exact ih _ _
    · exact ih _ _
    · exact ih _ _

/-- A character of a value after a value and one or more spaces is
reported. -/
theorem LvArray.stringToArray.spaceDelimited_gap (c : Char) (post : List Char)
    (hc : LvArray.IsValueChar c) (n : Nat) :
    ∀ spaceOnLeft : Bool,
      LvArray.stringToArray.spaceDelimited (List.replicate (n + 1) ' ' ++ c :: post) true
        spaceOnLeft = true := by
  obtain ⟨c1, c2, c3, c4⟩ := hc
  induction n with
  | zero =>
    intro spaceOnLeft
    rw [List.replicate_one, List.singleton_append,
      LvArray.stringToArray.spaceDelimited_space, LvArray.stringToArray.spaceDelimited]
    simp [c1, c2, c3, c4]
  | succ n ih =>
    intro spaceOnLeft
    rw [List.replicate_succ, List.cons_append, LvArray.stringToArray.spaceDelimited_space]
    exact ih true

/-- Two characters of values with only spaces, and at least one, between them
are reported by the first loop. -/
theorem LvArray.stringToArray.spaceDelimited_values_apart (pre post : List Char) (c1 c2 : Char)
    (n : Nat) (h1 : LvArray.IsValueChar c1) (h2 : LvArray.IsValueChar c2) :
    LvArray.stringToArray.spaceDelimited
      (pre ++ c1 :: (List.replicate (n + 1) ' ' ++ c2 :: post)) false false = true := by
  apply LvArray.stringToArray.spaceDelimited_prefix
  intro valueOnLeft spaceOnLeft
  obtain ⟨e1, e2, e3, e4⟩ := h1
  have hd : (c1 == '{' || c1 == ',' || c1 == '}') = false := by simp [e1, e2, e3]
  have hs : (c1 != ' ') = true := by simp [e4]
  rw [LvArray.stringToArray.spaceDelimited, hd, hs]
  simp only [Bool.false_eq_true, if_false, if_true]
  split_ifs
  · rfl
  · exact LvArray.stringToArray.spaceDelimited_gap c2 post h2 n false

/-- Claim C32. `stringToArray` aborts on every text in which two characters of
values (characters other than `{`, `}`, `,` and the space) have one or more
spaces, and nothing else, between them: values are delimited by `,`. -/
theorem stringToArray_space_delimited (boundsCheck : Bool) (a : LvArray.Array)
    (pre post : List Char) (c1 c2 : Char) (n : Nat)
    (h1 : LvArray.IsValueChar c1) (h2 : LvArray.IsValueChar c2) :
    LvArray.stringToArray boundsCheck a
        (pre ++ c1 :: (List.replicate (n + 1) ' ' ++ c2 :: post)) =
      Except.error LvArray.Fault.error := by
  rw [LvArray.stringToArray,
    LvArray.stringToArray.spaceDelimited_values_apart pre post c1 c2 n h1 h2]
  rfl

/-- Witness of claim C32: the text `" { 10 1 } "` of the test
`stringToArrayErrors`. -/
theorem stringToArray_space_delimited_witness :
    LvArray.stringToArray true ⟨1, [0], fun _ => 0, fun _ => 0, fun _ => none⟩
        (" \x7b 10 1 \x7d ").toList = Except.error LvArray.Fault.error :=
  stringToArray_space_delimited true ⟨1, [0], fun _ => 0, fun _ => 0, fun _ => none⟩
    (" \x7b 1").toList (" \x7d ").toList '0' '1' 0
    (by unfold LvArray.IsValueChar; decide) (by unfold LvArray.IsValueChar; decide)

/-! ### Braces that do not match -/

theorem List.count_filter_ne_space (text : List Char) (c : Char) (hc : c ≠ ' ') :
    (text.filter (fun x => x != ' ')).count c = text.count c := by
  induction text with
  | nil => rfl
  | cons x xs ih =>
    by_cases hx : x = ' '
    · subst hx
      rw [List.filter_cons_of_neg (by simp), ih, List.count_cons_of_ne hc]
    · rw [List.filter_cons_of_pos (by simpa using hx), List.count_cons, List.count_cons, ih]

/-- Claim C33. `stringToArray` aborts on every text whose number of `{`
differs from its number of `}`, wherever the missing or additional brace
is. -/
theorem stringToArray_unbalanced (boundsCheck : Bool) (a : LvArray.Array) (text : List Char)
    (h : text.count '{' ≠ text.count '}') :
    LvArray.stringToArray boundsCheck a text = Except.error LvArray.Fault.error := by
  have hcount : (text.filter (fun c => c != ' ')).count '{' ≠
      (text.filter (fun c => c != ' ')).count '}' := by
    rw [List.count_filter_ne_space text '{' (by decide),
      List.count_filter_ne_space text '}' (by decide)]
    exact h
  have hne : text.filter (fun c => c != ' ') ≠ ['{', '}'] := by
    intro e
    rw [e] at hcount
    exact hcount (by decide)
  rw [LvArray.stringToArray]
  split_ifs <;> rfl

/-- Witness of claim C33: a text of the test `stringToArrayErrors` with a
missing closing brace. -/
theorem stringToArray_unbalanced_witness :
    LvArray.stringToArray true ⟨3, [0, 1, 2], fun _ => 0, fun _ => 0, fun _ => none⟩
        (" \x7b \x7b \x7b0,1,2\x7d,\x7b3,4,5\x7d\x7d, \x7b \x7b6,7,8\x7d,\x7b9,10,11\x7d\x7d ").toList =
      Except.error LvArray.Fault.error :=
  stringToArray_unbalanced true ⟨3, [0, 1, 2], fun _ => 0, fun _ => 0, fun _ => none⟩ _
    (by decide)

/-! ### An empty sub-array -/

theorem std.string_find_infix (pattern pre post : List Char) :
    ∀ pos : Nat, (std.string_find pattern (pre ++ pattern ++ post) pos).isSome = true := by
  induction pre with
  | nil =>
    intro pos
    cases hp : pattern ++ post with
    | nil =>
      have : pattern = [] := (List.append_eq_nil.mp hp).1
      subst this
      cases post <;> simp [std.string_find]
    | cons c cs =>
      rw [List.nil_append, hp, std.string_find, ← hp,
        if_pos (List.isPrefixOf_iff_prefix.mpr (List.prefix_append _ _))]
      rfl
  | cons c cs ih =>
    intro pos
    rw [List.cons_append, List.cons_append, std.string_find]
    split_ifs
    · rfl
    · exact ih (pos + 1)

/-- Claim C34. `stringToArray` aborts on every text that, once its spaces are
removed, holds an empty sub-array `{}` and is not `{}` itself. -/
theorem stringToArray_empty_subarray (boundsCheck : Bool) (a : LvArray.Array)
    (text pre post : List Char)
    (h : text.filter (fun c => c != ' ') = pre ++ ['{', '}'] ++ post)
    (hne : text.filter (fun c => c != ' ') ≠ ['{', '}']) :
    LvArray.stringToArray boundsCheck a text = Except.error LvArray.Fault.error := by
  have hfind : (std.string_find ['{', '}'] (text.filter (fun c => c != ' ')) 0).isSome = true := by
    rw [h]
    exact std.string_find_infix _ _ _ 0
  rw [LvArray.stringToArray]
  split_ifs <;> rfl

/-- Witness of claim C34: the text of the test `stringToArrayErrors` with an
empty sub-array. -/
theorem stringToArray_empty_subarray_witness :
    LvArray.stringToArray true ⟨3, [0, 1, 2], fun _ => 0, fun _ => 0, fun _ => none⟩
        (" \x7b \x7b \x7b\x7d,\x7b3,4,5\x7d\x7d, \x7b \x7b6,7,8\x7d,\x7b9,10,11\x7d\x7d \x7d ").toList =
      Except.error LvArray.Fault.error :=
  stringToArray_empty_subarray true ⟨3, [0, 1, 2], fun _ => 0, fun _ => 0, fun _ => none⟩ _
    ("\x7b\x7b").toList (",\x7b3,4,5\x7d\x7d,\x7b\x7b6,7,8\x7d,\x7b9,10,11\x7d\x7d\x7d").toList
    (by decide) (by decide)

/-- Claim C37, at the text `{1,{2}}` and an array of rank 1. The text passes
every check that comes before the loop that counts the dimensions: it is not
`{}`, it holds no `}{`, its first character is `{`, it has as many `{` as `}`,
it holds no `{}`, and one leading `{`, which is `NDIM`. The second `{` takes
`dimLevel` to 1, so the `}` that follows accesses `dimSet[ 1 ]`, `dims[ 1 ]`
and `currentDims[ 1 ]` in arrays of length `NDIM = 1`. -/
theorem dimLevel_past_rank :
    LvArray.stringToArray.spaceDelimited ("\x7b1,\x7b2\x7d\x7d").toList false false = false ∧
    ("\x7b1,\x7b2\x7d\x7d").toList.filter (fun c => c != ' ') ≠ ['{', '}'] ∧
    std.string_find ['}', '{'] ("\x7b1,\x7b2\x7d\x7d").toList 0 = none ∧
    ("\x7b1,\x7b2\x7d\x7d").toList.head? = some '{' ∧
    ("\x7b1,\x7b2\x7d\x7d").toList.count '{' = ("\x7b1,\x7b2\x7d\x7d").toList.count '}' ∧
    std.string_find ['{', '}'] ("\x7b1,\x7b2\x7d\x7d").toList 0 = none ∧
    std.find_first_not_of '{' ("\x7b1,\x7b2\x7d\x7d").toList 0 = some 1 ∧
    LvArray.stringToArray.dimsLoop 1 4 ("\x7b2\x7d\x7d").toList 3
        ⟨0, fun k => if k = 0 then 2 else 1, fun k => if k = 0 then 2 else 1, fun _ => false, ','⟩ =
      Except.error LvArray.Fault.undefined ∧
    LvArray.stringToArray true ⟨1, [0], fun _ => 0, fun _ => 0, fun _ => none⟩
        ("\x7b1,\x7b2\x7d\x7d").toList = Except.error LvArray.Fault.undefined :=
  ⟨by decide, by decide, by decide, by decide, by decide, by decide, by decide, rfl, rfl⟩

/-- Claim C39, at 32-bit `int` indices `( 3, 5 )` and the 64-bit strides
`( 2147483648, 1 )` with `USD = 1`. The indices and the exact sum
`3 * 2147483648 + 5 = 6442450949` are representable in the 64-bit `INDEX_TYPE`,
but `multiply` returns its first product as an `int`, which is `-2147483648`,
and `getLinearIndex` returns `-2147483643`. -/
theorem getLinearIndex_truncates :
    LvArray.representable 32 3 = true ∧ LvArray.representable 32 5 = true ∧
    LvArray.representable 64 (3 * 2147483648 + 5 * 1) = true ∧
    LvArray.getLinearIndex 1 (fun k => [2147483648, 1].getD k 0) 3 [5] = 6442450949 ∧
    LvArray.Typed.ConditionalMultiply.multiply false 32 64 3 2147483648 = some (-2147483648) ∧
    LvArray.Typed.getLinearIndex 64 32 1 (fun k => [2147483648, 1].getD k 0) 3 [5] =
      some (-2147483643) ∧
    LvArray.Typed.getLinearIndex 64 64 1 (fun k => [2147483648, 1].getD k 0) 3 [5] =
      some 6442450949 := by
  decide

/-! ### The whole slice of an array is contiguous -/

theorem LvArray.calculateStrides_le (dims : Nat → Int) (q : List Int) :
    (∀ e ∈ q, 0 ≤ e) → q.Nodup → (∀ e ∈ q, 1 ≤ dims e.toNat) →
    ∀ e ∈ q, 1 ≤ LvArray.calculateStrides q dims e.toNat ∧
      LvArray.calculateStrides q dims e.toNat ≤
        ((q.filter (fun x => decide (x ≠ e))).map (fun x => dims x.toNat)).prod := by
  induction q with
  | nil => intro _ _ _ e he; simp at he
  | cons x q ih =>
    intro hq hnd hd e he
    have hnd' := List.nodup_cons.mp hnd
    have hq' : ∀ e ∈ q, 0 ≤ e := fun e he => hq e (List.mem_cons_of_mem _ he)
    have hd' : ∀ e ∈ q, 1 ≤ dims e.toNat := fun e he => hd e (List.mem_cons_of_mem _ he)
    have hprod : ∀ l : List Int, (∀ e ∈ l, 1 ≤ dims e.toNat) →
        1 ≤ (l.map (fun x => dims x.toNat)).prod := by
      intro l
      induction l with
      | nil => intro _; simp
      | cons y l ihl =>
        intro hl
        rw [List.map_cons, List.prod_cons]
        have h1 := hl y (List.mem_cons_self _ _)
        have h2 := ihl (fun e he => hl e (List.mem_cons_of_mem _ he))
        nlinarith
    by_cases hex : e = x
    · subst hex
      rw [LvArray.calculateStrides_cons_self e q dims (hq e (List.mem_cons_self _ _))]
      have hf : (e :: q).filter (fun x => decide (x ≠ e)) = q := by
        rw [List.filter_cons_of_neg (by simp)]
        apply List.filter_eq_self.mpr
        intro y hy
        have : y ≠ e := fun h => hnd'.1 (h ▸ hy)
        simpa using this
      rw [hf]
      exact ⟨hprod q hd', le_refl _⟩
    · have heq : e ∈ q := by
        rcases List.mem_cons.mp he with h | h
        · exact absurd h hex
        · exact h
      obtain ⟨i1, i2⟩ := ih hq' hnd'.2 hd' e heq
      rw [LvArray.calculateStrides_cons_ne x e q dims (hq' e heq) (fun h => hex h.symm)]
      rw [List.filter_cons_of_pos (by simpa using fun h : x = e => hex h.symm), List.map_cons,
        List.prod_cons]
      have hx := hd x (List.mem_cons_self _ _)
      refine ⟨i1, ?_⟩
      nlinarith

theorem LvArray.prod_filter_permutation (p : List Int) (dims : Nat → Int) (k : Nat)
    (hv : LvArray.isValidPermutation p = true) :
    ((p.filter (fun x => decide (x ≠ (k : Int)))).map (fun x => dims x.toNat)).prod =
      (((List.range p.length).filter (fun j => decide (j ≠ k))).map dims).prod := by
  have hperm := (LvArray.isValidPermutation_iff_perm p).mp hv
  rw [((hperm.filter _).map (fun x => dims x.toNat)).prod_eq, List.filter_map, List.map_map]
  congr 1
  have hf : (List.range p.length).filter ((fun x : Int => decide (x ≠ (k : Int))) ∘
      (fun i : Nat => (i : Int))) = (List.range p.length).filter (fun j => decide (j ≠ k)) := by
    apply List.filter_congr
    intro x _
    simp
  rw [hf]
  apply List.map_congr_left
  intro x _
  simp

theorem LvArray.ArraySlice.isContiguous_iff (s : LvArray.ArraySlice) (hu : 0 ≤ s.USD) :
    s.isContiguous = true ↔
      ∀ i : Nat, i < s.NDIM → (i : Int) ≠ s.USD →
        s.m_strides i ≤
          (((List.range s.NDIM).filter (fun j => decide (j ≠ i))).map s.m_dims).prod := by
  unfold LvArray.ArraySlice.isContiguous
  rw [if_pos hu]
  by_cases h1 : s.NDIM = 1 ∧ s.USD = 0
  · rw [if_pos h1]
    refine ⟨fun _ i hi hne => ?_, fun _ => rfl⟩
    have : i = 0 := by omega
    subst this
    exact absurd h1.2.symm (by simpa using hne)
  · rw [if_neg h1, LvArray.ArraySlice.isContiguousLoop_eq]
    constructor
    · intro h i hi hne
      exact h.2 i (Nat.zero_le _) (by omega) hne
    · intro h
      exact ⟨rfl, fun k _ hk hne => h k (by omega) hne⟩

/-- The whole slice of an array whose strides are derived from its dimensions,
all at least 1, and from a valid permutation is contiguous. -/
theorem LvArray.Array.toSlice_isContiguous (a : LvArray.Array)
    (hv : LvArray.isValidPermutation a.PERMUTATION = true)
    (hplen : a.PERMUTATION.length = a.NDIM) (hN : 1 ≤ a.NDIM)
    (hd : ∀ k : Nat, k < a.NDIM → 1 ≤ a.m_dims k)
    (hs : a.m_strides = LvArray.calculateStrides a.PERMUTATION a.m_dims) :
    a.toSlice.isContiguous = true := by
  obtain ⟨hmem, hnd, hall⟩ := LvArray.isValidPermutation_mem a.PERMUTATION hv
  obtain ⟨d, hu, _, _⟩ := LvArray.getStrideOneDimension_valid a.PERMUTATION hv (by omega)
  have hU : a.toSlice.USD = (d : Int) := by simp [LvArray.Array.toSlice, hu]
  rw [LvArray.ArraySlice.isContiguous_iff _ (by rw [hU]; omega)]
  intro i hi _
  have hi' : i < a.PERMUTATION.length := by rw [hplen]; exact hi
  have h := (LvArray.calculateStrides_le a.m_dims a.PERMUTATION (fun e he => (hmem e he).1) hnd
    (fun e he => hd _ (by rw [← hplen]; exact (hmem e he).2)) (i : Int) (hall i hi')).2
  rw [LvArray.prod_filter_permutation a.PERMUTATION a.m_dims i hv, Int.toNat_ofNat, hplen] at h
  simpa [LvArray.Array.toSlice, hs] using h

/-- For every valid permutation of rank `N` and dimensions that are all at
least 1, the whole slice of an array whose strides
are derived from its dimensions and its permutation reports `isContiguous()
== true`, so that `dataIfContiguous()`, `begin()` and `end()` return on it: the
first two the start of the buffer, the last the position `size()` after it. -/
theorem isContiguous_whole_slice (a : LvArray.Array)
    (hv : LvArray.isValidPermutation a.PERMUTATION = true)
    (hplen : a.PERMUTATION.length = a.NDIM) (hN : 1 ≤ a.NDIM)
    (hd : ∀ k : Nat, k < a.NDIM → 1 ≤ a.m_dims k)
    (hs : a.m_strides = LvArray.calculateStrides a.PERMUTATION a.m_dims) :
    a.toSlice.isContiguous = true ∧ a.toSlice.dataIfContiguous = some 0 ∧
      a.toSlice.begin = some 0 ∧ a.toSlice.end_ = some a.size := by
  have h := LvArray.Array.toSlice_isContiguous a hv hplen hN hd hs
  have hdata : a.toSlice.dataIfContiguous = some 0 := by
    rw [LvArray.ArraySlice.dataIfContiguous, h]
    rfl
  refine ⟨h, hdata, hdata, ?_⟩
  rw [LvArray.ArraySlice.end_, hdata]
  simp [LvArray.ArraySlice.size, LvArray.Array.size, LvArray.Array.toSlice]

/-- An instance of `isContiguous_whole_slice`: the array of dimensions
2 x 3 x 4 and permutation `( 1, 2, 0 )`, whose strides are `( 1, 8, 2 )`. -/
theorem isContiguous_whole_slice_witness :
    LvArray.ArraySlice.isContiguous (LvArray.Array.toSlice
        ⟨3, [1, 2, 0], fun k => [2, 3, 4].getD k 0,
          LvArray.calculateStrides [1, 2, 0] (fun k => [2, 3, 4].getD k 0), fun _ => none⟩) = true ∧
      LvArray.ArraySlice.end_ (LvArray.Array.toSlice
        ⟨3, [1, 2, 0], fun k => [2, 3, 4].getD k 0,
          LvArray.calculateStrides [1, 2, 0] (fun k => [2, 3, 4].getD k 0), fun _ => none⟩) =
        some 24 := by
  have h := isContiguous_whole_slice
    ⟨3, [1, 2, 0], fun k => [2, 3, 4].getD k 0,
      LvArray.calculateStrides [1, 2, 0] (fun k => [2, 3, 4].getD k 0), fun _ => none⟩
    (by decide) rfl (by decide)
    (by
      intro k hk
      have hk3 : k < 3 := hk
      interval_cases k <;> decide)
    rfl
  exact ⟨h.1, h.2.2.2.trans (by decide)⟩

/-- Claim C38, at the array of dimensions 0 x 3 x 4 and the identity
permutation, whose strides are `( 12, 4, 1 )`. The array is empty, so that its
whole slice is contiguous, and the stride 4 of the dimension 1 is more than
the product `0 * 4` of the other sizes: `isContiguous()` returns `false`, and
`dataIfContiguous()`, `begin()` and `end()` abort. The empty arrays of
dimensions 0 x 3, 3 x 4 x 0 and 3 x 0 x 4 with the same permutation are
reported contiguous. -/
theorem isContiguous_false_on_empty :
    LvArray.isValidPermutation [0, 1, 2] = true ∧
    [LvArray.calculateStrides [0, 1, 2] (fun k => [0, 3, 4].getD k 0) 0,
      LvArray.calculateStrides [0, 1, 2] (fun k => [0, 3, 4].getD k 0) 1,
      LvArray.calculateStrides [0, 1, 2] (fun k => [0, 3, 4].getD k 0) 2] = [12, 4, 1] ∧
    LvArray.ArraySlice.size (LvArray.Array.toSlice
        ⟨3, [0, 1, 2], fun k => [0, 3, 4].getD k 0,
          LvArray.calculateStrides [0, 1, 2] (fun k => [0, 3, 4].getD k 0), fun _ => none⟩) = 0 ∧
    LvArray.ArraySlice.isContiguous (LvArray.Array.toSlice
        ⟨3, [0, 1, 2], fun k => [0, 3, 4].getD k 0,
          LvArray.calculateStrides [0, 1, 2] (fun k => [0, 3, 4].getD k 0), fun _ => none⟩) = false ∧
    LvArray.ArraySlice.dataIfContiguous (LvArray.Array.toSlice
        ⟨3, [0, 1, 2], fun k => [0, 3, 4].getD k 0,
          LvArray.calculateStrides [0, 1, 2] (fun k => [0, 3, 4].getD k 0), fun _ => none⟩) = none ∧
    LvArray.ArraySlice.begin (LvArray.Array.toSlice
        ⟨3, [0, 1, 2], fun k => [0, 3, 4].getD k 0,
          LvArray.calculateStrides [0, 1, 2] (fun k => [0, 3, 4].getD k 0), fun _ => none⟩) = none ∧
    LvArray.ArraySlice.end_ (LvArray.Array.toSlice
        ⟨3, [0, 1, 2], fun k => [0, 3, 4].getD k 0,
          LvArray.calculateStrides [0, 1, 2] (fun k => [0, 3, 4].getD k 0), fun _ => none⟩) = none ∧
    LvArray.ArraySlice.isContiguous (LvArray.Array.toSlice
        ⟨2, [0, 1], fun k => [0, 3].getD k 0,
          LvArray.calculateStrides [0, 1] (fun k => [0, 3].getD k 0), fun _ => none⟩) = true ∧
    LvArray.ArraySlice.isContiguous (LvArray.Array.toSlice
        ⟨3, [0, 1, 2], fun k => [3, 4, 0].getD k 0,
          LvArray.calculateStrides [0, 1, 2] (fun k => [3, 4, 0].getD k 0), fun _ => none⟩) = true ∧
    LvArray.ArraySlice.isContiguous (LvArray.Array.toSlice
        ⟨3, [0, 1, 2], fun k => [3, 0, 4].getD k 0,
          LvArray.calculateStrides [0, 1, 2] (fun k => [3, 0, 4].getD k 0), fun _ => none⟩) = true := by
  decide

/-! ### The linear index is a bijection onto the buffer -/

theorem LvArray.multiplyAll_eq_prod (values : Nat → Int) :
    ∀ (n : Nat) (start : Nat),
      LvArray.multiplyAll n (fun k => values (start + k)) =
        ((List.range' start n).map values).prod := by
  intro n
  induction n with
  | zero => intro start; rfl
  | succ n ih =>
    intro start
    cases n with
    | zero => simp [LvArray.multiplyAll]
    | succ n =>
      rw [LvArray.multiplyAll, List.range'_succ, List.map_cons, List.prod_cons, ← ih (start + 1)]
      have e : LvArray.ptrNext (fun k => values (start + k)) =
          fun k => values (start + 1 + k) := by
        funext k
        show values (start + (k + 1)) = values (start + 1 + k)
        congr 1
        omega
      rw [e, Nat.add_zero]

theorem LvArray.prod_over_permutation (p : List Int) (g : Nat → Int)
    (hv : LvArray.isValidPermutation p = true) :
    (p.map (fun e => g e.toNat)).prod = LvArray.multiplyAll p.length g := by
  have hperm := (LvArray.isValidPermutation_iff_perm p).mp hv
  have h := LvArray.multiplyAll_eq_prod g p.length 0
  simp only [Nat.zero_add] at h
  rw [(hperm.map (fun e => g e.toNat)).prod_eq, List.map_map, h, List.range_eq_range']
  congr 1

theorem LvArray.strideSum_surjective (dims : Nat → Int) (q : List Int) :
    (∀ e ∈ q, 0 ≤ e) → q.Nodup → (∀ e ∈ q, 1 ≤ dims e.toNat) →
    ∀ offset : Int, 0 ≤ offset → offset < (q.map (fun e => dims e.toNat)).prod →
    ∃ index : Nat → Int, (∀ e ∈ q, 0 ≤ index e.toNat ∧ index e.toNat < dims e.toNat) ∧
      (q.map (fun e => index e.toNat * LvArray.calculateStrides q dims e.toNat)).sum = offset := by
  induction q with
  | nil =>
    intro _ _ _ offset h0 h1
    refine ⟨fun _ => 0, fun e he => absurd he (by simp), ?_⟩
    simp at h1
    simp
    omega
  | cons x q ih =>
    intro hq hnd hd offset h0 h1
    have hnd' := List.nodup_cons.mp hnd
    have hq' : ∀ e ∈ q, 0 ≤ e := fun e he => hq e (List.mem_cons_of_mem _ he)
    have hd' : ∀ e ∈ q, 1 ≤ dims e.toNat := fun e he => hd e (List.mem_cons_of_mem _ he)
    have hx := hq x (List.mem_cons_self _ _)
    have hdx := hd x (List.mem_cons_self _ _)
    have hP : 1 ≤ (q.map (fun e => dims e.toNat)).prod := by
      clear ih hnd hnd' h1
      induction q with
      | nil => simp
      | cons y l ihl =>
        rw [List.map_cons, List.prod_cons]
        have h1 := hd' y (List.mem_cons_self _ _)
        have h2 := ihl (fun e he => hq e (by
            rcases List.mem_cons.mp he with h | h
            · exact h ▸ List.mem_cons_self _ _
            · exact List.mem_cons_of_mem _ (List.mem_cons_of_mem _ h)))
          (fun e he => hd e (by
            rcases List.mem_cons.mp he with h | h
            · exact h ▸ List.mem_cons_self _ _
            · exact List.mem_cons_of_mem _ (List.mem_cons_of_mem _ h)))
          (fun e he => hq' e (List.mem_cons_of_mem _ he))
          (fun e he => hd' e (List.mem_cons_of_mem _ he))
        nlinarith
    rw [List.map_cons, List.prod_cons] at h1
    obtain ⟨index', hin', hsum'⟩ := ih hq' hnd'.2 hd'
      (offset % (q.map (fun e => dims e.toNat)).prod)
      (Int.emod_nonneg _ (by omega)) (Int.emod_lt_of_pos _ (by omega))
    have hne : ∀ e ∈ q, e.toNat ≠ x.toNat := by
      intro e he h
      have := hq' e he
      have : e = x := by omega
      exact hnd'.1 (this ▸ he)
    refine ⟨Function.update index' x.toNat (offset / (q.map (fun e => dims e.toNat)).prod),
      ?_, ?_⟩
    · intro e he
      rcases List.mem_cons.mp he with rfl | he
      · rw [Function.update_same]
        constructor
        · exact Int.ediv_nonneg h0 (by omega)
        · exact Int.ediv_lt_of_lt_mul (by omega) h1
      · rw [Function.update_noteq (hne e he)]
        exact hin' e he
    · rw [LvArray.strideSum_cons x q dims _ hx hq' hnd'.1, Function.update_same]
      have hmap : q.map (fun e => Function.update index' x.toNat
            (offset / (q.map (fun e => dims e.toNat)).prod) e.toNat *
              LvArray.calculateStrides q dims e.toNat) =
          q.map (fun e => index' e.toNat * LvArray.calculateStrides q dims e.toNat) := by
        apply List.map_congr_left
        intro e he
        rw [Function.update_noteq (hne e he)]
      rw [hmap, hsum']
      exact Int.ediv_add_emod' _ _

/-- The linear index of a multi-index in range, in the whole slice of an array
whose strides are derived from its dimensions and a valid permutation. -/
theorem LvArray.Array.linearIndex_inRange (boundsCheck : Bool) (a : LvArray.Array) (D : List Nat)
    (hv : LvArray.isValidPermutation a.PERMUTATION = true)
    (hl : a.PERMUTATION.length = D.length) (hN : a.NDIM = D.length)
    (hd : ∀ k : Nat, k < D.length → a.m_dims k = ((D.getD k 0 : Nat) : Int))
    (hs : a.m_strides = LvArray.calculateStrides a.PERMUTATION a.m_dims)
    (index : Int) (rest : List Int) (hin : LvArray.inRange D (index :: rest) = true) :
    a.toSlice.linearIndex boundsCheck index rest =
      some ((a.PERMUTATION.map (fun e => LvArray.indexAt index rest e.toNat *
        LvArray.calculateStrides a.PERMUTATION a.m_dims e.toNat)).sum) := by
  obtain ⟨hlen, hr⟩ := (LvArray.inRange_iff D (index :: rest)).mp hin
  obtain ⟨d, hu, _, _⟩ := LvArray.getStrideOneDimension_valid a.PERMUTATION hv
    (by rw [hl, ← hlen]; simp)
  have hinv : LvArray.invalidIndices a.m_dims (index :: rest) = false := by
    rw [Bool.eq_false_iff]
    intro h
    unfold LvArray.invalidIndices at h
    obtain ⟨k, hk1, hk2⟩ := (LvArray.invalidIndicesFrom_iff a.m_dims (index :: rest) 0).mp h
    have := hr k (by omega)
    rw [Nat.zero_add, hd k (by omega)] at hk2
    omega
  have e1 := LvArray.position_eq_strideSum a.PERMUTATION a.m_dims 0 (d : Int) index rest hv
    (by rw [hl, ← hlen]; simp) hu
  rw [LvArray.ArraySlice.position, Int.zero_add] at e1
  simp only [Int.zero_add] at e1
  unfold LvArray.ArraySlice.linearIndex LvArray.Array.toSlice
  simp only [hN, hlen, hinv, hs, hu, Option.getD_some, Bool.and_false, if_true]
  rw [← e1]
  rfl

/-- With indices of the type `INDEX_TYPE`: for every valid permutation of rank
`N` and dimensions `D` that are all at least 1, with the strides derived from
the dimensions and the permutation, `linearIndex` on the multi-indices in range
is a bijection onto
`[0, size())`, the size being the product of the dimensions: a multi-index in
range has a linear index inside the buffer, two distinct ones never have the
same linear index, and every position of the buffer is the linear index of
one. -/
theorem linearIndex_bijective (boundsCheck : Bool) (a : LvArray.Array) (D : List Nat)
    (hv : LvArray.isValidPermutation a.PERMUTATION = true)
    (hl : a.PERMUTATION.length = D.length) (hN : a.NDIM = D.length) (h1 : 1 ≤ D.length)
    (hD : ∀ d ∈ D, 1 ≤ d)
    (hd : ∀ k : Nat, k < D.length → a.m_dims k = ((D.getD k 0 : Nat) : Int))
    (hs : a.m_strides = LvArray.calculateStrides a.PERMUTATION a.m_dims) :
    (∀ (index : Int) (rest : List Int), LvArray.inRange D (index :: rest) = true →
      ∃ offset : Int, a.toSlice.linearIndex boundsCheck index rest = some offset ∧
        0 ≤ offset ∧ offset < a.toSlice.size) ∧
    (∀ (index : Int) (rest : List Int) (index' : Int) (rest' : List Int),
      LvArray.inRange D (index :: rest) = true → LvArray.inRange D (index' :: rest') = true →
      a.toSlice.linearIndex boundsCheck index rest =
        a.toSlice.linearIndex boundsCheck index' rest' →
      index :: rest = index' :: rest') ∧
    (∀ offset : Int, 0 ≤ offset → offset < a.toSlice.size →
      ∃ (index : Int) (rest : List Int), LvArray.inRange D (index :: rest) = true ∧
        a.toSlice.linearIndex boundsCheck index rest = some offset) := by
  obtain ⟨hmem, hnd, hall⟩ := LvArray.isValidPermutation_mem a.PERMUTATION hv
  have hsize : a.toSlice.size = (a.PERMUTATION.map (fun e => a.m_dims e.toNat)).prod := by
    rw [LvArray.prod_over_permutation a.PERMUTATION a.m_dims hv, hl, ← hN]
    rfl
  have hnn : ∀ e ∈ a.PERMUTATION, 0 ≤ e := fun e he => (hmem e he).1
  have hdim : ∀ e ∈ a.PERMUTATION, 1 ≤ a.m_dims e.toNat := by
    intro e he
    have hk : e.toNat < D.length := by rw [← hl]; exact (hmem e he).2
    rw [hd _ hk, List.getD_eq_getElem _ _ hk]
    exact_mod_cast hD _ (List.getElem_mem _)
  have hrange : ∀ (index : Int) (rest : List Int), LvArray.inRange D (index :: rest) = true →
      ∀ e ∈ a.PERMUTATION, 0 ≤ LvArray.indexAt index rest e.toNat ∧
        LvArray.indexAt index rest e.toNat < a.m_dims e.toNat := by
    intro index rest hin e he
    have hk : e.toNat < D.length := by rw [← hl]; exact (hmem e he).2
    have := ((LvArray.inRange_iff D (index :: rest)).mp hin).2 e.toNat hk
    rw [hd _ hk]
    exact this
  refine ⟨?_, ?_, ?_⟩
  · intro index rest hin
    refine ⟨_, LvArray.Array.linearIndex_inRange boundsCheck a D hv hl hN hd hs index rest hin, ?_⟩
    rw [hsize]
    exact LvArray.strideSum_bound a.m_dims (LvArray.indexAt index rest) a.PERMUTATION hnn hnd
      (hrange index rest hin)
  · intro index rest index' rest' hin hin' heq
    rw [LvArray.Array.linearIndex_inRange boundsCheck a D hv hl hN hd hs index rest hin,
      LvArray.Array.linearIndex_inRange boundsCheck a D hv hl hN hd hs index' rest' hin'] at heq
    have hsum := LvArray.strideSum_injective a.m_dims (LvArray.indexAt index rest)
      (LvArray.indexAt index' rest') a.PERMUTATION hnn hnd (hrange index rest hin)
      (hrange index' rest' hin') (Option.some.inj heq)
    have hlen := ((LvArray.inRange_iff D (index :: rest)).mp hin).1
    have hlen' := ((LvArray.inRange_iff D (index' :: rest')).mp hin').1
    apply List.ext_getElem (hlen.trans hlen'.symm)
    intro k hk hk'
    have := hsum (k : Int) (hall k (by rw [hl, ← hlen]; exact hk))
    simp only [LvArray.indexAt, Int.toNat_ofNat] at this
    rw [List.getD_eq_getElem _ _ hk, List.getD_eq_getElem _ _ hk'] at this
    exact this
  · intro offset h0 hlt
    rw [hsize] at hlt
    obtain ⟨f, hf, hsum⟩ := LvArray.strideSum_surjective a.m_dims a.PERMUTATION hnn hnd hdim
      offset h0 hlt
    obtain ⟨n, hn⟩ : ∃ n, D.length = n + 1 := ⟨D.length - 1, by omega⟩
    have hlist : (List.range D.length).map f = f 0 :: (List.range' 1 n).map f := by
      rw [hn, List.range_eq_range', List.range'_succ, List.map_cons]
    have hat : ∀ k : Nat, k < D.length →
        LvArray.indexAt (f 0) ((List.range' 1 n).map f) k = f k := by
      intro k hk
      unfold LvArray.indexAt
      rw [← hlist, List.getD_eq_getElem _ _ (by simpa using hk)]
      simp
    have hin : LvArray.inRange D (f 0 :: (List.range' 1 n).map f) = true := by
      rw [LvArray.inRange_iff]
      refine ⟨by simp [hn], fun k hk => ?_⟩
      have h := hat k hk
      unfold LvArray.indexAt at h
      rw [h, ← hd k hk]
      have := hf (k : Int) (hall k (by rw [hl]; exact hk))
      simpa using this
    refine ⟨f 0, (List.range' 1 n).map f, hin, ?_⟩
    rw [LvArray.Array.linearIndex_inRange boundsCheck a D hv hl hN hd hs _ _ hin, ← hsum]
    congr 2
    apply List.map_congr_left
    intro e he
    rw [hat e.toNat (by rw [← hl]; exact (hmem e he).2)]

/-- An instance of `linearIndex_bijective`: the array of dimensions 2 x 3 and
permutation `( 1, 0 )`, whose strides are `( 1, 2 )`. -/
theorem linearIndex_bijective_witness :
    (∃ offset : Int,
      LvArray.ArraySlice.linearIndex true (LvArray.Array.toSlice
        ⟨2, [1, 0], fun k => [2, 3].getD k 0,
          LvArray.calculateStrides [1, 0] (fun k => [2, 3].getD k 0), fun _ => none⟩) 1 [2] =
        some offset ∧ 0 ≤ offset ∧ offset < 6) ∧
    (∃ (index : Int) (rest : List Int), LvArray.inRange [2, 3] (index :: rest) = true ∧
      LvArray.ArraySlice.linearIndex true (LvArray.Array.toSlice
        ⟨2, [1, 0], fun k => [2, 3].getD k 0,
          LvArray.calculateStrides [1, 0] (fun k => [2, 3].getD k 0), fun _ => none⟩) index rest =
        some 3) := by
  have h := linearIndex_bijective true
    ⟨2, [1, 0], fun k => [2, 3].getD k 0,
      LvArray.calculateStrides [1, 0] (fun k => [2, 3].getD k 0), fun _ => none⟩ [2, 3]
    (by decide) rfl rfl (by decide) (by decide)
    (by
      intro k hk
      have hk2 : k < 2 := hk
      interval_cases k <;> rfl)
    rfl
  exact ⟨h.1 1 [2] (by decide), h.2.2 3 (by decide) (by decide)⟩

/-! ### A comma that does not follow a value -/

/-- The loop that counts the dimensions does not return on a text whose rest
it does not return on. -/
theorem LvArray.stringToArray.dimsLoop_prefix (NDIM size : Nat) (rest : List Char)
    (h : ∀ (charCount : Nat) (st : LvArray.stringToArray.DimState),
      ∃ e, LvArray.stringToArray.dimsLoop NDIM size rest charCount st = Except.error e) :
    ∀ (pre : List Char) (charCount : Nat) (st : LvArray.stringToArray.DimState),
      ∃ e, LvArray.stringToArray.dimsLoop NDIM size (pre ++ rest) charCount st =
        Except.error e := by
  intro pre
  induction pre with
  | nil => exact h
  | cons c cs ih =>
    intro charCount st
    rw [List.cons_append, LvArray.stringToArray.dimsLoop]
    split_ifs
    all_goals first | exact ih _ _ | exact ⟨_, rfl⟩

/-- The loop that counts the dimensions does not return once it meets a comma
right after an opening brace or after another comma. -/
theorem LvArray.stringToArray.dimsLoop_comma (NDIM size : Nat) (x : Char) (post : List Char)
    (hx : x = '{' ∨ x = ',') (charCount : Nat) (st : LvArray.stringToArray.DimState) :
    ∃ e, LvArray.stringToArray.dimsLoop NDIM size (x :: ',' :: post) charCount st =
      Except.error e := by
  rcases hx with rfl | rfl
  · rw [LvArray.stringToArray.dimsLoop, if_pos rfl, LvArray.stringToArray.dimsLoop,
      if_neg (by decide), if_neg (by decide), if_pos rfl, if_pos (Or.inl rfl)]
    exact ⟨_, rfl⟩
  · rw [LvArray.stringToArray.dimsLoop, if_neg (by decide), if_neg (by decide), if_pos rfl]
    split_ifs
    all_goals exact ⟨_, rfl⟩

/-- On every text in which, once the spaces are removed, a `,` comes right
after a `{` or after another `,`, `stringToArray` does not return: it aborts,
or the loop that counts the dimensions has before that accessed `dims`,
`currentDims` or `dimSet` outside of `[0, NDIM)`. -/
theorem LvArray.stringToArray_comma_no_return (boundsCheck : Bool) (a : LvArray.Array)
    (text pre post : List Char) (x : Char) (hx : x = '{' ∨ x = ',')
    (h : text.filter (fun c => c != ' ') = pre ++ x :: ',' :: post) :
    LvArray.stringToArray boundsCheck a text = Except.error LvArray.Fault.error ∨
      LvArray.stringToArray boundsCheck a text = Except.error LvArray.Fault.undefined := by
  have hne : text.filter (fun c => c != ' ') ≠ ['{', '}'] := by
    rw [h]
    intro e
    cases pre with
    | nil => simp at e
    | cons p pre =>
      have := congrArg List.length e
      simp at this
      omega
  have key := LvArray.stringToArray.dimsLoop_prefix a.NDIM
    (text.filter (fun c => c != ' ')).length (x :: ',' :: post)
    (LvArray.stringToArray.dimsLoop_comma a.NDIM _ x post hx) pre 0
    { dimLevel := -1, dims := fun _ => 1, currentDims := fun _ => 1,
      dimSet := fun _ => false, lastChar := Char.ofNat 0 }
  rw [← h] at key
  obtain ⟨e, he⟩ := key
  rw [LvArray.stringToArray]
  split_ifs
  all_goals first | exact Or.inl rfl | skip
  split
  · exact Or.inl rfl
  · split_ifs
    · exact Or.inl rfl
    · rw [he]
      cases e
      · exact Or.inl rfl
      · exact Or.inr rfl

/-! ### The loop that counts the dimensions on a text that may be ragged -/

theorem LvArray.stringToArray.Reads.of_runs {NDIM size : Nat} {text rest : List Char}
    {st st' : LvArray.stringToArray.DimState} {P : LvArray.stringToArray.DimState → Prop}
    (h : LvArray.stringToArray.Runs NDIM size text rest st st') (hP : P st') :
    LvArray.stringToArray.Reads NDIM size text rest st P := by
  intro charCount hc
  obtain ⟨c', hc', e⟩ := h charCount hc
  exact Or.inr ⟨c', st', hc', hP, e⟩

theorem LvArray.stringToArray.Reads.andThen {NDIM size : Nat} {text1 text2 rest : List Char}
    {st : LvArray.stringToArray.DimState} {P Q : LvArray.stringToArray.DimState → Prop}
    (h1 : LvArray.stringToArray.Reads NDIM size text1 (text2 ++ rest) st P)
    (h2 : ∀ st1, P st1 → LvArray.stringToArray.Reads NDIM size text2 rest st1 Q) :
    LvArray.stringToArray.Reads NDIM size (text1 ++ text2) rest st Q := by
  intro charCount hc
  rw [List.append_assoc] at hc ⊢
  rcases h1 charCount hc with e | ⟨c1, st1, hc1, hP, e⟩
  · exact Or.inl e
  · rcases h2 st1 hP c1 hc1 with e2 | ⟨c2, st2, hc2, hQ, e2⟩
    · exact Or.inl (e.trans e2)
    · exact Or.inr ⟨c2, st2, hc2, hQ, e.trans e2⟩

theorem LvArray.stringToArray.Reads.weaken {NDIM size : Nat} {text rest : List Char}
    {st : LvArray.stringToArray.DimState} {P Q : LvArray.stringToArray.DimState → Prop}
    (h : LvArray.stringToArray.Reads NDIM size text rest st P) (hPQ : ∀ s, P s → Q s) :
    LvArray.stringToArray.Reads NDIM size text rest st Q := by
  intro charCount hc
  rcases h charCount hc with e | ⟨c1, st1, hc1, hP, e⟩
  · exact Or.inl e
  · exact Or.inr ⟨c1, st1, hc1, hPQ _ hP, e⟩

theorem LvArray.stringToArray.Reads.empty (NDIM size : Nat) (rest : List Char)
    (st : LvArray.stringToArray.DimState) (P : LvArray.stringToArray.DimState → Prop)
    (h : P st) : LvArray.stringToArray.Reads NDIM size [] rest st P :=
  LvArray.stringToArray.Reads.of_runs (LvArray.stringToArray.Runs.refl NDIM size rest st) h

/-- A closing brace at a level inside the array: an error, or the size
recorded for the level is the running count, the level is set and its running
count is 1 again. -/
theorem LvArray.stringToArray.reads_close (NDIM size : Nat) (rest : List Char)
    (st : LvArray.stringToArray.DimState) (L : Nat) (h3 : st.dimLevel = (L : Int))
    (h4 : L < NDIM) :
    LvArray.stringToArray.Reads NDIM size ['}'] rest st (fun st' =>
      st.dims L = st.currentDims L ∧ st'.dimLevel = (L : Int) - 1 ∧ st'.dims = st.dims ∧
        st'.currentDims = Function.update st.currentDims L 1 ∧
        st'.dimSet = Function.update st.dimSet L true ∧ st'.lastChar = '}') := by
  intro charCount hc
  have hL : st.dimLevel.toNat = L := by rw [h3]; simp
  rw [List.singleton_append, LvArray.stringToArray.dimsLoop, if_neg (by decide), if_pos rfl,
    if_neg (by omega), hL]
  split_ifs with h5 h6
  · exact Or.inl rfl
  · exact Or.inl rfl
  · refine Or.inr ⟨charCount + 1,
      { dimLevel := st.dimLevel - 1
        dims := st.dims
        currentDims := Function.update st.currentDims L 1
        dimSet := Function.update st.dimSet L true
        lastChar := '}' }, by simp at hc; omega, ⟨?_, ?_, rfl, rfl, rfl, rfl⟩, rfl⟩
    · exact not_not.mp h5
    · show st.dimLevel - 1 = (L : Int) - 1
      rw [h3]

theorem LvArray.Nested.text_cons (n : Nat) (c : LvArray.Nested n) (cs : List (LvArray.Nested n)) :
    LvArray.Nested.text (n + 1) (c :: cs) =
      ['{'] ++ (LvArray.Nested.text n c ++
        cs.flatMap (fun x => [','] ++ LvArray.Nested.text n x)) ++ ['}'] := by
  rw [LvArray.Nested.text, List.map_cons, List.intercalate_cons_flatMap, List.flatMap_map]

theorem LvArray.stringToArray.Counting.congr {L n count count' : Nat} {sizes sizes' : Nat → List Nat}
    {st st' : LvArray.stringToArray.DimState}
    (h : LvArray.stringToArray.Counting L n count sizes st st') (hc : count = count')
    (hs : ∀ level s, s ∈ sizes' level → s ∈ sizes level) :
    LvArray.stringToArray.Counting L n count' sizes' st st' := by
  subst hc
  obtain ⟨h1, h2, h3, h4, h5, h6, h7, h8, h9⟩ := h
  exact ⟨h1, h2, h3, h4, h5, h6, fun level s hm => h7 level s (hs level s hm), h8, h9⟩

/-- The items of a list that follow the first one, each after a comma. -/
theorem LvArray.stringToArray.reads_items (NDIM size n L : Nat) (hL : L + n + 1 ≤ NDIM)
    (ih : ∀ (c : LvArray.Nested n) (rest : List Char) (st : LvArray.stringToArray.DimState),
      (∀ (level s : Nat), s ∈ LvArray.Nested.sizes n c level → 1 ≤ s) →
      st.dimLevel = ((L + 1 : Nat) : Int) - 1 →
      (∀ k : Nat, k < n → st.currentDims (L + 1 + k) = 1) →
      LvArray.stringToArray.Reads NDIM size (LvArray.Nested.text n c) rest st
        (LvArray.stringToArray.Counted (L + 1) n (LvArray.Nested.sizes n c) st))
    (st0 : LvArray.stringToArray.DimState) :
    ∀ (cs : List (LvArray.Nested n)),
      (∀ x ∈ cs, ∀ (level s : Nat), s ∈ LvArray.Nested.sizes n x level → 1 ≤ s) →
      ∀ (count : Nat) (sizes : Nat → List Nat) (rest : List Char)
        (st : LvArray.stringToArray.DimState),
      LvArray.stringToArray.Counting L n count sizes st0 st →
      LvArray.stringToArray.Reads NDIM size
        (cs.flatMap (fun x => [','] ++ LvArray.Nested.text n x)) rest st
        (LvArray.stringToArray.Counting L n (count + cs.length)
          (fun level => sizes level ++ cs.flatMap (fun x => LvArray.Nested.sizes n x level)) st0) := by
  intro cs
  induction cs with
  | nil =>
    intro _ count sizes rest st h
    exact LvArray.stringToArray.Reads.empty NDIM size rest st _
      (h.congr rfl (fun level s hm => by simpa using hm))
  | cons c cs ihc =>
    intro hwf count sizes rest st h
    obtain ⟨h1, h2, h3, h4, h5, h6, h7, h8, h9⟩ := h
    rw [List.flatMap_cons]
    obtain ⟨st1, r1, e1, e2, e3, e4, e5⟩ := LvArray.stringToArray.runs_comma_at NDIM size
      (LvArray.Nested.text n c ++
        (cs.flatMap (fun x => [','] ++ LvArray.Nested.text n x) ++ rest)) st L h2 h3 h1
      (by omega)
    have hdims1 : ∀ k : Nat, k ≠ L → st1.dims k = st.dims k := by
      intro k hk
      rw [e2]
      split_ifs
      · rw [Function.update_noteq hk]
      · rfl
    have step1 : LvArray.stringToArray.Reads NDIM size
        ([','] ++ LvArray.Nested.text n c)
        (cs.flatMap (fun x => [','] ++ LvArray.Nested.text n x) ++ rest) st
        (LvArray.stringToArray.Counting L n (count + 1)
          (fun level => sizes level ++ LvArray.Nested.sizes n c level) st0) := by
      refine LvArray.stringToArray.Reads.andThen
        (LvArray.stringToArray.Reads.of_runs r1 rfl) ?_
      intro s hs
      subst hs
      refine (ih c _ st1 (hwf c (List.mem_cons_self _ _)) (by rw [e1]; push_cast; ring)
        ?_).weaken ?_
      · intro k hk
        rw [e3, Function.update_noteq (by omega)]
        exact (h6 k hk).1
      · intro st2 hc
        obtain ⟨c1, c2, c3, c4, c5, c6, c7⟩ := hc
        have hset1 : ∀ k : Nat, k < n → st1.dimSet (L + 1 + k) = true := by
          intro k hk
          rw [e4]
          exact (h6 k hk).2
        have hd21 := c6 hset1
        obtain ⟨f1, f2, f3⟩ := c7 L (by omega)
        refine ⟨c1.trans e1, c2, c3, ?_, ?_, c4, ?_, ?_, ?_⟩
        · rw [f2, e3, Function.update_same, h4]
          push_cast
          rfl
        · intro hs0
          rw [f3, e4]
          exact h5 hs0
        · intro level s hm
          rcases List.mem_append.mp hm with hm | hm
          · rw [hd21, hdims1 _ (by omega)]
            exact h7 level s hm
          · exact c5 level s hm
        · intro hall
          have hsL : st.dimSet L = true := h5 (by simpa using hall 0 (by omega))
          rw [hd21, e2, if_neg (by simp [hsL])]
          exact h8 hall
        · intro k hk
          obtain ⟨g1, g2, g3⟩ := c7 k (by omega)
          obtain ⟨k1, k2, k3⟩ := h9 k hk
          refine ⟨?_, ?_, ?_⟩
          · rw [g1, hdims1 k (by omega)]
            exact k1
          · rw [g2, e3, Function.update_noteq (by omega)]
            exact k2
          · rw [g3, e4]
            exact k3
    refine (LvArray.stringToArray.Reads.andThen step1
      (fun s hs => ihc (fun x hx => hwf x (List.mem_cons_of_mem _ hx)) (count + 1) _ rest s
        hs)).weaken ?_
    intro s hs
    exact hs.congr (by simp; omega) (fun level x hm => by
      simp only [List.flatMap_cons] at hm
      simpa [List.append_assoc] using hm)

/-- The loop that counts the dimensions on the text of a nested list of depth
`n` whose lists are at the levels `L`, ..., `L + n - 1`, all below `NDIM`, and
hold one item or more: it reports an error, or every list of the item has the
size recorded for its level. -/
theorem LvArray.stringToArray.reads_nested (NDIM size : Nat) :
    ∀ (n : Nat) (t : LvArray.Nested n) (L : Nat), L + n ≤ NDIM →
      (∀ (level s : Nat), s ∈ LvArray.Nested.sizes n t level → 1 ≤ s) →
      ∀ (rest : List Char) (st : LvArray.stringToArray.DimState),
        st.dimLevel = (L : Int) - 1 →
        (∀ k : Nat, k < n → st.currentDims (L + k) = 1) →
        LvArray.stringToArray.Reads NDIM size (LvArray.Nested.text n t) rest st
          (LvArray.stringToArray.Counted L n (LvArray.Nested.sizes n t) st) := by
  intro n
  induction n with
  | zero =>
    intro t L _ _ rest st _ _
    obtain ⟨st', r, e1, e2, e3, e4, e5⟩ := LvArray.stringToArray.runs_values NDIM size
      (LvArray.Nested.text 0 t) rest st (std.num_put_ne_nil _) (std.num_put_valueChars _)
    refine LvArray.stringToArray.Reads.of_runs r ⟨e1, e5.1, e5.2.2.1, ?_, ?_, ?_, ?_⟩
    · intro k hk
      omega
    · intro level s hm
      simp [LvArray.Nested.sizes] at hm
    · intro _
      exact e2
    · intro k _
      rw [e2, e3, e4]
      exact ⟨rfl, rfl, rfl⟩
  | succ n ih =>
    intro t L hL hwf rest st hlevel hones
    have ht : ∃ (c : LvArray.Nested n) (cs : List (LvArray.Nested n)), t = c :: cs := by
      have h := hwf 0 (List.length t) (by simp [LvArray.Nested.sizes])
      cases ht : t with
      | nil => rw [ht] at h; simp at h
      | cons c cs => exact ⟨c, cs, rfl⟩
    obtain ⟨c, cs, rfl⟩ := ht
    have hwfc : ∀ x ∈ c :: cs, ∀ (level s : Nat), s ∈ LvArray.Nested.sizes n x level → 1 ≤ s := by
      intro x hx level s hm
      apply hwf (level + 1) s
      simp only [LvArray.Nested.sizes, List.mem_flatMap]
      exact ⟨x, hx, hm⟩
    have hitem : ∀ (x : LvArray.Nested n) (rest : List Char)
        (st : LvArray.stringToArray.DimState),
        (∀ (level s : Nat), s ∈ LvArray.Nested.sizes n x level → 1 ≤ s) →
        st.dimLevel = ((L + 1 : Nat) : Int) - 1 →
        (∀ k : Nat, k < n → st.currentDims (L + 1 + k) = 1) →
        LvArray.stringToArray.Reads NDIM size (LvArray.Nested.text n x) rest st
          (LvArray.stringToArray.Counted (L + 1) n (LvArray.Nested.sizes n x) st) :=
      fun x rest st hw h1 h2 => ih x (L + 1) (by omega) hw rest st h1 h2
    rw [LvArray.Nested.text_cons]
    obtain ⟨st1, r1, a1, a2, a3, a4, a5⟩ := LvArray.stringToArray.runs_open_at NDIM size
      ((LvArray.Nested.text n c ++ cs.flatMap (fun x => [','] ++ LvArray.Nested.text n x)) ++
        (['}'] ++ rest)) st
    have hl1 : st1.dimLevel = (L : Int) := by rw [a1, hlevel]; ring
    -- the first item
    have stepA : LvArray.stringToArray.Reads NDIM size (LvArray.Nested.text n c)
        (cs.flatMap (fun x => [','] ++ LvArray.Nested.text n x) ++ (['}'] ++ rest)) st1
        (LvArray.stringToArray.Counting L n 1 (LvArray.Nested.sizes n c) st) := by
      refine (hitem c _ st1 (hwfc c (List.mem_cons_self _ _)) (by rw [hl1]; push_cast; ring)
        ?_).weaken ?_
      · intro k hk
        rw [a3]
        have := hones (k + 1) (by omega)
        rw [← this]
        congr 1
        omega
      · intro st2 hc
        obtain ⟨c1, c2, c3, c4, c5, c6, c7⟩ := hc
        obtain ⟨f1, f2, f3⟩ := c7 L (by omega)
        refine ⟨c1.trans hl1, c2, c3, ?_, ?_, c4, c5, ?_, ?_⟩
        · rw [f2, a3]
          simpa using hones 0 (by omega)
        · intro hs0
          rw [f3, a4]
          exact hs0
        · intro hall
          rw [c6 (fun k hk => by
            rw [a4]
            have := hall (k + 1) (by omega)
            rw [← this]
            congr 1
            omega), a2]
        · intro k hk
          obtain ⟨g1, g2, g3⟩ := c7 k (by omega)
          rw [g1, g2, g3, a2, a3, a4]
          exact ⟨rfl, rfl, rfl⟩
    -- the items that follow, and the closing brace
    refine LvArray.stringToArray.Reads.andThen
      (LvArray.stringToArray.Reads.andThen (LvArray.stringToArray.Reads.of_runs r1 rfl)
        (fun s hs => by
          subst hs
          exact LvArray.stringToArray.Reads.andThen stepA
            (fun s2 h2 => LvArray.stringToArray.reads_items NDIM size n L (by omega) hitem st cs
              (fun x hx => hwfc x (List.mem_cons_of_mem _ hx)) 1 _ (['}'] ++ rest) s2 h2)))
      ?_
    intro sm hm
    obtain ⟨m1, m2, m3, m4, m5, m6, m7, m8, m9⟩ := hm
    refine (LvArray.stringToArray.reads_close NDIM size rest sm L m1 (by omega)).weaken ?_
    intro sf hf
    obtain ⟨q0, q1, q2, q3, q4, q5⟩ := hf
    refine ⟨by rw [q1, hlevel], by rw [q5]; decide, by rw [q5]; decide, ?_, ?_, ?_, ?_⟩
    · intro k hk
      rw [q3, q4]
      cases k with
      | zero => simp
      | succ k =>
        rw [Function.update_noteq (by omega), Function.update_noteq (by omega)]
        have := m6 k (by omega)
        have e : L + (k + 1) = L + 1 + k := by omega
        rw [e]
        exact this
    · intro level s hs
      rw [q2]
      cases level with
      | zero =>
        simp only [LvArray.Nested.sizes, List.mem_singleton] at hs
        rw [Nat.add_zero, q0, m4, hs]
        simp
        omega
      | succ level =>
        have e : L + (level + 1) = L + 1 + level := by omega
        rw [e]
        apply m7 level s
        simpa [LvArray.Nested.sizes] using hs
    · intro hall
      rw [q2]
      exact m8 hall
    · intro k hk
      obtain ⟨k1, k2, k3⟩ := m9 k hk
      rw [q2, q3, q4, Function.update_noteq (by omega), Function.update_noteq (by omega)]
      exact ⟨k1, k2, k3⟩

theorem LvArray.Nested.text_ne_nil : ∀ (n : Nat) (t : LvArray.Nested n),
    LvArray.Nested.text n t ≠ [] := by
  intro n
  cases n with
  | zero => intro t; exact std.num_put_ne_nil _
  | succ n => intro t; simp [LvArray.Nested.text]

/-- The loop that counts the dimensions reports an error on the text of a
nested list of depth `NDIM`, without an empty list, in which two lists at the
same level have different sizes. -/
theorem LvArray.stringToArray.dimsLoop_ragged (NDIM : Nat) (t : LvArray.Nested NDIM)
    (hwf : ∀ (level s : Nat), s ∈ LvArray.Nested.sizes NDIM t level → 1 ≤ s)
    (level s1 s2 : Nat) (h1 : s1 ∈ LvArray.Nested.sizes NDIM t level)
    (h2 : s2 ∈ LvArray.Nested.sizes NDIM t level) (hne : s1 ≠ s2) :
    LvArray.stringToArray.dimsLoop NDIM (LvArray.Nested.text NDIM t).length
        (LvArray.Nested.text NDIM t) 0
        { dimLevel := -1, dims := fun _ => 1, currentDims := fun _ => 1,
          dimSet := fun _ => false, lastChar := Char.ofNat 0 } =
      Except.error LvArray.Fault.error := by
  have h := LvArray.stringToArray.reads_nested NDIM (LvArray.Nested.text NDIM t).length NDIM t 0
    (by omega) hwf []
    { dimLevel := -1, dims := fun _ => 1, currentDims := fun _ => 1,
      dimSet := fun _ => false, lastChar := Char.ofNat 0 } rfl (fun _ _ => rfl) 0 (by simp)
  rw [List.append_nil] at h
  rcases h with e | ⟨c, st, _, hP, _⟩
  · exact e
  · exfalso
    obtain ⟨_, _, _, _, p5, _, _⟩ := hP
    have e1 := p5 level s1 h1
    have e2 := p5 level s2 h2
    rw [e1] at e2
    exact hne (by exact_mod_cast e2)

/-- Claim C40. `stringToArray` aborts on every text that, its spaces removed,
is the text of a nested list of depth `NDIM` without an empty list in which two
lists at the same nesting level hold different numbers of items, whichever of
the two comes first. -/
theorem stringToArray_ragged (boundsCheck : Bool) (a : LvArray.Array) (text : List Char)
    (t : LvArray.Nested a.NDIM)
    (hwf : ∀ (level s : Nat), s ∈ LvArray.Nested.sizes a.NDIM t level → 1 ≤ s)
    (level s1 s2 : Nat) (h1 : s1 ∈ LvArray.Nested.sizes a.NDIM t level)
    (h2 : s2 ∈ LvArray.Nested.sizes a.NDIM t level) (hne : s1 ≠ s2)
    (h : text.filter (fun c => c != ' ') = LvArray.Nested.text a.NDIM t) :
    LvArray.stringToArray boundsCheck a text = Except.error LvArray.Fault.error := by
  have key := LvArray.stringToArray.dimsLoop_ragged a.NDIM t hwf level s1 s2 h1 h2 hne
  rw [← h] at key
  have hne2 : text.filter (fun c => c != ' ') ≠ ['{', '}'] := by
    rw [h]
    obtain ⟨NDIM, PERM, dims, strides, data⟩ := a
    simp only [] at t hwf h1 h2 ⊢
    cases NDIM with
    | zero => simp [LvArray.Nested.sizes] at h1
    | succ n =>
      have hl := hwf 0 (List.length t) (by simp [LvArray.Nested.sizes])
      cases ht : t with
      | nil => rw [ht] at hl; simp at hl
      | cons c cs =>
        have hc := LvArray.Nested.text_ne_nil n c
        intro e
        rw [LvArray.Nested.text_cons] at e
        have := congrArg List.length e
        simp at this
        have : (LvArray.Nested.text n c).length = 0 := by omega
        exact hc (List.length_eq_zero.mp this)
  rw [LvArray.stringToArray]
  split_ifs
  all_goals first | rfl | skip
  split
  · rfl
  · split_ifs
    · rfl
    · rw [key]

/-- Witness of claim C40: the texts `{{1,2},{3}}` and `{ {1}, {2,3} }`, in which
the shorter list comes second and first, read into an array of rank 2. -/
theorem stringToArray_ragged_witness :
    LvArray.stringToArray true ⟨2, [0, 1], fun _ => 0, fun _ => 0, fun _ => none⟩
        ("\x7b\x7b1,2\x7d,\x7b3\x7d\x7d").toList = Except.error LvArray.Fault.error ∧
      LvArray.stringToArray true ⟨2, [0, 1], fun _ => 0, fun _ => 0, fun _ => none⟩
        ("\x7b \x7b1\x7d, \x7b2,3\x7d \x7d").toList = Except.error LvArray.Fault.error :=
  ⟨stringToArray_ragged true ⟨2, [0, 1], fun _ => 0, fun _ => 0, fun _ => none⟩
      ("\x7b\x7b1,2\x7d,\x7b3\x7d\x7d").toList ([[1, 2], [3]] : List (List Int))
      (by
        intro level s hs
        match level with
        | 0 => simp [LvArray.Nested.sizes] at hs; omega
        | 1 => simp [LvArray.Nested.sizes] at hs; omega
        | k + 2 => simp [LvArray.Nested.sizes] at hs)
      1 2 1 (by decide) (by decide) (by decide) (by decide),
    stringToArray_ragged true ⟨2, [0, 1], fun _ => 0, fun _ => 0, fun _ => none⟩
      ("\x7b \x7b1\x7d, \x7b2,3\x7d \x7d").toList ([[1], [2, 3]] : List (List Int))
      (by
        intro level s hs
        match level with
        | 0 => simp [LvArray.Nested.sizes] at hs; omega
        | 1 => simp [LvArray.Nested.sizes] at hs; omega
        | k + 2 => simp [LvArray.Nested.sizes] at hs)
      1 1 2 (by decide) (by decide) (by decide) (by decide)⟩

/-! ### Indices of a type of their own -/

theorem LvArray.convertSigned_of_representable (bits : Nat) (x : Int) (hb : 1 ≤ bits)
    (h : LvArray.representable bits x = true) : LvArray.convertSigned bits x = x := by
  unfold LvArray.representable at h
  simp only [Bool.and_eq_true, decide_eq_true_eq] at h
  unfold LvArray.convertSigned
  have hp : (2 : Int) ^ bits = 2 * 2 ^ (bits - 1) := by
    obtain ⟨n, rfl⟩ : ∃ n, bits = n + 1 := ⟨bits - 1, by omega⟩
    rw [Nat.add_sub_cancel, pow_succ]
    ring
  rw [Int.emod_eq_of_lt (by omega) (by omega)]
  ring

/-- With indices of the type `INDEX_TYPE`, and as long as nothing overflows,
`getLinearIndex` with the widths of the types returns the value of
`LvArray.getLinearIndex`. -/
theorem LvArray.Typed.getLinearIndex_same_type (bits : Nat) (hb : 1 ≤ bits) :
    ∀ (indices : List Int) (USD : Int) (strides : Nat → Int) (index : Int) (r : Int),
      LvArray.representable bits index = true →
      (∀ i ∈ indices, LvArray.representable bits i = true) →
      LvArray.Typed.getLinearIndex bits bits USD strides index indices = some r →
      r = LvArray.getLinearIndex USD strides index indices := by
  have hmul : ∀ (B : Bool) (a b t : Int), LvArray.representable bits a = true →
      LvArray.Typed.ConditionalMultiply.multiply B bits bits a b = some t →
      t = LvArray.ConditionalMultiply.multiply B a b ∧ LvArray.representable bits t = true := by
    intro B a b t ha h
    unfold LvArray.Typed.ConditionalMultiply.multiply at h
    unfold LvArray.ConditionalMultiply.multiply
    cases B with
    | true =>
      simp only [if_true] at h ⊢
      have := Option.some.inj h
      subst this
      exact ⟨rfl, ha⟩
    | false =>
      simp only [Bool.false_eq_true, if_false, max_self] at h ⊢
      split_ifs at h with hr
      have := Option.some.inj h
      rw [LvArray.convertSigned_of_representable bits _ hb hr] at this
      subst this
      exact ⟨rfl, hr⟩
  intro indices
  induction indices with
  | nil =>
    intro USD strides index r hi _ h
    rw [LvArray.Typed.getLinearIndex] at h
    rw [LvArray.getLinearIndex]
    cases hm : LvArray.Typed.ConditionalMultiply.multiply (USD == 0) bits bits index (strides 0) with
    | none => rw [hm] at h; simp at h
    | some t =>
      rw [hm] at h
      obtain ⟨e, ht⟩ := hmul _ _ _ _ hi hm
      simp only [Option.map_some', Option.some.injEq] at h
      rw [LvArray.convertSigned_of_representable bits _ hb ht] at h
      rw [← h, e]
  | cons i rest ih =>
    intro USD strides index r hi hrest h
    rw [LvArray.Typed.getLinearIndex] at h
    rw [LvArray.getLinearIndex]
    cases hm : LvArray.Typed.ConditionalMultiply.multiply (USD == 0) bits bits index (strides 0) with
    | none => rw [hm] at h; simp at h
    | some t =>
      cases ho : LvArray.Typed.getLinearIndex bits bits (USD - 1) (LvArray.ptrNext strides) i rest with
      | none => rw [hm, ho] at h; simp at h
      | some others =>
        rw [hm, ho] at h
        simp only [max_self] at h
        split_ifs at h with hr
        have e1 := (hmul _ _ _ _ hi hm).1
        have e2 := ih (USD - 1) (LvArray.ptrNext strides) i others
          (hrest i (List.mem_cons_self _ _))
          (fun j hj => hrest j (List.mem_cons_of_mem _ hj)) ho
        have := Option.some.inj h
        rw [LvArray.convertSigned_of_representable bits _ hb hr] at this
        rw [← this, e1, e2]

/-- Claim C2, at the 32-bit `int` indices `( 1, 2 )` with a 64-bit
`INDEX_TYPE`. With `USD = 1` and the strides `( 4294967296, 1 )` the claimed
value is `1 * 4294967296 + 2 = 4294967298`, and with `USD = -1` and the strides
`( 4294967296, 3 )` it is the dot product `4294967302`; both are representable
in `INDEX_TYPE`. `multiply` returns the product `1 * 4294967296` as an `int`,
which is 0, so `getLinearIndex` returns 2 and 6. With the same indices passed
as `INDEX_TYPE` it returns the claimed values. -/
theorem getLinearIndex_narrow_index :
    LvArray.representable 32 1 = true ∧ LvArray.representable 32 2 = true ∧
    LvArray.indexAt 1 [2] 1 + LvArray.dotProductExcept 1 (fun k => [4294967296, 1].getD k 0) 1 [2] =
      4294967298 ∧
    LvArray.representable 64 4294967298 = true ∧
    LvArray.Typed.getLinearIndex 64 32 1 (fun k => [4294967296, 1].getD k 0) 1 [2] = some 2 ∧
    LvArray.Typed.getLinearIndex 64 64 1 (fun k => [4294967296, 1].getD k 0) 1 [2] =
      some 4294967298 ∧
    LvArray.dotProduct (fun k => [4294967296, 3].getD k 0) 1 [2] = 4294967302 ∧
    LvArray.representable 64 4294967302 = true ∧
    LvArray.Typed.getLinearIndex 64 32 (-1) (fun k => [4294967296, 3].getD k 0) 1 [2] = some 6 ∧
    LvArray.Typed.getLinearIndex 64 64 (-1) (fun k => [4294967296, 3].getD k 0) 1 [2] =
      some 4294967302 := by
  decide

/-- Claim C36, at the array of dimensions 3 x 2147483648 and the identity
permutation, whose strides are `( 2147483648, 1 )`, with a 64-bit `INDEX_TYPE`
and indices passed as 32-bit `int`. The multi-indices `( 0, 0 )` and `( 2, 0 )`
are in range and distinct, and `linearIndex` returns 0 for both: `multiply`
returns the product `2 * 2147483648` as an `int`. With the indices passed as
`INDEX_TYPE` the second linear index is 4294967296. -/
theorem linearIndex_narrow_index_collides :
    LvArray.isValidPermutation [0, 1] = true ∧
    [LvArray.calculateStrides [0, 1] (fun k => [3, 2147483648].getD k 0) 0,
      LvArray.calculateStrides [0, 1] (fun k => [3, 2147483648].getD k 0) 1] =
      [2147483648, 1] ∧
    LvArray.inRange [3, 2147483648] [0, 0] = true ∧
    LvArray.inRange [3, 2147483648] [2, 0] = true ∧
    LvArray.representable 32 2 = true ∧ LvArray.representable 32 0 = true ∧
    LvArray.Typed.ArraySlice.linearIndex 64 32 true (LvArray.Array.toSlice
        ⟨2, [0, 1], fun k => [3, 2147483648].getD k 0,
          LvArray.calculateStrides [0, 1] (fun k => [3, 2147483648].getD k 0), fun _ => none⟩)
        0 [0] = some 0 ∧
    LvArray.Typed.ArraySlice.linearIndex 64 32 true (LvArray.Array.toSlice
        ⟨2, [0, 1], fun k => [3, 2147483648].getD k 0,
          LvArray.calculateStrides [0, 1] (fun k => [3, 2147483648].getD k 0), fun _ => none⟩)
        2 [0] = some 0 ∧
    LvArray.Typed.ArraySlice.linearIndex 64 64 true (LvArray.Array.toSlice
        ⟨2, [0, 1], fun k => [3, 2147483648].getD k 0,
          LvArray.calculateStrides [0, 1] (fun k => [3, 2147483648].getD k 0), fun _ => none⟩)
        2 [0] = some 4294967296 := by
  decide

/-- A text that is `{}` once its spaces are removed is read as `clear()`. -/
theorem LvArray.stringToArray_braces (boundsCheck : Bool) (a : LvArray.Array) (text : List Char)
    (h : text.filter (fun c => c != ' ') = ['{', '}']) :
    LvArray.stringToArray boundsCheck a text = Except.ok a.clear := by
  have hsp : LvArray.stringToArray.spaceDelimited text false false = false := by
    apply LvArray.stringToArray.spaceDelimited_no_value
    intro c hc
    by_cases e : c = ' '
    · exact Or.inr (Or.inr (Or.inr e))
    · have hm : c ∈ text.filter (fun c => c != ' ') :=
        List.mem_filter.mpr ⟨hc, by simpa using e⟩
      rw [h] at hm
      simp at hm
      rcases hm with e | e
      · exact Or.inl e
      · exact Or.inr (Or.inr (Or.inl e))
  rw [LvArray.stringToArray, hsp, h]
  simp

/-- The text `operator<<` writes for an array that `clear()` has emptied. -/
theorem LvArray.Array.streamInsert_clear (boundsCheck : Bool) (a : LvArray.Array)
    (hN : 1 ≤ a.NDIM) : a.clear.streamInsert boundsCheck = some ['{', ' ', ' ', '}'] := by
  obtain ⟨n, hn⟩ : ∃ n, a.NDIM = n + 1 := ⟨a.NDIM - 1, by omega⟩
  have h0 : a.clear.toSlice.m_dims 0 = 0 := by
    simp [LvArray.Array.clear, LvArray.Array.resize, LvArray.Array.toSlice]
  have hN' : a.clear.NDIM = n + 1 := by
    simpa [LvArray.Array.clear, LvArray.Array.resize] using hn
  rw [LvArray.Array.streamInsert, hN', LvArray.ArraySlice.streamInsert, h0]
  simp [LvArray.ArraySlice.streamLoop]

/-- Claim C28 (as amended). For a well formed brace text whose values are
written in decimal digits, as `operator<<` writes them, with any spaces around
the braces, the commas and the values, that is for `{}` and for a rectangular
nest of sizes `D`, all at least 1: `stringToArray` returns, and `operator<<`
then writes the same braces, commas and values with its own spacing, `"{ "`,
`", "` and `" }"`; the written text is the text that was read once the spaces
of both are removed. -/
theorem restringify_spec (boundsCheck : Bool) (a : LvArray.Array) (hN1 : 1 ≤ a.NDIM)
    (hperm : LvArray.isValidPermutation a.PERMUTATION = true)
    (hplen : a.PERMUTATION.length = a.NDIM) :
    (∀ (D : List Nat) (v : List Int → Int) (text : List Char),
      a.NDIM = D.length → (∀ d ∈ D, 1 ≤ d) →
      (∀ indices, LvArray.inRange D indices = true →
        -2147483648 ≤ v indices ∧ v indices ≤ 2147483647) →
      LvArray.Spaced (LvArray.tokens D v) text →
      ∃ (a' : LvArray.Array) (written : List Char),
        LvArray.stringToArray boundsCheck a text = Except.ok a' ∧
        a'.streamInsert boundsCheck = some written ∧
        written = LvArray.arrayText D v ∧
        written.filter (fun c => c != ' ') = text.filter (fun c => c != ' ')) ∧
    (∀ text : List Char, text.filter (fun c => c != ' ') = ['{', '}'] →
      ∃ (a' : LvArray.Array) (written : List Char),
        LvArray.stringToArray boundsCheck a text = Except.ok a' ∧
        a'.streamInsert boundsCheck = some written ∧
        written = ['{', ' ', ' ', '}'] ∧
        written.filter (fun c => c != ' ') = text.filter (fun c => c != ' ')) := by
  constructor
  · intro D v text hN hD hv htext
    obtain ⟨hsp, hf⟩ := LvArray.Spaced.tokens_facts D v text htext
    obtain ⟨a', h, hn, _, hd, _, hval⟩ := LvArray.stringToArray_compactText boundsCheck a D v
      text hN (by omega) hperm hplen hD hv hsp hf
    refine ⟨a', _, h,
      LvArray.Array.streamInsert_arrayText boundsCheck a' D v (hn.trans hN) (by omega) hd hval,
      rfl, ?_⟩
    rw [hf]
    exact (LvArray.Spaced.tokens_facts D v _ (LvArray.spaced_arrayText D v)).2
  · intro text h
    refine ⟨a.clear, _, LvArray.stringToArray_braces boundsCheck a text h,
      LvArray.Array.streamInsert_clear boundsCheck a hN1, rfl, ?_⟩
    rw [h]
    decide

/-- Counterexample to claim C28 as worded: `{{0,1,2},{10,11,12}}` is read into
an array of dimensions `( 2, 3 )` with `arr[ 1 ][ 2 ] == 12`, and `operator<<`
then writes `{ { 0, 1, 2 }, { 10, 11, 12 } }`, which is another text. The text
`{-5,+7,007,-0}`, whose values are not written as `operator<<` writes them, is
accepted too, and comes back as `{ -5, 7, 7, 0 }`, which differs from it in
more than its spaces. -/
theorem restringify_differs :
    (match LvArray.stringToArray true ⟨2, [0, 1], fun _ => 0, fun _ => 0, fun _ => none⟩
        ("\x7b\x7b0,1,2\x7d,\x7b10,11,12\x7d\x7d").toList with
      | Except.ok arr =>
        some ([arr.m_dims 0, arr.m_dims 1], arr.value true [1, 2], arr.streamInsert true)
      | Except.error _ => none) =
      some ([2, 3], some 12,
        some ("\x7b \x7b 0, 1, 2 \x7d, \x7b 10, 11, 12 \x7d \x7d").toList) ∧
    ("\x7b \x7b 0, 1, 2 \x7d, \x7b 10, 11, 12 \x7d \x7d").toList ≠
      ("\x7b\x7b0,1,2\x7d,\x7b10,11,12\x7d\x7d").toList ∧
    (match LvArray.stringToArray true ⟨1, [0], fun _ => 0, fun _ => 0, fun _ => none⟩
        ("\x7b-5,+7,007,-0\x7d").toList with
      | Except.ok arr => arr.streamInsert true
      | Except.error _ => none) = some ("\x7b -5, 7, 7, 0 \x7d").toList ∧
    ("\x7b -5, 7, 7, 0 \x7d").toList.filter (fun c => c != ' ') ≠
      ("\x7b-5,+7,007,-0\x7d").toList := by
  decide

/-- Witness of claim C28 (as amended): the text `{{0,1,2},{10,11,12}}`, without
any space, is written back as `{ { 0, 1, 2 }, { 10, 11, 12 } }`, and the text
`{ }` as `{  }`. -/
theorem restringify_spec_witness :
    (∃ (a' : LvArray.Array) (written : List Char),
      LvArray.stringToArray true ⟨2, [0, 1], fun _ => 0, fun _ => 0, fun _ => none⟩
          ("\x7b\x7b0,1,2\x7d,\x7b10,11,12\x7d\x7d").toList = Except.ok a' ∧
        a'.streamInsert true = some written ∧
        written = ("\x7b \x7b 0, 1, 2 \x7d, \x7b 10, 11, 12 \x7d \x7d").toList ∧
        written.filter (fun c => c != ' ') =
          ("\x7b\x7b0,1,2\x7d,\x7b10,11,12\x7d\x7d").toList) ∧
    (∃ (a' : LvArray.Array) (written : List Char),
      LvArray.stringToArray true ⟨2, [0, 1], fun _ => 0, fun _ => 0, fun _ => none⟩
          ("\x7b \x7d").toList = Except.ok a' ∧
        a'.streamInsert true = some written ∧
        written = ("\x7b  \x7d").toList ∧
        written.filter (fun c => c != ' ') = ("\x7b\x7d").toList) := by
  have h := restringify_spec true ⟨2, [0, 1], fun _ => 0, fun _ => 0, fun _ => none⟩
    (by decide) (by decide) rfl
  obtain ⟨a', written, hr, hw, he, hf⟩ := h.1 [2, 3]
    (fun indices => 10 * indices.getD 0 0 + indices.getD 1 0)
    (LvArray.withSpaces
      (LvArray.tokens [2, 3] (fun indices => 10 * indices.getD 0 0 + indices.getD 1 0)) [])
    rfl (by decide)
    (by
      intro indices hin
      rcases indices with _ | ⟨i, _ | ⟨j, _ | ⟨l, rest⟩⟩⟩ <;>
        simp [LvArray.inRange] at hin
      simp only [List.getD_cons_zero, List.getD_cons_succ]
      omega)
    (LvArray.spaced_withSpaces _ _)
  have ht : LvArray.withSpaces
      (LvArray.tokens [2, 3] (fun indices => 10 * indices.getD 0 0 + indices.getD 1 0)) [] =
      ("\x7b\x7b0,1,2\x7d,\x7b10,11,12\x7d\x7d").toList := by decide
  rw [ht] at hr hf
  obtain ⟨b', written', hr', hw', he', hf'⟩ := h.2 ("\x7b \x7d").toList (by decide)
  exact ⟨⟨a', written, hr, hw, he.trans (by decide), hf.trans (by decide)⟩,
    ⟨b', written', hr', hw', he'.trans (by decide), hf'.trans (by decide)⟩⟩
